import Mathlib

/-! nbautils: the labeled automaton `Aut<T>` of `src/aut.hh` and its clients

A shallow embedding of the automaton container of `src/aut.hh`, of the graph utilities of
`src/graph.hh`, of the partition refiner of `src/common/part_refinement.hh`, of the trie map
of `src/triebimap.hh` and of the single-pass `determinize` of `src/det.hh`, together with
the properties of their operations.

* `std::map<K,V>` is embedded as `SMap K V`: a list of key/value pairs whose keys are
  strictly increasing, so that iteration order, `cbegin` and lookups agree with the
  C++ container.
* `state_t` and `sym_t` are natural numbers, `pri_t` is an integer (`-1` = unassigned);
  a bitset is a natural number read bitwise.
* An operation that can hit an `assert` or throw (`std::map::at`) returns `Option`;
  `none` stands for the aborted call.
* A loop without a bound in the source (the work list of `bfs`) takes a number of rounds
  as fuel; `none` is also the result when the fuel runs out.
* A pointer or iterator into a container that never moves its nodes is embedded as the
  position it denotes (a path in the trie, a creation number in the list of sets).

The file has two parts: the definitions (ordered maps, helpers, the automaton and its
operations, the other components, the predicates used in the statements) and then the
theorems.
-/

/-! # Part 1: definitions -/

namespace Nbautils

/-! ## Ordered maps (`std::map`) -/

/-- Keys of an association list are strictly increasing. -/
def KeysSorted {K V : Type} [LinearOrder K] (l : List (K × V)) : Prop :=
  List.Pairwise (fun a b => a.1 < b.1) l

/-- Lookup of a key in an association list (`find`). -/
def lookupRaw {K V : Type} [LinearOrder K] (k : K) : List (K × V) → Option V
  | [] => none
  | (k', v) :: t => if k = k' then some v else lookupRaw k t

/-- Insert-or-assign of a binding at its sorted position (`m[k] = v`). -/
def insRaw {K V : Type} [LinearOrder K] (k : K) (v : V) : List (K × V) → List (K × V)
  | [] => [(k, v)]
  | (k', v') :: t =>
    if k < k' then (k, v) :: (k', v') :: t
    else if k = k' then (k, v) :: t
    else (k', v') :: insRaw k v t

/-- Removal of the binding of a key (`erase`). -/
def eraseRaw {K V : Type} [LinearOrder K] (k : K) (l : List (K × V)) : List (K × V) :=
  l.filter (fun e => decide (e.1 ≠ k))

/-- Apply a function to every value, keys untouched (in-place update of the mapped values). -/
def mapValsRaw {K V W : Type} (f : V → W) (l : List (K × V)) : List (K × W) :=
  l.map (fun e => (e.1, f e.2))

theorem mem_insRaw {K V : Type} [LinearOrder K] (k : K) (v : V) (l : List (K × V))
    (e : K × V) (h : e ∈ insRaw k v l) : e = (k, v) ∨ e ∈ l := by
  induction l with
  | nil => simp [insRaw] at h; exact Or.inl h
  | cons hd t ih =>
    obtain ⟨k', v'⟩ := hd
    unfold insRaw at h
    split_ifs at h with h1 h2
    · simp only [List.mem_cons] at h ⊢; tauto
    · simp only [List.mem_cons] at h ⊢; tauto
    · simp only [List.mem_cons] at h ⊢
      rcases h with h | h
      · tauto
      · rcases ih h with h | h <;> tauto

theorem keysSorted_insRaw {K V : Type} [LinearOrder K] (k : K) (v : V) (l : List (K × V))
    (hl : KeysSorted l) : KeysSorted (insRaw k v l) := by
  induction l with
  | nil => simp [insRaw, KeysSorted]
  | cons hd t ih =>
    obtain ⟨k', v'⟩ := hd
    unfold KeysSorted at hl ih ⊢
    rw [List.pairwise_cons] at hl
    unfold insRaw
    split_ifs with h1 h2
    · rw [List.pairwise_cons]
      refine ⟨?_, List.pairwise_cons.2 hl⟩
      intro e he
      rcases List.mem_cons.1 he with he | he
      · subst he; exact h1
      · exact lt_trans h1 (hl.1 e he)
    · subst h2
      exact List.pairwise_cons.2 ⟨hl.1, hl.2⟩
    · rw [List.pairwise_cons]
      refine ⟨?_, ih hl.2⟩
      intro e he
      rcases mem_insRaw k v t e he with he | he
      · subst he
        exact lt_of_le_of_ne (not_lt.1 h1) (fun h => h2 h.symm)
      · exact hl.1 e he

theorem keysSorted_eraseRaw {K V : Type} [LinearOrder K] (k : K) (l : List (K × V))
    (hl : KeysSorted l) : KeysSorted (eraseRaw k l) :=
  List.Pairwise.sublist (List.filter_sublist l) hl

theorem keysSorted_mapValsRaw {K V W : Type} [LinearOrder K] (f : V → W) (l : List (K × V))
    (hl : KeysSorted l) : KeysSorted (mapValsRaw f l) := by
  unfold KeysSorted mapValsRaw
  rw [List.pairwise_map]
  exact hl

/-- The ordered map `std::map<K,V>`: bindings in strictly increasing key order. -/
structure SMap (K V : Type) [LinearOrder K] where
  /-- The bindings, in iteration order. -/
  toList : List (K × V)
  /-- Keys are strictly increasing. -/
  sorted : KeysSorted toList

namespace SMap

variable {K V W : Type} [LinearOrder K]

/-- The empty map. -/
def empty : SMap K V := ⟨[], List.Pairwise.nil⟩

/-- Find a key (`find` / `at`): `none` when the key is absent. -/
def lookup (m : SMap K V) (k : K) : Option V := lookupRaw k m.toList

/-- Membership test `map_has_key`. -/
def contains (m : SMap K V) (k : K) : Bool := (m.lookup k).isSome

/-- Assignment `m[k] = v`. -/
def ins (m : SMap K V) (k : K) (v : V) : SMap K V :=
  ⟨insRaw k v m.toList, keysSorted_insRaw k v m.toList m.sorted⟩

/-- Removal `m.erase(m.find(k))`. -/
def erase (m : SMap K V) (k : K) : SMap K V :=
  ⟨eraseRaw k m.toList, keysSorted_eraseRaw k m.toList m.sorted⟩

/-- Update every mapped value in place. -/
def mapVals (f : V → W) (m : SMap K V) : SMap K W :=
  ⟨mapValsRaw f m.toList, keysSorted_mapValsRaw f m.toList m.sorted⟩

/-- The keys in increasing order (`ranges::view::keys`). -/
def keys (m : SMap K V) : List K := m.toList.map Prod.fst

/-- Number of bindings (`size`). -/
def size (m : SMap K V) : Nat := m.toList.length

/-- The smallest key (`cbegin(m)->first`), if any. -/
def firstKey (m : SMap K V) : Option K := m.keys.head?

/-- Read access `m[k]` on a counter map: an absent key reads as the default `0`. -/
def getD0 (m : SMap K Int) (k : K) : Int := (m.lookup k).getD 0

/-- Sum of a measure over all mapped values. -/
def sum (f : V → Nat) (m : SMap K V) : Nat := (m.toList.map (fun e => f e.2)).sum

end SMap

instance {K V : Type} [LinearOrder K] [DecidableEq V] : DecidableEq (SMap K V) :=
  fun a b => decidable_of_iff (a.toList = b.toList) (by cases a; cases b; simp)

/-! ## Helpers of `common/util.hh`, `common/parity.hh` and `common/bimap.hh` -/

/-- Modelled from the spec: `is_set_vec` of `common/util.hh` (not among the sources) tests
that a vector is a set in sorted representation: strictly increasing, hence duplicate-free. -/
def is_set_vec : List Nat → Bool
  | [] => true
  | [_] => true
  | a :: b :: t => decide (a < b) && is_set_vec (b :: t)

/-- The range `[it, end)` for `it = std::lower_bound(begin, end, x)`: on a sorted vector the
suffix starting at the first element that is not less than `x`. -/
def lower_bound : List Nat → Nat → List Nat
  | [], _ => []
  | y :: t, x => if y < x then lower_bound t x else y :: t

/-- Modelled from the spec: `sorted_contains` of `common/util.hh` (not among the sources) is the
binary-search membership test on a sorted vector: the lower bound of `x` exists and is `x`. -/
def sorted_contains (v : List Nat) (x : Nat) : Bool :=
  match lower_bound v x with
  | [] => false
  | y :: _ => decide (y = x)

/-- Modelled from the spec: `set_intersect` of `common/util.hh` (not among the sources) is the
intersection of two sorted vectors, in sorted order: the elements of the first that occur
in the second. -/
def set_intersect (a b : List Nat) : List Nat :=
  a.filter (fun x => decide (x ∈ b))

/-- Modelled from the spec: `set_intersect_empty` of `common/util.hh` (not among the sources)
tests that two sorted vectors have no common element. -/
def set_intersect_empty (a b : List Nat) : Bool :=
  (set_intersect a b).isEmpty

/-- Modelled from the spec: the parity condition type `PAType` of `common/parity.hh`
(not among the sources), one of the four combinations of min/max and even/odd. -/
inductive PAType where
  | MIN_EVEN
  | MIN_ODD
  | MAX_EVEN
  | MAX_ODD
  deriving DecidableEq, Repr

/-- Modelled from the spec: `pa_acc_is_even` of `common/parity.hh` (not among the sources),
the spec's `is_even(type)`. -/
def pa_acc_is_even : PAType → Bool
  | PAType.MIN_EVEN => true
  | PAType.MAX_EVEN => true
  | _ => false

/-- Modelled from the spec: the bidirectional tag map `naive_unordered_bimap<T, state_t>` of
`common/bimap.hh` (not among the sources): the current label/id bindings. -/
structure Bimap (T : Type) where
  /-- The bindings (label, state id). -/
  pairs : List (T × Nat)
  deriving DecidableEq

namespace Bimap

variable {T : Type}

/-- Modelled from the spec: membership test by id (`hasi`). -/
def hasi (b : Bimap T) (s : Nat) : Bool := b.pairs.any (fun e => decide (e.2 = s))

/-- Modelled from the spec: inverse lookup by id (`geti`). -/
def geti (b : Bimap T) (s : Nat) : Option T := (b.pairs.find? (fun e => decide (e.2 = s))).map Prod.fst

/-- Modelled from the spec: erasure by id (`erasei`). -/
def erasei (b : Bimap T) (s : Nat) : Bimap T := ⟨b.pairs.filter (fun e => decide (e.2 ≠ s))⟩

/-- Modelled from the spec: `put(label, id)` binds the label to the id; a label and an id
are bound at most once, so earlier bindings of either are dropped. -/
def put [DecidableEq T] (b : Bimap T) (k : T) (v : Nat) : Bimap T :=
  ⟨(k, v) :: b.pairs.filter (fun e => decide (e.1 ≠ k) && decide (e.2 ≠ v))⟩

end Bimap

/-! ## The automaton `Aut<T>` -/

/-- The data members of `Aut<T>` (the printer `tag_to_str` and the constant `emptysucc`,
which is never written, are left out). -/
structure Aut (T : Type) where
  /-- State ids are `0..n-1`. -/
  normalized : Bool
  /-- State-based acceptance (priorities on states). -/
  sba : Bool
  /-- Name in the header. -/
  name : String
  /-- Atomic proposition names. -/
  aps : List String
  /-- Parity condition type. -/
  patype : PAType
  /-- Initial state. -/
  init : Nat
  /-- All used priorities with their count. -/
  prio_cnt : SMap Int Int
  /-- State priorities (state-based mode). -/
  state_pri : SMap Nat Int
  /-- Adjacency: source, symbol, target, edge priority. -/
  adj : SMap Nat (SMap Nat (SMap Nat Int))
  /-- Node tags. -/
  tag : Bimap T
  deriving DecidableEq

/-- The counter update `prio_cnt[p]++` (an absent key is created with count 0 first). -/
def cnt_incr (m : SMap Int Int) (p : Int) : SMap Int Int := m.ins p (m.getD0 p + 1)

/-- The counter update `prio_cnt[p]--` followed by
`if (prio_cnt.at(p) == 0) prio_cnt.erase(prio_cnt.find(p))`. -/
def cnt_decr (m : SMap Int Int) (p : Int) : SMap Int Int :=
  let m1 := m.ins p (m.getD0 p - 1)
  if m1.getD0 p = 0 then m1.erase p else m1

/-- Read access `m[k]` on the local renumbering map of `get_normalized`: the value and the
map after the call (an absent key is inserted with the default value 0). -/
def map_index (m : SMap Nat Nat) (k : Nat) : Nat × SMap Nat Nat :=
  match m.lookup k with
  | some v => (v, m)
  | none => (0, m.ins k 0)

namespace Aut

variable {T : Type}

/-- The method `is_sba`. -/
def is_sba (a : Aut T) : Bool := a.sba

/-- The method `num_syms`: `1 << aps.size()`. The shift is computed in the 32-bit `int` of
the literal `1` and the result is widened to the 64-bit `size_t` of the return type: `2^k`
for `k < 31` atomic propositions; for `k = 31` the `int` is `INT_MIN`, which widens with its
sign to `2^64 - 2^31`. A shift by 32 or more is undefined in C++; the model takes the count
modulo 32, as the shift instruction does. -/
def num_syms (a : Aut T) : Nat :=
  if a.aps.length % 32 = 31 then 2 ^ 64 - 2 ^ 31 else 2 ^ (a.aps.length % 32)

/-- The method `syms`: `ints(0, (int)num_syms())`, the symbols `0 .. num_syms()-1`. The cast
is the identity below 31 atomic propositions; from 31 on the bound leaves the `int` range,
where the range library (not among the sources) is called outside its contract, and the
model keeps the range `0 .. num_syms()-1`. -/
def syms (a : Aut T) : List Nat := List.range a.num_syms

/-- The method `get_init`. -/
def get_init (a : Aut T) : Nat := a.init

/-- The method `num_states`. -/
def num_states (a : Aut T) : Nat := a.adj.size

/-- The method `states`: all state ids in increasing order. -/
def states (a : Aut T) : List Nat := a.adj.keys

/-- The method `has_state`. -/
def has_state (a : Aut T) (s : Nat) : Bool := a.adj.contains s

/-- The members before the constructor body runs (`init` is not yet initialised there; the
body assigns it before any read). -/
def blank (statebased : Bool) (title : String) (ap : List String) : Aut T :=
  { normalized := true, sba := statebased, name := title, aps := ap,
    patype := PAType.MIN_EVEN, init := 0, prio_cnt := SMap.empty, state_pri := SMap.empty,
    adj := SMap.empty, tag := ⟨[]⟩ }

/-- The method `set_init`; fails when the state does not exist. -/
def set_init (a : Aut T) (initial : Nat) : Option (Aut T) :=
  if a.has_state initial then some { a with init := initial } else none

/-- The method `add_state`; fails when the id is in use. -/
def add_state (a : Aut T) (s : Nat) : Option (Aut T) :=
  if a.has_state s then none
  else some { a with
    normalized := if s ≠ a.num_states then false else a.normalized,
    adj := a.adj.ins s SMap.empty }

/-- The constructor `Aut(statebased, title, ap, initial)`: `add_state(initial)` then
`set_init(initial)` on the blank members. -/
def new (statebased : Bool) (title : String) (ap : List String) (initial : Nat) : Aut T :=
  { (blank statebased title ap : Aut T) with
    normalized := if initial ≠ 0 then false else true,
    adj := SMap.empty.ins initial SMap.empty,
    init := initial }

/-- The method `has_pri` (the caller guarantees that the state exists). -/
def has_pri (a : Aut T) (s : Nat) : Bool := a.state_pri.contains s

/-- The method `get_pri`; fails on a transition-based automaton or a state without priority. -/
def get_pri (a : Aut T) (s : Nat) : Option Int :=
  if a.is_sba then a.state_pri.lookup s else none

/-- First part of `set_pri`: the counter map after the count of the old priority of `s`,
if any, has been removed. -/
def released_cnt (a : Aut T) (s : Nat) : SMap Int Int :=
  match a.state_pri.lookup s with
  | some old => if a.prio_cnt.contains old then cnt_decr a.prio_cnt old else a.prio_cnt
  | none => a.prio_cnt

/-- The method `set_pri`; fails on a transition-based automaton or a missing state. -/
def set_pri (a : Aut T) (s : Nat) (p : Int) : Option (Aut T) :=
  if !a.is_sba then none
  else if !a.has_state s then none
  else if p ≥ 0 then
    some { a with state_pri := a.state_pri.ins s p, prio_cnt := cnt_incr (a.released_cnt s) p }
  else
    some { a with
      state_pri := if a.has_pri s then a.state_pri.erase s else a.state_pri,
      prio_cnt := a.released_cnt s }

/-- The symbol map `adj.at(p)` of a state (empty for a missing state; callers check). -/
def out_map (a : Aut T) (p : Nat) : SMap Nat (SMap Nat Int) :=
  (a.adj.lookup p).getD SMap.empty

/-- The method `state_outsyms`: the symbols that are keys of `adj.at(p)`. -/
def state_outsyms (a : Aut T) (p : Nat) : List Nat := (a.out_map p).keys

/-- The method `succ_edges`: the `x`-successors of `p` with their edge priorities, the empty
map when `x` is no key of `adj.at(p)`. -/
def succ_edges (a : Aut T) (p x : Nat) : SMap Nat Int :=
  ((a.out_map p).lookup x).getD SMap.empty

/-- The method `succ(p, x)`: the `x`-successors of `p`. -/
def succ (a : Aut T) (p x : Nat) : List Nat := (a.succ_edges p x).keys

/-- The priority stored for the edge `(p, x, q)`, `none` when there is no such edge
(`adj.at(p).at(x).at(q)`, which throws in that case). -/
def edge_pri (a : Aut T) (p x q : Nat) : Option Int :=
  match a.adj.lookup p with
  | none => none
  | some sm =>
    match sm.lookup x with
    | none => none
    | some tm => tm.lookup q

/-- The method `has_edge`. -/
def has_edge (a : Aut T) (p x q : Nat) : Bool := (a.succ_edges p x).contains q

/-- The assignment `adj.at(p)[x][q] = pri` (the symbol level is created on demand). -/
def put_edge (a : Aut T) (p x q : Nat) (pri : Int) : SMap Nat (SMap Nat (SMap Nat Int)) :=
  a.adj.ins p ((a.out_map p).ins x ((a.succ_edges p x).ins q pri))

/-- The method `add_edge`; fails on a missing endpoint, a symbol out of range, a priority
on an edge of a state-based automaton, or an edge that exists already. -/
def add_edge (a : Aut T) (p x q : Nat) (pri : Int) : Option (Aut T) :=
  if !a.has_state p then none
  else if !(decide (x < a.num_syms)) then none
  else if !a.has_state q then none
  else if !(decide (pri < 0) || !a.sba) then none
  else if a.has_edge p x q then none
  else some { a with
    adj := a.put_edge p x q pri,
    prio_cnt := if pri ≥ 0 then cnt_incr a.prio_cnt pri else a.prio_cnt }

/-- The method `mod_edge`; fails (throws) when the edge does not exist. -/
def mod_edge (a : Aut T) (p x q : Nat) (pri : Int) : Option (Aut T) :=
  match a.edge_pri p x q with
  | none => none
  | some oldpri =>
    let pc1 := if oldpri ≥ 0 then cnt_decr a.prio_cnt oldpri else a.prio_cnt
    some { a with
      adj := a.put_edge p x q pri,
      prio_cnt := if pri ≥ 0 then cnt_incr pc1 pri else pc1 }

/-- The method `remove_edge`; fails (throws) when the edge does not exist. -/
def remove_edge (a : Aut T) (p x q : Nat) : Option (Aut T) :=
  match a.edge_pri p x q with
  | none => none
  | some epri =>
    some { a with
      adj := a.adj.ins p ((a.out_map p).ins x ((a.succ_edges p x).erase q)),
      prio_cnt := if epri ≥ 0 then cnt_decr a.prio_cnt epri else a.prio_cnt }

/-- Number of edges that carry the priority `p`. -/
def edge_count (a : Aut T) (p : Int) : Nat :=
  a.adj.sum (fun sm => sm.sum (fun tm => tm.sum (fun pri => if pri = p then 1 else 0)))

/-- Number of states that carry the priority `p`. -/
def state_count (a : Aut T) (p : Int) : Nat :=
  a.state_pri.sum (fun pri => if pri = p then 1 else 0)

/-- Number of assigned priority slots of the active mode that carry `p`: states of a
state-based automaton, edges of a transition-based one. -/
def slot_count (a : Aut T) (p : Int) : Nat :=
  if a.sba then a.state_count p else a.edge_count p

/-- The priority multiset is coherent: `prio_cnt[p]` is the number of slots carrying `p` for
every priority `p ≥ 0`, and no key of `prio_cnt` has count 0. -/
def Coherent (a : Aut T) : Prop :=
  (∀ p : Int, 0 ≤ p → a.prio_cnt.getD0 p = (a.slot_count p : Int)) ∧
  (∀ (k v : Int), a.prio_cnt.lookup k = some v → v ≠ 0)

/-- The method `is_complete`. -/
def is_complete (a : Aut T) : Bool :=
  a.states.all (fun p => a.syms.all (fun i => !(a.succ p i).isEmpty))

/-- Body of the inner loop of `make_complete`: route a missing edge to the sink. -/
def complete_sym (rejsink : Nat) (rejpri : Int) (st : Nat) (acc : Aut T) (i : Nat) :
    Option (Aut T) :=
  if (acc.succ st i).isEmpty then
    acc.add_edge st i rejsink (if acc.sba then -1 else rejpri)
  else some acc

/-- Body of the outer loop of `make_complete`. -/
def complete_state (rejsink : Nat) (rejpri : Int) (acc : Aut T) (st : Nat) : Option (Aut T) :=
  acc.syms.foldlM (complete_sym rejsink rejpri st) acc

/-- The method `make_complete`. -/
def make_complete (a : Aut T) : Option (Aut T) :=
  if a.is_complete || decide (a.num_syms = 0) then some a
  else
    let rejsink := a.num_states
    let rejpri : Int := if pa_acc_is_even a.patype then 1 else 0
    (a.add_state rejsink).bind fun a1 =>
    (if a1.sba then a1.set_pri rejsink rejpri else some a1).bind fun a2 =>
    a2.states.foldlM (complete_state rejsink rejpri) a2

/-- First loop of `remove_states`: kill the priority of a state. -/
def kill_pri (acc : Aut T) (it : Nat) : Option (Aut T) :=
  if acc.sba && acc.has_pri it then acc.set_pri it (-1) else some acc

/-- Second loop of `remove_states`: kill the tag of a state. -/
def kill_tag (t : Bimap T) (it : Nat) : Bimap T :=
  if t.hasi it then t.erasei it else t

/-- Third and fourth loop of `remove_states`: erase a key from a map if it is present. -/
def kill_key {V : Type} (m : SMap Nat V) (it : Nat) : SMap Nat V :=
  if m.contains it then m.erase it else m

/-- Fourth loop of `remove_states`: remove the states from every successor map. -/
def kill_targets (tokill : List Nat) (m : SMap Nat (SMap Nat (SMap Nat Int))) :
    SMap Nat (SMap Nat (SMap Nat Int)) :=
  m.mapVals (fun sm => sm.mapVals (fun tm => tokill.foldl kill_key tm))

/-- The method `remove_states`; fails when `tokill` is not a sorted set of existing states.
When every state is removed, `cbegin(adj)` is the end iterator and reading through it is
undefined; the embedding then leaves `init` as it was. -/
def remove_states (a : Aut T) (tokill : List Nat) : Option (Aut T) :=
  if !is_set_vec tokill then none
  else if !(tokill.all fun s => a.has_state s) then none
  else
    let killinit := sorted_contains tokill a.get_init
    (tokill.foldlM kill_pri a).bind fun a1 =>
    let adj4 := kill_targets tokill (tokill.foldl kill_key a1.adj)
    some { a1 with
      tag := tokill.foldl kill_tag a1.tag,
      adj := adj4,
      init := if killinit then adj4.firstKey.getD a1.init else a1.init,
      normalized := false }

/-- Guarded `add_state` (`if (!has_state(s)) add_state(s)`). -/
def ensure_state (a : Aut T) (s : Nat) : Option (Aut T) :=
  if !a.has_state s then a.add_state s else some a

/-- Copy the tag of state `st` of `src`, if it has one, to state `mst` of `r`
(`if (src.tag.hasi(st)) r.tag.put(src.tag.geti(st), mst)`). -/
def copy_tag [DecidableEq T] (src : Aut T) (st : Nat) (r : Aut T) (mst : Nat) : Aut T :=
  match src.tag.geti st with
  | some t => { r with tag := r.tag.put t mst }
  | none => r

/-- Innermost loop body of `insert`: copy one edge of `other`. -/
def insert_edge (st sym : Nat) (acc : Aut T) (es : Nat × Int) : Option (Aut T) :=
  (acc.ensure_state es.1).bind fun c1 => c1.add_edge st sym es.1 es.2

/-- Loop body of `insert` over the symbols of `other`. -/
def insert_sym (other : Aut T) (st : Nat) (acc : Aut T) (sym : Nat) : Option (Aut T) :=
  (other.succ_edges st sym).toList.foldlM (insert_edge st sym) acc

/-- Loop body of `insert` over the states of `other`. -/
def insert_state [DecidableEq T] (other : Aut T) (acc : Aut T) (st : Nat) : Option (Aut T) :=
  (acc.ensure_state st).bind fun b1 =>
  (if b1.sba && other.sba && other.has_pri st then
    (other.get_pri st).bind fun p => b1.set_pri st p
   else some b1).bind fun b2 =>
  other.syms.foldlM (insert_sym other st) (copy_tag other st b2 st)

/-- The method `insert`. Reading `cbegin(other.adj)` of an automaton without states is
undefined; the embedding then counts the ids as not contiguous. -/
def insert [DecidableEq T] (a other : Aut T) : Option (Aut T) :=
  if !(decide (a.aps = other.aps)) then none
  else if !set_intersect_empty a.states other.states then none
  else
    let a0 : Aut T :=
      if !a.normalized || !other.normalized
          || decide (other.adj.firstKey ≠ some a.num_states) then
        { a with normalized := false }
      else a
    other.states.foldlM (insert_state other) a0

/-- Inner loop body of `merge_states`: redirect the `sym`-edges of `st` that enter `others`. -/
def merge_sym (others : List Nat) (rep st : Nat) (acc : Aut T) (sym : Nat) : Option (Aut T) :=
  match set_intersect (acc.succ st sym) others with
  | [] => some acc
  | front :: _ =>
    ((acc.succ_edges st sym).lookup front).bind fun epri => acc.add_edge st sym rep epri

/-- Outer loop body of `merge_states`. -/
def merge_state (others : List Nat) (rep : Nat) (acc : Aut T) (st : Nat) : Option (Aut T) :=
  (acc.state_outsyms st).foldlM (merge_sym others rep st) acc

/-- The method `merge_states`. -/
def merge_states (a : Aut T) (others : List Nat) (rep : Nat) : Option (Aut T) :=
  if others.isEmpty then some a
  else if !a.has_state rep then none
  else if !(others.all fun q => a.has_state q) then none
  else if !is_set_vec others then none
  else if sorted_contains others a.get_init then none
  else if sorted_contains others rep then none
  else (a.states.foldlM (merge_state others rep) a).bind fun a1 => a1.remove_states others

/-- The representative and the states to merge into it that one round of `quotient` picks
for a class of size at least 2, with the new value of the flag `seenini`. -/
def quotient_choice (initial : Nat) (seenini : Bool) (ecl : List Nat) : List Nat × Nat × Bool :=
  let rep := ecl.getLast?.getD 0
  if !seenini then
    match lower_bound ecl initial with
    | [] => (ecl.dropLast, rep, false)
    | y :: rest =>
      if y = initial then (ecl.eraseIdx (ecl.length - (y :: rest).length), initial, true)
      else (ecl.dropLast, rep, false)
  else (ecl.dropLast, rep, true)

/-- One round of the loop of `quotient`: the automaton and the flag `seenini`. -/
def quotient_step (initial : Nat) (st : Aut T × Bool) (ecl : List Nat) : Option (Aut T × Bool) :=
  if ecl.length < 2 then some st
  else
    let choice := quotient_choice initial st.2 ecl
    (st.1.merge_states choice.1 choice.2.1).map fun a1 => (a1, choice.2.2)

/-- The method `quotient`. -/
def quotient (a : Aut T) (equiv : List (List Nat)) : Option (Aut T) :=
  (equiv.foldlM (quotient_step a.get_init) (a, false)).map Prod.fst

/-- One round of the first loop of `get_normalized`: the map, the next fresh id and the
flag `needs_renumbering`. -/
def renumber_step (acc : SMap Nat Nat × Nat × Bool) (st : Nat) : SMap Nat Nat × Nat × Bool :=
  (acc.1.ins st acc.2.1, acc.2.1 + 1, acc.2.2 || decide (acc.2.1 ≠ st))

/-- The first loop of `get_normalized`. -/
def renumbering (a : Aut T) (offset : Nat) : SMap Nat Nat × Nat × Bool :=
  a.states.foldl renumber_step (SMap.empty, offset, false)

/-- Innermost loop body of `get_normalized`: copy one edge, renumbered. -/
def norm_edge (mst sym : Nat) (acc : Aut T × SMap Nat Nat) (es : Nat × Int) :
    Option (Aut T × SMap Nat Nat) :=
  let mq := map_index acc.2 es.1
  (acc.1.ensure_state mq.1).bind fun c1 =>
  (c1.add_edge mst sym mq.1 es.2).map fun c2 => (c2, mq.2)

/-- Loop body of `get_normalized` over the outgoing symbols of a state. -/
def norm_sym (a : Aut T) (st mst : Nat) (acc : Aut T × SMap Nat Nat) (sym : Nat) :
    Option (Aut T × SMap Nat Nat) :=
  (a.succ_edges st sym).toList.foldlM (norm_edge mst sym) acc

/-- Loop body of `get_normalized` over the states. -/
def norm_state [DecidableEq T] (a : Aut T) (acc : Aut T × SMap Nat Nat) (st : Nat) :
    Option (Aut T × SMap Nat Nat) :=
  let ms := map_index acc.2 st
  (acc.1.ensure_state ms.1).bind fun r1 =>
  (if a.sba && a.has_pri st then
    (a.get_pri st).bind fun p => (copy_tag a st r1 ms.1).set_pri ms.1 p
   else some (copy_tag a st r1 ms.1)).bind fun r3 =>
  (a.state_outsyms st).foldlM (norm_sym a st ms.1) (r3, ms.2)

/-- The automaton `ret` of `get_normalized` before its loop: constructed with the mode, name
and alphabet of `a` and the renumbered initial state, then given the parity type of `a`. -/
def norm_start (a : Aut T) (minit : Nat) : Aut T :=
  { (new a.sba a.name a.aps minit : Aut T) with patype := a.patype }

/-- The method `get_normalized`. The local map `m` is threaded through the loops because
`m[k]` creates a missing key; once `m[st]` or `m[es.first]` has been read the key is present,
so the repeated reads of the same key within one round are taken from the first read. -/
def get_normalized [DecidableEq T] (a : Aut T) (offset : Nat) :
    Option (Aut T × SMap Nat Nat) :=
  if !(a.renumbering offset).2.2 then
    some (a, a.states.foldl (fun r s => r.ins s s) SMap.empty)
  else
    let mi := map_index (a.renumbering offset).1 a.init
    a.states.foldlM (norm_state a) (a.norm_start mi.1, mi.2)

/-- The method `normalize`. -/
def normalize [DecidableEq T] (a : Aut T) (offset : Nat) : Option (Aut T × SMap Nat Nat) :=
  (a.get_normalized offset).map fun r => ({ r.1 with normalized := true }, r.2)

/-- What `set_pri` leaves alone. -/
def SameGraph (a b : Aut T) : Prop :=
  b.adj = a.adj ∧ b.sba = a.sba ∧ b.init = a.init ∧ b.aps = a.aps ∧ b.patype = a.patype ∧
  b.tag = a.tag

end Aut

/-- The measure of an optional value, 0 when absent. -/
def optVal {V : Type} (f : V → Nat) : Option V → Nat
  | some v => f v
  | none => 0

/-- Indicator of a priority. -/
def priInd (p : Int) (pri : Int) : Nat := if pri = p then 1 else 0

/-- No key of the counter map has count 0. -/
def NoZero (m : SMap Int Int) : Prop := ∀ (k v : Int), m.lookup k = some v → v ≠ 0

namespace Aut

variable {T : Type}

/-- Automata built from a fresh one by the primitive operations: `add_state`, `add_edge`,
`remove_edge` in both modes, `mod_edge` on a transition-based automaton and `set_pri`
(which itself requires a state-based automaton). -/
inductive PrimReach : Aut T → Prop where
  | fresh (statebased : Bool) (title : String) (ap : List String) (initial : Nat) :
      PrimReach (Aut.new statebased title ap initial)
  | add_state (a b : Aut T) (s : Nat) :
      PrimReach a → a.add_state s = some b → PrimReach b
  | add_edge (a b : Aut T) (p x q : Nat) (pri : Int) :
      PrimReach a → a.add_edge p x q pri = some b → PrimReach b
  | mod_edge (a b : Aut T) (p x q : Nat) (pri : Int) :
      PrimReach a → a.sba = false → a.mod_edge p x q pri = some b → PrimReach b
  | remove_edge (a b : Aut T) (p x q : Nat) :
      PrimReach a → a.remove_edge p x q = some b → PrimReach b
  | set_pri (a b : Aut T) (s : Nat) (p : Int) :
      PrimReach a → a.set_pri s p = some b → PrimReach b

/-- The invariant behind coherence: `prio_cnt` counts edge and state priorities together,
has no zero count, and only the slots of the active mode carry priorities. -/
def CountInv (a : Aut T) : Prop :=
  (∀ pr : Int, 0 ≤ pr →
    a.prio_cnt.getD0 pr = (a.edge_count pr : Int) + (a.state_count pr : Int)) ∧
  NoZero a.prio_cnt ∧
  (∀ s v, a.state_pri.lookup s = some v → (0 : Int) ≤ v) ∧
  (a.sba = false → ∀ pr : Int, a.state_count pr = 0) ∧
  (a.sba = true → ∀ pr : Int, 0 ≤ pr → a.edge_count pr = 0)

/-- The automaton `b` extends `a`: same initial state, mode, alphabet and parity type, and
every state of `a` is a state of `b`. -/
def Ext (a b : Aut T) : Prop :=
  b.init = a.init ∧ b.sba = a.sba ∧ b.aps = a.aps ∧ b.patype = a.patype ∧
  ∀ t, a.has_state t = true → b.has_state t = true

/-- Every target state of every edge exists. -/
def Closed (a : Aut T) : Prop :=
  ∀ p x q pri, a.edge_pri p x q = some pri → a.has_state q = true

/-- The initial state exists. -/
def InitOk (a : Aut T) : Prop := a.has_state a.get_init = true

/-- The relation that the loops of `get_normalized` maintain on the automaton under
construction. -/
def NormRel (s s1 : Aut T × SMap Nat Nat) : Prop :=
  Ext s.1 s1.1 ∧ (Closed s.1 → Closed s1.1)

/-- The automaton `r` is `r0` with the states `S` and the edges `E` added. -/
def Adds (r0 r : Aut T) (S : Nat → Prop) (E : Nat → Nat → Nat → Int → Prop) : Prop :=
  r.sba = r0.sba ∧ r.aps = r0.aps ∧ r.patype = r0.patype ∧ r.init = r0.init ∧
  r.state_pri = r0.state_pri ∧
  (∀ t, r.has_state t = true ↔ (r0.has_state t = true ∨ S t)) ∧
  (∀ p x q pri, r.edge_pri p x q = some pri ↔ (r0.edge_pri p x q = some pri ∨ E p x q pri))

/-- The data-model invariants of an automaton: the initial state exists, edge targets
exist, edge symbols are in the alphabet, a state-based automaton has no edge priority, and
a stored state priority is not the sentinel. -/
def WellFormed (a : Aut T) : Prop :=
  InitOk a ∧ Closed a ∧
  (∀ p x q pri, a.edge_pri p x q = some pri → x < a.num_syms) ∧
  (a.sba = true → ∀ p x q pri, a.edge_pri p x q = some pri → pri < 0) ∧
  (∀ s v, a.state_pri.lookup s = some v → (0 : Int) ≤ v)

/-- State of the outer loop of `get_normalized` after the states `pre` have been copied
(`mf` is the renumbering). -/
def NormInv (a : Aut T) (mf : Nat → Nat) (pre : List Nat) (r : Aut T) : Prop :=
  r.sba = a.sba ∧ r.aps = a.aps ∧ r.patype = a.patype ∧ r.init = mf a.init ∧
  (∀ t, r.has_state t = true ↔
    (t = mf a.init ∨ ∃ s ∈ pre, t = mf s ∨
      ∃ x q pri, a.edge_pri s x q = some pri ∧ t = mf q)) ∧
  (∀ p x q1 pri, r.edge_pri p x q1 = some pri ↔
    ∃ s ∈ pre, p = mf s ∧ ∃ q, a.edge_pri s x q = some pri ∧ q1 = mf q) ∧
  (∀ t pri, r.state_pri.lookup t = some pri ↔
    (a.sba = true ∧ ∃ s ∈ pre, a.state_pri.lookup s = some pri ∧ t = mf s))

/-- Postcondition of `get_normalized(offset)` and `normalize(offset)`: `a1` is `a`
renumbered by `m` onto the ids `offset .. offset + n - 1` in increasing order. -/
def NormPost (a : Aut T) (offset : Nat) (a1 : Aut T) (m : SMap Nat Nat) : Prop :=
  (∀ t, a1.has_state t = true ↔ (offset ≤ t ∧ t < offset + a.num_states)) ∧
  (∀ i s, a.states[i]? = some s → m.lookup s = some (offset + i)) ∧
  (∀ s, a.has_state s = false → m.lookup s = none) ∧
  (∀ p q p1 q1 x pri, m.lookup p = some p1 → m.lookup q = some q1 →
    (a.edge_pri p x q = some pri ↔ a1.edge_pri p1 x q1 = some pri)) ∧
  m.lookup a.get_init = some a1.get_init ∧
  a1.is_sba = a.is_sba ∧
  (a.is_sba = true → ∀ s s1, m.lookup s = some s1 → a1.get_pri s1 = a.get_pri s) ∧
  a1.patype = a.patype

/-- Automata built from a fresh one by successful calls of the mutating operations.
`removable a S` is the side condition under which `remove_states(S)` may be called on `a`
(beyond the checks that the operation makes itself). -/
inductive ApiReach [DecidableEq T] (removable : Aut T → List Nat → Prop) : Aut T → Prop where
  | fresh (statebased : Bool) (title : String) (ap : List String) (initial : Nat) :
      ApiReach removable (Aut.new statebased title ap initial)
  | add_state (a b : Aut T) (s : Nat) :
      ApiReach removable a → a.add_state s = some b → ApiReach removable b
  | set_init (a b : Aut T) (s : Nat) :
      ApiReach removable a → a.set_init s = some b → ApiReach removable b
  | add_edge (a b : Aut T) (p x q : Nat) (pri : Int) :
      ApiReach removable a → a.add_edge p x q pri = some b → ApiReach removable b
  | mod_edge (a b : Aut T) (p x q : Nat) (pri : Int) :
      ApiReach removable a → a.mod_edge p x q pri = some b → ApiReach removable b
  | remove_edge (a b : Aut T) (p x q : Nat) :
      ApiReach removable a → a.remove_edge p x q = some b → ApiReach removable b
  | remove_states (a b : Aut T) (S : List Nat) :
      ApiReach removable a → removable a S → a.remove_states S = some b →
      ApiReach removable b
  | merge_states (a b : Aut T) (others : List Nat) (rep : Nat) :
      ApiReach removable a → a.merge_states others rep = some b → ApiReach removable b
  | quotient (a b : Aut T) (equiv : List (List Nat)) :
      ApiReach removable a → a.quotient equiv = some b → ApiReach removable b
  | normalize (a b : Aut T) (offset : Nat) (m : SMap Nat Nat) :
      ApiReach removable a → a.normalize offset = some (b, m) → ApiReach removable b
  | insert (a other b : Aut T) :
      ApiReach removable a → a.insert other = some b → ApiReach removable b
  | make_complete (a b : Aut T) :
      ApiReach removable a → a.make_complete = some b → ApiReach removable b

/-- The `x`-successors of `st` after `merge_states` has handled `(st, x)`: if some
successor is in `others`, an edge to `rep` with the priority of the first such successor
is added. -/
def merged_succ (a : Aut T) (others : List Nat) (rep st x : Nat) : SMap Nat Int :=
  match set_intersect (a.succ st x) others with
  | [] => a.succ_edges st x
  | front :: _ =>
    match (a.succ_edges st x).lookup front with
    | some epri => (a.succ_edges st x).ins rep epri
    | none => a.succ_edges st x

/-- What the loop of `merge_states` leaves alone. -/
def SameFrame (a b : Aut T) : Prop :=
  (∀ t, b.has_state t = a.has_state t) ∧ b.sba = a.sba ∧ b.aps = a.aps ∧ b.init = a.init

end Aut

/-- The representative that `quotient` keeps for a class: the initial state if the class
contains it, otherwise the last (largest) member. -/
def class_rep (initial : Nat) (c : List Nat) : Nat :=
  if initial ∈ c then initial else c.getLast?.getD 0

namespace Aut

variable {T : Type}

/-- Executable test that no state has, under one symbol, both an edge to `rep` and an
edge into `others`. -/
def no_conflict (a : Aut T) (others : List Nat) (rep : Nat) : Bool :=
  a.states.all fun p => (a.state_outsyms p).all fun x =>
    (set_intersect (a.succ p x) others).isEmpty || !a.has_edge p x rep

/-- Apply a sequence of operations, skipping one that fails. -/
def build (a : Aut Unit) (ops : List (Aut Unit → Option (Aut Unit))) : Aut Unit :=
  ops.foldl (fun acc f => (f acc).getD acc) a

/-- Transition-based sample: states 0 and 1, one edge `0 -0-> 1` with priority 2. -/
def sample_edge : Aut Unit :=
  build (Aut.new false "" [] 0) [fun a => a.add_state 1, fun a => a.add_edge 0 0 1 2]

/-- Transition-based sample over one atomic proposition with four states. -/
def sample_tba : Aut Unit :=
  build (Aut.new false "" ["a"] 0)
    [fun a => a.add_state 1, fun a => a.add_state 2, fun a => a.add_state 3,
     fun a => a.add_edge 0 0 2 4, fun a => a.add_edge 0 0 3 6, fun a => a.add_edge 0 1 1 7,
     fun a => a.add_edge 2 1 3 1, fun a => a.add_edge 3 1 0 2]

/-- State-based sample: one state with a self-loop. -/
def sample_sba : Aut Unit :=
  build (Aut.new true "" [] 0) [fun a => a.add_edge 0 0 0 (-1)]

/-- Transition-based sample with the sparse state ids 3 and 7. -/
def sample_sparse : Aut Unit :=
  build (Aut.new false "" ["a"] 3)
    [fun a => a.add_state 7, fun a => a.add_edge 3 1 7 2, fun a => a.add_edge 7 0 3 (-1)]

/-- Transition-based sample in which state 3 has a 0-edge to state 1 and a 0-edge to
state 2, and state 0 has a 0-edge to state 2 only. -/
def sample_conflict : Aut Unit :=
  build (Aut.new false "" [] 0)
    [fun a => a.add_state 1, fun a => a.add_state 2, fun a => a.add_state 3,
     fun a => a.add_edge 0 0 2 4, fun a => a.add_edge 3 0 1 5, fun a => a.add_edge 3 0 2 6]

/-- Innermost loop body of `to_tba`: `es.second = pri; prio_cnt[pri]++` on one edge of the
state `p` under the symbol `x`. -/
def to_tba_edge (p x : Nat) (pri : Int) (acc : Aut T) (es : Nat × Int) : Aut T :=
  { acc with adj := acc.put_edge p x es.1 pri, prio_cnt := cnt_incr acc.prio_cnt pri }

/-- Loop body of `to_tba` over the outgoing symbols of `p`. -/
def to_tba_sym (p : Nat) (pri : Int) (acc : Aut T) (x : Nat) : Aut T :=
  (acc.succ_edges p x).toList.foldl (to_tba_edge p x pri) acc

/-- Loop body of `to_tba` over the states: read the state priority (or `-1`), remove it,
and put it on every outgoing edge. -/
def to_tba_state (acc : Aut T) (p : Nat) : Option (Aut T) :=
  (if acc.has_pri p then acc.get_pri p else some (-1)).bind fun pri =>
  (acc.set_pri p (-1)).map fun a1 =>
  (a1.state_outsyms p).foldl (to_tba_sym p pri) a1

/-- The method `to_tba`; fails on a transition-based automaton. -/
def to_tba (a : Aut T) : Option (Aut T) :=
  if !a.is_sba then none
  else (a.states.foldlM to_tba_state a).map fun a1 => { a1 with sba := false }

/-- State-based sample: states 0 and 1, state 0 has priority 3, state 1 has none; edges
`0 -0-> 1` and `1 -0-> 1`. -/
def sample_sba2 : Aut Unit :=
  build (Aut.new true "" [] 0)
    [fun a => a.add_state 1, fun a => a.set_pri 0 3, fun a => a.add_edge 0 0 1 (-1),
     fun a => a.add_edge 1 0 1 (-1)]

/-- State of the loop of `to_tba` after the states `pre` have been handled. -/
def TbaInv (a : Aut T) (pre : List Nat) (r : Aut T) : Prop :=
  r.sba = true ∧ (∀ t, r.has_state t = a.has_state t) ∧
  (∀ s, r.state_pri.lookup s = if s ∈ pre then none else a.state_pri.lookup s) ∧
  (∀ p x q, r.edge_pri p x q =
    if p ∈ pre then (a.edge_pri p x q).map (fun _ => (a.state_pri.lookup p).getD (-1))
    else a.edge_pri p x q)

end Aut

/-- Modelled from the spec: `good_priority` of `common/parity.hh` (not among the sources),
the spec's `good(type, p)`: `p` is good iff `p` is even exactly when the type is even. -/
def good_priority (t : PAType) (p : Int) : Bool := decide (p % 2 = 0) == pa_acc_is_even t

/-- Modelled from the spec: `pa_acc_is_min` of `common/parity.hh` (not among the sources),
the spec's `is_min(type)`. -/
def pa_acc_is_min : PAType → Bool
  | PAType.MIN_EVEN => true
  | PAType.MIN_ODD => true
  | _ => false

namespace Aut

variable {T : Type}

/-- The edges that `make_complete` adds once the states `pre` are handled: from a state of
`pre` under a symbol of the alphabet without successor, to the sink, with priority `epri`. -/
def SinkEdges (a : Aut T) (sink : Nat) (epri : Int) (pre : Nat → Nat → Prop) :
    Nat → Nat → Nat → Int → Prop :=
  fun p x q pri => pre p x ∧ x < a.num_syms ∧ (∀ t, a.edge_pri p x t = none) ∧ q = sink ∧
    pri = epri

/-- The priority `make_complete` gives to the sink (`rejpri`). -/
def rej_pri (a : Aut T) : Int := if pa_acc_is_even a.patype then 1 else 0

/-- Postcondition of `make_complete` on an incomplete automaton `a` with result `b`: the
only new state is `sink = num_states()` of `a`; `b` is complete; the edges of `b` are the
edges of `a` and, for every state `p` of `b` and symbol `x` of the alphabet without
`x`-successor in `a`, one edge to the sink, which carries `-1` in state-based mode and the
rejecting priority in transition-based mode; in state-based mode the sink has the rejecting
priority and the other state priorities are unchanged; the rejecting priority is bad. -/
def SinkAdded (a b : Aut T) : Prop :=
  (∀ t, b.has_state t = true ↔ (a.has_state t = true ∨ t = a.num_states)) ∧
  b.is_complete = true ∧
  (∀ p x q pri, b.edge_pri p x q = some pri ↔
    (a.edge_pri p x q = some pri ∨
      (b.has_state p = true ∧ x < a.num_syms ∧ (∀ t, a.edge_pri p x t = none) ∧
        q = a.num_states ∧ pri = (if a.is_sba then -1 else a.rej_pri)))) ∧
  (a.is_sba = true → b.state_pri.lookup a.num_states = some a.rej_pri ∧
    ∀ s, s ≠ a.num_states → b.state_pri.lookup s = a.state_pri.lookup s) ∧
  (a.is_sba = false → b.state_pri = a.state_pri) ∧
  good_priority a.patype a.rej_pri = false ∧
  b.is_sba = a.is_sba ∧ b.get_init = a.get_init

/-- Transition-based sample with the states 0 and 2 (the id 1 is unused) and no edge. -/
def sample_gap : Aut Unit :=
  build (Aut.new false "" [] 0) [fun a => a.add_state 2]

/-- The method `is_colored`. -/
def is_colored (a : Aut T) : Bool :=
  a.states.all fun p =>
    !(a.sba && !a.has_pri p) &&
    (a.sba || (a.state_outsyms p).all fun i =>
      (a.succ_edges p i).toList.all fun it => it.2 != -1)

/-- The local `badpri` of `make_colored`: the greatest key of `prio_cnt` (0 if there is
none), plus one if that is a good priority. -/
def bad_pri (a : Aut T) : Int :=
  let badpri : Int :=
    match a.prio_cnt.keys.getLast? with
    | none => 0
    | some k => k
  if good_priority a.patype badpri then badpri + 1 else badpri

/-- Innermost loop body of `make_colored`: `if (it.second == -1) it.second = badpri`. -/
def make_colored_edge (p i : Nat) (badpri : Int) (acc : Aut T) (it : Nat × Int) : Aut T :=
  if it.2 = -1 then { acc with adj := acc.put_edge p i it.1 badpri } else acc

/-- Loop body of `make_colored` over the outgoing symbols of `p`. -/
def make_colored_sym (p : Nat) (badpri : Int) (acc : Aut T) (i : Nat) : Aut T :=
  (acc.succ_edges p i).toList.foldl (make_colored_edge p i badpri) acc

/-- Loop body of `make_colored` over the states. -/
def make_colored_state (badpri : Int) (acc : Aut T) (p : Nat) : Option (Aut T) :=
  (if acc.sba && !acc.has_pri p then acc.set_pri p badpri else some acc).map fun a1 =>
  if !a1.sba then (a1.state_outsyms p).foldl (make_colored_sym p badpri) a1 else a1

/-- The method `make_colored`; fails on a max-parity type. -/
def make_colored (a : Aut T) : Option (Aut T) :=
  if !pa_acc_is_min a.patype then none
  else a.states.foldlM (make_colored_state a.bad_pri) a

/-- The priority of a slot after `make_colored`: an unassigned slot gets `badpri`. -/
def recolor (badpri : Int) (v : Int) : Int := if v = -1 then badpri else v

/-- Transition-based sample (type MIN_EVEN): the edge `0 -0-> 0` has priority 1 and the
edge `0 -0-> 1` is unassigned. -/
def sample_uncolored : Aut Unit :=
  build (Aut.new false "" [] 0)
    [fun a => a.add_edge 0 0 0 1, fun a => a.add_state 1, fun a => a.add_edge 0 0 1 (-1)]

/-- The keys of `prio_cnt` are priorities, and every priority carried by a slot of the
active mode (a state in state-based mode, an edge in transition-based mode) is a key. -/
def Counted (a : Aut T) : Prop :=
  (∀ k, a.prio_cnt.contains k = true → (0 : Int) ≤ k) ∧
  (a.sba = true → ∀ s v, a.state_pri.lookup s = some v → a.prio_cnt.contains v = true) ∧
  (a.sba = false → ∀ p x q v, a.edge_pri p x q = some v → 0 ≤ v →
    a.prio_cnt.contains v = true)

/-- State of the loop of `make_colored` after the states `pre` have been handled. -/
def ColInv (a : Aut T) (bad : Int) (pre : List Nat) (r : Aut T) : Prop :=
  r.sba = a.sba ∧ r.get_init = a.get_init ∧ (∀ t, r.has_state t = a.has_state t) ∧
  (∀ s, r.state_pri.lookup s =
    if a.sba = true ∧ s ∈ pre ∧ a.state_pri.lookup s = none then some bad
    else a.state_pri.lookup s) ∧
  (∀ p x q, r.edge_pri p x q =
    if a.sba = false ∧ p ∈ pre then (a.edge_pri p x q).map (recolor bad)
    else a.edge_pri p x q)

end Aut

/-- Every count stored in the counter map is positive. -/
def PosCnt (m : SMap Int Int) : Prop := ∀ k v, m.lookup k = some v → 0 < v

namespace Aut

variable {T : Type}

/-- Number of states in `l` whose stored priority is `k`. -/
def pri_occ (sp : SMap Nat Int) (l : List Nat) (k : Int) : Nat :=
  l.countP (fun s => decide (sp.lookup s = some k))

/-- The tag map after `insert` has copied the tag of the state `st` of `other`. -/
def tag_copy [DecidableEq T] (other : Aut T) (t : Bimap T) (st : Nat) : Bimap T :=
  match other.tag.geti st with
  | some l => t.put l st
  | none => t

/-- State of the loop of `insert` after the states `pre` of `other` have been copied. -/
def InsInv [DecidableEq T] (a other : Aut T) (pre : List Nat) (r : Aut T) : Prop :=
  r.sba = a.sba ∧ r.aps = a.aps ∧ r.patype = a.patype ∧ r.init = a.init ∧ r.name = a.name ∧
  (∀ t, r.has_state t = true ↔ (a.has_state t = true ∨ t ∈ pre ∨
    ∃ p x pri, p ∈ pre ∧ x < other.num_syms ∧ other.edge_pri p x t = some pri)) ∧
  (∀ p x q pri, r.edge_pri p x q = some pri ↔ (a.edge_pri p x q = some pri ∨
    (p ∈ pre ∧ x < other.num_syms ∧ other.edge_pri p x q = some pri))) ∧
  (∀ s, r.state_pri.lookup s =
    if a.sba = true ∧ other.sba = true ∧ s ∈ pre ∧ other.has_pri s = true
    then other.state_pri.lookup s else a.state_pri.lookup s) ∧
  r.tag = pre.foldl (tag_copy other) a.tag ∧
  (a.sba = false → (∀ p x q pri, other.edge_pri p x q = some pri → pri < 0) →
    r.prio_cnt = a.prio_cnt) ∧
  (a.sba = true → PosCnt a.prio_cnt → (∀ s, a.has_pri s = true → a.has_state s = true) →
    PosCnt r.prio_cnt ∧ ∀ k, r.prio_cnt.getD0 k =
      a.prio_cnt.getD0 k + (if other.sba then pri_occ other.state_pri pre k else 0))

/-- Transition-based sample with the states 5 and 6 and the edge `5 -0-> 6` of priority 3. -/
def sample_other : Aut Unit :=
  build (Aut.new false "" [] 5) [fun a => a.add_state 6, fun a => a.add_edge 5 0 6 3]

end Aut

namespace Bimap

variable {T : Type}

/-- Modelled from the spec: membership test by label (`has`). -/
def has [DecidableEq T] (b : Bimap T) (k : T) : Bool := b.pairs.any (fun e => decide (e.1 = k))

end Bimap

namespace Aut

variable {T : Type}

/-- The automaton `c` agrees with `a` in every field except the flag `normalized` and the
counter map `prio_cnt`, the graph being compared by its states and edges. -/
def SameButFlag (a c : Aut T) : Prop :=
  (∀ t, c.has_state t = a.has_state t) ∧
  (∀ p x q, c.edge_pri p x q = a.edge_pri p x q) ∧
  c.state_pri = a.state_pri ∧ c.get_init = a.get_init ∧ c.tag = a.tag ∧
  c.is_sba = a.is_sba ∧ c.aps = a.aps ∧ c.patype = a.patype ∧ c.name = a.name

end Aut

/-- The entry `mat.at(x).at(p)` of an adjacency matrix, `none` when an index is out of
range. -/
def mat_at (mat : List (List Nat)) (x p : Nat) : Option Nat :=
  (mat[x]?).bind fun row => row[p]?

/-- The assignment `mat.at(x).at(p)[q] = 1`; fails when `x` or `p` is out of range (`at`
throws) or `q` is no bit position (undefined for `std::bitset`, taken as a failure). -/
def mat_mark (W : Nat) (mat : List (List Nat)) (x p q : Nat) : Option (List (List Nat)) :=
  match mat[x]? with
  | none => none
  | some row =>
    match row[p]? with
    | none => none
    | some b => if q < W then some (mat.set x (row.set p (b ||| 2 ^ q))) else none

/-- One round of the loop `for (int i : ints(0, ret.size())) if (from[i]) ret |= xmat[i]` of
`powersucc`; reading `xmat[i]` out of range is undefined and taken as a failure. -/
def powersucc_collect (xmat : List Nat) (src : Nat) (ret : Nat) (i : Nat) : Option Nat :=
  if src.testBit i then (xmat[i]?).map fun b => ret ||| b else some ret

/-- One round of the loop of `powersucc` that removes subsumed states:
`if (ret[i] && map_has_key(impl_mask, i)) ret &= impl_mask[i]`. -/
def powersucc_mask (impl_mask : SMap Nat Nat) (ret : Nat) (i : Nat) : Nat :=
  if ret.testBit i && impl_mask.contains i then ret &&& (impl_mask.lookup i).getD 0 else ret

/-- The function `powersucc` on bitsets of width `W`; reading `mat[x]` out of range is
undefined and taken as a failure. -/
def powersucc (W : Nat) (mat : List (List Nat)) (src x sinks : Nat)
    (impl_mask : SMap Nat Nat) : Option Nat :=
  match mat[x]? with
  | none => none
  | some xmat =>
    ((List.range W).foldlM (powersucc_collect xmat src) 0).map fun ret =>
      if ret &&& sinks ≠ 0 then sinks
      else if !impl_mask.keys.isEmpty then (List.range W).foldl (powersucc_mask impl_mask) ret
      else ret

/-- The bitset with exactly the bits of the list set. -/
def to_bitset (l : List Nat) : Nat := l.foldl (fun b q => b ||| 2 ^ q) 0

namespace Aut

variable {T : Type}

/-- Innermost loop of `get_adjmat`: mark the `x`-successors of `p`. -/
def adjmat_sym (W : Nat) (a : Aut T) (p : Nat) (mat : List (List Nat)) (x : Nat) :
    Option (List (List Nat)) :=
  (a.succ p x).foldlM (fun m q => mat_mark W m x p q) mat

/-- Loop body of `get_adjmat` over the states. -/
def adjmat_state (W : Nat) (a : Aut T) (mat : List (List Nat)) (p : Nat) :
    Option (List (List Nat)) :=
  (a.state_outsyms p).foldlM (adjmat_sym W a p) mat

/-- The function `get_adjmat` for bitsets of width `W`; fails when `1 + max(states)` exceeds
`W`. (`ranges::max` of an automaton without states is undefined; the embedding takes 0.) -/
def get_adjmat (W : Nat) (a : Aut T) : Option (List (List Nat)) :=
  let n := 1 + a.states.foldl max 0
  if !(decide (n ≤ W)) then none
  else a.states.foldlM (adjmat_state W a)
    (List.replicate a.num_syms (List.replicate n 0))

/-- The set-theoretic successor of the claim: the list of all `q` such that some `p` in the
set `S` (given by its bits below `W`) has an `x`-edge to `q`. -/
def set_succ (W : Nat) (a : Aut T) (S x : Nat) : List Nat :=
  ((List.range W).filter fun p => S.testBit p).flatMap fun p => a.succ p x

end Aut

/-- The matrix has an entry for every symbol below `ns` and every state below `n`, and the
bits of the entry `(x, p)` are the `q` with `P p x q`. -/
def MatInv (ns n : Nat) (P : Nat → Nat → Nat → Prop) (mat : List (List Nat)) : Prop :=
  ∀ x p, x < ns → p < n →
    ∃ b, mat_at mat x p = some b ∧ ∀ q, b.testBit q = true ↔ P p x q

/-- Modelled from the spec: the generic driver `bfs(seed, visit_fn)` of `common/util.hh`
(not among the sources). A first-in first-out work list holds the seed at the start; a
dequeued vertex that has been visited before is skipped, otherwise it is marked as visited
and `visit_fn` is called with it, so each vertex is visited at most once. The visitor is
given as a function of its captured state, the current vertex and the visited vertices;
it returns the new captured state and the vertices it hands to the pusher, in order, or
fails. `fuel` bounds the number of rounds of the loop: `none` is also the result when the
fuel runs out before the work list is empty. -/
def bfs_loop {σ ν : Type} [DecidableEq ν] (visit : σ → ν → List ν → Option (σ × List ν)) :
    Nat → List ν → List ν → σ → Option σ
  | _, [], _, s => some s
  | 0, _ :: _, _, _ => none
  | fuel + 1, st :: q, visited, s =>
    if st ∈ visited then bfs_loop visit fuel q visited s
    else
      match visit s st (st :: visited) with
      | none => none
      | some r => bfs_loop visit fuel (q ++ r.2) (st :: visited) r.1

/-- Modelled from the spec: `bfs(seed, visit_fn)` started on the seed with the initial
captured state `s`. -/
def bfs {σ ν : Type} [DecidableEq ν] (fuel : Nat) (seed : ν)
    (visit : σ → ν → List ν → Option (σ × List ν)) (s : σ) : Option σ :=
  bfs_loop visit fuel [seed] [] s

namespace Aut

variable {T : Type}

/-- The local `set<state_t> s` of the method `succ(p)` after its loops: the targets of all
edges of `p`. -/
def succ_set (a : Aut T) (p : Nat) : SMap Nat Unit :=
  (a.out_map p).toList.foldl
    (fun (s : SMap Nat Unit) it => it.2.toList.foldl (fun s2 jt => s2.ins jt.1 ()) s)
    SMap.empty

/-- The method `succ(p)`: all successors of `p`, independent of the symbol, collected in a
`std::set` and returned in increasing order; fails when `p` is no state. -/
def succ_all (a : Aut T) (p : Nat) : Option (List Nat) :=
  if !a.has_state p then none else some (a.succ_set p).keys

/-- The visitor of `reachable_states`: record the vertex and push all its successors. -/
def visit_reach (a : Aut T) (reached : SMap Nat Unit) (st : Nat) (_ : List Nat) :
    Option (SMap Nat Unit × List Nat) :=
  (a.succ_all st).map fun sucs => (reached.ins st (), sucs)

/-- The function `reachable_states` of `graph.hh`. -/
def reachable_states (fuel : Nat) (a : Aut T) (src : Nat) : Option (List Nat) :=
  (bfs fuel src (visit_reach a) SMap.empty).map fun reached => reached.keys

/-- One round of the loop in the visitor of `find_path_from_to`:
`if (!map_has_key(pred, q)) { pred[q] = st; visit(q); }`. -/
def visit_path_step (st : Nat) (acc : SMap Nat Nat × List Nat) (q : Nat) :
    SMap Nat Nat × List Nat :=
  if !acc.1.contains q then (acc.1.ins q st, acc.2 ++ [q]) else acc

/-- The visitor of `find_path_from_to`. -/
def visit_path (a : Aut T) (pred : SMap Nat Nat) (st : Nat) (_ : List Nat) :
    Option (SMap Nat Nat × List Nat) :=
  (a.succ_all st).map fun sucs => sucs.foldl (visit_path_step st) (pred, [])

/-- The loop `while (res.back() != from) res.push_back(pred.at(res.back()))` of
`find_path_from_to`; `fuel` bounds the number of rounds. -/
def path_back (pred : SMap Nat Nat) (src : Nat) : Nat → List Nat → Option (List Nat)
  | fuel, res =>
    match res.getLast? with
    | none => none
    | some b =>
      if b = src then some res
      else
        match fuel with
        | 0 => none
        | f + 1 => (pred.lookup b).bind fun p => path_back pred src f (res ++ [p])

/-- The function `find_path_from_to` of `graph.hh`; `fuel` bounds the number of rounds of
each of its two loops. -/
def find_path_from_to (fuel : Nat) (a : Aut T) (src dst : Nat) : Option (List Nat) :=
  (bfs fuel src (visit_path a) SMap.empty).bind fun pred =>
    if !pred.contains dst then some []
    else
      (pred.lookup dst).bind fun p =>
        (path_back pred src fuel [dst, p]).map List.reverse

/-- The symbol-agnostic successor relation: `p` has an edge to `q` under some symbol. -/
def step (a : Aut T) (p q : Nat) : Prop := ∃ x pri, a.edge_pri p x q = some pri

/-- State of the loop of `bfs` in `reachable_states`: the work list `Q`, the visited
vertices `V`, the set `R` and the number `k` of rounds made. -/
def ReachInv (a : Aut T) (src : Nat) (Q V : List Nat) (R : SMap Nat Unit) (k : Nat) : Prop :=
  (∀ v, R.contains v = true ↔ v ∈ V) ∧
  V.Nodup ∧
  (∀ v ∈ V, a.has_state v = true ∧ Relation.ReflTransGen a.step src v) ∧
  (∀ v ∈ Q, a.has_state v = true ∧ Relation.ReflTransGen a.step src v) ∧
  (∀ u ∈ V, ∀ w, a.step u w → w ∈ V ∨ w ∈ Q) ∧
  (src ∈ V ∨ src ∈ Q) ∧
  k + Q.length ≤ 1 + V.length * a.num_states

/-- The invariant of the breadth-first search of `find_path_from_to`, for the work list
`Q`, the visited vertices `V`, the predecessor map `P` and the number `k` of rounds made:
the discovered vertices are the source and the keys of `P`; `lev` is the distance at which
a vertex was discovered. -/
def PathInv (a : Aut T) (src : Nat) (lev : Nat → Nat) (Q V : List Nat) (P : SMap Nat Nat)
    (k : Nat) : Prop :=
  (∀ v ∈ Q, (v = src ∨ P.contains v = true) ∧ a.has_state v = true) ∧
  (∀ v, (v = src ∨ P.contains v = true) → v ∉ V → v ∈ Q) ∧
  (∀ v ∈ V, (v = src ∨ P.contains v = true)) ∧
  (∀ v u, P.lookup v = some u → u ∈ V ∧ a.step u v ∧ (v ≠ src → lev v = lev u + 1)) ∧
  lev src = 0 ∧
  (∀ u ∈ V, ∀ w, a.step u w → P.contains w = true ∧ lev w ≤ lev u + 1) ∧
  Q.Pairwise (fun w w2 => w ∉ V → w2 ∉ V → lev w ≤ lev w2) ∧
  (∀ v ∈ V, ∀ w ∈ Q, w ∉ V → lev v ≤ lev w) ∧
  (∀ w ∈ Q, ∀ w2 ∈ Q, w ∉ V → w2 ∉ V → lev w2 ≤ lev w + 1) ∧
  (∀ v, (v = src ∨ P.contains v = true) → lev v ≤ P.size) ∧
  (∀ v, (v = src ∨ P.contains v = true) → Relation.ReflTransGen a.step src v) ∧
  (∀ v, P.contains v = true → Relation.TransGen a.step src v) ∧
  (src ∈ V ∨ (V = [] ∧ Q = [src])) ∧
  k + Q.length ≤ 1 + P.size

/-- What the breadth-first search of `find_path_from_to` has established when its work list
is empty: the predecessor map `P` has exactly the vertices reachable by at least one edge as
keys, a predecessor is a discovered vertex one level closer to the source, and the level of
a vertex is at most one more than the level of any vertex with an edge to it. -/
def PathFinal (a : Aut T) (src : Nat) (lev : Nat → Nat) (P : SMap Nat Nat) : Prop :=
  (∀ v, P.contains v = true ↔ Relation.TransGen a.step src v) ∧
  (∀ v u, P.lookup v = some u →
    (u = src ∨ P.contains u = true) ∧ a.step u v ∧ (v ≠ src → lev v = lev u + 1)) ∧
  lev src = 0 ∧
  (∀ u, (u = src ∨ P.contains u = true) → ∀ w, a.step u w →
    P.contains w = true ∧ lev w ≤ lev u + 1) ∧
  (∀ v, (v = src ∨ P.contains v = true) → lev v ≤ a.num_states)

/-- Transition-based sample in which state 0 has a 0-edge to state 1 (priority 3) and a
0-edge to state 2 (priority 5). -/
def sample_tie : Aut Unit :=
  build (Aut.new false "" [] 0)
    [fun a => a.add_state 1, fun a => a.add_state 2,
     fun a => a.add_edge 0 0 1 3, fun a => a.add_edge 0 0 2 5]

/-- The `for` loop of `get_word_from_path` for the pair `(p, q)`: the first outgoing symbol
`x` of `p`, in increasing order, with `q` among the `x`-successors of `p`; `none` when there
is none (`found` stays false) or when `p` is no state (`state_outsyms` asserts it). -/
def first_sym (a : Aut T) (p q : Nat) : Option Nat :=
  if !a.has_state p then none
  else (a.state_outsyms p).find? fun x => decide (q ∈ a.succ p x)

/-- The `while` loop of `get_word_from_path` on the rest of the path, `w` being the word
built so far; fails (throws) when no symbol is found for a pair. -/
def word_loop (a : Aut T) : List Nat → List Nat → Option (List Nat)
  | p :: q :: rest, w =>
    match a.first_sym p q with
    | none => none
    | some x => word_loop a (q :: rest) (w ++ [x])
  | _, w => some w

/-- The function `get_word_from_path` of `graph.hh`; fails on a path with fewer than two
elements (`assert(p.size() >= 2)`). -/
def get_word_from_path (a : Aut T) (p : List Nat) : Option (List Nat) :=
  if p.length < 2 then none else a.word_loop p []

end Aut

/-- The class `PartitionRefiner<T>`. A position in `elements` (a `vec_it`) is an index. A
`sym_set`, the iterator to a node of `list<bounds> sets`, which stays valid while the list
grows, is the number of the node in order of creation: every creation of a node also
appends its iterator to `sym_sets`, so the next node has the number `sym_sets.size()`. -/
structure PartitionRefiner (T : Type) where
  /-- The elements, grouped by sets. -/
  elements : List T
  /-- The nodes of the list of set boundaries, in list order: the token of the node and the
  bounds `first`, `second`. -/
  sets : List (Nat × Nat × Nat)
  /-- Tokens of the sets in order of creation. -/
  sym_sets : List Nat

namespace PartitionRefiner

variable {T : Type}

/-- The elements between two positions. -/
def slice (l r : Nat) (els : List T) : List T := (els.drop l).take (r - l)

/-- Replace the elements between two positions. -/
def set_slice (l r : Nat) (seg : List T) (els : List T) : List T :=
  els.take l ++ seg ++ els.drop r

/-- One round of the second loop of the constructor: `sort(l, r)`, a new node with the bounds
`(l, r)` at the end of `sets`, its token at the end of `sym_sets`, and `l = r`. -/
def init_step [LinearOrder T] (acc : PartitionRefiner T × Nat) (s : List T) :
    PartitionRefiner T × Nat :=
  let l := acc.2
  let r := l + s.length
  ({ elements := set_slice l r ((slice l r acc.1.elements).insertionSort (fun x y => x ≤ y))
       acc.1.elements,
     sets := acc.1.sets ++ [(acc.1.sym_sets.length, l, r)],
     sym_sets := acc.1.sym_sets ++ [acc.1.sym_sets.length] }, r)

/-- The constructor `PartitionRefiner(startsets)`. -/
def ofSets [LinearOrder T] (startsets : List (List T)) : PartitionRefiner T :=
  (startsets.foldl init_step
    ({ elements := startsets.flatten, sets := [], sym_sets := [] }, 0)).1

/-- The method `num_sets`. -/
def num_sets (R : PartitionRefiner T) : Nat := R.sets.length

/-- The bounds `*ref` behind a token; `none` for a token of no node. -/
def bounds_of (R : PartitionRefiner T) (ref : Nat) : Option (Nat × Nat) :=
  (R.sets.find? fun e => decide (e.1 = ref)).map fun e => e.2

/-- The method `get_elements_of`: the elements of the set, sorted. -/
def get_elements_of [LinearOrder T] (R : PartitionRefiner T) (ref : Nat) : Option (List T) :=
  (R.bounds_of ref).map fun b => (slice b.1 b.2 R.elements).insertionSort (fun x y => x ≤ y)

/-- The list `sets` after `sets.insert(set, make_pair(set->first, mid))` and
`set->first = mid`: a new node with the token `newtok` right before the node `set`. -/
def split_node (set newtok mid : Nat) : List (Nat × Nat × Nat) → List (Nat × Nat × Nat)
  | [] => []
  | e :: t =>
    if e.1 = set then (newtok, e.2.1, mid) :: (e.1, mid, e.2.2) :: t
    else e :: split_node set newtok mid t

/-- The method `split_set`, for a set with the bounds `b`: no change and `nullptr` when
`mid` is one of the bounds, otherwise the new set `[first, mid)` and its token. -/
def split_set (R : PartitionRefiner T) (set : Nat) (b : Nat × Nat) (mid : Nat) :
    PartitionRefiner T × Option Nat :=
  if mid = b.1 ∨ mid = b.2 then (R, none)
  else
    ({ R with
       sets := split_node set R.sym_sets.length mid R.sets,
       sym_sets := R.sym_sets ++ [R.sym_sets.length] }, some R.sym_sets.length)

/-- The method `separate`: `std::partition` moves the elements of the set that satisfy
`pred` before the others (the order on each side is unspecified; here the earlier order is
kept) and returns the position of the first of the others, at which `split_set` splits.
Fails for a token of no node. -/
def separate (R : PartitionRefiner T) (set : Nat) (pred : T → Bool) :
    Option (PartitionRefiner T × Option Nat) :=
  (R.bounds_of set).map fun b =>
    let seg := slice b.1 b.2 R.elements
    let mid := b.1 + (seg.filter pred).length
    split_set
      { R with elements :=
          set_slice b.1 b.2 (seg.filter pred ++ seg.filter fun e => !pred e) R.elements }
      set b mid

/-- The tokens of the current sets. -/
def tokens (R : PartitionRefiner T) : List Nat := R.sets.map Prod.fst

/-- Consistency of a refiner: every node was created before the next token, and its bounds
are positions in `elements`, in order. -/
def Ok (R : PartitionRefiner T) : Prop :=
  ∀ e ∈ R.sets, e.1 < R.sym_sets.length ∧ e.2.1 ≤ e.2.2 ∧ e.2.2 ≤ R.elements.length

/-- A refiner over the two start sets {5, 2, 8} and {4}. -/
def sample_refiner : PartitionRefiner Nat := ofSets [[5, 2, 8], [4]]

end PartitionRefiner

/-- Assignment through a pointer into a `std::map`: the value of the existing binding of `k`
is replaced, nothing is inserted. -/
def replaceRaw {K V : Type} [LinearOrder K] (k : K) (v : V) : List (K × V) → List (K × V)
  | [] => []
  | (k', v') :: t => if k = k' then (k, v) :: t else (k', v') :: replaceRaw k v t

/-- The struct `trie_bimap_node<K, V>` for natural numbers as keys and values: `key`,
`value` (`none` for the null pointer) and `suc`. The pointer `parent` is not stored: only
`traverse` creates a node, in `suc` of the node it sets as its parent, and nodes are never
moved or removed, so the parent of a node is the node above it in the trie and the root is
the one node without parent. -/
inductive TrieNode where
  | mk (key : Nat) (value : Option Nat) (suc : List (Nat × TrieNode)) : TrieNode

namespace TrieNode

/-- The member `key`. -/
def key : TrieNode → Nat
  | mk k _ _ => k

/-- The member `value`. -/
def value : TrieNode → Option Nat
  | mk _ v _ => v

/-- The member `suc`. -/
def suc : TrieNode → List (Nat × TrieNode)
  | mk _ _ s => s

/-- The lookup `suc.find(k)`. -/
def child (n : TrieNode) (k : Nat) : Option TrieNode := lookupRaw k n.suc

/-- The node that `curr->suc[k]` creates in `traverse`, after `key = k` is set: no value,
no successors. -/
def fresh (k : Nat) : TrieNode := mk k none []

/-- The node reached from `n` along a path of keys, if it exists. A pointer to a node of the
trie is the path from the root to it. -/
def node_at (n : TrieNode) : List Nat → Option TrieNode
  | [] => some n
  | k :: rest =>
    match n.child k with
    | none => none
    | some c => node_at c rest

/-- The trie below `n` after the loop of `traverse(ks, true)` has walked the path (the keys
of `ks` from the last to the first), creating the missing nodes. -/
def ensure (n : TrieNode) : List Nat → TrieNode
  | [] => n
  | k :: rest =>
    match n.child k with
    | none => mk n.key n.value (insRaw k (ensure (fresh k) rest) n.suc)
    | some c => mk n.key n.value (replaceRaw k (ensure c rest) n.suc)

/-- The trie below `n` after the assignment `curr->value = v` through the pointer `curr`
to the node at the path. -/
def set_value (n : TrieNode) (v : Option Nat) : List Nat → TrieNode
  | [] => mk n.key v n.suc
  | k :: rest =>
    match n.child k with
    | none => n
    | some c => mk n.key n.value (replaceRaw k (set_value c v rest) n.suc)

/-- The value stored at a path: `none` when the node does not exist or has no value. -/
def val_at (n : TrieNode) (p : List Nat) : Option Nat := (n.node_at p).bind value

/-- The loop of `get(V val)`: from the node at the path (given from the node upwards) to
the root, the keys of the nodes with a parent. -/
def keys_up (root : TrieNode) : List Nat → Option (List Nat)
  | [] => some []
  | k :: up =>
    match root.node_at (k :: up).reverse with
    | none => none
    | some n => (keys_up root up).map fun ret => n.key :: ret

/-- Every node below `n` carries the key under which its parent holds it. -/
def KeyOk (n : TrieNode) : Prop :=
  ∀ (p : List Nat) (k : Nat) (c : TrieNode), n.node_at (p ++ [k]) = some c → c.key = k

end TrieNode

/-- The class `trie_bimap<K, V>` for natural numbers as keys and values. A node pointer in
`revmap` is the path from the root to the node. -/
structure TrieBimap where
  /-- The root of the trie. -/
  root : TrieNode
  /-- The map from a value to the node that holds it. -/
  revmap : SMap Nat (List Nat)

namespace TrieBimap

/-- The empty map: a root without value and successors. -/
def empty : TrieBimap := ⟨TrieNode.mk 0 none [], SMap.empty⟩

/-- The path that `traverse(ks)` walks: the keys from the last to the first. -/
def path (ks : List Nat) : List Nat := ks.reverse

/-- The method `size`. -/
def size (m : TrieBimap) : Nat := m.revmap.size

/-- The method `put`. When the node of `ks` holds a value that is no key of `revmap`,
`revmap.erase(revmap.find(...))` erases the end iterator, which is undefined: `none`. -/
def put (m : TrieBimap) (ks : List Nat) (val : Nat) : Option TrieBimap :=
  let root1 := m.root.ensure (path ks)
  match root1.val_at (path ks) with
  | some old =>
    if m.revmap.contains old then
      some ⟨root1.set_value (some val) (path ks), (m.revmap.erase old).ins val (path ks)⟩
    else none
  | none => some ⟨root1.set_value (some val) (path ks), m.revmap.ins val (path ks)⟩

/-- The method `put_or_get`: the new map and the returned value. -/
def put_or_get (m : TrieBimap) (ks : List Nat) (val : Nat) : TrieBimap × Nat :=
  let root1 := m.root.ensure (path ks)
  match root1.val_at (path ks) with
  | some old => (⟨root1, m.revmap⟩, old)
  | none => (⟨root1.set_value (some val) (path ks), m.revmap.ins val (path ks)⟩, val)

/-- The method `has(ks)`. -/
def has (m : TrieBimap) (ks : List Nat) : Bool := (m.root.val_at (path ks)).isSome

/-- The method `has(val)`. -/
def hasv (m : TrieBimap) (val : Nat) : Bool := m.revmap.contains val

/-- The method `get(ks)`; `none` when `ks` is not bound (a null pointer is dereferenced). -/
def get (m : TrieBimap) (ks : List Nat) : Option (Nat) := m.root.val_at (path ks)

/-- The method `get(val)`; `none` when `val` is not bound (a null pointer is
dereferenced). -/
def geti (m : TrieBimap) (val : Nat) : Option (List Nat) :=
  (m.revmap.lookup val).bind fun p => m.root.keys_up p.reverse

/-- Consistency of the two directions: the nodes carry the key under which they are held,
and the nodes with a value are exactly the nodes that `revmap` points to, under their
value. -/
def Inv (m : TrieBimap) : Prop :=
  m.root.KeyOk ∧
  (∀ p v, m.root.val_at p = some v → m.revmap.lookup v = some p) ∧
  (∀ v p, m.revmap.lookup v = some p → m.root.val_at p = some v)

/-- The map after `put([7, 8, 9], 3)` on the empty map. -/
def sample_trie : TrieBimap := (empty.put [7, 8, 9] 3).getD empty

end TrieBimap

namespace Bimap

variable {T : Type}

/-- Modelled from the spec: lookup by label (`get`). -/
def get [DecidableEq T] (b : Bimap T) (k : T) : Option Nat :=
  (b.pairs.find? (fun e => decide (e.1 = k))).map Prod.snd

/-- Modelled from the spec: `put_or_get(label, fresh_id)` returns the existing id if the
label is known and otherwise binds the label to `fresh_id`; the new map and the id. -/
def put_or_get [DecidableEq T] (b : Bimap T) (k : T) (v : Nat) : Bimap T × Nat :=
  match b.get k with
  | some u => (b, u)
  | none => (b.put k v, v)

end Bimap

/-- Modelled from the spec: `stronger_priority_f` of `common/parity.hh` (not among the
sources): the priority that dominates, the smaller one for a min-parity type and the larger
one for a max-parity type; ties return `p`. -/
def stronger_priority (t : PAType) (p q : Int) : Int :=
  if pa_acc_is_min t then (if q < p then q else p) else (if p < q then q else p)

/-- Modelled from the spec: the members of the configuration `DetConf` (`detstate.hh`, not
among the sources) that `determinize` reads: the adjacency matrix of the NBA, the accepting
sinks and the implication masks. What else the configuration holds is read by the level
operations only and kept in `rest`. -/
structure DetConf (R : Type) where
  /-- The adjacency bit matrix of the NBA. -/
  aut_mat : List (List Nat)
  /-- The accepting sinks. -/
  aut_asinks : Nat
  /-- The implication masks. -/
  impl_mask : SMap Nat Nat
  /-- The members read by the level operations only. -/
  rest : R

/-- The operations of the level type `DetState` (`detstate.hh`, not among the sources) that
`determinize` calls, taken as parameters: the constructor `DetState(dc, startset)`, the
member `powerset` and the level-successor oracle `succ(dc, x)`. -/
structure LevelOps (R L : Type) where
  /-- The constructor `DetState(dc, startset)`. -/
  level : DetConf R → Nat → L
  /-- The member `powerset`. -/
  powerset : L → Nat
  /-- The method `succ(dc, x)`: the successor level and the priority of the transition. -/
  succ : L → DetConf R → Nat → L × Int

/-- What the visitor of `determinize` captures and changes: the automaton under
construction, the set `vis2nd` of expanded states and the optional `backmap` (the counter
`numvis`, which only drives a progress output, is left out). -/
structure DetRun (L : Type) where
  /-- The automaton under construction. -/
  pa : Aut L
  /-- The states that have been expanded. -/
  vis2nd : List Nat
  /-- The map from a state to the powerset it was created with, when the caller asks for
  it. -/
  backmap : Option (SMap Nat Nat)

namespace Aut

variable {T : Type}

/-- The method `is_buchi`: state-based with at most two priorities, the stronger of which
is good (`best` is `pris()` sorted by strength, the strongest last). -/
def is_buchi (a : Aut T) : Bool :=
  let best := a.prio_cnt.keys.insertionSort (fun p q => p ≠ stronger_priority a.patype p q)
  a.is_sba && (decide (best.length < 2) ||
    (decide (best.length = 2) && good_priority a.patype (best.getLast?.getD 0)))

/-- The method `is_deterministic`. -/
def is_deterministic (a : Aut T) : Bool :=
  a.states.all fun p => (a.state_outsyms p).all fun i => !decide ((a.succ p i).length > 1)

/-- The method `set_patype`. -/
def set_patype (a : Aut T) (t : PAType) : Aut T := { a with patype := t }

end Aut

/-- The interning step in the loop body of the visitor of `determinize`:
`sucst = pa.tag.put_or_get(suclevel, pa.num_states())`, and if `sucst` is no state yet it is
added (and recorded in `backmap` with the successor powerset). The new run and `sucst`. -/
def det_intern {L : Type} [DecidableEq L] (suclevel : L) (sucset : Nat) (s : DetRun L) :
    Option (DetRun L × Nat) :=
  let r := s.pa.tag.put_or_get suclevel s.pa.num_states
  let pa1 : Aut L := { s.pa with tag := r.1 }
  if !pa1.has_state r.2 then
    (pa1.add_state r.2).map fun pa2 =>
      ({ s with pa := pa2, backmap := s.backmap.map fun bm => bm.ins r.2 sucset }, r.2)
  else some ({ s with pa := pa1 }, r.2)

/-- The part of the loop body of the visitor of `determinize` after the two `continue`
tests, for the successor level `suclevel`, the priority `sucpri` and the successor powerset
`sucset`: intern the level, add the edge and schedule the successor. -/
def det_edge {L : Type} [DecidableEq L] (stp : Nat × Nat) (i : Nat) (suclevel : L) (sucpri : Int)
    (sucset : Nat) (acc : DetRun L × List (Nat × Nat)) : Option (DetRun L × List (Nat × Nat)) :=
  (det_intern suclevel sucset acc.1).bind fun sr =>
    (sr.1.pa.add_edge stp.2 i sr.2 sucpri).map fun pa3 =>
      ({ sr.1 with pa := pa3 }, acc.2 ++ [(sucset, sr.2)])

/-- The loop body of the visitor of `determinize` for the symbol `i`, `cur` being the level
of the current state; fails when `powersucc`, `pred`, `add_state` or `add_edge` fails. -/
def det_sym {R L : Type} [DecidableEq L] (ops : LevelOps R L) (W : Nat) (dc : DetConf R)
    (pred : Nat → Option Bool) (stp : Nat × Nat) (cur : L)
    (acc : DetRun L × List (Nat × Nat)) (i : Nat) : Option (DetRun L × List (Nat × Nat)) :=
  if ops.powerset (ops.succ cur dc i).1 = 0 then some acc
  else
    match powersucc W dc.aut_mat stp.1 i dc.aut_asinks dc.impl_mask with
    | none => none
    | some sucset =>
      match pred sucset with
      | none => none
      | some false => some acc
      | some true => det_edge stp i (ops.succ cur dc i).1 (ops.succ cur dc i).2 sucset acc

/-- The visitor of `determinize` on the pair `stp` of a powerset and a state: nothing is
done for a state that has been expanded; fails when the state has no tag. -/
def det_visit {R L : Type} [DecidableEq L] (ops : LevelOps R L) (W : Nat) (dc : DetConf R)
    (pred : Nat → Option Bool) (s : DetRun L) (stp : Nat × Nat) (_ : List (Nat × Nat)) :
    Option (DetRun L × List (Nat × Nat)) :=
  match s.pa.tag.geti stp.2 with
  | none => none
  | some cur =>
    if stp.2 ∈ s.vis2nd then some (s, [])
    else
      s.pa.syms.foldlM (det_sym ops W dc pred stp cur)
        ({ s with vis2nd := stp.2 :: s.vis2nd }, [])

/-- The state of the run before the search of `determinize` starts: the automaton with the
initial state 0 tagged with the level of the start set. -/
def det_start {R L T : Type} [DecidableEq L] (ops : LevelOps R L) (nba : Aut T)
    (dc : DetConf R) (startset : Nat) (backmap : Option (SMap Nat Nat)) : DetRun L :=
  let pa0 : Aut L := (Aut.new false nba.name nba.aps 0).set_patype PAType.MIN_EVEN
  { pa := { pa0 with tag := pa0.tag.put (ops.level dc startset) 0 },
    vis2nd := [],
    backmap := backmap.map fun bm => bm.ins 0 startset }

/-- The function `determinize(nba, dc, startset, pred, backmap)` of `det.hh` on bitsets of
width `W`: the automaton and the final `backmap`; `fuel` bounds the number of rounds of the
search. Fails when `nba` is no Büchi automaton (`assert(nba.is_buchi())`). -/
def determinize {R L T : Type} [DecidableEq L] (fuel : Nat) (ops : LevelOps R L) (W : Nat)
    (nba : Aut T) (dc : DetConf R) (startset : Nat) (pred : Nat → Option Bool)
    (backmap : Option (SMap Nat Nat)) : Option (Aut L × Option (SMap Nat Nat)) :=
  if !nba.is_buchi then none
  else
    (bfs fuel (startset, (0 : Nat)) (det_visit ops W dc pred)
      (det_start ops nba dc startset backmap)).map fun s => (s.pa, s.backmap)

namespace Bimap

variable {T : Type}

/-- No label and no id is bound twice. -/
def Bij (b : Bimap T) : Prop :=
  (b.pairs.map Prod.fst).Nodup ∧ (b.pairs.map Prod.snd).Nodup

end Bimap

/-- The invariant of the run of `determinize`, `l0` being the level of the start set: the
state ids are dense, the initial state is 0, the tag map binds exactly the states, each to
one level of its own, and every edge leaves an expanded state and follows the
level-successor oracle. `E p x` limits the symbols `x` under which `p` may have an edge
(used while `p` is being expanded). -/
def DetInv {R L : Type} (ops : LevelOps R L) (dc : DetConf R) (l0 : L) (E : Nat → Nat → Prop)
    (s : DetRun L) : Prop :=
  s.pa.states = List.range s.pa.num_states ∧
  s.pa.sba = false ∧ s.pa.init = 0 ∧ s.pa.has_state 0 = true ∧
  s.pa.tag.Bij ∧
  (∀ k v, (k, v) ∈ s.pa.tag.pairs → s.pa.has_state v = true) ∧
  (∀ v, s.pa.has_state v = true → ∃ k, (k, v) ∈ s.pa.tag.pairs) ∧
  (l0, 0) ∈ s.pa.tag.pairs ∧
  (∀ p x q pri, s.pa.edge_pri p x q = some pri → p ∈ s.vis2nd ∧ E p x ∧
    ∃ lp lq, (lp, p) ∈ s.pa.tag.pairs ∧ (lq, q) ∈ s.pa.tag.pairs ∧
      ops.succ lp dc x = (lq, pri) ∧ ops.powerset lq ≠ 0) ∧
  (∀ p x q q2, q ∈ s.pa.succ p x → q2 ∈ s.pa.succ p x → q = q2)

/-- Level operations for the samples, on bitsets of width `W`: a level is the powerset
alone, its successor is the powerset successor, and every transition has priority 1 (the
plain subset construction). -/
def subset_ops (W : Nat) : LevelOps Unit Nat :=
  { level := fun _ s => s,
    powerset := fun l => l,
    succ := fun l dc x => ((powersucc W dc.aut_mat l x dc.aut_asinks dc.impl_mask).getD 0, 1) }

/-- The configuration for `sample_sba2`: its adjacency matrix, no accepting sinks, no
implication masks. -/
def sample_dc : DetConf Unit :=
  { aut_mat := (Aut.get_adjmat 2 Aut.sample_sba2).getD [],
    aut_asinks := 0,
    impl_mask := SMap.empty,
    rest := () }

/-- The run of `determinize` on `sample_sba2` from the start set {0} with the level
operations `subset_ops`, the predicate that is always true and no `backmap`. -/
def sample_det : Option (Aut Nat × Option (SMap Nat Nat)) :=
  determinize 5 (subset_ops 2) 2 Aut.sample_sba2 sample_dc 1 (fun _ => some true) none

/-- The indices at which the second loop of `powersucc` applies a mask when it runs over the
list `l` from the bitset `ret`: a trace of the loop, used to state what the loop computes. -/
def applied_masks (impl_mask : SMap Nat Nat) : List Nat → Nat → List Nat
  | [], _ => []
  | i :: t, ret =>
    if ret.testBit i && impl_mask.contains i then
      i :: applied_masks impl_mask t (ret &&& (impl_mask.lookup i).getD 0)
    else applied_masks impl_mask t ret

/-- An implication-mask map over the states 0, 1, 2 in which state 0 strictly subsumes the
states 1 and 2 and state 1 strictly subsumes state 2: `0 ↦ {0}`, `1 ↦ {0,1}`. -/
def sample_masks : SMap Nat Nat := (SMap.empty.ins 0 1).ins 1 3

namespace Aut

variable {T : Type}

/-- The method `state_has_outsym`: `map_has_key(adj.at(p), x)` (the caller guarantees that
the state exists). -/
def state_has_outsym (a : Aut T) (p x : Nat) : Bool := (a.out_map p).contains x

/-- Automata built from a fresh one by `add_state`, `add_edge`, `remove_edge` and
`remove_states`, with two values that record the history: the flag says whether a removal
has taken place, and the list holds the pairs `(p, x)` for which an edge from `p` on `x` has
been added since `p` was added. -/
inductive OutReach : Bool → List (Nat × Nat) → Aut T → Prop where
  | fresh (statebased : Bool) (title : String) (ap : List String) (initial : Nat) :
      OutReach false [] (Aut.new statebased title ap initial)
  | add_state (rm : Bool) (E : List (Nat × Nat)) (a b : Aut T) (s : Nat) :
      OutReach rm E a → a.add_state s = some b → OutReach rm E b
  | add_edge (rm : Bool) (E : List (Nat × Nat)) (a b : Aut T) (p x q : Nat) (pri : Int) :
      OutReach rm E a → a.add_edge p x q pri = some b → OutReach rm ((p, x) :: E) b
  | remove_edge (rm : Bool) (E : List (Nat × Nat)) (a b : Aut T) (p x q : Nat) :
      OutReach rm E a → a.remove_edge p x q = some b → OutReach true E b
  | remove_states (rm : Bool) (E : List (Nat × Nat)) (a b : Aut T) (tokill : List Nat) :
      OutReach rm E a → a.remove_states tokill = some b →
      OutReach true (E.filter fun e => !decide (e.1 ∈ tokill)) b

/-- Transition-based sample: the edge `0 -0-> 1` is added and removed again. -/
def sample_removed : Aut Unit :=
  build (Aut.new false "" [] 0)
    [fun a => a.add_state 1, fun a => a.add_edge 0 0 1 2, fun a => a.remove_edge 0 0 1]

end Aut

namespace PartitionRefiner

variable {T : Type}

/-- The method `get_set_ids`: the tokens in order of creation. -/
def get_set_ids (R : PartitionRefiner T) : List Nat := R.sym_sets

/-- The method `get_refined_sets`: `get_elements_of(it)` for every node `it` of `sets`, in
list order. -/
def get_refined_sets [LinearOrder T] (R : PartitionRefiner T) : List (List T) :=
  R.sets.map fun e => (slice e.2.1 e.2.2 R.elements).insertionSort (fun x y => x ≤ y)

/-- Number of elements in a list of blocks (each block a token with its elements). -/
def block_len (B : List (Nat × List T)) : Nat := (B.map Prod.snd).flatten.length

/-- The nodes that lay the blocks out one after the other from position `l`. -/
def layout (l : Nat) : List (Nat × List T) → List (Nat × Nat × Nat)
  | [] => []
  | b :: t => (b.1, l, l + b.2.length) :: layout (l + b.2.length) t

/-- The refiner `R` stores the blocks `B`: `elements` is their concatenation, the nodes of
`sets` delimit them in this order, the tokens are distinct and are those of `sym_sets`. -/
def Rep (R : PartitionRefiner T) (B : List (Nat × List T)) : Prop :=
  R.elements = (B.map Prod.snd).flatten ∧ R.sets = layout 0 B ∧
  R.sym_sets.length = B.length ∧ (∀ t, t ∈ R.sym_sets ↔ t ∈ B.map Prod.fst) ∧
  (∀ t ∈ B.map Prod.fst, t < R.sym_sets.length) ∧ (B.map Prod.fst).Nodup

/-- The blocks are pairwise disjoint and cover exactly the elements of the start sets. -/
def Partitions (startsets : List (List T)) (B : List (Nat × List T)) : Prop :=
  (B.map Prod.snd).Pairwise List.Disjoint ∧
  ∀ x, (∃ S ∈ B.map Prod.snd, x ∈ S) ↔ ∃ s ∈ startsets, x ∈ s

/-- Refiners obtained from `PartitionRefiner(startsets)` by calls of `separate`. -/
inductive Refined [LinearOrder T] (startsets : List (List T)) : PartitionRefiner T → Prop where
  | init : Refined startsets (ofSets startsets)
  | separate (R R1 : PartitionRefiner T) (c : Nat) (pred : T → Bool) (res : Option Nat) :
      Refined startsets R → R.separate c pred = some (R1, res) → Refined startsets R1

/-- The sample refiner after `separate` on its first set with the predicate "is even". -/
def sample_split : PartitionRefiner Nat :=
  ((sample_refiner.separate 0 (fun x => x % 2 == 0)).map Prod.fst).getD sample_refiner

end PartitionRefiner

end Nbautils

/-! # Part 2: theorems -/

namespace Nbautils

/-! ## Facts about ordered maps -/

theorem lookupRaw_insRaw {K V : Type} [LinearOrder K] (k k' : K) (v : V) (l : List (K × V)) :
    lookupRaw k' (insRaw k v l) = if k' = k then some v else lookupRaw k' l := by
  induction l with
  | nil => simp [insRaw, lookupRaw]
  | cons hd t ih =>
    obtain ⟨k2, v2⟩ := hd
    unfold insRaw
    by_cases h1 : k < k2
    · rw [if_pos h1]
      by_cases h : k' = k
      · simp [lookupRaw, h]
      · simp only [lookupRaw, if_neg h]
    · rw [if_neg h1]
      by_cases h2 : k = k2
      · rw [if_pos h2]
        subst h2
        by_cases h : k' = k
        · simp [lookupRaw, h]
        · simp only [lookupRaw, if_neg h]
      · rw [if_neg h2]
        by_cases h : k' = k
        · subst h
          simp only [lookupRaw, if_neg h2, ih, if_true]
        · simp only [lookupRaw, ih, if_neg h]

theorem lookupRaw_eraseRaw {K V : Type} [LinearOrder K] (k k' : K) (l : List (K × V)) :
    lookupRaw k' (eraseRaw k l) = if k' = k then none else lookupRaw k' l := by
  induction l with
  | nil => simp [eraseRaw, lookupRaw]
  | cons hd t ih =>
    obtain ⟨k2, v2⟩ := hd
    unfold eraseRaw at ih ⊢
    by_cases h : k2 = k
    · subst h
      rw [List.filter_cons_of_neg (by simp), ih]
      by_cases h' : k' = k2
      · simp [h']
      · simp [h', lookupRaw]
    · rw [List.filter_cons_of_pos (by simpa using h)]
      by_cases h' : k' = k
      · subst h'
        have hne : ¬ k' = k2 := fun e => h e.symm
        simp only [lookupRaw, if_neg hne, ih, if_true]
      · simp only [lookupRaw, ih, if_neg h']

theorem lookupRaw_mapValsRaw {K V W : Type} [LinearOrder K] (f : V → W) (k : K)
    (l : List (K × V)) : lookupRaw k (mapValsRaw f l) = (lookupRaw k l).map f := by
  induction l with
  | nil => simp [mapValsRaw, lookupRaw]
  | cons hd t ih =>
    obtain ⟨k2, v2⟩ := hd
    unfold mapValsRaw at ih ⊢
    simp only [List.map_cons, lookupRaw]
    split_ifs with h
    · simp
    · exact ih

theorem lookupRaw_isSome_iff {K V : Type} [LinearOrder K] (k : K) (l : List (K × V)) :
    (lookupRaw k l).isSome = true ↔ k ∈ l.map Prod.fst := by
  induction l with
  | nil => simp [lookupRaw]
  | cons hd t ih =>
    obtain ⟨k2, v2⟩ := hd
    simp only [lookupRaw, List.map_cons, List.mem_cons]
    split_ifs with h
    · simp [h]
    · simp [h, ih]

theorem lookupRaw_eq_none_of_lt {K V : Type} [LinearOrder K] (k : K) (l : List (K × V))
    (h : ∀ e ∈ l, k < e.1) : lookupRaw k l = none := by
  induction l with
  | nil => simp [lookupRaw]
  | cons hd t ih =>
    obtain ⟨k2, v2⟩ := hd
    have h2 : k < k2 := h (k2, v2) (List.mem_cons_self _ _)
    simp only [lookupRaw, if_neg (ne_of_lt h2)]
    exact ih (fun e he => h e (List.mem_cons_of_mem _ he))

theorem mem_iff_lookupRaw {K V : Type} [LinearOrder K] (k : K) (v : V) (l : List (K × V))
    (hl : KeysSorted l) : (k, v) ∈ l ↔ lookupRaw k l = some v := by
  induction l with
  | nil => simp [lookupRaw]
  | cons hd t ih =>
    obtain ⟨k2, v2⟩ := hd
    unfold KeysSorted at hl ih
    rw [List.pairwise_cons] at hl
    simp only [List.mem_cons, lookupRaw, Prod.mk.injEq]
    split_ifs with h
    · subst h
      constructor
      · rintro (⟨_, rfl⟩ | hmem)
        · rfl
        · exact absurd (hl.1 _ hmem) (lt_irrefl _)
      · intro hv
        exact Or.inl ⟨rfl, (Option.some.inj hv).symm⟩
    · rw [← ih hl.2]
      constructor
      · rintro (⟨hk, _⟩ | hmem)
        · exact absurd hk h
        · exact hmem
      · exact Or.inr

theorem raw_ext {K V : Type} [LinearOrder K] (l1 l2 : List (K × V)) (h1 : KeysSorted l1)
    (h2 : KeysSorted l2) (h : ∀ k, lookupRaw k l1 = lookupRaw k l2) : l1 = l2 := by
  induction l1 generalizing l2 with
  | nil =>
    cases l2 with
    | nil => rfl
    | cons hd t =>
      have := h hd.1
      simp [lookupRaw] at this
  | cons hd t ih =>
    obtain ⟨k1, v1⟩ := hd
    cases l2 with
    | nil =>
      have := h k1
      simp [lookupRaw] at this
    | cons hd2 t2 =>
      obtain ⟨k2, v2⟩ := hd2
      unfold KeysSorted at h1 h2 ih
      rw [List.pairwise_cons] at h1 h2
      have hk : k1 = k2 := by
        rcases lt_trichotomy k1 k2 with hlt | heq | hgt
        · exfalso
          have e := h k1
          have hn : lookupRaw k1 ((k2, v2) :: t2) = none :=
            lookupRaw_eq_none_of_lt k1 _ (fun e he => by
              rcases List.mem_cons.1 he with he | he
              · subst he; exact hlt
              · exact lt_trans hlt (h2.1 e he))
          rw [hn] at e
          simp [lookupRaw] at e
        · exact heq
        · exfalso
          have e := h k2
          have hn : lookupRaw k2 ((k1, v1) :: t) = none :=
            lookupRaw_eq_none_of_lt k2 _ (fun e he => by
              rcases List.mem_cons.1 he with he | he
              · subst he; exact hgt
              · exact lt_trans hgt (h1.1 e he))
          rw [hn] at e
          simp [lookupRaw] at e
      subst hk
      have hv : v1 = v2 := by
        have e := h k1
        simpa [lookupRaw] using e
      subst hv
      have ht : t = t2 := by
        apply ih t2 h1.2 h2.2
        intro k
        by_cases hk : k = k1
        · subst hk
          rw [lookupRaw_eq_none_of_lt k t (fun e he => h1.1 e he),
            lookupRaw_eq_none_of_lt k t2 (fun e he => h2.1 e he)]
        · have e := h k
          simpa [lookupRaw, hk] using e
      rw [ht]

namespace SMap

variable {K V W : Type} [LinearOrder K]

theorem ext (m1 m2 : SMap K V) (h : ∀ k, m1.lookup k = m2.lookup k) : m1 = m2 := by
  cases m1 with
  | mk l1 h1 =>
    cases m2 with
    | mk l2 h2 =>
      have : l1 = l2 := raw_ext l1 l2 h1 h2 h
      subst this
      rfl

@[simp] theorem lookup_empty (k : K) : (empty : SMap K V).lookup k = none := rfl

@[simp] theorem keys_empty : (empty : SMap K V).keys = [] := rfl

@[simp] theorem toList_empty : (empty : SMap K V).toList = [] := rfl

theorem lookup_ins (m : SMap K V) (k k' : K) (v : V) :
    (m.ins k v).lookup k' = if k' = k then some v else m.lookup k' :=
  lookupRaw_insRaw k k' v m.toList

@[simp] theorem lookup_ins_self (m : SMap K V) (k : K) (v : V) :
    (m.ins k v).lookup k = some v := by
  rw [lookup_ins, if_pos rfl]

theorem lookup_ins_of_ne (m : SMap K V) (k k' : K) (v : V) (h : k' ≠ k) :
    (m.ins k v).lookup k' = m.lookup k' := by
  rw [lookup_ins, if_neg h]

theorem lookup_erase (m : SMap K V) (k k' : K) :
    (m.erase k).lookup k' = if k' = k then none else m.lookup k' :=
  lookupRaw_eraseRaw k k' m.toList

theorem lookup_mapVals (f : V → W) (m : SMap K V) (k : K) :
    (m.mapVals f).lookup k = (m.lookup k).map f :=
  lookupRaw_mapValsRaw f k m.toList

theorem keys_mapVals (f : V → W) (m : SMap K V) : (m.mapVals f).keys = m.keys := by
  unfold keys mapVals mapValsRaw
  simp [List.map_map, Function.comp_def]

theorem contains_iff (m : SMap K V) (k : K) :
    m.contains k = true ↔ ∃ v, m.lookup k = some v := by
  unfold contains
  exact Option.isSome_iff_exists

theorem contains_eq_false_iff (m : SMap K V) (k : K) :
    m.contains k = false ↔ m.lookup k = none := by
  unfold contains
  cases m.lookup k <;> simp

theorem mem_keys (m : SMap K V) (k : K) : k ∈ m.keys ↔ m.contains k = true :=
  (lookupRaw_isSome_iff k m.toList).symm

theorem mem_keys_iff_lookup (m : SMap K V) (k : K) : k ∈ m.keys ↔ ∃ v, m.lookup k = some v := by
  rw [mem_keys, contains_iff]

theorem mem_toList (m : SMap K V) (k : K) (v : V) : (k, v) ∈ m.toList ↔ m.lookup k = some v :=
  mem_iff_lookupRaw k v m.toList m.sorted

theorem keys_pairwise (m : SMap K V) : List.Pairwise (fun a b => a < b) m.keys := by
  unfold keys
  rw [List.pairwise_map]
  exact m.sorted

theorem keys_nodup (m : SMap K V) : m.keys.Nodup :=
  List.Pairwise.imp (fun h => ne_of_lt h) m.keys_pairwise

theorem toList_nodup (m : SMap K V) : m.toList.Nodup :=
  List.Pairwise.imp (fun h e => absurd (e ▸ h) (lt_irrefl _)) m.sorted

theorem contains_ins (m : SMap K V) (k k' : K) (v : V) :
    (m.ins k v).contains k' = (decide (k' = k) || m.contains k') := by
  unfold contains
  rw [lookup_ins]
  by_cases h : k' = k <;> simp [h]

theorem contains_erase (m : SMap K V) (k k' : K) :
    (m.erase k).contains k' = (!decide (k' = k) && m.contains k') := by
  unfold contains
  rw [lookup_erase]
  by_cases h : k' = k <;> simp [h]

theorem contains_mapVals (f : V → W) (m : SMap K V) (k : K) :
    (m.mapVals f).contains k = m.contains k := by
  unfold contains
  rw [lookup_mapVals]
  cases m.lookup k <;> rfl

theorem firstKey_eq_none (m : SMap K V) (h : m.firstKey = none) : m.keys = [] := by
  unfold firstKey at h
  cases hk : m.keys with
  | nil => rfl
  | cons a t => rw [hk] at h; simp at h

theorem firstKey_mem (m : SMap K V) (k : K) (h : m.firstKey = some k) : k ∈ m.keys := by
  unfold firstKey at h
  cases hk : m.keys with
  | nil => rw [hk] at h; simp at h
  | cons a t =>
    rw [hk] at h
    simp at h
    subst h
    exact List.mem_cons_self _ _

theorem firstKey_le (m : SMap K V) (k k' : K) (h : m.firstKey = some k) (hk' : k' ∈ m.keys) :
    k ≤ k' := by
  have hp := m.keys_pairwise
  unfold firstKey at h
  cases hk : m.keys with
  | nil => rw [hk] at hk'; cases hk'
  | cons a t =>
    rw [hk] at h hk' hp
    simp at h
    subst h
    rcases List.mem_cons.1 hk' with e | e
    · exact le_of_eq e.symm
    · exact le_of_lt ((List.pairwise_cons.1 hp).1 k' e)

end SMap

theorem lookup_kill_key {V : Type} (m : SMap Nat V) (k k' : Nat) :
    (Aut.kill_key m k).lookup k' = if k' = k then none else m.lookup k' := by
  unfold Aut.kill_key
  split_ifs with h1 h2 h2
  · rw [SMap.lookup_erase, if_pos h2]
  · rw [SMap.lookup_erase, if_neg h2]
  · subst h2
    have := (SMap.contains_eq_false_iff m k').1 (by simpa using h1)
    exact this
  · rfl

theorem lookup_foldl_kill_key {V : Type} (tokill : List Nat) (m : SMap Nat V) (k : Nat) :
    (tokill.foldl Aut.kill_key m).lookup k = if k ∈ tokill then none else m.lookup k := by
  induction tokill generalizing m with
  | nil => simp
  | cons a t ih =>
    rw [List.foldl_cons, ih, lookup_kill_key]
    by_cases h1 : k ∈ t
    · simp [h1]
    · by_cases h2 : k = a
      · simp [h2]
      · simp [h1, h2]

/-! ## Generic facts about loops that may abort -/

theorem foldlM_nil_opt {α β : Type} (f : β → α → Option β) (b : β) :
    List.foldlM f b [] = some b := rfl

theorem foldlM_cons_opt {α β : Type} (f : β → α → Option β) (b : β) (x : α) (l : List α) :
    List.foldlM f b (x :: l) = (f b x).bind (fun b1 => List.foldlM f b1 l) := rfl

/-- A relation between the state before and after one round that is reflexive and
transitive holds between the start and the end of a completed loop. -/
theorem foldlM_rel {α β : Type} (f : β → α → Option β) (R : β → β → Prop)
    (hrefl : ∀ b, R b b) (htrans : ∀ a b c, R a b → R b c → R a c) (l : List α)
    (hstep : ∀ b x b1, x ∈ l → f b x = some b1 → R b b1) :
    ∀ b b1, List.foldlM f b l = some b1 → R b b1 := by
  induction l with
  | nil =>
    intro b b1 h
    rw [foldlM_nil_opt] at h
    cases h
    exact hrefl b
  | cons x t ih =>
    intro b b1 h
    rw [foldlM_cons_opt] at h
    cases hx : f b x with
    | none => rw [hx] at h; cases h
    | some b2 =>
      rw [hx] at h
      exact htrans _ _ _ (hstep b x b2 (List.mem_cons_self _ _) hx)
        (ih (fun b x b1 hm => hstep b x b1 (List.mem_cons_of_mem _ hm)) b2 b1 h)

/-- An invariant of every round is an invariant of a completed loop. -/
theorem foldlM_inv {α β : Type} (f : β → α → Option β) (I : β → Prop) (l : List α)
    (hstep : ∀ b x b1, x ∈ l → I b → f b x = some b1 → I b1) :
    ∀ b b1, I b → List.foldlM f b l = some b1 → I b1 := by
  intro b b1 hb h
  exact foldlM_rel f (fun b b1 => I b → I b1) (fun _ h => h) (fun _ _ _ h1 h2 h => h2 (h1 h)) l
    (fun b x b1 hm hf hI => hstep b x b1 hm hI hf) b b1 h hb

/-- A loop whose rounds all complete under an invariant completes. -/
theorem foldlM_total {α β : Type} (f : β → α → Option β) (I : β → Prop) (l : List α)
    (hstep : ∀ b x, x ∈ l → I b → ∃ b1, f b x = some b1 ∧ I b1) :
    ∀ b, I b → ∃ b1, List.foldlM f b l = some b1 ∧ I b1 := by
  induction l with
  | nil => intro b hb; exact ⟨b, rfl, hb⟩
  | cons x t ih =>
    intro b hb
    obtain ⟨b2, h2, hI2⟩ := hstep b x (List.mem_cons_self _ _) hb
    obtain ⟨b3, h3, hI3⟩ := ih (fun b x hm => hstep b x (List.mem_cons_of_mem _ hm)) b2 hI2
    exact ⟨b3, by rw [foldlM_cons_opt, h2]; exact h3, hI3⟩

namespace Aut

variable {T : Type}

/-! ## Views of the adjacency structure -/

theorem mem_states (a : Aut T) (s : Nat) : s ∈ a.states ↔ a.has_state s = true :=
  SMap.mem_keys a.adj s

theorem has_state_iff (a : Aut T) (s : Nat) :
    a.has_state s = true ↔ ∃ sm, a.adj.lookup s = some sm :=
  SMap.contains_iff a.adj s

theorem has_state_eq_false (a : Aut T) (s : Nat) :
    a.has_state s = false ↔ a.adj.lookup s = none :=
  SMap.contains_eq_false_iff a.adj s

theorem edge_pri_eq (a : Aut T) (p x q : Nat) :
    a.edge_pri p x q = (a.succ_edges p x).lookup q := by
  unfold edge_pri succ_edges out_map
  cases hp : a.adj.lookup p with
  | none => simp
  | some sm =>
    cases hx : sm.lookup x with
    | none => simp [hx]
    | some tm => simp [hx]

theorem has_edge_eq (a : Aut T) (p x q : Nat) :
    a.has_edge p x q = (a.edge_pri p x q).isSome := by
  rw [edge_pri_eq]; rfl

theorem has_state_of_edge (a : Aut T) (p x q : Nat) (pri : Int)
    (h : a.edge_pri p x q = some pri) : a.has_state p = true := by
  unfold edge_pri at h
  rw [has_state_iff]
  cases hp : a.adj.lookup p with
  | none => rw [hp] at h; cases h
  | some sm => exact ⟨sm, rfl⟩

theorem mem_succ (a : Aut T) (p x q : Nat) :
    q ∈ a.succ p x ↔ ∃ pri, a.edge_pri p x q = some pri := by
  unfold succ
  rw [SMap.mem_keys_iff_lookup, edge_pri_eq]

theorem mem_outsyms_of_edge (a : Aut T) (p x q : Nat) (pri : Int)
    (h : a.edge_pri p x q = some pri) : x ∈ a.state_outsyms p := by
  unfold state_outsyms out_map
  rw [SMap.mem_keys_iff_lookup]
  unfold edge_pri at h
  cases hp : a.adj.lookup p with
  | none => rw [hp] at h; cases h
  | some sm =>
    rw [hp] at h
    simp only [Option.getD_some]
    cases hx : sm.lookup x with
    | none => simp [hx] at h
    | some tm => exact ⟨tm, rfl⟩

theorem mem_succ_edges_toList (a : Aut T) (p x q : Nat) (pri : Int) :
    (q, pri) ∈ (a.succ_edges p x).toList ↔ a.edge_pri p x q = some pri := by
  rw [SMap.mem_toList, edge_pri_eq]

/-- Views of the automaton after `adj.at(p)[x] = tm`. -/
theorem succ_edges_set (a : Aut T) (adj1 : SMap Nat (SMap Nat (SMap Nat Int))) (p x : Nat)
    (tm : SMap Nat Int) (h : adj1 = a.adj.ins p ((a.out_map p).ins x tm)) (b : Aut T)
    (hb : b.adj = adj1) (p1 x1 : Nat) :
    b.succ_edges p1 x1 = if p1 = p ∧ x1 = x then tm else a.succ_edges p1 x1 := by
  unfold succ_edges out_map
  rw [hb, h, SMap.lookup_ins]
  by_cases hp : p1 = p
  · subst hp
    simp only [if_true, Option.getD_some, SMap.lookup_ins, true_and]
    by_cases hx : x1 = x
    · simp [hx]
    · simp only [if_neg hx]
      rfl
  · simp [hp]

theorem has_state_set (a : Aut T) (adj1 : SMap Nat (SMap Nat (SMap Nat Int))) (p : Nat)
    (sm : SMap Nat (SMap Nat Int)) (h : adj1 = a.adj.ins p sm) (b : Aut T)
    (hb : b.adj = adj1) (hp : a.has_state p = true) (t : Nat) :
    b.has_state t = a.has_state t := by
  unfold has_state at hp ⊢
  rw [hb, h, SMap.contains_ins]
  by_cases ht : t = p
  · subst ht; simp [hp]
  · simp [ht]

theorem states_set (a : Aut T) (adj1 : SMap Nat (SMap Nat (SMap Nat Int))) (p : Nat)
    (sm : SMap Nat (SMap Nat Int)) (h : adj1 = a.adj.ins p sm) (b : Aut T)
    (hb : b.adj = adj1) (hp : a.has_state p = true) :
    b.states = a.states := by
  have hnd : List.Pairwise (fun x y => x < y) b.states := b.adj.keys_pairwise
  have hnd2 : List.Pairwise (fun x y => x < y) a.states := a.adj.keys_pairwise
  apply List.eq_of_perm_of_sorted (r := fun x y => x < y) _ hnd hnd2
  refine (List.perm_ext_iff_of_nodup b.adj.keys_nodup a.adj.keys_nodup).2 (fun t => ?_)
  show t ∈ b.states ↔ t ∈ a.states
  rw [mem_states, mem_states, has_state_set a adj1 p sm h b hb hp t]

/-! ## The primitive operations -/

theorem set_init_some (a a1 : Aut T) (s : Nat) (h : a.set_init s = some a1) :
    a.has_state s = true ∧ a1 = { a with init := s } := by
  unfold set_init at h
  split_ifs at h with h1
  exact ⟨h1, (Option.some.inj h).symm⟩

theorem add_state_some (a a1 : Aut T) (s : Nat) (h : a.add_state s = some a1) :
    a.has_state s = false ∧
    a1 = { a with
      normalized := if s ≠ a.num_states then false else a.normalized,
      adj := a.adj.ins s SMap.empty } := by
  unfold add_state at h
  cases hs : a.has_state s with
  | true => rw [hs] at h; simp at h
  | false =>
    rw [hs] at h
    simp only [Bool.false_eq_true, if_false] at h
    exact ⟨rfl, (Option.some.inj h).symm⟩

theorem add_state_total (a : Aut T) (s : Nat) (h : a.has_state s = false) :
    ∃ a1, a.add_state s = some a1 := by
  unfold add_state
  rw [h]
  exact ⟨_, rfl⟩

theorem has_state_add_state (a a1 : Aut T) (s : Nat) (h : a.add_state s = some a1) (t : Nat) :
    a1.has_state t = (decide (t = s) || a.has_state t) := by
  obtain ⟨_, rfl⟩ := add_state_some a a1 s h
  exact SMap.contains_ins a.adj s t SMap.empty

theorem succ_edges_add_state (a a1 : Aut T) (s : Nat) (h : a.add_state s = some a1)
    (p x : Nat) : a1.succ_edges p x = a.succ_edges p x := by
  obtain ⟨hs, rfl⟩ := add_state_some a a1 s h
  unfold succ_edges out_map
  simp only [SMap.lookup_ins]
  by_cases hp : p = s
  · subst hp
    rw [(has_state_eq_false a p).1 hs]
    simp
  · simp [hp]

theorem edge_pri_add_state (a a1 : Aut T) (s : Nat) (h : a.add_state s = some a1)
    (p x q : Nat) : a1.edge_pri p x q = a.edge_pri p x q := by
  rw [edge_pri_eq, edge_pri_eq, succ_edges_add_state a a1 s h]

theorem set_pri_some (a a1 : Aut T) (s : Nat) (p : Int) (h : a.set_pri s p = some a1) :
    a.sba = true ∧ a.has_state s = true ∧ a1.adj = a.adj ∧ a1.sba = a.sba ∧ a1.aps = a.aps ∧
    a1.init = a.init ∧ a1.patype = a.patype ∧ a1.tag = a.tag ∧ a1.normalized = a.normalized ∧
    a1.name = a.name ∧
    a1.state_pri = (if p ≥ 0 then a.state_pri.ins s p else kill_key a.state_pri s) ∧
    a1.prio_cnt =
      (if p ≥ 0 then cnt_incr (a.released_cnt s) p else a.released_cnt s) := by
  unfold set_pri at h
  by_cases h1 : a.is_sba = true
  · by_cases h2 : a.has_state s = true
    · simp only [h1, h2, Bool.not_true, Bool.false_eq_true, if_false] at h
      by_cases h3 : p ≥ 0
      · simp only [if_pos h3] at h
        have e := (Option.some.inj h).symm
        subst e
        refine ⟨h1, h2, rfl, rfl, rfl, rfl, rfl, rfl, rfl, rfl, ?_, ?_⟩
        · rw [if_pos h3]
        · rw [if_pos h3]
      · simp only [if_neg h3] at h
        have e := (Option.some.inj h).symm
        subst e
        refine ⟨h1, h2, rfl, rfl, rfl, rfl, rfl, rfl, rfl, rfl, ?_, ?_⟩
        · rw [if_neg h3]; rfl
        · rw [if_neg h3]
    · simp [h1, h2] at h
  · simp [h1] at h

theorem set_pri_total (a : Aut T) (s : Nat) (p : Int) (h1 : a.sba = true)
    (h2 : a.has_state s = true) : ∃ a1, a.set_pri s p = some a1 := by
  unfold set_pri
  simp only [is_sba, h1, h2]
  by_cases hp : p ≥ 0
  · simp [hp]
  · simp [hp]

theorem add_edge_some (a a1 : Aut T) (p x q : Nat) (pri : Int)
    (h : a.add_edge p x q pri = some a1) :
    a.has_state p = true ∧ x < a.num_syms ∧ a.has_state q = true ∧ (pri < 0 ∨ a.sba = false) ∧
    a.edge_pri p x q = none ∧
    a1 = { a with
      adj := a.put_edge p x q pri,
      prio_cnt := if pri ≥ 0 then cnt_incr a.prio_cnt pri else a.prio_cnt } := by
  unfold add_edge at h
  cases h1 : a.has_state p with
  | false => simp [h1] at h
  | true =>
    by_cases h2 : x < a.num_syms
    · cases h3 : a.has_state q with
      | false => simp [h1, h2, h3] at h
      | true =>
        cases h4 : (decide (pri < 0) || !a.sba) with
        | false => simp only [h1, h2, h3, h4] at h; simp at h
        | true =>
          cases h5 : a.has_edge p x q with
          | true => simp only [h1, h2, h3, h4, h5] at h; simp at h
          | false =>
            simp only [h1, h2, h3, h4, h5, decide_True, Bool.not_true, Bool.false_eq_true,
              if_false] at h
            refine ⟨rfl, h2, rfl, ?_, ?_, (Option.some.inj h).symm⟩
            · by_cases hp : pri < 0
              · exact Or.inl hp
              · right
                cases hs : a.sba with
                | false => rfl
                | true => simp [hp, hs] at h4
            · rw [has_edge_eq] at h5
              cases he : a.edge_pri p x q with
              | none => rfl
              | some v => rw [he] at h5; simp at h5
    · simp [h1, h2] at h

theorem add_edge_total (a : Aut T) (p x q : Nat) (pri : Int) (h1 : a.has_state p = true)
    (h2 : x < a.num_syms) (h3 : a.has_state q = true) (h4 : pri < 0 ∨ a.sba = false)
    (h5 : a.edge_pri p x q = none) : ∃ a1, a.add_edge p x q pri = some a1 := by
  unfold add_edge
  have h6 : a.has_edge p x q = false := by rw [has_edge_eq, h5]; rfl
  have h7 : (decide (pri < 0) || !a.sba) = true := by
    rcases h4 with h4 | h4
    · simp [h4]
    · simp [h4]
  simp only [h1, h2, h3, h6, h7]
  exact ⟨_, rfl⟩

theorem has_state_add_edge (a a1 : Aut T) (p x q : Nat) (pri : Int)
    (h : a.add_edge p x q pri = some a1) (t : Nat) : a1.has_state t = a.has_state t := by
  obtain ⟨hp, _, _, _, _, rfl⟩ := add_edge_some a a1 p x q pri h
  exact has_state_set a _ p _ rfl _ rfl hp t

theorem states_add_edge (a a1 : Aut T) (p x q : Nat) (pri : Int)
    (h : a.add_edge p x q pri = some a1) : a1.states = a.states := by
  obtain ⟨hp, _, _, _, _, rfl⟩ := add_edge_some a a1 p x q pri h
  exact states_set a _ p _ rfl _ rfl hp

theorem succ_edges_add_edge (a a1 : Aut T) (p x q : Nat) (pri : Int)
    (h : a.add_edge p x q pri = some a1) (p1 x1 : Nat) :
    a1.succ_edges p1 x1 =
      if p1 = p ∧ x1 = x then (a.succ_edges p x).ins q pri else a.succ_edges p1 x1 := by
  obtain ⟨hp, _, _, _, _, rfl⟩ := add_edge_some a a1 p x q pri h
  exact succ_edges_set a _ p x _ rfl _ rfl p1 x1

theorem edge_pri_add_edge (a a1 : Aut T) (p x q : Nat) (pri : Int)
    (h : a.add_edge p x q pri = some a1) (p1 x1 q1 : Nat) :
    a1.edge_pri p1 x1 q1 =
      if p1 = p ∧ x1 = x ∧ q1 = q then some pri else a.edge_pri p1 x1 q1 := by
  rw [edge_pri_eq, succ_edges_add_edge a a1 p x q pri h, edge_pri_eq]
  by_cases h1 : p1 = p ∧ x1 = x
  · obtain ⟨rfl, rfl⟩ := h1
    simp only [and_self, if_true, SMap.lookup_ins, true_and]
  · rw [if_neg h1]
    have : ¬ (p1 = p ∧ x1 = x ∧ q1 = q) := fun hh => h1 ⟨hh.1, hh.2.1⟩
    rw [if_neg this]

theorem mod_edge_some (a a1 : Aut T) (p x q : Nat) (pri : Int)
    (h : a.mod_edge p x q pri = some a1) :
    ∃ oldpri, a.edge_pri p x q = some oldpri ∧
    a1 = { a with
      adj := a.put_edge p x q pri,
      prio_cnt :=
        if pri ≥ 0 then cnt_incr (if oldpri ≥ 0 then cnt_decr a.prio_cnt oldpri else a.prio_cnt) pri
        else (if oldpri ≥ 0 then cnt_decr a.prio_cnt oldpri else a.prio_cnt) } := by
  unfold mod_edge at h
  cases he : a.edge_pri p x q with
  | none => rw [he] at h; cases h
  | some oldpri =>
    rw [he] at h
    exact ⟨oldpri, rfl, (Option.some.inj h).symm⟩

theorem remove_edge_some (a a1 : Aut T) (p x q : Nat)
    (h : a.remove_edge p x q = some a1) :
    ∃ epri, a.edge_pri p x q = some epri ∧
    a1 = { a with
      adj := a.adj.ins p ((a.out_map p).ins x ((a.succ_edges p x).erase q)),
      prio_cnt := if epri ≥ 0 then cnt_decr a.prio_cnt epri else a.prio_cnt } := by
  unfold remove_edge at h
  cases he : a.edge_pri p x q with
  | none => rw [he] at h; cases h
  | some epri =>
    rw [he] at h
    exact ⟨epri, rfl, (Option.some.inj h).symm⟩

theorem ensure_state_some (a a1 : Aut T) (s : Nat) (h : a.ensure_state s = some a1) :
    a1.has_state s = true ∧ (∀ t, a1.has_state t = (decide (t = s) || a.has_state t)) ∧
    (∀ p x, a1.succ_edges p x = a.succ_edges p x) ∧
    a1.sba = a.sba ∧ a1.aps = a.aps ∧ a1.init = a.init ∧ a1.patype = a.patype ∧
    a1.state_pri = a.state_pri ∧ a1.prio_cnt = a.prio_cnt ∧ a1.tag = a.tag := by
  unfold ensure_state at h
  split_ifs at h with h1
  · have hs := has_state_add_state a a1 s h
    have he := succ_edges_add_state a a1 s h
    obtain ⟨_, e⟩ := add_state_some a a1 s h
    refine ⟨by rw [hs]; simp, hs, he, ?_, ?_, ?_, ?_, ?_, ?_, ?_⟩ <;> (subst e; rfl)
  · cases h
    have h2 : a.has_state s = true := by simpa using h1
    refine ⟨h2, ?_, fun _ _ => rfl, rfl, rfl, rfl, rfl, rfl, rfl, rfl⟩
    intro t
    by_cases ht : t = s
    · subst ht; simp [h2]
    · simp [ht]

theorem ensure_state_total (a : Aut T) (s : Nat) : ∃ a1, a.ensure_state s = some a1 := by
  unfold ensure_state
  cases h : a.has_state s
  · simpa using add_state_total a s h
  · exact ⟨a, by simp⟩

end Aut

/-! ## Sorted vectors -/

theorem is_set_vec_iff (v : List Nat) :
    is_set_vec v = true ↔ List.Pairwise (fun a b => a < b) v := by
  induction v with
  | nil => simp [is_set_vec]
  | cons a t ih =>
    cases t with
    | nil => simp [is_set_vec]
    | cons b t2 =>
      simp only [is_set_vec, Bool.and_eq_true, decide_eq_true_eq, ih]
      constructor
      · rintro ⟨hab, ht⟩
        refine List.pairwise_cons.2 ⟨?_, ht⟩
        intro c hc
        rcases List.mem_cons.1 hc with e | e
        · subst e; exact hab
        · exact lt_trans hab ((List.pairwise_cons.1 ht).1 c e)
      · intro h
        have h2 := List.pairwise_cons.1 h
        exact ⟨h2.1 b (List.mem_cons_self _ _), h2.2⟩

theorem is_set_vec_nodup (v : List Nat) (h : is_set_vec v = true) : v.Nodup :=
  List.Pairwise.imp (fun h => ne_of_lt h) ((is_set_vec_iff v).1 h)

theorem lower_bound_spec (v : List Nat) (x : Nat) (hv : List.Pairwise (fun a b => a < b) v) :
    (x ∈ v → ∃ rest, lower_bound v x = x :: rest) ∧
    (x ∉ v → ∀ y rest, lower_bound v x = y :: rest → y ≠ x) := by
  induction v with
  | nil => simp [lower_bound]
  | cons a t ih =>
    have h2 := List.pairwise_cons.1 hv
    obtain ⟨ih1, ih2⟩ := ih h2.2
    unfold lower_bound
    by_cases hlt : a < x
    · simp only [if_pos hlt]
      constructor
      · intro hx
        rcases List.mem_cons.1 hx with e | e
        · subst e; exact absurd hlt (lt_irrefl _)
        · exact ih1 e
      · intro hx
        exact ih2 (fun hm => hx (List.mem_cons_of_mem _ hm))
    · simp only [if_neg hlt]
      constructor
      · intro hx
        rcases List.mem_cons.1 hx with e | e
        · subst e; exact ⟨t, rfl⟩
        · exact absurd (h2.1 x e) hlt
      · intro hx y rest e
        have hy : a = y := (List.cons.inj e).1
        subst hy
        intro e2
        subst e2
        exact hx (List.mem_cons_self _ _)

theorem sorted_contains_iff (v : List Nat) (x : Nat) (hv : is_set_vec v = true) :
    sorted_contains v x = true ↔ x ∈ v := by
  obtain ⟨h1, h2⟩ := lower_bound_spec v x ((is_set_vec_iff v).1 hv)
  unfold sorted_contains
  by_cases hx : x ∈ v
  · obtain ⟨rest, e⟩ := h1 hx
    rw [e]
    simp [hx]
  · cases e : lower_bound v x with
    | nil => simp [hx]
    | cons y rest =>
      have := h2 hx y rest e
      simp [hx, this]

namespace Aut

variable {T : Type}

/-! ## `remove_states` -/

theorem sameGraph_refl (a : Aut T) : SameGraph a a := ⟨rfl, rfl, rfl, rfl, rfl, rfl⟩

theorem sameGraph_trans (a b c : Aut T) (h1 : SameGraph a b) (h2 : SameGraph b c) :
    SameGraph a c := by
  obtain ⟨h11, h12, h13, h14, h15, h16⟩ := h1
  obtain ⟨h21, h22, h23, h24, h25, h26⟩ := h2
  exact ⟨h21.trans h11, h22.trans h12, h23.trans h13, h24.trans h14, h25.trans h15,
    h26.trans h16⟩

theorem sameGraph_set_pri (a a1 : Aut T) (s : Nat) (p : Int) (h : a.set_pri s p = some a1) :
    SameGraph a a1 := by
  obtain ⟨_, _, h1, h2, h3, h4, h5, h6, _⟩ := set_pri_some a a1 s p h
  exact ⟨h1, h2, h4, h3, h5, h6⟩

theorem sameGraph_kill_pri (a a1 : Aut T) (it : Nat) (h : a.kill_pri it = some a1) :
    SameGraph a a1 := by
  unfold kill_pri at h
  split_ifs at h with h1
  · exact sameGraph_set_pri a a1 it (-1) h
  · cases h; exact sameGraph_refl a

theorem sameGraph_kill_pri_loop (tokill : List Nat) (a a1 : Aut T)
    (h : tokill.foldlM kill_pri a = some a1) : SameGraph a a1 :=
  foldlM_rel kill_pri SameGraph sameGraph_refl sameGraph_trans tokill
    (fun b x b1 _ hb => sameGraph_kill_pri b b1 x hb) a a1 h

theorem kill_pri_loop_total (tokill : List Nat) (a : Aut T)
    (hex : ∀ s ∈ tokill, a.has_state s = true) :
    ∃ a1, tokill.foldlM kill_pri a = some a1 := by
  obtain ⟨a1, h, _⟩ := foldlM_total kill_pri (fun b => b.adj = a.adj) tokill
    (fun b x hx hb => by
      unfold kill_pri
      by_cases hc : (b.sba && b.has_pri x) = true
      · rw [if_pos hc]
        have hs : b.sba = true := by
          simp only [Bool.and_eq_true] at hc
          exact hc.1
        have hst : b.has_state x = true := by
          unfold has_state
          rw [hb]
          exact hex x hx
        obtain ⟨b1, hb1⟩ := set_pri_total b x (-1) hs hst
        exact ⟨b1, hb1, (sameGraph_set_pri b b1 x (-1) hb1).1.trans hb⟩
      · rw [if_neg hc]
        exact ⟨b, rfl, hb⟩) a rfl
  exact ⟨a1, h⟩

theorem remove_states_some (a a1 : Aut T) (tokill : List Nat)
    (h : a.remove_states tokill = some a1) :
    is_set_vec tokill = true ∧ (∀ s ∈ tokill, a.has_state s = true) ∧
    a1.adj = kill_targets tokill (tokill.foldl kill_key a.adj) ∧
    a1.init = (if sorted_contains tokill a.init then a1.adj.firstKey.getD a.init else a.init) ∧
    a1.sba = a.sba ∧ a1.aps = a.aps ∧ a1.patype = a.patype ∧ a1.normalized = false ∧
    ∃ a2, tokill.foldlM kill_pri a = some a2 ∧ a1.state_pri = a2.state_pri ∧
      a1.prio_cnt = a2.prio_cnt ∧ a1.tag = tokill.foldl kill_tag a.tag := by
  unfold remove_states at h
  cases h1 : is_set_vec tokill with
  | false => simp [h1] at h
  | true =>
    cases h2 : (tokill.all fun s => a.has_state s) with
    | false => simp [h1, h2] at h
    | true =>
      simp only [h1, h2, Bool.not_true, Bool.false_eq_true, if_false] at h
      cases h3 : tokill.foldlM kill_pri a with
      | none => rw [h3] at h; cases h
      | some a2 =>
        rw [h3] at h
        have e := (Option.some.inj h).symm
        obtain ⟨g1, g2, g3, g4, g5, g6⟩ := sameGraph_kill_pri_loop tokill a a2 h3
        subst e
        refine ⟨rfl, ?_, ?_, ?_, g2, g4, g5, rfl, a2, rfl, rfl, rfl, ?_⟩
        · intro s hs
          exact (List.all_eq_true.1 h2) s hs
        · show kill_targets tokill (tokill.foldl kill_key a2.adj) = _
          rw [g1]
        · show (if sorted_contains tokill a.get_init = true then
              (kill_targets tokill (tokill.foldl kill_key a2.adj)).firstKey.getD a2.init
            else a2.init) = _
          rw [g1, g3]
          rfl
        · show tokill.foldl kill_tag a2.tag = _
          rw [g6]

theorem remove_states_total (a : Aut T) (tokill : List Nat) (h1 : is_set_vec tokill = true)
    (h2 : ∀ s ∈ tokill, a.has_state s = true) : ∃ a1, a.remove_states tokill = some a1 := by
  obtain ⟨a2, h3⟩ := kill_pri_loop_total tokill a h2
  have h4 : (tokill.all fun s => a.has_state s) = true := List.all_eq_true.2 h2
  unfold remove_states
  simp only [h1, h4, Bool.not_true, Bool.false_eq_true, if_false, h3, Option.bind_some]
  exact ⟨_, rfl⟩

theorem lookup_kill_targets (tokill : List Nat) (m : SMap Nat (SMap Nat (SMap Nat Int)))
    (p : Nat) :
    (kill_targets tokill m).lookup p =
      (m.lookup p).map (fun sm => sm.mapVals (fun tm => tokill.foldl kill_key tm)) :=
  SMap.lookup_mapVals _ m p

theorem has_state_remove_states (a a1 : Aut T) (tokill : List Nat)
    (h : a.remove_states tokill = some a1) (t : Nat) :
    a1.has_state t = (a.has_state t && !decide (t ∈ tokill)) := by
  obtain ⟨_, _, hadj, _⟩ := remove_states_some a a1 tokill h
  unfold has_state SMap.contains
  rw [hadj, lookup_kill_targets, lookup_foldl_kill_key]
  by_cases ht : t ∈ tokill
  · simp [ht]
  · simp [ht]

theorem states_remove_states (a a1 : Aut T) (tokill : List Nat)
    (h : a.remove_states tokill = some a1) :
    a1.states = a.states.filter (fun t => !decide (t ∈ tokill)) := by
  have hnd : List.Pairwise (fun x y => x < y) a1.states := a1.adj.keys_pairwise
  have hnd2 : List.Pairwise (fun x y => x < y)
      (a.states.filter (fun t => !decide (t ∈ tokill))) :=
    List.Pairwise.sublist (List.filter_sublist _) a.adj.keys_pairwise
  apply List.eq_of_perm_of_sorted (r := fun x y => x < y) _ hnd hnd2
  refine (List.perm_ext_iff_of_nodup a1.adj.keys_nodup
    (List.Nodup.sublist (List.filter_sublist _) a.adj.keys_nodup)).2 (fun t => ?_)
  show t ∈ a1.states ↔ _
  rw [mem_states, has_state_remove_states a a1 tokill h, List.mem_filter]
  have := mem_states a t
  unfold states at this
  rw [this]
  simp

theorem succ_edges_remove_states (a a1 : Aut T) (tokill : List Nat)
    (h : a.remove_states tokill = some a1) (p x : Nat) (hp : p ∉ tokill) :
    a1.succ_edges p x = tokill.foldl kill_key (a.succ_edges p x) := by
  obtain ⟨_, _, hadj, _⟩ := remove_states_some a a1 tokill h
  apply SMap.ext
  intro q
  unfold succ_edges out_map
  rw [hadj, lookup_kill_targets, lookup_foldl_kill_key, if_neg hp]
  cases hl : a.adj.lookup p with
  | none =>
    simp only [Option.map_none', Option.getD_none, SMap.lookup_empty]
    rw [lookup_foldl_kill_key]
    simp
  | some sm =>
    simp only [Option.map_some', Option.getD_some, SMap.lookup_mapVals]
    cases hx : sm.lookup x with
    | none =>
      simp only [Option.map_none', Option.getD_none, SMap.lookup_empty]
      rw [lookup_foldl_kill_key]
      simp
    | some tm => simp

theorem edge_pri_remove_states (a a1 : Aut T) (tokill : List Nat)
    (h : a.remove_states tokill = some a1) (p x q : Nat) :
    a1.edge_pri p x q = if p ∈ tokill ∨ q ∈ tokill then none else a.edge_pri p x q := by
  by_cases hp : p ∈ tokill
  · have hs : a1.has_state p = false := by
      rw [has_state_remove_states a a1 tokill h]; simp [hp]
    have : a1.edge_pri p x q = none := by
      cases he : a1.edge_pri p x q with
      | none => rfl
      | some v => rw [has_state_of_edge a1 p x q v he] at hs; cases hs
    rw [this]; simp [hp]
  · rw [edge_pri_eq, succ_edges_remove_states a a1 tokill h p x hp, lookup_foldl_kill_key,
      edge_pri_eq]
    by_cases hq : q ∈ tokill
    · simp [hq]
    · simp [hp, hq]

theorem state_outsyms_remove_states (a a1 : Aut T) (tokill : List Nat)
    (h : a.remove_states tokill = some a1) (p : Nat) (hp : p ∉ tokill) :
    a1.state_outsyms p = a.state_outsyms p := by
  obtain ⟨_, _, hadj, _⟩ := remove_states_some a a1 tokill h
  unfold state_outsyms out_map
  rw [hadj, lookup_kill_targets, lookup_foldl_kill_key, if_neg hp]
  cases hl : a.adj.lookup p with
  | none => rfl
  | some sm =>
    simp only [Option.map_some', Option.getD_some]
    exact SMap.keys_mapVals _ sm

theorem init_remove_states (a a1 : Aut T) (tokill : List Nat)
    (h : a.remove_states tokill = some a1) :
    (a.init ∉ tokill → a1.init = a.init) ∧
    (a.init ∈ tokill → (∃ t, a.has_state t = true ∧ t ∉ tokill) →
      a1.has_state a1.init = true ∧ ∀ t, a1.has_state t = true → a1.init ≤ t) := by
  obtain ⟨hset, _, _, hinit, _⟩ := remove_states_some a a1 tokill h
  constructor
  · intro hi
    have : sorted_contains tokill a.init = false := by
      cases hc : sorted_contains tokill a.init with
      | false => rfl
      | true => exact absurd ((sorted_contains_iff tokill a.init hset).1 hc) hi
    rw [hinit, this]
    simp
  · intro hi ⟨t, ht1, ht2⟩
    have hc : sorted_contains tokill a.init = true := (sorted_contains_iff tokill a.init hset).2 hi
    rw [hc] at hinit
    simp only [if_true] at hinit
    have ht : a1.has_state t = true := by
      rw [has_state_remove_states a a1 tokill h, ht1]; simp [ht2]
    cases hf : a1.adj.firstKey with
    | none =>
      have hk := SMap.firstKey_eq_none a1.adj hf
      have hm := (mem_states a1 t).2 ht
      unfold states at hm
      rw [hk] at hm
      cases hm
    | some k =>
      rw [hf] at hinit
      simp only [Option.getD_some] at hinit
      rw [hinit]
      refine ⟨(mem_states a1 k).1 (SMap.firstKey_mem a1.adj k hf), ?_⟩
      intro t2 ht2
      exact SMap.firstKey_le a1.adj k t2 hf ((mem_states a1 t2).2 ht2)

end Aut

/-! ## Counting over ordered maps -/

theorem sumRaw_insRaw {K V : Type} [LinearOrder K] (f : V → Nat) (k : K) (v : V)
    (l : List (K × V)) (hl : KeysSorted l) :
    ((insRaw k v l).map (fun e => f e.2)).sum + optVal f (lookupRaw k l) =
      (l.map (fun e => f e.2)).sum + f v := by
  induction l with
  | nil => simp [insRaw, lookupRaw, optVal]
  | cons hd t ih =>
    obtain ⟨k2, v2⟩ := hd
    unfold KeysSorted at hl ih
    have h2 := List.pairwise_cons.1 hl
    unfold insRaw
    by_cases h1 : k < k2
    · rw [if_pos h1]
      have hn : lookupRaw k ((k2, v2) :: t) = none :=
        lookupRaw_eq_none_of_lt k _ (fun e he => by
          rcases List.mem_cons.1 he with he | he
          · subst he; exact h1
          · exact lt_trans h1 (h2.1 e he))
      rw [hn]
      simp only [List.map_cons, List.sum_cons, optVal]
      omega
    · rw [if_neg h1]
      by_cases h3 : k = k2
      · rw [if_pos h3]
        subst h3
        simp only [List.map_cons, List.sum_cons, lookupRaw, if_true, optVal]
        omega
      · rw [if_neg h3]
        have := ih h2.2
        simp only [List.map_cons, List.sum_cons, lookupRaw, if_neg h3]
        omega

theorem sumRaw_eraseRaw {K V : Type} [LinearOrder K] (f : V → Nat) (k : K)
    (l : List (K × V)) (hl : KeysSorted l) :
    ((eraseRaw k l).map (fun e => f e.2)).sum + optVal f (lookupRaw k l) =
      (l.map (fun e => f e.2)).sum := by
  induction l with
  | nil => simp [eraseRaw, lookupRaw, optVal]
  | cons hd t ih =>
    obtain ⟨k2, v2⟩ := hd
    unfold KeysSorted at hl ih
    have h2 := List.pairwise_cons.1 hl
    have iht := ih h2.2
    unfold eraseRaw at iht ⊢
    by_cases h : k2 = k
    · subst h
      rw [List.filter_cons_of_neg (by simp)]
      have hn : lookupRaw k2 t = none :=
        lookupRaw_eq_none_of_lt k2 t (fun e he => h2.1 e he)
      rw [hn] at iht
      simp only [optVal] at iht
      simp only [List.map_cons, List.sum_cons, lookupRaw, if_true, optVal]
      omega
    · rw [List.filter_cons_of_pos (by simpa using h)]
      have hne : ¬ k = k2 := fun e => h e.symm
      simp only [List.map_cons, List.sum_cons, lookupRaw, if_neg hne]
      omega

namespace SMap

variable {K V W : Type} [LinearOrder K]

@[simp] theorem sum_empty (f : V → Nat) : (empty : SMap K V).sum f = 0 := rfl

theorem sum_ins (f : V → Nat) (m : SMap K V) (k : K) (v : V) :
    (m.ins k v).sum f + optVal f (m.lookup k) = m.sum f + f v :=
  sumRaw_insRaw f k v m.toList m.sorted

theorem sum_erase (f : V → Nat) (m : SMap K V) (k : K) :
    (m.erase k).sum f + optVal f (m.lookup k) = m.sum f :=
  sumRaw_eraseRaw f k m.toList m.sorted

theorem getD0_eq (m : SMap K Int) (k : K) : m.getD0 k = (m.lookup k).getD 0 := rfl

end SMap

theorem sum_kill_key {V : Type} (f : V → Nat) (m : SMap Nat V) (k : Nat) :
    (Aut.kill_key m k).sum f + optVal f (m.lookup k) = m.sum f := by
  unfold Aut.kill_key
  split_ifs with h
  · exact SMap.sum_erase f m k
  · have := (SMap.contains_eq_false_iff m k).1 (by simpa using h)
    rw [this]
    rfl

theorem getD0_cnt_incr (m : SMap Int Int) (p q : Int) :
    (cnt_incr m p).getD0 q = m.getD0 q + (if q = p then 1 else 0) := by
  unfold cnt_incr
  rw [SMap.getD0_eq, SMap.lookup_ins]
  by_cases h : q = p
  · subst h; simp
  · simp [h, SMap.getD0_eq]

theorem getD0_cnt_decr (m : SMap Int Int) (p q : Int) :
    (cnt_decr m p).getD0 q = m.getD0 q - (if q = p then 1 else 0) := by
  unfold cnt_decr
  simp only
  split_ifs with h1 h2 h2
  · subst h2
    rw [SMap.getD0_eq, SMap.lookup_erase, if_pos rfl]
    rw [SMap.getD0_eq, SMap.lookup_ins_self] at h1
    simp only [Option.getD_some, Option.getD_none] at h1 ⊢
    omega
  · rw [SMap.getD0_eq, SMap.lookup_erase, if_neg h2, SMap.lookup_ins, if_neg h2]
    simp [SMap.getD0_eq]
  · subst h2
    rw [SMap.getD0_eq, SMap.lookup_ins_self]
    simp
  · rw [SMap.getD0_eq, SMap.lookup_ins, if_neg h2]
    simp [SMap.getD0_eq]

theorem noZero_empty : NoZero SMap.empty := by
  intro k v h
  simp at h

theorem noZero_cnt_incr (m : SMap Int Int) (p : Int) (h : NoZero m) (hp : 0 ≤ m.getD0 p) :
    NoZero (cnt_incr m p) := by
  intro k v hk
  unfold cnt_incr at hk
  rw [SMap.lookup_ins] at hk
  split_ifs at hk with h1
  · have := Option.some.inj hk
    omega
  · exact h k v hk

theorem noZero_cnt_decr (m : SMap Int Int) (p : Int) (h : NoZero m) :
    NoZero (cnt_decr m p) := by
  intro k v hk
  unfold cnt_decr at hk
  simp only at hk
  split_ifs at hk with h1
  · rw [SMap.lookup_erase] at hk
    split_ifs at hk with h2
    rw [SMap.lookup_ins, if_neg h2] at hk
    exact h k v hk
  · rw [SMap.lookup_ins] at hk
    split_ifs at hk with h2
    · subst h2
      rw [SMap.getD0_eq, SMap.lookup_ins_self] at h1
      have := Option.some.inj hk
      simp only [Option.getD_some] at h1
      omega
    · exact h k v hk

theorem contains_of_getD0_ne (m : SMap Int Int) (p : Int) (h : m.getD0 p ≠ 0) :
    m.contains p = true := by
  unfold SMap.contains
  rw [SMap.getD0_eq] at h
  cases hl : m.lookup p with
  | none => rw [hl] at h; simp at h
  | some v => rfl

namespace Aut

variable {T : Type}

/-! ## Counting priority slots -/

theorem optVal_priInd (p : Int) (o : Option Int) :
    optVal (priInd p) o = if o = some p then 1 else 0 := by
  cases o with
  | none => simp [optVal]
  | some v =>
    simp only [optVal, priInd, Option.some.injEq]

theorem edge_count_eq (a : Aut T) (p : Int) :
    a.edge_count p = a.adj.sum (fun sm => sm.sum (fun tm => tm.sum (priInd p))) := rfl

theorem state_count_eq (a : Aut T) (p : Int) :
    a.state_count p = a.state_pri.sum (priInd p) := rfl

/-- Effect of `adj.at(p)[x] = tm` on the number of edges with priority `pr`. -/
theorem edge_count_set (a b : Aut T) (p x : Nat) (tm : SMap Nat Int) (pr : Int)
    (hp : a.has_state p = true) (hb : b.adj = a.adj.ins p ((a.out_map p).ins x tm)) :
    b.edge_count pr + (a.succ_edges p x).sum (priInd pr) =
      a.edge_count pr + tm.sum (priInd pr) := by
  obtain ⟨sm, hsm⟩ := (has_state_iff a p).1 hp
  have hom : a.out_map p = sm := by unfold out_map; rw [hsm]; rfl
  rw [edge_count_eq, edge_count_eq, hb, hom]
  have h1 := SMap.sum_ins (fun sm => sm.sum (fun tm => tm.sum (priInd pr))) a.adj p
    (sm.ins x tm)
  rw [hsm] at h1
  simp only [optVal] at h1
  have h2 := SMap.sum_ins (fun tm => tm.sum (priInd pr)) sm x tm
  have h3 : optVal (fun tm => tm.sum (priInd pr)) (sm.lookup x) =
      (a.succ_edges p x).sum (priInd pr) := by
    unfold succ_edges
    rw [hom]
    cases sm.lookup x with
    | none => rfl
    | some t => rfl
  rw [h3] at h2
  omega

theorem edge_count_put_edge (a b : Aut T) (p x q : Nat) (pri pr : Int)
    (hp : a.has_state p = true) (hb : b.adj = a.put_edge p x q pri) :
    b.edge_count pr + (if a.edge_pri p x q = some pr then 1 else 0) =
      a.edge_count pr + (if pri = pr then 1 else 0) := by
  have h1 := edge_count_set a b p x ((a.succ_edges p x).ins q pri) pr hp hb
  have h2 := SMap.sum_ins (priInd pr) (a.succ_edges p x) q pri
  rw [optVal_priInd, ← edge_pri_eq] at h2
  simp only [priInd] at h1 h2 ⊢
  omega

theorem edge_count_erase_edge (a b : Aut T) (p x q : Nat) (pr : Int)
    (hp : a.has_state p = true)
    (hb : b.adj = a.adj.ins p ((a.out_map p).ins x ((a.succ_edges p x).erase q))) :
    b.edge_count pr + (if a.edge_pri p x q = some pr then 1 else 0) = a.edge_count pr := by
  have h1 := edge_count_set a b p x ((a.succ_edges p x).erase q) pr hp hb
  have h2 := SMap.sum_erase (priInd pr) (a.succ_edges p x) q
  rw [optVal_priInd, ← edge_pri_eq] at h2
  omega

theorem edge_count_add_state (a b : Aut T) (s : Nat) (pr : Int) (h : a.add_state s = some b) :
    b.edge_count pr = a.edge_count pr := by
  obtain ⟨hs, rfl⟩ := add_state_some a b s h
  have h1 := SMap.sum_ins (fun sm => sm.sum (fun tm => tm.sum (priInd pr))) a.adj s
    SMap.empty
  rw [(has_state_eq_false a s).1 hs] at h1
  simp only [optVal, SMap.sum_empty, add_zero] at h1
  exact h1

theorem state_count_ins (a : Aut T) (s : Nat) (p pr : Int) :
    (a.state_pri.ins s p).sum (priInd pr) + (if a.state_pri.lookup s = some pr then 1 else 0) =
      a.state_count pr + (if p = pr then 1 else 0) := by
  have h := SMap.sum_ins (priInd pr) a.state_pri s p
  rw [optVal_priInd] at h
  rw [state_count_eq]
  have e : priInd pr p = if p = pr then 1 else 0 := rfl
  rw [e] at h
  omega

theorem state_count_kill (a : Aut T) (s : Nat) (pr : Int) :
    (kill_key a.state_pri s).sum (priInd pr) +
      (if a.state_pri.lookup s = some pr then 1 else 0) = a.state_count pr := by
  have h := sum_kill_key (priInd pr) a.state_pri s
  rw [optVal_priInd] at h
  exact h

/-! ## Coherence of the priority multiset under the primitive operations -/

theorem countInv_new (statebased : Bool) (title : String) (ap : List String) (initial : Nat) :
    CountInv (Aut.new statebased title ap initial : Aut T) := by
  have hec : ∀ pr : Int, (Aut.new statebased title ap initial : Aut T).edge_count pr = 0 := by
    intro pr
    have h1 := SMap.sum_ins (fun sm : SMap Nat (SMap Nat Int) =>
      sm.sum (fun tm => tm.sum (priInd pr))) SMap.empty initial SMap.empty
    simp only [SMap.lookup_empty, optVal, SMap.sum_empty, add_zero] at h1
    exact h1
  refine ⟨?_, noZero_empty, ?_, ?_, ?_⟩
  · intro pr _
    rw [hec pr]
    rfl
  · intro s v h
    simp [Aut.new, blank] at h
  · intro _ pr
    rfl
  · intro _ pr _
    exact hec pr

theorem countInv_add_state (a b : Aut T) (s : Nat) (h : a.add_state s = some b)
    (hI : CountInv a) : CountInv b := by
  obtain ⟨h1, h2, h3, h4, h5⟩ := hI
  have hec := fun pr => edge_count_add_state a b s pr h
  obtain ⟨_, e⟩ := add_state_some a b s h
  have hpc : b.prio_cnt = a.prio_cnt := by subst e; rfl
  have hsp : b.state_pri = a.state_pri := by subst e; rfl
  have hsba : b.sba = a.sba := by subst e; rfl
  have hsc : ∀ pr, b.state_count pr = a.state_count pr := by
    intro pr; unfold state_count; rw [hsp]
  refine ⟨?_, ?_, ?_, ?_, ?_⟩
  · intro pr hpr
    rw [hpc, hec, hsc]
    exact h1 pr hpr
  · rw [hpc]; exact h2
  · rw [hsp]; exact h3
  · intro hs pr
    rw [hsc]
    exact h4 (hsba ▸ hs) pr
  · intro hs pr hpr
    rw [hec]
    exact h5 (hsba ▸ hs) pr hpr

theorem countInv_add_edge (a b : Aut T) (p x q : Nat) (pri : Int)
    (h : a.add_edge p x q pri = some b) (hI : CountInv a) : CountInv b := by
  obtain ⟨h1, h2, h3, h4, h5⟩ := hI
  obtain ⟨hp, _, _, hmode, hnone, e⟩ := add_edge_some a b p x q pri h
  have hadj : b.adj = a.put_edge p x q pri := by subst e; rfl
  have hpc : b.prio_cnt = if pri ≥ 0 then cnt_incr a.prio_cnt pri else a.prio_cnt := by
    subst e; rfl
  have hsp : b.state_pri = a.state_pri := by subst e; rfl
  have hsba : b.sba = a.sba := by subst e; rfl
  have hsc : ∀ pr, b.state_count pr = a.state_count pr := by
    intro pr; unfold state_count; rw [hsp]
  have hec : ∀ pr : Int, b.edge_count pr = a.edge_count pr + (if pri = pr then 1 else 0) := by
    intro pr
    have := edge_count_put_edge a b p x q pri pr hp hadj
    rw [hnone] at this
    simpa using this
  refine ⟨?_, ?_, ?_, ?_, ?_⟩
  · intro pr hpr
    rw [hpc, hec, hsc]
    have := h1 pr hpr
    by_cases hpri : pri ≥ 0
    · rw [if_pos hpri, getD0_cnt_incr]
      by_cases hq : pri = pr
      · subst hq; simp; omega
      · have hq2 : ¬ pr = pri := fun e => hq e.symm
        simp [hq, hq2]; omega
    · rw [if_neg hpri]
      have hq : ¬ pri = pr := by omega
      simp [hq]; omega
  · rw [hpc]
    by_cases hpri : pri ≥ 0
    · rw [if_pos hpri]
      apply noZero_cnt_incr _ _ h2
      rw [h1 pri hpri]
      omega
    · rw [if_neg hpri]; exact h2
  · rw [hsp]; exact h3
  · intro hs pr
    rw [hsc]
    exact h4 (hsba ▸ hs) pr
  · intro hs pr hpr
    rw [hec]
    have hs2 : a.sba = true := hsba ▸ hs
    rcases hmode with hm | hm
    · have hq : ¬ pri = pr := by omega
      simp [hq]
      exact h5 hs2 pr hpr
    · rw [hm] at hs2; cases hs2

theorem edge_count_pos (a : Aut T) (p x q : Nat) (pr : Int)
    (h : a.edge_pri p x q = some pr) : 1 ≤ a.edge_count pr := by
  have hp := has_state_of_edge a p x q pr h
  have := edge_count_erase_edge a
    { a with adj := a.adj.ins p ((a.out_map p).ins x ((a.succ_edges p x).erase q)) }
    p x q pr hp rfl
  rw [if_pos h] at this
  omega

theorem countInv_mod_edge (a b : Aut T) (p x q : Nat) (pri : Int) (hs : a.sba = false)
    (h : a.mod_edge p x q pri = some b) (hI : CountInv a) : CountInv b := by
  obtain ⟨h1, h2, h3, h4, h5⟩ := hI
  obtain ⟨oldpri, hold, e⟩ := mod_edge_some a b p x q pri h
  have hp := has_state_of_edge a p x q oldpri hold
  have hadj : b.adj = a.put_edge p x q pri := by subst e; rfl
  have hpc : b.prio_cnt =
      if pri ≥ 0 then
        cnt_incr (if oldpri ≥ 0 then cnt_decr a.prio_cnt oldpri else a.prio_cnt) pri
      else (if oldpri ≥ 0 then cnt_decr a.prio_cnt oldpri else a.prio_cnt) := by
    subst e; rfl
  have hsp : b.state_pri = a.state_pri := by subst e; rfl
  have hsba : b.sba = a.sba := by subst e; rfl
  have hsc : ∀ pr, b.state_count pr = a.state_count pr := by
    intro pr; unfold state_count; rw [hsp]
  have hec : ∀ pr : Int, b.edge_count pr + (if oldpri = pr then 1 else 0) =
      a.edge_count pr + (if pri = pr then 1 else 0) := by
    intro pr
    have := edge_count_put_edge a b p x q pri pr hp hadj
    rw [hold] at this
    simpa using this
  have hpos := edge_count_pos a p x q oldpri hold
  have hmid : ∀ pr : Int, 0 ≤ pr →
      (if oldpri ≥ 0 then cnt_decr a.prio_cnt oldpri else a.prio_cnt).getD0 pr =
        (a.edge_count pr : Int) + (a.state_count pr : Int) - (if oldpri = pr then 1 else 0) := by
    intro pr hpr
    have := h1 pr hpr
    by_cases ho : oldpri ≥ 0
    · rw [if_pos ho, getD0_cnt_decr]
      by_cases hq : oldpri = pr
      · subst hq; simp; omega
      · have hq2 : ¬ pr = oldpri := fun e => hq e.symm
        simp [hq, hq2]; omega
    · rw [if_neg ho]
      have hq : ¬ oldpri = pr := by omega
      simp [hq]; omega
  have hnz : NoZero (if oldpri ≥ 0 then cnt_decr a.prio_cnt oldpri else a.prio_cnt) := by
    by_cases ho : oldpri ≥ 0
    · rw [if_pos ho]; exact noZero_cnt_decr _ _ h2
    · rw [if_neg ho]; exact h2
  refine ⟨?_, ?_, ?_, ?_, ?_⟩
  · intro pr hpr
    rw [hpc, hsc]
    have hm := hmid pr hpr
    have he := hec pr
    by_cases hpri : pri ≥ 0
    · rw [if_pos hpri, getD0_cnt_incr, hm]
      by_cases hq : pri = pr
      · subst hq
        by_cases ho : oldpri = pri
        · simp [ho] at he ⊢; omega
        · simp [ho] at he ⊢; omega
      · have hq2 : ¬ pr = pri := fun e => hq e.symm
        by_cases ho : oldpri = pr
        · simp [ho, hq, hq2] at he ⊢; omega
        · simp [ho, hq, hq2] at he ⊢; omega
    · rw [if_neg hpri, hm]
      have hq : ¬ pri = pr := by omega
      by_cases ho : oldpri = pr
      · simp [ho, hq] at he ⊢; omega
      · simp [ho, hq] at he ⊢; omega
  · rw [hpc]
    by_cases hpri : pri ≥ 0
    · rw [if_pos hpri]
      apply noZero_cnt_incr _ _ hnz
      rw [hmid pri hpri]
      by_cases ho : oldpri = pri
      · subst ho; simp; omega
      · simp [ho]; omega
    · rw [if_neg hpri]; exact hnz
  · rw [hsp]; exact h3
  · intro hs2 pr
    rw [hsc]
    exact h4 hs pr
  · intro hs2
    rw [hsba, hs] at hs2
    cases hs2

theorem countInv_remove_edge (a b : Aut T) (p x q : Nat)
    (h : a.remove_edge p x q = some b) (hI : CountInv a) : CountInv b := by
  obtain ⟨h1, h2, h3, h4, h5⟩ := hI
  obtain ⟨epri, hold, e⟩ := remove_edge_some a b p x q h
  have hp := has_state_of_edge a p x q epri hold
  have hadj : b.adj = a.adj.ins p ((a.out_map p).ins x ((a.succ_edges p x).erase q)) := by
    subst e; rfl
  have hpc : b.prio_cnt = if epri ≥ 0 then cnt_decr a.prio_cnt epri else a.prio_cnt := by
    subst e; rfl
  have hsp : b.state_pri = a.state_pri := by subst e; rfl
  have hsba : b.sba = a.sba := by subst e; rfl
  have hsc : ∀ pr, b.state_count pr = a.state_count pr := by
    intro pr; unfold state_count; rw [hsp]
  have hec : ∀ pr : Int, b.edge_count pr + (if epri = pr then 1 else 0) = a.edge_count pr := by
    intro pr
    have := edge_count_erase_edge a b p x q pr hp hadj
    rw [hold] at this
    simpa using this
  refine ⟨?_, ?_, ?_, ?_, ?_⟩
  · intro pr hpr
    rw [hpc, hsc]
    have := h1 pr hpr
    have he := hec pr
    by_cases ho : epri ≥ 0
    · rw [if_pos ho, getD0_cnt_decr]
      by_cases hq : epri = pr
      · subst hq; simp at he ⊢; omega
      · have hq2 : ¬ pr = epri := fun e => hq e.symm
        simp [hq, hq2] at he ⊢; omega
    · rw [if_neg ho]
      have hq : ¬ epri = pr := by omega
      simp [hq] at he; omega
  · rw [hpc]
    by_cases ho : epri ≥ 0
    · rw [if_pos ho]; exact noZero_cnt_decr _ _ h2
    · rw [if_neg ho]; exact h2
  · rw [hsp]; exact h3
  · intro hs pr
    rw [hsc]
    exact h4 (hsba ▸ hs) pr
  · intro hs pr hpr
    have := h5 (hsba ▸ hs) pr hpr
    have he := hec pr
    omega

theorem countInv_set_pri (a b : Aut T) (s : Nat) (p : Int)
    (h : a.set_pri s p = some b) (hI : CountInv a) : CountInv b := by
  obtain ⟨h1, h2, h3, h4, h5⟩ := hI
  obtain ⟨hs, _, hadj, hsba, _, _, _, _, _, _, hsp, hpc⟩ := set_pri_some a b s p h
  have hec : ∀ pr, b.edge_count pr = a.edge_count pr := by
    intro pr; unfold edge_count; rw [hadj]
  -- the counter map after the old priority has been released
  have hmid : ∃ pc1 : SMap Int Int, a.released_cnt s = pc1 ∧ NoZero pc1 ∧
      ∀ pr : Int, 0 ≤ pr → pc1.getD0 pr = (a.edge_count pr : Int) + (a.state_count pr : Int) -
        (if a.state_pri.lookup s = some pr then 1 else 0) := by
    unfold released_cnt
    cases hl : a.state_pri.lookup s with
    | none =>
      refine ⟨a.prio_cnt, rfl, h2, ?_⟩
      intro pr hpr
      simp [h1 pr hpr]
    | some old =>
      have hold : 0 ≤ old := h3 s old hl
      have hk := state_count_kill a s old
      rw [if_pos hl] at hk
      have hc : a.prio_cnt.contains old = true := by
        apply contains_of_getD0_ne
        rw [h1 old hold]
        omega
      refine ⟨cnt_decr a.prio_cnt old, by simp [hc], noZero_cnt_decr _ _ h2, ?_⟩
      intro pr hpr
      rw [getD0_cnt_decr, h1 pr hpr]
      by_cases hq : pr = old
      · subst hq; simp
      · have hq2 : ¬ old = pr := fun e => hq e.symm
        simp [hq, hq2]
  obtain ⟨pc1, hpc1, hnz1, hget1⟩ := hmid
  rw [hpc1] at hpc
  by_cases hp : p ≥ 0
  · rw [if_pos hp] at hsp hpc
    have hsc : ∀ pr : Int, b.state_count pr + (if a.state_pri.lookup s = some pr then 1 else 0) =
        a.state_count pr + (if p = pr then 1 else 0) := by
      intro pr
      rw [state_count_eq, hsp]
      exact state_count_ins a s p pr
    refine ⟨?_, ?_, ?_, ?_, ?_⟩
    · intro pr hpr
      rw [hpc, getD0_cnt_incr, hget1 pr hpr, hec]
      have := hsc pr
      by_cases hq : p = pr
      · subst hq
        by_cases ho : a.state_pri.lookup s = some p
        · simp [ho] at this ⊢; omega
        · simp [ho] at this ⊢; omega
      · have hq2 : ¬ pr = p := fun e => hq e.symm
        by_cases ho : a.state_pri.lookup s = some pr
        · simp [ho, hq, hq2] at this ⊢; omega
        · simp [ho, hq, hq2] at this ⊢; omega
    · rw [hpc]
      apply noZero_cnt_incr _ _ hnz1
      rw [hget1 p hp]
      by_cases ho : a.state_pri.lookup s = some p
      · have hk := state_count_kill a s p
        rw [if_pos ho] at hk
        simp [ho]; omega
      · simp [ho]; omega
    · intro s2 v hv
      rw [hsp, SMap.lookup_ins] at hv
      split_ifs at hv with h6
      · have := Option.some.inj hv
        omega
      · exact h3 s2 v hv
    · intro hs2
      rw [hsba, hs] at hs2
      cases hs2
    · intro _ pr hpr
      rw [hec]
      exact h5 hs pr hpr
  · rw [if_neg hp] at hsp hpc
    have hsc : ∀ pr : Int, b.state_count pr + (if a.state_pri.lookup s = some pr then 1 else 0) =
        a.state_count pr := by
      intro pr
      rw [state_count_eq, hsp]
      exact state_count_kill a s pr
    refine ⟨?_, ?_, ?_, ?_, ?_⟩
    · intro pr hpr
      rw [hpc, hget1 pr hpr, hec]
      have := hsc pr
      by_cases ho : a.state_pri.lookup s = some pr
      · simp [ho] at this ⊢; omega
      · simp [ho] at this ⊢; omega
    · rw [hpc]; exact hnz1
    · intro s2 v hv
      rw [hsp, lookup_kill_key] at hv
      split_ifs at hv with h6
      exact h3 s2 v hv
    · intro hs2
      rw [hsba, hs] at hs2
      cases hs2
    · intro _ pr hpr
      rw [hec]
      exact h5 hs pr hpr

theorem countInv_of_primReach (a : Aut T) (h : PrimReach a) : CountInv a := by
  induction h with
  | fresh sb title ap initial => exact countInv_new sb title ap initial
  | add_state a b s _ hb ih => exact countInv_add_state a b s hb ih
  | add_edge a b p x q pri _ hb ih => exact countInv_add_edge a b p x q pri hb ih
  | mod_edge a b p x q pri _ hs hb ih => exact countInv_mod_edge a b p x q pri hs hb ih
  | remove_edge a b p x q _ hb ih => exact countInv_remove_edge a b p x q hb ih
  | set_pri a b s p _ hb ih => exact countInv_set_pri a b s p hb ih

theorem coherent_of_countInv (a : Aut T) (h : CountInv a) : Coherent a := by
  obtain ⟨h1, h2, _, h4, h5⟩ := h
  refine ⟨?_, h2⟩
  intro pr hpr
  rw [h1 pr hpr]
  unfold slot_count
  cases hs : a.sba with
  | false =>
    have := h4 hs pr
    simp [this]
  | true =>
    have := h5 hs pr hpr
    simp [this]

/-! ## Invariants of the loops: existing states stay, edge targets exist -/

theorem ext_refl (a : Aut T) : Ext a a := ⟨rfl, rfl, rfl, rfl, fun _ h => h⟩

theorem ext_trans (a b c : Aut T) (h1 : Ext a b) (h2 : Ext b c) : Ext a c := by
  obtain ⟨h11, h12, h13, h14, h15⟩ := h1
  obtain ⟨h21, h22, h23, h24, h25⟩ := h2
  exact ⟨h21.trans h11, h22.trans h12, h23.trans h13, h24.trans h14,
    fun t ht => h25 t (h15 t ht)⟩

theorem Ext.initOk (a b : Aut T) (h : Ext a b) (hi : InitOk a) : InitOk b := by
  unfold InitOk get_init at hi ⊢
  rw [h.1]
  exact h.2.2.2.2 _ hi

theorem ext_add_state (a b : Aut T) (s : Nat) (h : a.add_state s = some b) : Ext a b := by
  have hs := has_state_add_state a b s h
  obtain ⟨_, e⟩ := add_state_some a b s h
  refine ⟨by subst e; rfl, by subst e; rfl, by subst e; rfl, by subst e; rfl, ?_⟩
  intro t ht
  rw [hs, ht]
  simp

theorem ext_set_pri (a b : Aut T) (s : Nat) (p : Int) (h : a.set_pri s p = some b) :
    Ext a b := by
  obtain ⟨_, _, h1, h2, h3, h4, h5, _⟩ := set_pri_some a b s p h
  refine ⟨h4, h2, h3, h5, ?_⟩
  intro t ht
  unfold has_state at ht ⊢
  rw [h1]
  exact ht

theorem ext_add_edge (a b : Aut T) (p x q : Nat) (pri : Int)
    (h : a.add_edge p x q pri = some b) : Ext a b := by
  have hs := has_state_add_edge a b p x q pri h
  obtain ⟨_, _, _, _, _, e⟩ := add_edge_some a b p x q pri h
  refine ⟨by subst e; rfl, by subst e; rfl, by subst e; rfl, by subst e; rfl, ?_⟩
  intro t ht
  rw [hs]
  exact ht

theorem ext_ensure_state (a b : Aut T) (s : Nat) (h : a.ensure_state s = some b) :
    Ext a b := by
  obtain ⟨_, h2, _, h4, h5, h6, h7, _⟩ := ensure_state_some a b s h
  refine ⟨h6, h4, h5, h7, ?_⟩
  intro t ht
  rw [h2, ht]
  simp

theorem closed_add_state (a b : Aut T) (s : Nat) (h : a.add_state s = some b)
    (hc : Closed a) : Closed b := by
  intro p x q pri he
  rw [edge_pri_add_state a b s h] at he
  exact (ext_add_state a b s h).2.2.2.2 q (hc p x q pri he)

theorem closed_set_pri (a b : Aut T) (s : Nat) (p : Int) (h : a.set_pri s p = some b)
    (hc : Closed a) : Closed b := by
  obtain ⟨_, _, h1, _⟩ := set_pri_some a b s p h
  intro p1 x q pri he
  unfold edge_pri at he
  rw [h1] at he
  unfold has_state
  rw [h1]
  exact hc p1 x q pri he

theorem closed_add_edge (a b : Aut T) (p x q : Nat) (pri : Int)
    (h : a.add_edge p x q pri = some b) (hc : Closed a) : Closed b := by
  obtain ⟨_, _, hq, _⟩ := add_edge_some a b p x q pri h
  intro p1 x1 q1 pri1 he
  rw [edge_pri_add_edge a b p x q pri h] at he
  rw [has_state_add_edge a b p x q pri h]
  split_ifs at he with h1
  · rw [h1.2.2]; exact hq
  · exact hc p1 x1 q1 pri1 he

theorem closed_ensure_state (a b : Aut T) (s : Nat) (h : a.ensure_state s = some b)
    (hc : Closed a) : Closed b := by
  obtain ⟨_, h2, h3, _⟩ := ensure_state_some a b s h
  intro p x q pri he
  rw [edge_pri_eq, h3, ← edge_pri_eq] at he
  rw [h2, hc p x q pri he]
  simp

theorem closed_of_adj_eq (a b : Aut T) (h : b.adj = a.adj) (hc : Closed a) : Closed b := by
  intro p x q pri he
  unfold edge_pri at he
  rw [h] at he
  unfold has_state
  rw [h]
  exact hc p x q pri he

theorem ext_of_tag (a : Aut T) (t : Bimap T) : Ext a { a with tag := t } :=
  ⟨rfl, rfl, rfl, rfl, fun _ h => h⟩

theorem copy_tag_frame [DecidableEq T] (src : Aut T) (st : Nat) (r : Aut T) (mst : Nat) :
    (copy_tag src st r mst).adj = r.adj ∧ (copy_tag src st r mst).sba = r.sba ∧
    (copy_tag src st r mst).aps = r.aps ∧ (copy_tag src st r mst).patype = r.patype ∧
    (copy_tag src st r mst).init = r.init ∧ (copy_tag src st r mst).state_pri = r.state_pri ∧
    (copy_tag src st r mst).prio_cnt = r.prio_cnt := by
  unfold copy_tag
  cases src.tag.geti st with
  | none => exact ⟨rfl, rfl, rfl, rfl, rfl, rfl, rfl⟩
  | some t => exact ⟨rfl, rfl, rfl, rfl, rfl, rfl, rfl⟩

theorem ext_copy_tag [DecidableEq T] (src : Aut T) (st : Nat) (r : Aut T) (mst : Nat) :
    Ext r (copy_tag src st r mst) := by
  obtain ⟨h1, h2, h3, h4, h5, _⟩ := copy_tag_frame src st r mst
  refine ⟨h5, h2, h3, h4, ?_⟩
  intro t ht
  unfold has_state at ht ⊢
  rw [h1]
  exact ht

/-- Views after `adj.at(p).at(x).erase(q)`. -/
theorem edge_pri_erase_edge (a b : Aut T) (p x q : Nat)
    (hb : b.adj = a.adj.ins p ((a.out_map p).ins x ((a.succ_edges p x).erase q)))
    (p1 x1 q1 : Nat) :
    b.edge_pri p1 x1 q1 =
      if p1 = p ∧ x1 = x ∧ q1 = q then none else a.edge_pri p1 x1 q1 := by
  rw [edge_pri_eq, succ_edges_set a _ p x _ rfl b hb, edge_pri_eq]
  by_cases h1 : p1 = p ∧ x1 = x
  · obtain ⟨rfl, rfl⟩ := h1
    simp only [and_self, if_true, SMap.lookup_erase, true_and]
  · rw [if_neg h1]
    have : ¬ (p1 = p ∧ x1 = x ∧ q1 = q) := fun hh => h1 ⟨hh.1, hh.2.1⟩
    rw [if_neg this]

theorem edge_pri_put_edge (a b : Aut T) (p x q : Nat) (pri : Int)
    (hb : b.adj = a.put_edge p x q pri) (p1 x1 q1 : Nat) :
    b.edge_pri p1 x1 q1 =
      if p1 = p ∧ x1 = x ∧ q1 = q then some pri else a.edge_pri p1 x1 q1 := by
  rw [edge_pri_eq, succ_edges_set a _ p x _ rfl b hb, edge_pri_eq]
  by_cases h1 : p1 = p ∧ x1 = x
  · obtain ⟨rfl, rfl⟩ := h1
    simp only [and_self, if_true, SMap.lookup_ins, true_and]
  · rw [if_neg h1]
    have : ¬ (p1 = p ∧ x1 = x ∧ q1 = q) := fun hh => h1 ⟨hh.1, hh.2.1⟩
    rw [if_neg this]

theorem closed_mod_edge (a b : Aut T) (p x q : Nat) (pri : Int)
    (h : a.mod_edge p x q pri = some b) (hc : Closed a) : Closed b := by
  obtain ⟨oldpri, hold, e⟩ := mod_edge_some a b p x q pri h
  have hp := has_state_of_edge a p x q oldpri hold
  have hadj : b.adj = a.put_edge p x q pri := by subst e; rfl
  intro p1 x1 q1 pri1 he
  rw [edge_pri_put_edge a b p x q pri hadj] at he
  rw [has_state_set a _ p _ rfl b hadj hp]
  split_ifs at he with h1
  · rw [h1.2.2]; exact hc p x q oldpri hold
  · exact hc p1 x1 q1 pri1 he

theorem has_state_remove_edge (a b : Aut T) (p x q : Nat)
    (h : a.remove_edge p x q = some b) (t : Nat) : b.has_state t = a.has_state t := by
  obtain ⟨epri, hold, e⟩ := remove_edge_some a b p x q h
  have hp := has_state_of_edge a p x q epri hold
  have hadj : b.adj = a.adj.ins p ((a.out_map p).ins x ((a.succ_edges p x).erase q)) := by
    subst e; rfl
  exact has_state_set a _ p _ rfl b hadj hp t

theorem closed_remove_edge (a b : Aut T) (p x q : Nat)
    (h : a.remove_edge p x q = some b) (hc : Closed a) : Closed b := by
  obtain ⟨epri, hold, e⟩ := remove_edge_some a b p x q h
  have hadj : b.adj = a.adj.ins p ((a.out_map p).ins x ((a.succ_edges p x).erase q)) := by
    subst e; rfl
  intro p1 x1 q1 pri1 he
  rw [edge_pri_erase_edge a b p x q hadj] at he
  rw [has_state_remove_edge a b p x q h]
  split_ifs at he with h1
  exact hc p1 x1 q1 pri1 he

theorem closed_remove_states (a b : Aut T) (S : List Nat)
    (h : a.remove_states S = some b) (hc : Closed a) : Closed b := by
  intro p x q pri he
  rw [edge_pri_remove_states a b S h] at he
  rw [has_state_remove_states a b S h]
  split_ifs at he with h1
  have hq : q ∉ S := fun hq => h1 (Or.inr hq)
  rw [hc p x q pri he]
  simp [hq]

theorem initOk_remove_states (a b : Aut T) (S : List Nat)
    (h : a.remove_states S = some b) (hi : InitOk a)
    (hproper : ∃ t, a.has_state t = true ∧ t ∉ S) : InitOk b := by
  obtain ⟨h1, h2⟩ := init_remove_states a b S h
  unfold InitOk get_init at hi ⊢
  by_cases hm : a.init ∈ S
  · exact (h2 hm hproper).1
  · rw [h1 hm, has_state_remove_states a b S h, hi]
    simp [hm]

/-! ### `insert` -/

theorem ext_insert_edge (st sym : Nat) (a b : Aut T) (es : Nat × Int)
    (h : insert_edge st sym a es = some b) : Ext a b := by
  unfold insert_edge at h
  cases h1 : a.ensure_state es.1 with
  | none => rw [h1] at h; cases h
  | some c1 =>
    rw [h1] at h
    exact ext_trans _ _ _ (ext_ensure_state a c1 _ h1) (ext_add_edge c1 b _ _ _ _ h)

theorem closed_insert_edge (st sym : Nat) (a b : Aut T) (es : Nat × Int)
    (h : insert_edge st sym a es = some b) (hc : Closed a) : Closed b := by
  unfold insert_edge at h
  cases h1 : a.ensure_state es.1 with
  | none => rw [h1] at h; cases h
  | some c1 =>
    rw [h1] at h
    exact closed_add_edge c1 b _ _ _ _ h (closed_ensure_state a c1 _ h1 hc)

theorem ext_insert_sym (other : Aut T) (st : Nat) (a b : Aut T) (sym : Nat)
    (h : insert_sym other st a sym = some b) : Ext a b :=
  foldlM_rel (insert_edge st sym) Ext ext_refl ext_trans _
    (fun c es c1 _ hc => ext_insert_edge st sym c c1 es hc) a b h

theorem closed_insert_sym (other : Aut T) (st : Nat) (a b : Aut T) (sym : Nat)
    (h : insert_sym other st a sym = some b) (hc : Closed a) : Closed b :=
  foldlM_inv (insert_edge st sym) Closed _
    (fun c es c1 _ hcl hs => closed_insert_edge st sym c c1 es hs hcl) a b hc h

theorem insert_state_inv [DecidableEq T] (other : Aut T) (a b : Aut T) (st : Nat)
    (h : insert_state other a st = some b) : Ext a b ∧ (Closed a → Closed b) := by
  unfold insert_state at h
  obtain ⟨b1, h1, h⟩ := Option.bind_eq_some.1 h
  obtain ⟨b2, h2, h⟩ := Option.bind_eq_some.1 h
  have e1 := ext_ensure_state a b1 st h1
  have c1 := closed_ensure_state a b1 st h1
  have e2 : Ext b1 b2 ∧ (Closed b1 → Closed b2) := by
    by_cases hg : (b1.sba && other.sba && other.has_pri st) = true
    · rw [if_pos hg] at h2
      obtain ⟨p, _, h2⟩ := Option.bind_eq_some.1 h2
      exact ⟨ext_set_pri b1 b2 st p h2, closed_set_pri b1 b2 st p h2⟩
    · rw [if_neg hg] at h2
      cases h2
      exact ⟨ext_refl _, fun hc => hc⟩
  have e3 : ∀ b3 : Aut T, b3.adj = b2.adj → Ext b2 b3 →
      other.syms.foldlM (insert_sym other st) b3 = some b →
      Ext a b ∧ (Closed a → Closed b) := by
    intro b3 hadj he3 hl
    have e4 := foldlM_rel (insert_sym other st) Ext ext_refl ext_trans _
      (fun c sym c1 _ hc => ext_insert_sym other st c c1 sym hc) b3 b hl
    refine ⟨ext_trans _ _ _ e1 (ext_trans _ _ _ e2.1 (ext_trans _ _ _ he3 e4)), ?_⟩
    intro hca
    exact foldlM_inv (insert_sym other st) Closed _
      (fun c sym c1 _ hcl hs => closed_insert_sym other st c c1 sym hs hcl) b3 b
      (closed_of_adj_eq b2 b3 hadj (e2.2 (c1 hca))) hl
  exact e3 (copy_tag other st b2 st) (copy_tag_frame other st b2 st).1
    (ext_copy_tag other st b2 st) h

theorem insert_inv [DecidableEq T] (a other b : Aut T) (h : a.insert other = some b) :
    Ext a b ∧ (Closed a → Closed b) := by
  unfold insert at h
  by_cases h1 : (!decide (a.aps = other.aps)) = true
  · rw [if_pos h1] at h; cases h
  · rw [if_neg h1] at h
    by_cases h2 : (!set_intersect_empty a.states other.states) = true
    · rw [if_pos h2] at h; cases h
    · rw [if_neg h2] at h
      dsimp only at h
      have key : ∀ a0 : Aut T, a0.adj = a.adj → Ext a a0 →
          other.states.foldlM (insert_state other) a0 = some b →
          Ext a b ∧ (Closed a → Closed b) := by
        intro a0 hadj he0 hl
        have e1 := foldlM_rel (insert_state other) Ext ext_refl ext_trans _
          (fun c st c1 _ hc => (insert_state_inv other c c1 st hc).1) a0 b hl
        refine ⟨ext_trans _ _ _ he0 e1, ?_⟩
        intro hc
        exact foldlM_inv (insert_state other) Closed _
          (fun c st c1 _ hcl hs => (insert_state_inv other c c1 st hs).2 hcl) a0 b
          (closed_of_adj_eq a a0 hadj hc) hl
      by_cases h3 : (!a.normalized || !other.normalized
          || decide (other.adj.firstKey ≠ some a.num_states)) = true
      · rw [if_pos h3] at h
        exact key { a with normalized := false } rfl ⟨rfl, rfl, rfl, rfl, fun _ h => h⟩ h
      · rw [if_neg h3] at h
        exact key a rfl (ext_refl a) h

/-! ### `make_complete` -/

theorem complete_sym_inv (rejsink : Nat) (rejpri : Int) (st : Nat) (a b : Aut T) (i : Nat)
    (h : complete_sym rejsink rejpri st a i = some b) : Ext a b ∧ (Closed a → Closed b) := by
  unfold complete_sym at h
  by_cases h1 : (a.succ st i).isEmpty = true
  · rw [if_pos h1] at h
    exact ⟨ext_add_edge a b _ _ _ _ h, closed_add_edge a b _ _ _ _ h⟩
  · rw [if_neg h1] at h
    cases h
    exact ⟨ext_refl _, fun hc => hc⟩

theorem complete_state_inv (rejsink : Nat) (rejpri : Int) (a b : Aut T) (st : Nat)
    (h : complete_state rejsink rejpri a st = some b) : Ext a b ∧ (Closed a → Closed b) := by
  unfold complete_state at h
  refine ⟨foldlM_rel (complete_sym rejsink rejpri st) Ext ext_refl ext_trans _
    (fun c i c1 _ hc => (complete_sym_inv rejsink rejpri st c c1 i hc).1) a b h, ?_⟩
  intro hc
  exact foldlM_inv (complete_sym rejsink rejpri st) Closed _
    (fun c i c1 _ hcl hs => (complete_sym_inv rejsink rejpri st c c1 i hs).2 hcl) a b hc h

theorem make_complete_inv (a b : Aut T) (h : a.make_complete = some b) :
    Ext a b ∧ (Closed a → Closed b) := by
  unfold make_complete at h
  by_cases h1 : (a.is_complete || decide (a.num_syms = 0)) = true
  · rw [if_pos h1] at h
    cases h
    exact ⟨ext_refl _, fun hc => hc⟩
  · rw [if_neg h1] at h
    dsimp only at h
    obtain ⟨a1, h2, h⟩ := Option.bind_eq_some.1 h
    obtain ⟨a2, h3, h⟩ := Option.bind_eq_some.1 h
    have e1 := ext_add_state a a1 _ h2
    have c1 := closed_add_state a a1 _ h2
    have e2 : Ext a1 a2 ∧ (Closed a1 → Closed a2) := by
      by_cases hg : a1.sba = true
      · rw [if_pos hg] at h3
        exact ⟨ext_set_pri a1 a2 _ _ h3, closed_set_pri a1 a2 _ _ h3⟩
      · rw [if_neg hg] at h3
        cases h3
        exact ⟨ext_refl _, fun hc => hc⟩
    have e3 := foldlM_rel (complete_state a.num_states
        (if pa_acc_is_even a.patype = true then 1 else 0)) Ext ext_refl ext_trans _
      (fun c st c1 _ hc => (complete_state_inv _ _ c c1 st hc).1) a2 b h
    refine ⟨ext_trans _ _ _ e1 (ext_trans _ _ _ e2.1 e3), ?_⟩
    intro hc
    exact foldlM_inv (complete_state a.num_states
        (if pa_acc_is_even a.patype = true then 1 else 0)) Closed _
      (fun c st c1 _ hcl hs => (complete_state_inv _ _ c c1 st hs).2 hcl) a2 b
      (e2.2 (c1 hc)) h

/-! ### The loop of `merge_states` -/

theorem merge_sym_inv (others : List Nat) (rep st : Nat) (a b : Aut T) (sym : Nat)
    (h : merge_sym others rep st a sym = some b) :
    Ext a b ∧ (Closed a → Closed b) ∧ (∀ t, b.has_state t = a.has_state t) := by
  unfold merge_sym at h
  split at h
  · cases h
    exact ⟨ext_refl _, fun hc => hc, fun _ => rfl⟩
  · rename_i front rest hfr
    cases hl : (a.succ_edges st sym).lookup front with
    | none => rw [hl] at h; cases h
    | some epri =>
      rw [hl] at h
      exact ⟨ext_add_edge a b _ _ _ _ h, closed_add_edge a b _ _ _ _ h,
        has_state_add_edge a b _ _ _ _ h⟩

theorem merge_state_inv (others : List Nat) (rep : Nat) (a b : Aut T) (st : Nat)
    (h : merge_state others rep a st = some b) :
    Ext a b ∧ (Closed a → Closed b) ∧ (∀ t, b.has_state t = a.has_state t) := by
  unfold merge_state at h
  refine ⟨foldlM_rel (merge_sym others rep st) Ext ext_refl ext_trans _
    (fun c i c1 _ hc => (merge_sym_inv others rep st c c1 i hc).1) a b h, ?_, ?_⟩
  · intro hc
    exact foldlM_inv (merge_sym others rep st) Closed _
      (fun c i c1 _ hcl hs => (merge_sym_inv others rep st c c1 i hs).2.1 hcl) a b hc h
  · exact foldlM_rel (merge_sym others rep st) (fun c c1 => ∀ t, c1.has_state t = c.has_state t)
      (fun _ _ => rfl) (fun _ _ _ h1 h2 t => (h2 t).trans (h1 t)) _
      (fun c i c1 _ hc => (merge_sym_inv others rep st c c1 i hc).2.2) a b h

theorem merge_loop_inv (others : List Nat) (rep : Nat) (l : List Nat) (a b : Aut T)
    (h : l.foldlM (merge_state others rep) a = some b) :
    Ext a b ∧ (Closed a → Closed b) ∧ (∀ t, b.has_state t = a.has_state t) := by
  refine ⟨foldlM_rel (merge_state others rep) Ext ext_refl ext_trans _
    (fun c i c1 _ hc => (merge_state_inv others rep c c1 i hc).1) a b h, ?_, ?_⟩
  · intro hc
    exact foldlM_inv (merge_state others rep) Closed _
      (fun c i c1 _ hcl hs => (merge_state_inv others rep c c1 i hs).2.1 hcl) a b hc h
  · exact foldlM_rel (merge_state others rep) (fun c c1 => ∀ t, c1.has_state t = c.has_state t)
      (fun _ _ => rfl) (fun _ _ _ h1 h2 t => (h2 t).trans (h1 t)) _
      (fun c i c1 _ hc => (merge_state_inv others rep c c1 i hc).2.2) a b h

/-- What a completed `merge_states` call guarantees about its checks, the state set and
the initial state. -/
theorem merge_states_some (a b : Aut T) (others : List Nat) (rep : Nat)
    (h : a.merge_states others rep = some b) :
    (others ≠ [] → a.has_state rep = true ∧ (∀ q ∈ others, a.has_state q = true) ∧
      is_set_vec others = true ∧ a.get_init ∉ others ∧ rep ∉ others) ∧
    (∀ t, b.has_state t = (a.has_state t && !decide (t ∈ others))) ∧
    b.init = a.init ∧ (Closed a → Closed b) ∧
    (others ≠ [] → ∃ a1, a.states.foldlM (merge_state others rep) a = some a1 ∧
      a1.remove_states others = some b) := by
  unfold merge_states at h
  cases ho : others with
  | nil =>
    rw [ho] at h
    simp only [List.isEmpty_nil, if_true] at h
    cases h
    refine ⟨fun hne => absurd rfl hne, ?_, rfl, fun hc => hc, fun hne => absurd rfl hne⟩
    intro t
    simp
  | cons o rest =>
    rw [← ho]
    rw [ho] at h
    simp only [List.isEmpty_cons, Bool.false_eq_true, if_false] at h
    rw [← ho] at h
    cases h1 : a.has_state rep with
    | false => simp [h1] at h
    | true =>
      cases h2 : (others.all fun q => a.has_state q) with
      | false => simp [h1, h2] at h
      | true =>
        cases h3 : is_set_vec others with
        | false => simp [h1, h2, h3] at h
        | true =>
          cases h4 : sorted_contains others a.get_init with
          | true => simp [h1, h2, h3, h4] at h
          | false =>
            cases h5 : sorted_contains others rep with
            | true => simp [h1, h2, h3, h4, h5] at h
            | false =>
              simp only [h1, h2, h3, h4, h5, Bool.not_true, Bool.false_eq_true, if_false]
                at h
              cases h6 : a.states.foldlM (merge_state others rep) a with
              | none => rw [h6] at h; cases h
              | some a1 =>
                rw [h6] at h
                obtain ⟨e1, c1, s1⟩ := merge_loop_inv others rep a.states a a1 h6
                have hi : a.get_init ∉ others := by
                  intro hm
                  rw [(sorted_contains_iff others _ h3).2 hm] at h4
                  cases h4
                have hr : rep ∉ others := by
                  intro hm
                  rw [(sorted_contains_iff others _ h3).2 hm] at h5
                  cases h5
                refine ⟨fun _ => ⟨rfl, fun q hq => (List.all_eq_true.1 h2) q hq, rfl, hi, hr⟩,
                  ?_, ?_, ?_, fun _ => ⟨a1, rfl, h⟩⟩
                · intro t
                  rw [has_state_remove_states a1 b others h, s1]
                · have := (init_remove_states a1 b others h).1
                  rw [e1.1] at this
                  exact this hi
                · intro hc
                  exact closed_remove_states a1 b others h (c1 hc)

theorem initOk_merge_states (a b : Aut T) (others : List Nat) (rep : Nat)
    (h : a.merge_states others rep = some b) (hi : InitOk a) : InitOk b := by
  obtain ⟨h1, h2, h3, _⟩ := merge_states_some a b others rep h
  unfold InitOk get_init at hi ⊢
  rw [h3, h2, hi]
  by_cases ho : others = []
  · subst ho; simp
  · have := (h1 ho).2.2.2.1
    unfold get_init at this
    simp [this]

/-! ### `quotient` -/

theorem quotient_step_inv (initial : Nat) (s s1 : Aut T × Bool) (ecl : List Nat)
    (h : quotient_step initial s ecl = some s1) :
    (InitOk s.1 → InitOk s1.1) ∧ (Closed s.1 → Closed s1.1) ∧ s1.1.init = s.1.init := by
  unfold quotient_step at h
  split_ifs at h with h1
  · cases h
    exact ⟨fun hi => hi, fun hc => hc, rfl⟩
  · simp only at h
    cases hm : s.1.merge_states (quotient_choice initial s.2 ecl).1
        (quotient_choice initial s.2 ecl).2.1 with
    | none => rw [hm] at h; cases h
    | some a1 =>
      rw [hm] at h
      cases h
      exact ⟨initOk_merge_states _ _ _ _ hm, (merge_states_some _ _ _ _ hm).2.2.2.1,
        (merge_states_some _ _ _ _ hm).2.2.1⟩

theorem quotient_inv (a b : Aut T) (equiv : List (List Nat)) (h : a.quotient equiv = some b) :
    (InitOk a → InitOk b) ∧ (Closed a → Closed b) ∧ b.init = a.init := by
  unfold quotient at h
  cases hf : equiv.foldlM (quotient_step a.get_init) (a, false) with
  | none => rw [hf] at h; cases h
  | some r =>
    rw [hf] at h
    cases h
    have := foldlM_rel (quotient_step a.get_init)
      (fun (s s1 : Aut T × Bool) =>
        (InitOk s.1 → InitOk s1.1) ∧ (Closed s.1 → Closed s1.1) ∧ s1.1.init = s.1.init)
      (fun _ => ⟨fun h => h, fun h => h, rfl⟩)
      (fun _ _ _ h1 h2 => ⟨fun h => h2.1 (h1.1 h), fun h => h2.2.1 (h1.2.1 h),
        h2.2.2.trans h1.2.2⟩) equiv
      (fun s ecl s1 _ hs => quotient_step_inv a.get_init s s1 ecl hs) (a, false) r hf
    exact this

end Aut

/-- A loop whose rounds complete and extend an invariant indexed by the elements already
processed completes with the invariant for the whole list. -/
theorem foldlM_indexed {α β : Type} (f : β → α → Option β) (I : List α → β → Prop) (l : List α)
    (hstep : ∀ pre x post b, l = pre ++ x :: post → I pre b →
      ∃ b1, f b x = some b1 ∧ I (pre ++ [x]) b1) :
    ∀ b, I [] b → ∃ b1, List.foldlM f b l = some b1 ∧ I l b1 := by
  have key : ∀ post pre, l = pre ++ post → ∀ b, I pre b →
      ∃ b1, List.foldlM f b post = some b1 ∧ I l b1 := by
    intro post
    induction post with
    | nil =>
      intro pre hl b hb
      rw [List.append_nil] at hl
      subst hl
      exact ⟨b, rfl, hb⟩
    | cons x t ih =>
      intro pre hl b hb
      obtain ⟨b2, h2, hI2⟩ := hstep pre x t b hl hb
      obtain ⟨b3, h3, hI3⟩ := ih (pre ++ [x]) (by rw [hl]; simp) b2 hI2
      exact ⟨b3, by rw [foldlM_cons_opt, h2]; exact h3, hI3⟩
  intro b hb
  exact key l [] rfl b hb

theorem map_index_of_some (m : SMap Nat Nat) (k v : Nat) (h : m.lookup k = some v) :
    map_index m k = (v, m) := by
  unfold map_index
  rw [h]

namespace Aut

variable {T : Type}

/-! ## The renumbering of `get_normalized` -/

theorem renumber_fold (l : List Nat) (hl : l.Nodup) (m0 : SMap Nat Nat) (i0 : Nat)
    (f0 : Bool) :
    (∀ j k, l[j]? = some k → (l.foldl renumber_step (m0, i0, f0)).1.lookup k = some (i0 + j)) ∧
    (∀ k, k ∉ l → (l.foldl renumber_step (m0, i0, f0)).1.lookup k = m0.lookup k) ∧
    ((l.foldl renumber_step (m0, i0, f0)).2.2 = false ↔
      (f0 = false ∧ ∀ j k, l[j]? = some k → k = i0 + j)) := by
  induction l generalizing m0 i0 f0 with
  | nil => simp
  | cons x t ih =>
    have hnd := List.nodup_cons.1 hl
    obtain ⟨ih1, ih2, ih3⟩ := ih hnd.2 (m0.ins x i0) (i0 + 1) (f0 || decide (i0 ≠ x))
    rw [List.foldl_cons]
    show (∀ j k, (x :: t)[j]? = some k →
        (t.foldl renumber_step (m0.ins x i0, i0 + 1, f0 || decide (i0 ≠ x))).1.lookup k =
          some (i0 + j)) ∧
      (∀ k, k ∉ x :: t →
        (t.foldl renumber_step (m0.ins x i0, i0 + 1, f0 || decide (i0 ≠ x))).1.lookup k =
          m0.lookup k) ∧
      ((t.foldl renumber_step (m0.ins x i0, i0 + 1, f0 || decide (i0 ≠ x))).2.2 = false ↔
        (f0 = false ∧ ∀ j k, (x :: t)[j]? = some k → k = i0 + j))
    refine ⟨?_, ?_, ?_⟩
    · intro j k hj
      cases j with
      | zero =>
        simp only [List.getElem?_cons_zero, Option.some.injEq] at hj
        subst hj
        rw [ih2 x hnd.1, SMap.lookup_ins_self]
        rfl
      | succ j =>
        simp only [List.getElem?_cons_succ] at hj
        rw [ih1 j k hj]
        congr 1
        omega
    · intro k hk
      have hk1 : k ∉ t := fun h => hk (List.mem_cons_of_mem _ h)
      have hk2 : k ≠ x := fun h => hk (h ▸ List.mem_cons_self _ _)
      rw [ih2 k hk1, SMap.lookup_ins_of_ne _ _ _ _ hk2]
    · rw [ih3]
      constructor
      · rintro ⟨hf, hrest⟩
        simp only [Bool.or_eq_false_iff, decide_eq_false_iff_not, ne_eq, not_not] at hf
        refine ⟨hf.1, ?_⟩
        intro j k hj
        cases j with
        | zero =>
          simp only [List.getElem?_cons_zero, Option.some.injEq] at hj
          omega
        | succ j =>
          simp only [List.getElem?_cons_succ] at hj
          have := hrest j k hj
          omega
      · rintro ⟨hf, hrest⟩
        refine ⟨?_, ?_⟩
        · have := hrest 0 x (by simp)
          simp [hf]
          omega
        · intro j k hj
          have := hrest (j + 1) k (by simpa using hj)
          omega

theorem renumbering_spec (a : Aut T) (offset : Nat) :
    (∀ j k, a.states[j]? = some k → (a.renumbering offset).1.lookup k = some (offset + j)) ∧
    (∀ k, a.has_state k = false → (a.renumbering offset).1.lookup k = none) ∧
    ((a.renumbering offset).2.2 = false ↔ ∀ j k, a.states[j]? = some k → k = offset + j) := by
  obtain ⟨h1, h2, h3⟩ := renumber_fold a.states a.adj.keys_nodup SMap.empty offset false
  refine ⟨h1, ?_, ?_⟩
  · intro k hk
    have : k ∉ a.states := by
      rw [mem_states, hk]
      simp
    exact (h2 k this).trans (SMap.lookup_empty k)
  · unfold renumbering
    rw [h3]
    simp

/-- The states are exactly `offset .. offset + n - 1` when the i-th state is `offset + i`. -/
theorem has_state_of_dense (a : Aut T) (offset : Nat)
    (h : ∀ j k, a.states[j]? = some k → k = offset + j) (t : Nat) :
    a.has_state t = true ↔ (offset ≤ t ∧ t < offset + a.num_states) := by
  have hlen : a.states.length = a.num_states := by
    unfold num_states SMap.size states SMap.keys
    simp
  rw [← mem_states, ← hlen]
  constructor
  · intro ht
    obtain ⟨j, hj, e⟩ := List.getElem_of_mem ht
    have := h j t (by rw [List.getElem?_eq_getElem hj, e])
    omega
  · rintro ⟨h1, h2⟩
    have hj : t - offset < a.states.length := by omega
    have := h (t - offset) (a.states[t - offset]) (List.getElem?_eq_getElem hj)
    have e : a.states[t - offset] = t := by omega
    rw [← e]
    exact List.getElem_mem hj

theorem lookup_foldl_ins_self (l : List Nat) (m : SMap Nat Nat) (k : Nat) :
    (l.foldl (fun r s => r.ins s s) m).lookup k = if k ∈ l then some k else m.lookup k := by
  induction l generalizing m with
  | nil => simp
  | cons x t ih =>
    rw [List.foldl_cons, ih]
    by_cases h1 : k ∈ t
    · simp [h1]
    · by_cases h2 : k = x
      · subst h2; simp [h1]
      · simp [h1, h2, SMap.lookup_ins_of_ne]

/-! ## Invariants of `normalize` that hold for every automaton -/

theorem closed_new (statebased : Bool) (title : String) (ap : List String) (initial : Nat) :
    Closed (Aut.new statebased title ap initial : Aut T) := by
  intro p x q pri h
  unfold edge_pri Aut.new blank at h
  simp only [SMap.lookup_ins] at h
  split_ifs at h with h1
  · simp at h
  · simp at h

theorem initOk_new (statebased : Bool) (title : String) (ap : List String) (initial : Nat) :
    InitOk (Aut.new statebased title ap initial : Aut T) := by
  unfold InitOk get_init has_state Aut.new
  simp [SMap.contains_ins]

theorem has_state_new (statebased : Bool) (title : String) (ap : List String)
    (initial t : Nat) :
    (Aut.new statebased title ap initial : Aut T).has_state t = decide (t = initial) := by
  unfold has_state Aut.new
  show (SMap.empty.ins initial SMap.empty).contains t = decide (t = initial)
  rw [SMap.contains_ins]
  simp [SMap.contains]

theorem norm_edge_inv (mst sym : Nat) (s s1 : Aut T × SMap Nat Nat) (es : Nat × Int)
    (h : norm_edge mst sym s es = some s1) : Ext s.1 s1.1 ∧ (Closed s.1 → Closed s1.1) := by
  unfold norm_edge at h
  dsimp only at h
  obtain ⟨c1, h1, h⟩ := Option.bind_eq_some.1 h
  obtain ⟨c2, h2, h⟩ := Option.map_eq_some'.1 h
  cases h
  exact ⟨ext_trans _ _ _ (ext_ensure_state _ _ _ h1) (ext_add_edge _ _ _ _ _ _ h2),
    fun hc => closed_add_edge _ _ _ _ _ _ h2 (closed_ensure_state _ _ _ h1 hc)⟩

theorem normRel_refl (s : Aut T × SMap Nat Nat) : NormRel s s :=
  ⟨ext_refl _, fun h => h⟩

theorem normRel_trans (s s1 s2 : Aut T × SMap Nat Nat) (h1 : NormRel s s1)
    (h2 : NormRel s1 s2) : NormRel s s2 :=
  ⟨ext_trans _ _ _ h1.1 h2.1, fun h => h2.2 (h1.2 h)⟩

theorem norm_sym_inv (a : Aut T) (st mst : Nat) (s s1 : Aut T × SMap Nat Nat) (sym : Nat)
    (h : norm_sym a st mst s sym = some s1) : NormRel s s1 :=
  foldlM_rel (norm_edge mst sym) NormRel normRel_refl normRel_trans _
    (fun c es c1 _ hc => norm_edge_inv mst sym c c1 es hc) s s1 h

theorem norm_state_inv [DecidableEq T] (a : Aut T) (s s1 : Aut T × SMap Nat Nat) (st : Nat)
    (h : norm_state a s st = some s1) : NormRel s s1 := by
  unfold norm_state at h
  dsimp only at h
  obtain ⟨r1, h1, h⟩ := Option.bind_eq_some.1 h
  obtain ⟨r3, h3, h⟩ := Option.bind_eq_some.1 h
  have e1 := ext_ensure_state _ _ _ h1
  have c1 := closed_ensure_state _ _ _ h1
  have e2 := ext_copy_tag a st r1 (map_index s.2 st).1
  have c2 := closed_of_adj_eq r1 _ (copy_tag_frame a st r1 (map_index s.2 st).1).1
  have e3 : Ext (copy_tag a st r1 (map_index s.2 st).1) r3 ∧
      (Closed (copy_tag a st r1 (map_index s.2 st).1) → Closed r3) := by
    by_cases hg : (a.sba && a.has_pri st) = true
    · rw [if_pos hg] at h3
      obtain ⟨p, _, h3⟩ := Option.bind_eq_some.1 h3
      exact ⟨ext_set_pri _ _ _ _ h3, closed_set_pri _ _ _ _ h3⟩
    · rw [if_neg hg] at h3
      cases h3
      exact ⟨ext_refl _, fun hc => hc⟩
  have e4 := foldlM_rel (norm_sym a st (map_index s.2 st).1) NormRel normRel_refl
    normRel_trans _ (fun c sym c1 _ hc => norm_sym_inv a st _ c c1 sym hc) _ s1 h
  refine ⟨ext_trans _ _ _ e1 (ext_trans _ _ _ e2 (ext_trans _ _ _ e3.1 e4.1)), ?_⟩
  intro hc
  exact e4.2 (e3.2 (c2 (c1 hc)))

theorem get_normalized_inv [DecidableEq T] (a : Aut T) (offset : Nat)
    (r : Aut T × SMap Nat Nat) (h : a.get_normalized offset = some r) :
    (InitOk a → InitOk r.1) ∧ (Closed a → Closed r.1) := by
  unfold get_normalized at h
  by_cases hn : (!(a.renumbering offset).2.2) = true
  · rw [if_pos hn] at h
    cases h
    exact ⟨fun h => h, fun h => h⟩
  · rw [if_neg hn] at h
    dsimp only at h
    have e := foldlM_rel (norm_state a) NormRel normRel_refl normRel_trans _
      (fun c st c1 _ hc => norm_state_inv a c c1 st hc) _ r h
    have hc0 : Closed (a.norm_start (map_index (a.renumbering offset).1 a.init).1) :=
      closed_of_adj_eq (Aut.new a.sba a.name a.aps
        (map_index (a.renumbering offset).1 a.init).1 : Aut T) _ rfl (closed_new _ _ _ _)
    have hi0 : InitOk (a.norm_start (map_index (a.renumbering offset).1 a.init).1) :=
      initOk_new (T := T) a.sba a.name a.aps _
    exact ⟨fun _ => Ext.initOk _ _ e.1 hi0, fun _ => e.2 hc0⟩

theorem normalize_inv [DecidableEq T] (a : Aut T) (offset : Nat)
    (r : Aut T × SMap Nat Nat) (h : a.normalize offset = some r) :
    (InitOk a → InitOk r.1) ∧ (Closed a → Closed r.1) := by
  unfold normalize at h
  obtain ⟨r0, h0, h⟩ := Option.map_eq_some'.1 h
  cases h
  obtain ⟨h1, h2⟩ := get_normalized_inv a offset r0 h0
  exact ⟨fun hi => h1 hi, fun hc => closed_of_adj_eq r0.1 _ rfl (h2 hc)⟩

/-! ## The renumbering branch of `get_normalized` on a well-formed automaton -/

theorem adds_refl (r0 : Aut T) : Adds r0 r0 (fun _ => False) (fun _ _ _ _ => False) :=
  ⟨rfl, rfl, rfl, rfl, rfl, fun _ => by simp, fun _ _ _ _ => by simp⟩

theorem Adds.congr (r0 r : Aut T) (S S1 : Nat → Prop) (E E1 : Nat → Nat → Nat → Int → Prop)
    (h : Adds r0 r S E) (hS : ∀ t, S t ↔ S1 t) (hE : ∀ p x q pri, E p x q pri ↔ E1 p x q pri) :
    Adds r0 r S1 E1 := by
  obtain ⟨h1, h2, h3, h4, h5, h6, h7⟩ := h
  refine ⟨h1, h2, h3, h4, h5, ?_, ?_⟩
  · intro t; rw [h6, hS]
  · intro p x q pri; rw [h7, hE]

theorem adds_trans (r0 r1 r2 : Aut T) (S S1 : Nat → Prop)
    (E E1 : Nat → Nat → Nat → Int → Prop) (h : Adds r0 r1 S E) (h1 : Adds r1 r2 S1 E1) :
    Adds r0 r2 (fun t => S t ∨ S1 t) (fun p x q pri => E p x q pri ∨ E1 p x q pri) := by
  obtain ⟨a1, a2, a3, a4, a5, a6, a7⟩ := h
  obtain ⟨b1, b2, b3, b4, b5, b6, b7⟩ := h1
  refine ⟨b1.trans a1, b2.trans a2, b3.trans a3, b4.trans a4, b5.trans a5, ?_, ?_⟩
  · intro t; rw [b6, a6, or_assoc]
  · intro p x q pri; rw [b7, a7, or_assoc]

theorem edge_pri_ensure_state (a b : Aut T) (s : Nat) (h : a.ensure_state s = some b)
    (p x q : Nat) : b.edge_pri p x q = a.edge_pri p x q := by
  obtain ⟨_, _, h3, _⟩ := ensure_state_some a b s h
  rw [edge_pri_eq, h3, ← edge_pri_eq]

theorem num_syms_congr (a b : Aut T) (h : b.aps = a.aps) : b.num_syms = a.num_syms := by
  unfold num_syms; rw [h]

theorem num_syms_pos (a : Aut T) : 0 < a.num_syms := by
  unfold num_syms
  split
  · decide
  · exact Nat.pow_pos (by decide)

theorem num_syms_of_lt (a : Aut T) (h : a.aps.length < 31) :
    a.num_syms = 2 ^ a.aps.length := by
  unfold num_syms
  have e : a.aps.length % 32 = a.aps.length := Nat.mod_eq_of_lt (by omega)
  rw [e, if_neg (by omega)]

/-- One copied edge: the target is created if missing and the edge is added. -/
theorem adds_edge_step (r0 r c1 c2 : Aut T) (S : Nat → Prop)
    (E : Nat → Nat → Nat → Int → Prop) (p x t : Nat) (pri : Int) (hA : Adds r0 r S E)
    (h1 : r.ensure_state t = some c1) (h2 : c1.add_edge p x t pri = some c2) :
    Adds r0 c2 (fun u => S u ∨ u = t)
      (fun p1 x1 q1 pri1 => E p1 x1 q1 pri1 ∨ (p1 = p ∧ x1 = x ∧ q1 = t ∧ pri1 = pri)) := by
  obtain ⟨a1, a2, a3, a4, a5, a6, a7⟩ := hA
  obtain ⟨_, e2, _, e4, e5, e6, e7, e8, _⟩ := ensure_state_some r c1 t h1
  obtain ⟨_, _, _, _, hnone, e⟩ := add_edge_some c1 c2 p x t pri h2
  have hs := has_state_add_edge c1 c2 p x t pri h2
  have he := edge_pri_add_edge c1 c2 p x t pri h2
  refine ⟨?_, ?_, ?_, ?_, ?_, ?_, ?_⟩
  · rw [← a1, ← e4]; subst e; rfl
  · rw [← a2, ← e5]; subst e; rfl
  · rw [← a3, ← e7]; subst e; rfl
  · rw [← a4, ← e6]; subst e; rfl
  · rw [← a5, ← e8]; subst e; rfl
  · intro u
    rw [hs, e2]
    simp only [Bool.or_eq_true, decide_eq_true_eq]
    rw [a6]
    tauto
  · intro p1 x1 q1 pri1
    rw [he]
    by_cases hm : p1 = p ∧ x1 = x ∧ q1 = t
    · rw [if_pos hm]
      obtain ⟨rfl, rfl, rfl⟩ := hm
      constructor
      · intro h
        right; right
        exact ⟨rfl, rfl, rfl, (Option.some.inj h).symm⟩
      · intro h
        have hold : ¬ (r0.edge_pri p1 x1 q1 = some pri1 ∨ E p1 x1 q1 pri1) := by
          rw [← a7, ← edge_pri_ensure_state r c1 q1 h1, hnone]
          simp
        rcases h with h | h | h
        · exact absurd (Or.inl h) hold
        · exact absurd (Or.inr h) hold
        · rw [h.2.2.2]
    · rw [if_neg hm, edge_pri_ensure_state r c1 t h1, a7]
      constructor
      · rintro (h | h)
        · exact Or.inl h
        · exact Or.inr (Or.inl h)
      · rintro (h | h | h)
        · exact Or.inl h
        · exact Or.inr h
        · exact absurd ⟨h.1, h.2.1, h.2.2.1⟩ hm

theorem norm_edge_total (mst sym : Nat) (r : Aut T) (m0 : SMap Nat Nat) (q v : Nat)
    (pri : Int) (hq : m0.lookup q = some v) (hmst : r.has_state mst = true)
    (hsym : sym < r.num_syms) (hpri : pri < 0 ∨ r.sba = false)
    (hfree : r.edge_pri mst sym v = none) :
    ∃ c1 c2, r.ensure_state v = some c1 ∧ c1.add_edge mst sym v pri = some c2 ∧
      norm_edge mst sym (r, m0) (q, pri) = some (c2, m0) := by
  obtain ⟨c1, h1⟩ := ensure_state_total r v
  obtain ⟨e1, e2, _, e4, e5, _⟩ := ensure_state_some r c1 v h1
  have hst : c1.has_state mst = true := by rw [e2, hmst]; simp
  obtain ⟨c2, h2⟩ := add_edge_total c1 mst sym v pri hst
    (by rw [num_syms_congr r c1 e5]; exact hsym) e1
    (by rw [e4]; exact hpri)
    (by rw [edge_pri_ensure_state r c1 v h1]; exact hfree)
  refine ⟨c1, c2, h1, h2, ?_⟩
  unfold norm_edge
  simp only [map_index_of_some m0 q v hq, h1]
  show Option.map (fun c2 => (c2, m0)) (c1.add_edge mst sym v pri) = some (c2, m0)
  rw [h2]
  rfl

/-- The innermost loop of `get_normalized`: all edges of `(st, sym)` are copied. -/
theorem norm_sym_spec (a : Aut T) (m0 : SMap Nat Nat) (st sym mst : Nat) (r0 : Aut T)
    (hdom : ∀ q pri, a.edge_pri st sym q = some pri → ∃ v, m0.lookup q = some v)
    (hinj : ∀ q q1 pri pri1, a.edge_pri st sym q = some pri →
      a.edge_pri st sym q1 = some pri1 → (m0.lookup q).getD 0 = (m0.lookup q1).getD 0 → q = q1)
    (hmst : r0.has_state mst = true)
    (hsym : ∀ q pri, a.edge_pri st sym q = some pri → sym < r0.num_syms)
    (hpri : ∀ q pri, a.edge_pri st sym q = some pri → pri < 0 ∨ r0.sba = false)
    (hfree : ∀ q1, r0.edge_pri mst sym q1 = none) :
    ∃ r, norm_sym a st mst (r0, m0) sym = some (r, m0) ∧
      Adds r0 r (fun t => ∃ q pri, a.edge_pri st sym q = some pri ∧ t = (m0.lookup q).getD 0)
        (fun p x q1 pri => p = mst ∧ x = sym ∧
          ∃ q, a.edge_pri st sym q = some pri ∧ q1 = (m0.lookup q).getD 0) := by
  have hnd : ((a.succ_edges st sym).toList.map Prod.fst).Nodup := (a.succ_edges st sym).keys_nodup
  have hmem : ∀ e : Nat × Int, e ∈ (a.succ_edges st sym).toList ↔
      a.edge_pri st sym e.1 = some e.2 := fun e => mem_succ_edges_toList a st sym e.1 e.2
  obtain ⟨b, hb, hm, hA⟩ := foldlM_indexed (norm_edge mst sym)
    (fun pre (b : Aut T × SMap Nat Nat) => b.2 = m0 ∧
      Adds r0 b.1 (fun t => ∃ e ∈ pre, t = (m0.lookup e.1).getD 0)
        (fun p x q1 pri => p = mst ∧ x = sym ∧
          ∃ e ∈ pre, q1 = (m0.lookup e.1).getD 0 ∧ pri = e.2))
    (a.succ_edges st sym).toList
    (by
      intro pre e post b hl hI
      obtain ⟨hm, hA⟩ := hI
      obtain ⟨r, m⟩ := b
      simp only at hm hA
      subst hm
      obtain ⟨q, pri⟩ := e
      have hin : (q, pri) ∈ (a.succ_edges st sym).toList := by rw [hl]; simp
      have hedge := (hmem (q, pri)).1 hin
      obtain ⟨v, hv⟩ := hdom q pri hedge
      have hvq : (m.lookup q).getD 0 = v := by rw [hv]; rfl
      have hqpre : ∀ e ∈ pre, e.1 ≠ q := by
        intro e he heq
        rw [hl, List.map_append, List.map_cons] at hnd
        have hd := (List.nodup_append.1 hnd).2.2
        exact hd (List.mem_map_of_mem Prod.fst he) (by rw [heq]; exact List.mem_cons_self _ _)
      have hfree2 : r.edge_pri mst sym v = none := by
        cases hc : r.edge_pri mst sym v with
        | none => rfl
        | some pri1 =>
          exfalso
          rcases (hA.2.2.2.2.2.2 mst sym v pri1).1 hc with h | ⟨_, _, e, he, hev, _⟩
          · rw [hfree v] at h; cases h
          · have hee : a.edge_pri st sym e.1 = some e.2 :=
              (hmem e).1 (by rw [hl]; exact List.mem_append_left _ he)
            have := hinj q e.1 pri e.2 hedge hee (by rw [hvq, hev])
            exact hqpre e he this.symm
      obtain ⟨c1, c2, h1, h2, h3⟩ := norm_edge_total mst sym r m q v pri hv
        ((hA.2.2.2.2.2.1 mst).2 (Or.inl hmst))
        (by rw [num_syms_congr r0 r hA.2.1]; exact hsym q pri hedge)
        (by rw [hA.1]; exact hpri q pri hedge) hfree2
      refine ⟨(c2, m), h3, rfl, ?_⟩
      refine Adds.congr _ _ _ _ _ _ (adds_edge_step r0 r c1 c2 _ _ mst sym v pri hA h1 h2) ?_ ?_
      · intro t
        simp only [List.mem_append, List.mem_singleton]
        constructor
        · rintro (⟨e, he, ht⟩ | ht)
          · exact ⟨e, Or.inl he, ht⟩
          · exact ⟨(q, pri), Or.inr rfl, by rw [ht, ← hvq]⟩
        · rintro ⟨e, he | he, ht⟩
          · exact Or.inl ⟨e, he, ht⟩
          · right; rw [ht, he]; exact hvq
      · intro p x q1 pri1
        simp only [List.mem_append, List.mem_singleton]
        constructor
        · rintro (⟨hp, hx, e, he, h5, h6⟩ | ⟨hp, hx, h5, h6⟩)
          · exact ⟨hp, hx, e, Or.inl he, h5, h6⟩
          · exact ⟨hp, hx, (q, pri), Or.inr rfl, by rw [h5, ← hvq], h6⟩
        · rintro ⟨hp, hx, e, he | he, h5, h6⟩
          · exact Or.inl ⟨hp, hx, e, he, h5, h6⟩
          · right
            subst he
            exact ⟨hp, hx, by rw [h5]; exact hvq, h6⟩)
    (r0, m0) ⟨rfl, Adds.congr _ _ _ _ _ _ (adds_refl r0) (by simp) (by simp)⟩
  obtain ⟨r, m⟩ := b
  simp only at hm hA
  subst hm
  refine ⟨r, hb, Adds.congr _ _ _ _ _ _ hA ?_ ?_⟩
  · intro t
    constructor
    · rintro ⟨e, he, ht⟩
      exact ⟨e.1, e.2, (hmem e).1 he, ht⟩
    · rintro ⟨q, pri, he, ht⟩
      exact ⟨(q, pri), (hmem (q, pri)).2 he, ht⟩
  · intro p x q1 pri
    constructor
    · rintro ⟨hp, hx, e, he, h5, h6⟩
      refine ⟨hp, hx, e.1, ?_, h5⟩
      rw [h6]
      exact (hmem e).1 he
    · rintro ⟨hp, hx, q, he, h5⟩
      exact ⟨hp, hx, (q, pri), (hmem (q, pri)).2 he, h5, rfl⟩

/-- The middle loop of `get_normalized`: all outgoing edges of `st` are copied. -/
theorem norm_outsyms_spec (a : Aut T) (m0 : SMap Nat Nat) (st mst : Nat) (r0 : Aut T)
    (hdom : ∀ x q pri, a.edge_pri st x q = some pri → ∃ v, m0.lookup q = some v)
    (hinj : ∀ x q q1 pri pri1, a.edge_pri st x q = some pri →
      a.edge_pri st x q1 = some pri1 → (m0.lookup q).getD 0 = (m0.lookup q1).getD 0 → q = q1)
    (hmst : r0.has_state mst = true)
    (hsym : ∀ x q pri, a.edge_pri st x q = some pri → x < r0.num_syms)
    (hpri : ∀ x q pri, a.edge_pri st x q = some pri → pri < 0 ∨ r0.sba = false)
    (hfree : ∀ x q1, r0.edge_pri mst x q1 = none) :
    ∃ r, (a.state_outsyms st).foldlM (norm_sym a st mst) (r0, m0) = some (r, m0) ∧
      Adds r0 r
        (fun t => ∃ x q pri, a.edge_pri st x q = some pri ∧ t = (m0.lookup q).getD 0)
        (fun p x q1 pri => p = mst ∧
          ∃ q, a.edge_pri st x q = some pri ∧ q1 = (m0.lookup q).getD 0) := by
  have hnd : (a.state_outsyms st).Nodup := (a.out_map st).keys_nodup
  obtain ⟨b, hb, hm, hA⟩ := foldlM_indexed (norm_sym a st mst)
    (fun pre (b : Aut T × SMap Nat Nat) => b.2 = m0 ∧
      Adds r0 b.1
        (fun t => ∃ x ∈ pre, ∃ q pri, a.edge_pri st x q = some pri ∧
          t = (m0.lookup q).getD 0)
        (fun p x q1 pri => p = mst ∧ x ∈ pre ∧
          ∃ q, a.edge_pri st x q = some pri ∧ q1 = (m0.lookup q).getD 0))
    (a.state_outsyms st)
    (by
      intro pre sym post b hl hI
      obtain ⟨hm, hA⟩ := hI
      obtain ⟨r, m⟩ := b
      simp only at hm hA
      subst hm
      have hsympre : sym ∉ pre := by
        intro hin
        rw [hl] at hnd
        exact (List.nodup_append.1 hnd).2.2 hin (List.mem_cons_self _ _)
      have hfree2 : ∀ q1, r.edge_pri mst sym q1 = none := by
        intro q1
        cases hc : r.edge_pri mst sym q1 with
        | none => rfl
        | some pri1 =>
          exfalso
          rcases (hA.2.2.2.2.2.2 mst sym q1 pri1).1 hc with h | ⟨_, hin, _⟩
          · rw [hfree sym q1] at h; cases h
          · exact hsympre hin
      obtain ⟨r1, h1, hA1⟩ := norm_sym_spec a m st sym mst r (hdom sym) (hinj sym)
        ((hA.2.2.2.2.2.1 mst).2 (Or.inl hmst))
        (fun q pri he => by rw [num_syms_congr r0 r hA.2.1]; exact hsym sym q pri he)
        (fun q pri he => by rw [hA.1]; exact hpri sym q pri he) hfree2
      refine ⟨(r1, m), h1, rfl, ?_⟩
      refine Adds.congr _ _ _ _ _ _ (adds_trans r0 r r1 _ _ _ _ hA hA1) ?_ ?_
      · intro t
        simp only [List.mem_append, List.mem_singleton]
        constructor
        · rintro (⟨x, hx, q, pri, he, ht⟩ | ⟨q, pri, he, ht⟩)
          · exact ⟨x, Or.inl hx, q, pri, he, ht⟩
          · exact ⟨sym, Or.inr rfl, q, pri, he, ht⟩
        · rintro ⟨x, hx | hx, q, pri, he, ht⟩
          · exact Or.inl ⟨x, hx, q, pri, he, ht⟩
          · subst hx; exact Or.inr ⟨q, pri, he, ht⟩
      · intro p x q1 pri
        simp only [List.mem_append, List.mem_singleton]
        constructor
        · rintro (⟨hp, hx, q, he, h5⟩ | ⟨hp, hx, q, he, h5⟩)
          · exact ⟨hp, Or.inl hx, q, he, h5⟩
          · subst hx; exact ⟨hp, Or.inr rfl, q, he, h5⟩
        · rintro ⟨hp, hx | hx, q, he, h5⟩
          · exact Or.inl ⟨hp, hx, q, he, h5⟩
          · subst hx; exact Or.inr ⟨hp, rfl, q, he, h5⟩)
    (r0, m0) ⟨rfl, Adds.congr _ _ _ _ _ _ (adds_refl r0) (by simp) (by simp)⟩
  obtain ⟨r, m⟩ := b
  simp only at hm hA
  subst hm
  refine ⟨r, hb, Adds.congr _ _ _ _ _ _ hA ?_ ?_⟩
  · intro t
    constructor
    · rintro ⟨x, _, q, pri, he, ht⟩
      exact ⟨x, q, pri, he, ht⟩
    · rintro ⟨x, q, pri, he, ht⟩
      exact ⟨x, mem_outsyms_of_edge a st x q pri he, q, pri, he, ht⟩
  · intro p x q1 pri
    constructor
    · rintro ⟨hp, _, q, he, h5⟩
      exact ⟨hp, q, he, h5⟩
    · rintro ⟨hp, q, he, h5⟩
      exact ⟨hp, mem_outsyms_of_edge a st x q pri he, q, he, h5⟩

theorem edge_pri_of_adj_eq (a b : Aut T) (h : b.adj = a.adj) (p x q : Nat) :
    b.edge_pri p x q = a.edge_pri p x q := by
  unfold edge_pri; rw [h]

theorem has_state_of_adj_eq (a b : Aut T) (h : b.adj = a.adj) (t : Nat) :
    b.has_state t = a.has_state t := by
  unfold has_state; rw [h]

/-- The part of one round of the outer loop of `get_normalized` before the edges are
copied: the state is created, tagged and given its priority. -/
theorem norm_state_head [DecidableEq T] (a : Aut T) (st mst : Nat) (r : Aut T)
    (hpos : ∀ s v, a.state_pri.lookup s = some v → (0 : Int) ≤ v) (hsba : r.sba = a.sba) :
    ∃ r1 r3, r.ensure_state mst = some r1 ∧
      (if (a.sba && a.has_pri st) = true then
        (a.get_pri st).bind fun p => (copy_tag a st r1 mst).set_pri mst p
       else some (copy_tag a st r1 mst)) = some r3 ∧
      r3.sba = r.sba ∧ r3.aps = r.aps ∧ r3.patype = r.patype ∧ r3.init = r.init ∧
      (∀ t, r3.has_state t = (decide (t = mst) || r.has_state t)) ∧
      (∀ p x q, r3.edge_pri p x q = r.edge_pri p x q) ∧
      r3.state_pri =
        (if (a.sba && a.has_pri st) = true then
          r.state_pri.ins mst ((a.state_pri.lookup st).getD 0)
         else r.state_pri) := by
  obtain ⟨r1, h1⟩ := ensure_state_total r mst
  obtain ⟨e1, e2, e3, e4, e5, e6, e7, e8, _⟩ := ensure_state_some r r1 mst h1
  obtain ⟨f1, f2, f3, f4, f5, f6, _⟩ := copy_tag_frame a st r1 mst
  by_cases hg : (a.sba && a.has_pri st) = true
  · simp only [if_pos hg]
    simp only [Bool.and_eq_true] at hg
    obtain ⟨hs, hp⟩ := hg
    obtain ⟨p, hp⟩ := (SMap.contains_iff a.state_pri st).1 hp
    have hget : a.get_pri st = some p := by
      unfold get_pri is_sba
      rw [hs, hp]; rfl
    have hst2 : (copy_tag a st r1 mst).has_state mst = true := by
      rw [has_state_of_adj_eq r1 _ f1]; exact e1
    obtain ⟨r3, h3⟩ := set_pri_total (copy_tag a st r1 mst) mst p
      (by rw [f2, e4, hsba, hs]) hst2
    obtain ⟨_, _, g1, g2, g3, g4, g5, _, _, _, g6, _⟩ := set_pri_some _ r3 mst p h3
    refine ⟨r1, r3, h1, by rw [hget]; exact h3, ?_, ?_, ?_, ?_, ?_, ?_, ?_⟩
    · rw [g2, f2, e4]
    · rw [g3, f3, e5]
    · rw [g5, f4, e7]
    · rw [g4, f5, e6]
    · intro t
      rw [has_state_of_adj_eq _ r3 g1, has_state_of_adj_eq r1 _ f1, e2]
    · intro p1 x q
      rw [edge_pri_of_adj_eq _ r3 g1, edge_pri_of_adj_eq r1 _ f1,
        edge_pri_ensure_state r r1 mst h1]
    · rw [g6, if_pos (hpos st p hp), f6, e8, hp]
      rfl
  · simp only [if_neg hg]
    refine ⟨r1, _, h1, rfl, ?_, ?_, ?_, ?_, ?_, ?_, ?_⟩
    · rw [f2, e4]
    · rw [f3, e5]
    · rw [f4, e7]
    · rw [f5, e6]
    · intro t
      rw [has_state_of_adj_eq r1 _ f1, e2]
    · intro p1 x q
      rw [edge_pri_of_adj_eq r1 _ f1, edge_pri_ensure_state r r1 mst h1]
    · rw [f6, e8]

/-- One round of the outer loop of `get_normalized` on a well-formed automaton. -/
theorem norm_state_step [DecidableEq T] (a : Aut T) (m0 : SMap Nat Nat) (pre : List Nat)
    (st : Nat) (r : Aut T) (hwf : WellFormed a)
    (hdom : ∀ s, a.has_state s = true → ∃ v, m0.lookup s = some v)
    (hinj : ∀ s s1, a.has_state s = true → a.has_state s1 = true →
      (m0.lookup s).getD 0 = (m0.lookup s1).getD 0 → s = s1)
    (hst : a.has_state st = true) (hpre : ∀ s ∈ pre, a.has_state s = true) (hnot : st ∉ pre)
    (hI : NormInv a (fun s => (m0.lookup s).getD 0) pre r) :
    ∃ r1, norm_state a (r, m0) st = some (r1, m0) ∧
      NormInv a (fun s => (m0.lookup s).getD 0) (pre ++ [st]) r1 := by
  obtain ⟨_, hclosed, hsyms, hmode, hpos⟩ := hwf
  obtain ⟨i1, i2, i3, i4, i5, i6, i7⟩ := hI
  obtain ⟨v, hv⟩ := hdom st hst
  have hvst : (m0.lookup st).getD 0 = v := by rw [hv]; rfl
  obtain ⟨r1, r3, h1, h3, g1, g2, g3, g4, g5, g6, g7⟩ := norm_state_head a st v r hpos i1
  have hfree : ∀ x q1, r3.edge_pri v x q1 = none := by
    intro x q1
    cases hc : r3.edge_pri v x q1 with
    | none => rfl
    | some pri =>
      exfalso
      rw [g6] at hc
      obtain ⟨s, hs, hvs, _⟩ := (i6 v x q1 pri).1 hc
      have := hinj st s hst (hpre s hs) (by rw [hvst]; exact hvs)
      exact hnot (this ▸ hs)
  obtain ⟨r4, h4, hA⟩ := norm_outsyms_spec a m0 st v r3
    (fun x q pri he => hdom q (hclosed st x q pri he))
    (fun x q q1 pri pri1 he he1 hm =>
      hinj q q1 (hclosed st x q pri he) (hclosed st x q1 pri1 he1) hm)
    (by rw [g5]; simp)
    (fun x q pri he => by
      rw [num_syms_congr a r3 (g2.trans i2)]; exact hsyms st x q pri he)
    (fun x q pri he => by
      rw [g1, i1]
      cases hs : a.sba with
      | false => exact Or.inr rfl
      | true => exact Or.inl (hmode hs st x q pri he))
    hfree
  obtain ⟨a1, a2, a3, a4, a5, a6, a7⟩ := hA
  refine ⟨r4, ?_, ?_, ?_, ?_, ?_, ?_, ?_, ?_⟩
  · unfold norm_state
    simp only [map_index_of_some m0 st v hv]
    rw [h1]
    show ((if (a.sba && a.has_pri st) = true then
        (a.get_pri st).bind fun p => (copy_tag a st r1 v).set_pri v p
       else some (copy_tag a st r1 v)).bind fun r3 =>
      (a.state_outsyms st).foldlM (norm_sym a st v) (r3, m0)) = some (r4, m0)
    rw [h3]
    exact h4
  · rw [a1, g1, i1]
  · rw [a2, g2, i2]
  · rw [a3, g3, i3]
  · rw [a4, g4, i4]
  · intro t
    rw [a6, g5]
    simp only [Bool.or_eq_true, decide_eq_true_eq, List.mem_append, List.mem_singleton]
    rw [i5]
    constructor
    · rintro ((ht | ht | ⟨s, hs, hts⟩) | ⟨x, q, pri, he, ht⟩)
      · exact Or.inr ⟨st, Or.inr rfl, Or.inl (by rw [ht]; exact hvst.symm)⟩
      · exact Or.inl ht
      · exact Or.inr ⟨s, Or.inl hs, hts⟩
      · exact Or.inr ⟨st, Or.inr rfl, Or.inr ⟨x, q, pri, he, ht⟩⟩
    · rintro (ht | ⟨s, hs | hs, hts | ⟨x, q, pri, he, ht⟩⟩)
      · exact Or.inl (Or.inr (Or.inl ht))
      · exact Or.inl (Or.inr (Or.inr ⟨s, hs, Or.inl hts⟩))
      · exact Or.inl (Or.inr (Or.inr ⟨s, hs, Or.inr ⟨x, q, pri, he, ht⟩⟩))
      · subst hs
        exact Or.inl (Or.inl (by rw [hts]; exact hvst))
      · subst hs
        exact Or.inr ⟨x, q, pri, he, ht⟩
  · intro p x q1 pri
    rw [a7, g6, i6]
    simp only [List.mem_append, List.mem_singleton]
    constructor
    · rintro (⟨s, hs, hp, q, he, hq⟩ | ⟨hp, q, he, hq⟩)
      · exact ⟨s, Or.inl hs, hp, q, he, hq⟩
      · exact ⟨st, Or.inr rfl, by rw [hp]; exact hvst.symm, q, he, hq⟩
    · rintro ⟨s, hs | hs, hp, q, he, hq⟩
      · exact Or.inl ⟨s, hs, hp, q, he, hq⟩
      · subst hs
        exact Or.inr ⟨by rw [hp]; exact hvst, q, he, hq⟩
  · intro t pri
    rw [a5, g7]
    simp only [List.mem_append, List.mem_singleton]
    by_cases hg : (a.sba && a.has_pri st) = true
    · rw [if_pos hg, SMap.lookup_ins]
      simp only [Bool.and_eq_true] at hg
      obtain ⟨hs, hp⟩ := hg
      obtain ⟨p, hp⟩ := (SMap.contains_iff a.state_pri st).1 hp
      rw [hp]
      simp only [Option.getD_some]
      by_cases ht : t = v
      · rw [if_pos ht]
        constructor
        · intro h
          have e := Option.some.inj h
          subst e
          exact ⟨hs, st, Or.inr rfl, hp, by rw [ht]; exact hvst.symm⟩
        · rintro ⟨_, s, hs2 | hs2, hl, hts⟩
          · exfalso
            have := hinj st s hst (hpre s hs2) (by rw [hvst, ← ht]; exact hts)
            exact hnot (this ▸ hs2)
          · subst hs2
            rw [hp] at hl
            exact hl
      · rw [if_neg ht, i7]
        constructor
        · rintro ⟨h, s, hs2, hl, hts⟩
          exact ⟨h, s, Or.inl hs2, hl, hts⟩
        · rintro ⟨h, s, hs2 | hs2, hl, hts⟩
          · exact ⟨h, s, hs2, hl, hts⟩
          · subst hs2
            exact absurd (by rw [hts]; exact hvst) ht
    · rw [if_neg hg, i7]
      constructor
      · rintro ⟨h, s, hs2, hl, hts⟩
        exact ⟨h, s, Or.inl hs2, hl, hts⟩
      · rintro ⟨h, s, hs2 | hs2, hl, hts⟩
        · exact ⟨h, s, hs2, hl, hts⟩
        · subst hs2
          exfalso
          apply hg
          simp only [Bool.and_eq_true]
          exact ⟨h, (SMap.contains_iff a.state_pri s).2 ⟨pri, hl⟩⟩

theorem normInv_start (a : Aut T) (mf : Nat → Nat) :
    NormInv a mf [] (a.norm_start (mf a.init)) := by
  have he : ∀ p x q, (a.norm_start (mf a.init)).edge_pri p x q = none := by
    intro p x q
    cases hc : (a.norm_start (mf a.init)).edge_pri p x q with
    | none => rfl
    | some pri =>
      have := closed_new (T := T) a.sba a.name a.aps (mf a.init)
      have h2 : (Aut.new a.sba a.name a.aps (mf a.init) : Aut T).edge_pri p x q = some pri := hc
      unfold edge_pri Aut.new blank at h2
      simp only [SMap.lookup_ins] at h2
      split_ifs at h2 with h1 <;> simp at h2
  refine ⟨rfl, rfl, rfl, rfl, ?_, ?_, ?_⟩
  · intro t
    have : (a.norm_start (mf a.init)).has_state t = decide (t = mf a.init) :=
      has_state_new (T := T) a.sba a.name a.aps (mf a.init) t
    rw [this]
    simp
  · intro p x q1 pri
    rw [he]
    simp
  · intro t pri
    have : (a.norm_start (mf a.init)).state_pri.lookup t = none := rfl
    rw [this]
    simp

/-- The renumbering branch of `get_normalized` completes on a well-formed automaton and
copies every state, priority and edge under the renumbering. -/
theorem norm_loop_spec [DecidableEq T] (a : Aut T) (m0 : SMap Nat Nat) (hwf : WellFormed a)
    (hdom : ∀ s, a.has_state s = true → ∃ v, m0.lookup s = some v)
    (hinj : ∀ s s1, a.has_state s = true → a.has_state s1 = true →
      (m0.lookup s).getD 0 = (m0.lookup s1).getD 0 → s = s1) :
    ∃ r, a.states.foldlM (norm_state a)
        (a.norm_start ((m0.lookup a.init).getD 0), m0) = some (r, m0) ∧
      NormInv a (fun s => (m0.lookup s).getD 0) a.states r := by
  obtain ⟨b, hb, hm, hI⟩ := foldlM_indexed (norm_state a)
    (fun pre (b : Aut T × SMap Nat Nat) => b.2 = m0 ∧
      NormInv a (fun s => (m0.lookup s).getD 0) pre b.1)
    a.states
    (by
      intro pre st post b hl hI
      obtain ⟨hm, hI⟩ := hI
      obtain ⟨r, m⟩ := b
      simp only at hm hI
      subst hm
      have hnd : a.states.Nodup := a.adj.keys_nodup
      have hst : a.has_state st = true := by
        rw [← mem_states, hl]; simp
      have hpre : ∀ s ∈ pre, a.has_state s = true := by
        intro s hs
        rw [← mem_states, hl]
        exact List.mem_append_left _ hs
      have hnot : st ∉ pre := by
        intro hin
        rw [hl] at hnd
        exact (List.nodup_append.1 hnd).2.2 hin (List.mem_cons_self _ _)
      obtain ⟨r1, h1, hI1⟩ := norm_state_step a m pre st r hwf hdom hinj hst hpre hnot hI
      exact ⟨(r1, m), h1, rfl, hI1⟩)
    (a.norm_start ((m0.lookup a.init).getD 0), m0)
    ⟨rfl, normInv_start a (fun s => (m0.lookup s).getD 0)⟩
  obtain ⟨r, m⟩ := b
  simp only at hm hI
  subst hm
  exact ⟨r, hb, hI⟩

theorem states_length (a : Aut T) : a.states.length = a.num_states := by
  unfold num_states SMap.size states SMap.keys
  simp

theorem state_index (a : Aut T) (s : Nat) (h : a.has_state s = true) :
    ∃ j, a.states[j]? = some s ∧ j < a.num_states := by
  obtain ⟨j, hj⟩ := List.mem_iff_getElem?.1 ((mem_states a s).2 h)
  refine ⟨j, hj, ?_⟩
  rw [← states_length]
  obtain ⟨hlt, _⟩ := List.getElem?_eq_some.1 hj
  exact hlt

theorem has_state_of_index (a : Aut T) (j s : Nat) (h : a.states[j]? = some s) :
    a.has_state s = true := by
  rw [← mem_states]
  exact List.mem_iff_getElem?.2 ⟨j, h⟩

theorem option_ext {α : Type} (o1 o2 : Option α) (h : ∀ v, o1 = some v ↔ o2 = some v) :
    o1 = o2 := by
  cases o1 with
  | none =>
    cases o2 with
    | none => rfl
    | some v => exact absurd ((h v).2 rfl) (by simp)
  | some v => exact ((h v).1 rfl).symm

theorem get_normalized_copy [DecidableEq T] (a : Aut T) (offset : Nat) (hwf : WellFormed a)
    (hflag : (a.renumbering offset).2.2 = false) :
    a.get_normalized offset =
      some (a, a.states.foldl (fun r s => r.ins s s) SMap.empty) ∧
    NormPost a offset a (a.states.foldl (fun r s => r.ins s s) SMap.empty) := by
  have hdense := (renumbering_spec a offset).2.2.1 hflag
  refine ⟨?_, ?_⟩
  · unfold get_normalized
    rw [hflag]
    rfl
  · have hl : ∀ k, (a.states.foldl (fun r s => r.ins s s) SMap.empty).lookup k =
        if a.has_state k = true then some k else none := by
      intro k
      rw [lookup_foldl_ins_self]
      by_cases hk : a.has_state k = true
      · rw [if_pos ((mem_states a k).2 hk), if_pos hk]
      · rw [if_neg (fun h => hk ((mem_states a k).1 h)), if_neg hk]
        rfl
    refine ⟨has_state_of_dense a offset hdense, ?_, ?_, ?_, ?_, rfl, ?_, rfl⟩
    · intro i s hi
      rw [hl, if_pos (has_state_of_index a i s hi), hdense i s hi]
    · intro s hs
      rw [hl, hs]
      simp
    · intro p q p1 q1 x pri hp hq
      rw [hl] at hp hq
      split_ifs at hp with h1
      split_ifs at hq with h2
      cases hp; cases hq
      rfl
    · rw [hl, if_pos (show a.has_state a.get_init = true from hwf.1)]
    · intro _ s s1 hs
      rw [hl] at hs
      split_ifs at hs with h1
      cases hs
      rfl

theorem get_normalized_renumber [DecidableEq T] (a : Aut T) (offset : Nat)
    (hwf : WellFormed a) (hflag : (a.renumbering offset).2.2 = true) :
    ∃ a1, a.get_normalized offset = some (a1, (a.renumbering offset).1) ∧
      NormPost a offset a1 (a.renumbering offset).1 := by
  obtain ⟨R1, R2, _⟩ := renumbering_spec a offset
  have hmf : ∀ s j, a.states[j]? = some s →
      ((a.renumbering offset).1.lookup s).getD 0 = offset + j := by
    intro s j hj
    rw [R1 j s hj]; rfl
  have hdom : ∀ s, a.has_state s = true → ∃ v, (a.renumbering offset).1.lookup s = some v := by
    intro s hs
    obtain ⟨j, hj, _⟩ := state_index a s hs
    exact ⟨_, R1 j s hj⟩
  have hinj : ∀ s s1, a.has_state s = true → a.has_state s1 = true →
      ((a.renumbering offset).1.lookup s).getD 0 =
        ((a.renumbering offset).1.lookup s1).getD 0 → s = s1 := by
    intro s s1 hs hs1 he
    obtain ⟨j, hj, _⟩ := state_index a s hs
    obtain ⟨j1, hj1, _⟩ := state_index a s1 hs1
    rw [hmf s j hj, hmf s1 j1 hj1] at he
    have : j = j1 := by omega
    subst this
    rw [hj] at hj1
    exact Option.some.inj hj1
  obtain ⟨r, hr, hI⟩ := norm_loop_spec a (a.renumbering offset).1 hwf hdom hinj
  obtain ⟨i1, i2, i3, i4, i5, i6, i7⟩ := hI
  beta_reduce at i4 i5 i6 i7
  obtain ⟨hinit, hclosed, _, _, _⟩ := hwf
  obtain ⟨vi, hvi⟩ := hdom a.init hinit
  refine ⟨r, ?_, ?_, R1, R2, ?_, ?_, i1, ?_, i3⟩
  · unfold get_normalized
    rw [hflag]
    simp only [Bool.not_true, Bool.false_eq_true, if_false,
      map_index_of_some _ a.init vi hvi]
    have : vi = ((a.renumbering offset).1.lookup a.init).getD 0 := by rw [hvi]; rfl
    rw [this]
    exact hr
  · intro t
    rw [i5]
    constructor
    · rintro (ht | ⟨s, hs, ht | ⟨x, q, pri, he, ht⟩⟩)
      · obtain ⟨j, hj, hlt⟩ := state_index a a.init hinit
        rw [ht, hmf a.init j hj]; omega
      · obtain ⟨j, hj, hlt⟩ := state_index a s ((mem_states a s).1 hs)
        rw [ht, hmf s j hj]; omega
      · obtain ⟨j, hj, hlt⟩ := state_index a q (hclosed s x q pri he)
        rw [ht, hmf q j hj]; omega
    · rintro ⟨h1, h2⟩
      have hj : t - offset < a.states.length := by rw [states_length]; omega
      have hget : a.states[t - offset]? = some (a.states[t - offset]) :=
        List.getElem?_eq_getElem hj
      right
      refine ⟨a.states[t - offset], List.getElem_mem hj, Or.inl ?_⟩
      rw [hmf _ _ hget]
      omega
  · intro p q p1 q1 x pri hp hq
    have hps : a.has_state p = true := by
      cases h : a.has_state p with
      | true => rfl
      | false => rw [R2 p h] at hp; cases hp
    have hqs : a.has_state q = true := by
      cases h : a.has_state q with
      | true => rfl
      | false => rw [R2 q h] at hq; cases hq
    have hp1 : ((a.renumbering offset).1.lookup p).getD 0 = p1 := by rw [hp]; rfl
    have hq1 : ((a.renumbering offset).1.lookup q).getD 0 = q1 := by rw [hq]; rfl
    rw [i6]
    constructor
    · intro he
      exact ⟨p, (mem_states a p).2 hps, hp1.symm, q, he, hq1.symm⟩
    · rintro ⟨s, hs, hps1, q2, he, hq2⟩
      have e1 := hinj p s hps ((mem_states a s).1 hs) (by rw [hp1]; exact hps1)
      subst e1
      have e2 := hinj q q2 hqs (hclosed p x q2 pri he) (by rw [hq1]; exact hq2)
      subst e2
      exact he
  · unfold get_init
    rw [i4, hvi]
    rfl
  · intro hs s s1 hl
    have hss : a.has_state s = true := by
      cases h : a.has_state s with
      | true => rfl
      | false => rw [R2 s h] at hl; cases hl
    have hs1 : ((a.renumbering offset).1.lookup s).getD 0 = s1 := by rw [hl]; rfl
    have hsa : a.sba = true := hs
    unfold get_pri is_sba
    rw [i1, hsa]
    simp only [if_true]
    apply option_ext
    intro pri
    rw [i7]
    constructor
    · rintro ⟨_, s2, hs2, hl2, he⟩
      have := hinj s s2 hss ((mem_states a s2).1 hs2) (by rw [hs1]; exact he)
      subst this
      exact hl2
    · intro hl2
      exact ⟨hsa, s, (mem_states a s).2 hss, hl2, hs1.symm⟩

/-- On a well-formed automaton `get_normalized` completes with the renumbered automaton. -/
theorem get_normalized_spec [DecidableEq T] (a : Aut T) (offset : Nat) (hwf : WellFormed a) :
    ∃ a1 m, a.get_normalized offset = some (a1, m) ∧ NormPost a offset a1 m ∧
      ((a.renumbering offset).2.2 = false → a1 = a) := by
  cases hflag : (a.renumbering offset).2.2 with
  | false =>
    obtain ⟨h1, h2⟩ := get_normalized_copy a offset hwf hflag
    exact ⟨a, _, h1, h2, fun _ => rfl⟩
  | true =>
    obtain ⟨a1, h1, h2⟩ := get_normalized_renumber a offset hwf hflag
    exact ⟨a1, _, h1, h2, fun h => by cases h⟩

theorem normPost_set_normalized (a : Aut T) (offset : Nat) (a1 : Aut T) (m : SMap Nat Nat)
    (h : NormPost a offset a1 m) : NormPost a offset { a1 with normalized := true } m := h

theorem normalize_spec [DecidableEq T] (a : Aut T) (offset : Nat) (hwf : WellFormed a) :
    ∃ a1 m, a.normalize offset = some (a1, m) ∧ NormPost a offset a1 m ∧
      a1.normalized = true ∧
      ((a.renumbering offset).2.2 = false → a1 = { a with normalized := true }) := by
  obtain ⟨a1, m, h1, h2, h3⟩ := get_normalized_spec a offset hwf
  refine ⟨{ a1 with normalized := true }, m, ?_, normPost_set_normalized a offset a1 m h2,
    rfl, ?_⟩
  · unfold normalize
    rw [h1]
    rfl
  · intro hf
    rw [h3 hf]

/-- A strictly increasing list whose members are exactly `offset .. offset + n - 1`
lists them in order. -/
theorem dense_of_has_state (a : Aut T) (offset n : Nat)
    (h : ∀ t, a.has_state t = true ↔ (offset ≤ t ∧ t < offset + n)) :
    ∀ j k, a.states[j]? = some k → k = offset + j := by
  have hs : a.states = List.range' offset n := by
    apply List.eq_of_perm_of_sorted (r := fun x y => x < y) _ a.adj.keys_pairwise
      (List.pairwise_lt_range' offset n)
    refine (List.perm_ext_iff_of_nodup a.adj.keys_nodup (List.nodup_range' offset n)).2
      (fun t => ?_)
    show t ∈ a.states ↔ _
    rw [mem_states, h, List.mem_range'_1]
  intro j k hj
  rw [hs] at hj
  obtain ⟨hlt, e⟩ := List.getElem?_eq_some.1 hj
  rw [← e, List.getElem_range']
  omega

/-! ## Automata reachable through the interface -/

theorem initOk_set_init (a b : Aut T) (s : Nat) (h : a.set_init s = some b) : InitOk b := by
  obtain ⟨h1, e⟩ := set_init_some a b s h
  subst e
  exact h1

theorem closed_set_init (a b : Aut T) (s : Nat) (h : a.set_init s = some b) (hc : Closed a) :
    Closed b := by
  obtain ⟨_, e⟩ := set_init_some a b s h
  subst e
  exact closed_of_adj_eq a _ rfl hc

theorem initOk_mod_edge (a b : Aut T) (p x q : Nat) (pri : Int)
    (h : a.mod_edge p x q pri = some b) (hi : InitOk a) : InitOk b := by
  obtain ⟨oldpri, hold, e⟩ := mod_edge_some a b p x q pri h
  have hp := has_state_of_edge a p x q oldpri hold
  have hadj : b.adj = a.put_edge p x q pri := by subst e; rfl
  have hinit : b.init = a.init := by subst e; rfl
  unfold InitOk get_init at hi ⊢
  rw [hinit, has_state_set a _ p _ rfl b hadj hp]
  exact hi

theorem initOk_remove_edge (a b : Aut T) (p x q : Nat)
    (h : a.remove_edge p x q = some b) (hi : InitOk a) : InitOk b := by
  have hs := has_state_remove_edge a b p x q h
  obtain ⟨_, _, e⟩ := remove_edge_some a b p x q h
  have hinit : b.init = a.init := by subst e; rfl
  unfold InitOk get_init at hi ⊢
  rw [hinit, hs]
  exact hi

theorem initOk_of_apiReach [DecidableEq T] (a : Aut T)
    (h : ApiReach (fun a S => ∃ t, a.has_state t = true ∧ t ∉ S) a) : InitOk a := by
  induction h with
  | fresh sb title ap initial => exact initOk_new sb title ap initial
  | add_state a b s _ hb ih => exact Ext.initOk a b (ext_add_state a b s hb) ih
  | set_init a b s _ hb _ => exact initOk_set_init a b s hb
  | add_edge a b p x q pri _ hb ih => exact Ext.initOk a b (ext_add_edge a b p x q pri hb) ih
  | mod_edge a b p x q pri _ hb ih => exact initOk_mod_edge a b p x q pri hb ih
  | remove_edge a b p x q _ hb ih => exact initOk_remove_edge a b p x q hb ih
  | remove_states a b S _ hr hb ih => exact initOk_remove_states a b S hb ih hr
  | merge_states a b others rep _ hb ih => exact initOk_merge_states a b others rep hb ih
  | quotient a b equiv _ hb ih => exact (quotient_inv a b equiv hb).1 ih
  | normalize a b offset m _ hb ih => exact (normalize_inv a offset (b, m) hb).1 ih
  | insert a other b _ hb ih => exact Ext.initOk a b (insert_inv a other b hb).1 ih
  | make_complete a b _ hb ih => exact Ext.initOk a b (make_complete_inv a b hb).1 ih

theorem closed_of_apiReach [DecidableEq T] (a : Aut T)
    (h : ApiReach (fun _ _ => True) a) : Closed a := by
  induction h with
  | fresh sb title ap initial => exact closed_new sb title ap initial
  | add_state a b s _ hb ih => exact closed_add_state a b s hb ih
  | set_init a b s _ hb ih => exact closed_set_init a b s hb ih
  | add_edge a b p x q pri _ hb ih => exact closed_add_edge a b p x q pri hb ih
  | mod_edge a b p x q pri _ hb ih => exact closed_mod_edge a b p x q pri hb ih
  | remove_edge a b p x q _ hb ih => exact closed_remove_edge a b p x q hb ih
  | remove_states a b S _ _ hb ih => exact closed_remove_states a b S hb ih
  | merge_states a b others rep _ hb ih =>
      exact (merge_states_some a b others rep hb).2.2.2.1 ih
  | quotient a b equiv _ hb ih => exact (quotient_inv a b equiv hb).2.1 ih
  | normalize a b offset m _ hb ih => exact (normalize_inv a offset (b, m) hb).2 ih
  | insert a other b _ hb ih => exact (insert_inv a other b hb).2 ih
  | make_complete a b _ hb ih => exact (make_complete_inv a b hb).2 ih

/-! ## Well-formedness of automata built with `add_state` and `add_edge` -/

theorem wellFormed_new (statebased : Bool) (title : String) (ap : List String)
    (initial : Nat) : WellFormed (Aut.new statebased title ap initial : Aut T) := by
  have hc := closed_new (T := T) statebased title ap initial
  have he : ∀ p x q pri,
      (Aut.new statebased title ap initial : Aut T).edge_pri p x q ≠ some pri := by
    intro p x q pri h2
    unfold edge_pri Aut.new blank at h2
    simp only [SMap.lookup_ins] at h2
    split_ifs at h2 with h1 <;> simp at h2
  refine ⟨initOk_new statebased title ap initial, hc, ?_, ?_, ?_⟩
  · intro p x q pri h
    exact absurd h (he p x q pri)
  · intro _ p x q pri h
    exact absurd h (he p x q pri)
  · intro s v h
    simp [Aut.new, blank] at h

theorem wellFormed_add_state (a b : Aut T) (s : Nat) (h : a.add_state s = some b)
    (hw : WellFormed a) : WellFormed b := by
  obtain ⟨h1, h2, h3, h4, h5⟩ := hw
  have he := edge_pri_add_state a b s h
  have hx := ext_add_state a b s h
  obtain ⟨_, e⟩ := add_state_some a b s h
  have hsp : b.state_pri = a.state_pri := by subst e; rfl
  refine ⟨Ext.initOk a b hx h1, closed_add_state a b s h h2, ?_, ?_, ?_⟩
  · intro p x q pri hq
    rw [he] at hq
    rw [num_syms_congr a b hx.2.2.1]
    exact h3 p x q pri hq
  · intro hs p x q pri hq
    rw [he] at hq
    exact h4 (hx.2.1 ▸ hs) p x q pri hq
  · rw [hsp]; exact h5

theorem wellFormed_add_edge (a b : Aut T) (p x q : Nat) (pri : Int)
    (h : a.add_edge p x q pri = some b) (hw : WellFormed a) : WellFormed b := by
  obtain ⟨h1, h2, h3, h4, h5⟩ := hw
  have he := edge_pri_add_edge a b p x q pri h
  have hx := ext_add_edge a b p x q pri h
  obtain ⟨_, hsym, _, hmode, _, e⟩ := add_edge_some a b p x q pri h
  have hsp : b.state_pri = a.state_pri := by subst e; rfl
  refine ⟨Ext.initOk a b hx h1, closed_add_edge a b p x q pri h h2, ?_, ?_, ?_⟩
  · intro p1 x1 q1 pri1 hq
    rw [he] at hq
    rw [num_syms_congr a b hx.2.2.1]
    split_ifs at hq with hm
    · rw [hm.2.1]; exact hsym
    · exact h3 p1 x1 q1 pri1 hq
  · intro hs p1 x1 q1 pri1 hq
    rw [he] at hq
    have hs2 : a.sba = true := hx.2.1 ▸ hs
    split_ifs at hq with hm
    · have e2 := Option.some.inj hq
      rcases hmode with hm2 | hm2
      · rw [← e2]; exact hm2
      · rw [hm2] at hs2; cases hs2
    · exact h4 hs2 p1 x1 q1 pri1 hq
  · rw [hsp]; exact h5

/-! ## The loop of `merge_states` in detail -/

theorem sameFrame_refl (a : Aut T) : SameFrame a a := ⟨fun _ => rfl, rfl, rfl, rfl⟩

theorem sameFrame_trans (a b c : Aut T) (h1 : SameFrame a b) (h2 : SameFrame b c) :
    SameFrame a c :=
  ⟨fun t => (h2.1 t).trans (h1.1 t), h2.2.1.trans h1.2.1, h2.2.2.1.trans h1.2.2.1,
    h2.2.2.2.trans h1.2.2.2⟩

theorem merged_succ_congr (a b : Aut T) (others : List Nat) (rep st x : Nat)
    (h : b.succ_edges st x = a.succ_edges st x) :
    merged_succ b others rep st x = merged_succ a others rep st x := by
  unfold merged_succ succ
  rw [h]

theorem mem_set_intersect (l others : List Nat) (o : Nat) :
    o ∈ set_intersect l others ↔ (o ∈ l ∧ o ∈ others) := by
  unfold set_intersect
  simp [List.mem_filter]

theorem merged_succ_of_empty (a : Aut T) (others : List Nat) (rep st x : Nat)
    (h : a.succ_edges st x = SMap.empty) :
    merged_succ a others rep st x = a.succ_edges st x := by
  unfold merged_succ succ set_intersect
  rw [h]
  rfl

theorem succ_edges_of_not_outsym (a : Aut T) (st x : Nat) (h : x ∉ a.state_outsyms st) :
    a.succ_edges st x = SMap.empty := by
  unfold state_outsyms at h
  rw [SMap.mem_keys, Bool.not_eq_true, SMap.contains_eq_false_iff] at h
  unfold succ_edges
  rw [h]
  rfl

theorem succ_edges_of_not_state (a : Aut T) (st x : Nat) (h : a.has_state st = false) :
    a.succ_edges st x = SMap.empty := by
  unfold succ_edges out_map
  rw [(has_state_eq_false a st).1 h]
  rfl

/-- One round of the inner loop of `merge_states`. -/
theorem merge_sym_spec (others : List Nat) (rep st : Nat) (acc : Aut T) (sym : Nat)
    (hst : acc.has_state st = true) (hrep : acc.has_state rep = true)
    (hsym : ∀ q pri, acc.edge_pri st sym q = some pri →
      sym < acc.num_syms ∧ (pri < 0 ∨ acc.sba = false))
    (hnc : ∀ o ∈ others, o ∈ acc.succ st sym → acc.edge_pri st sym rep = none) :
    ∃ acc1, merge_sym others rep st acc sym = some acc1 ∧ SameFrame acc acc1 ∧
      ∀ p x, acc1.succ_edges p x =
        if p = st ∧ x = sym then merged_succ acc others rep st sym else acc.succ_edges p x := by
  unfold merge_sym merged_succ
  cases hsi : set_intersect (acc.succ st sym) others with
  | nil =>
    refine ⟨acc, rfl, sameFrame_refl acc, ?_⟩
    intro p x
    by_cases h : p = st ∧ x = sym
    · rw [if_pos h, h.1, h.2]
    · rw [if_neg h]
  | cons front rest =>
    have hf : front ∈ set_intersect (acc.succ st sym) others := by
      rw [hsi]; exact List.mem_cons_self _ _
    obtain ⟨hf1, hf2⟩ := (mem_set_intersect _ _ _).1 hf
    obtain ⟨epri, he⟩ := (mem_succ acc st sym front).1 hf1
    have hl : (acc.succ_edges st sym).lookup front = some epri := by
      rw [← edge_pri_eq]; exact he
    obtain ⟨h1, h2⟩ := hsym front epri he
    obtain ⟨acc1, hacc1⟩ := add_edge_total acc st sym rep epri hst h1 hrep h2
      (hnc front hf2 hf1)
    have hs := has_state_add_edge acc acc1 st sym rep epri hacc1
    have hv := succ_edges_add_edge acc acc1 st sym rep epri hacc1
    obtain ⟨_, _, _, _, _, e⟩ := add_edge_some acc acc1 st sym rep epri hacc1
    refine ⟨acc1, ?_, ⟨hs, by subst e; rfl, by subst e; rfl, by subst e; rfl⟩, ?_⟩
    · simp only [hl, Option.bind_some]
      exact hacc1
    · intro p x
      rw [hv]
      simp only [hl]

/-- The inner loop of `merge_states` for one state. -/
theorem merge_state_spec (others : List Nat) (rep st : Nat) (acc0 : Aut T)
    (hst : acc0.has_state st = true) (hrep : acc0.has_state rep = true)
    (hsym : ∀ x q pri, acc0.edge_pri st x q = some pri →
      x < acc0.num_syms ∧ (pri < 0 ∨ acc0.sba = false))
    (hnc : ∀ x, ∀ o ∈ others, o ∈ acc0.succ st x → acc0.edge_pri st x rep = none) :
    ∃ acc1, merge_state others rep acc0 st = some acc1 ∧ SameFrame acc0 acc1 ∧
      ∀ p x, acc1.succ_edges p x =
        if p = st then merged_succ acc0 others rep st x else acc0.succ_edges p x := by
  have hnd : (acc0.state_outsyms st).Nodup := (acc0.out_map st).keys_nodup
  obtain ⟨acc1, h1, hF, hV⟩ := foldlM_indexed (merge_sym others rep st)
    (fun pre (acc : Aut T) => SameFrame acc0 acc ∧
      ∀ p x, acc.succ_edges p x =
        if p = st ∧ x ∈ pre then merged_succ acc0 others rep st x else acc0.succ_edges p x)
    (acc0.state_outsyms st)
    (by
      intro pre sym post acc hl hI
      obtain ⟨hF, hV⟩ := hI
      have hsympre : sym ∉ pre := by
        intro hin
        rw [hl] at hnd
        exact (List.nodup_append.1 hnd).2.2 hin (List.mem_cons_self _ _)
      have hsame : acc.succ_edges st sym = acc0.succ_edges st sym := by
        rw [hV, if_neg (fun h => hsympre h.2)]
      have hedge : ∀ q, acc.edge_pri st sym q = acc0.edge_pri st sym q := by
        intro q; rw [edge_pri_eq, hsame, ← edge_pri_eq]
      have hsucc : acc.succ st sym = acc0.succ st sym := by
        unfold succ; rw [hsame]
      obtain ⟨acc1, h1, hF1, hV1⟩ := merge_sym_spec others rep st acc sym
        (by rw [hF.1]; exact hst) (by rw [hF.1]; exact hrep)
        (fun q pri he => by
          rw [hedge] at he
          rw [num_syms_congr acc0 acc hF.2.2.1, hF.2.1]
          exact hsym sym q pri he)
        (fun o ho hos => by
          rw [hsucc] at hos
          rw [hedge]
          exact hnc sym o ho hos)
      refine ⟨acc1, h1, sameFrame_trans _ _ _ hF hF1, ?_⟩
      intro p x
      rw [hV1, merged_succ_congr acc0 acc others rep st sym hsame]
      simp only [List.mem_append, List.mem_singleton]
      by_cases hp : p = st
      · subst hp
        by_cases hx : x = sym
        · subst hx
          simp
        · rw [hV]
          simp [hx]
      · rw [hV]
        simp [hp])
    acc0 ⟨sameFrame_refl acc0, fun p x => by simp⟩
  refine ⟨acc1, h1, hF, ?_⟩
  intro p x
  rw [hV]
  by_cases hp : p = st
  · subst hp
    by_cases hx : x ∈ acc0.state_outsyms p
    · simp [hx]
    · have := succ_edges_of_not_outsym acc0 p x hx
      simp only [hx, and_false, if_false, if_true]
      rw [merged_succ_of_empty acc0 others rep p x this]
  · simp [hp]

/-- The loop of `merge_states` over all states. -/
theorem merge_loop_spec (others : List Nat) (rep : Nat) (a : Aut T)
    (hrep : a.has_state rep = true)
    (hsym : ∀ p x q pri, a.edge_pri p x q = some pri →
      x < a.num_syms ∧ (pri < 0 ∨ a.sba = false))
    (hnc : ∀ p x, ∀ o ∈ others, o ∈ a.succ p x → a.edge_pri p x rep = none) :
    ∃ a1, a.states.foldlM (merge_state others rep) a = some a1 ∧ SameFrame a a1 ∧
      ∀ p x, a1.succ_edges p x = merged_succ a others rep p x := by
  have hnd : a.states.Nodup := a.adj.keys_nodup
  obtain ⟨a1, h1, hF, hV⟩ := foldlM_indexed (merge_state others rep)
    (fun pre (acc : Aut T) => SameFrame a acc ∧
      ∀ p x, acc.succ_edges p x =
        if p ∈ pre then merged_succ a others rep p x else a.succ_edges p x)
    a.states
    (by
      intro pre st post acc hl hI
      obtain ⟨hF, hV⟩ := hI
      have hstpre : st ∉ pre := by
        intro hin
        rw [hl] at hnd
        exact (List.nodup_append.1 hnd).2.2 hin (List.mem_cons_self _ _)
      have hst : a.has_state st = true := by
        rw [← mem_states, hl]; simp
      have hsame : ∀ x, acc.succ_edges st x = a.succ_edges st x := by
        intro x; rw [hV, if_neg hstpre]
      have hedge : ∀ x q, acc.edge_pri st x q = a.edge_pri st x q := by
        intro x q; rw [edge_pri_eq, hsame, ← edge_pri_eq]
      have hsucc : ∀ x, acc.succ st x = a.succ st x := by
        intro x; unfold succ; rw [hsame]
      obtain ⟨acc1, h1, hF1, hV1⟩ := merge_state_spec others rep st acc
        (by rw [hF.1]; exact hst) (by rw [hF.1]; exact hrep)
        (fun x q pri he => by
          rw [hedge] at he
          rw [num_syms_congr a acc hF.2.2.1, hF.2.1]
          exact hsym st x q pri he)
        (fun x o ho hos => by
          rw [hsucc] at hos
          rw [hedge]
          exact hnc st x o ho hos)
      refine ⟨acc1, h1, sameFrame_trans _ _ _ hF hF1, ?_⟩
      intro p x
      rw [hV1]
      simp only [List.mem_append, List.mem_singleton]
      by_cases hp : p = st
      · subst hp
        simp [merged_succ_congr a acc others rep p x (hsame x)]
      · rw [hV]
        simp [hp])
    a ⟨sameFrame_refl a, fun p x => by simp⟩
  refine ⟨a1, h1, hF, ?_⟩
  intro p x
  rw [hV]
  by_cases hp : p ∈ a.states
  · rw [if_pos hp]
  · rw [if_neg hp]
    have hs : a.has_state p = false := by
      cases h : a.has_state p with
      | false => rfl
      | true => exact absurd ((mem_states a p).2 h) hp
    rw [merged_succ_of_empty a others rep p x (succ_edges_of_not_state a p x hs)]

end Aut

/-! ## Facts about sorted vectors used by `quotient` -/

theorem lower_bound_suffix (c : List Nat) (x : Nat) :
    ∃ pre, c = pre ++ lower_bound c x := by
  induction c with
  | nil => exact ⟨[], rfl⟩
  | cons y t ih =>
    unfold lower_bound
    by_cases h : y < x
    · rw [if_pos h]
      obtain ⟨pre, hp⟩ := ih
      exact ⟨y :: pre, by rw [List.cons_append, ← hp]⟩
    · rw [if_neg h]
      exact ⟨[], rfl⟩

theorem mem_eraseIdx_lower_bound (c : List Nat) (x : Nat) (rest : List Nat) (hc : c.Nodup)
    (h : lower_bound c x = x :: rest) (s : Nat) :
    s ∈ c.eraseIdx (c.length - (x :: rest).length) ↔ (s ∈ c ∧ s ≠ x) := by
  obtain ⟨pre, hp⟩ := lower_bound_suffix c x
  rw [h] at hp
  have hlen : c.length - (x :: rest).length = pre.length := by
    rw [hp]; simp
  rw [hlen]
  have he : c.eraseIdx pre.length = pre ++ rest := by
    rw [hp, List.eraseIdx_append_of_length_le (Nat.le_refl _)]
    simp
  rw [he]
  rw [hp] at hc
  have hnd := List.nodup_append.1 hc
  have hx1 : x ∉ pre := fun hm => hnd.2.2 hm (List.mem_cons_self _ _)
  have hx2 : x ∉ rest := (List.nodup_cons.1 hnd.2.1).1
  rw [hp]
  simp only [List.mem_append, List.mem_cons]
  constructor
  · rintro (hs | hs)
    · exact ⟨Or.inl hs, fun e => hx1 (e ▸ hs)⟩
    · exact ⟨Or.inr (Or.inr hs), fun e => hx2 (e ▸ hs)⟩
  · rintro ⟨hs | hs | hs, hne⟩
    · exact Or.inl hs
    · exact absurd hs hne
    · exact Or.inr hs

theorem mem_dropLast_nodup (c : List Nat) (hc : c.Nodup) (last : Nat)
    (hl : c.getLast? = some last) (s : Nat) :
    s ∈ c.dropLast ↔ (s ∈ c ∧ s ≠ last) := by
  obtain ⟨ys, hys⟩ := List.getLast?_eq_some_iff.1 hl
  subst hys
  rw [List.dropLast_concat]
  have hnd := List.nodup_append.1 hc
  have hx : last ∉ ys := fun hm => hnd.2.2 hm (List.mem_singleton_self _)
  simp only [List.mem_append, List.mem_singleton]
  constructor
  · intro hs
    exact ⟨Or.inl hs, fun e => hx (e ▸ hs)⟩
  · rintro ⟨hs | hs, hne⟩
    · exact hs
    · exact absurd hs hne

theorem le_getLast_of_sorted (c : List Nat) (hc : List.Pairwise (fun a b => a < b) c)
    (last : Nat) (hl : c.getLast? = some last) (s : Nat) (hs : s ∈ c) : s ≤ last := by
  obtain ⟨ys, hys⟩ := List.getLast?_eq_some_iff.1 hl
  subst hys
  rcases List.mem_append.1 hs with h | h
  · have := (List.pairwise_append.1 hc).2.2 s h last (List.mem_singleton_self _)
    omega
  · rw [List.mem_singleton.1 h]

theorem class_rep_mem (initial : Nat) (c : List Nat) (h : c ≠ []) : class_rep initial c ∈ c := by
  unfold class_rep
  by_cases hi : initial ∈ c
  · rw [if_pos hi]; exact hi
  · rw [if_neg hi, List.getLast?_eq_getLast c h]
    exact List.getLast_mem h

namespace Aut

variable {T : Type}

theorem quotient_choice_spec (initial : Nat) (seenini : Bool) (c : List Nat)
    (hc : is_set_vec c = true) (hne : c ≠ []) (hseen : seenini = true → initial ∉ c) :
    (quotient_choice initial seenini c).2.1 = class_rep initial c ∧
    (∀ s, s ∈ (quotient_choice initial seenini c).1 ↔ (s ∈ c ∧ s ≠ class_rep initial c)) ∧
    (quotient_choice initial seenini c).2.2 = (seenini || decide (initial ∈ c)) := by
  have hnd := is_set_vec_nodup c hc
  have hlast : c.getLast? = some (c.getLast hne) := List.getLast?_eq_getLast c hne
  have hdrop : ∀ s, s ∈ c.dropLast ↔ (s ∈ c ∧ s ≠ c.getLast hne) :=
    mem_dropLast_nodup c hnd _ hlast
  obtain ⟨lb1, lb2⟩ := lower_bound_spec c initial ((is_set_vec_iff c).1 hc)
  unfold quotient_choice class_rep
  cases hs : seenini with
  | true =>
    have hi := hseen hs
    simp only [Bool.not_true, Bool.false_eq_true, if_false, if_neg hi, hlast, Option.getD_some,
      Bool.true_or]
    exact ⟨trivial, hdrop, trivial⟩
  | false =>
    simp only [Bool.not_false, if_true, Bool.false_or]
    by_cases hi : initial ∈ c
    · obtain ⟨rest, hr⟩ := lb1 hi
      rw [hr]
      simp only [if_true, if_pos hi, decide_eq_true hi]
      exact ⟨trivial, mem_eraseIdx_lower_bound c initial rest hnd hr, trivial⟩
    · rw [if_neg hi]
      have hd : decide (initial ∈ c) = false := decide_eq_false hi
      cases hlb : lower_bound c initial with
      | nil =>
        simp only [hlast, Option.getD_some, hd]
        exact ⟨trivial, hdrop, trivial⟩
      | cons y rest =>
        have hy := lb2 hi y rest hlb
        simp only [if_neg hy, hlast, Option.getD_some, hd]
        exact ⟨trivial, hdrop, trivial⟩

/-- The state set and the initial state after the loop of `quotient`. -/
theorem quotient_loop_spec (initial : Nat) (classes : List (List Nat)) :
    ∀ (acc acc1 : Aut T) (seen seen1 : Bool),
      classes.foldlM (quotient_step initial) (acc, seen) = some (acc1, seen1) →
      (∀ c ∈ classes, is_set_vec c = true) → classes.Pairwise List.Disjoint →
      (seen = true → ∀ c ∈ classes, initial ∉ c) →
      acc1.init = acc.init ∧
      ∀ s, acc1.has_state s = true ↔
        (acc.has_state s = true ∧
          ∀ c ∈ classes, 2 ≤ c.length → s ∈ c → s = class_rep initial c) := by
  induction classes with
  | nil =>
    intro acc acc1 seen seen1 h _ _ _
    rw [foldlM_nil_opt] at h
    cases h
    exact ⟨rfl, fun s => by simp⟩
  | cons c t ih =>
    intro acc acc1 seen seen1 h hsorted hdisj hseen
    rw [foldlM_cons_opt] at h
    obtain ⟨⟨acc2, seen2⟩, h2, h⟩ := Option.bind_eq_some.1 h
    have hd := List.pairwise_cons.1 hdisj
    have hsorted2 : ∀ c1 ∈ t, is_set_vec c1 = true :=
      fun c1 hc1 => hsorted c1 (List.mem_cons_of_mem _ hc1)
    unfold quotient_step at h2
    by_cases hlen : c.length < 2
    · rw [if_pos hlen] at h2
      cases h2
      obtain ⟨i1, i2⟩ := ih acc acc1 seen seen1 h hsorted2 hd.2
        (fun hs c1 hc1 => hseen hs c1 (List.mem_cons_of_mem _ hc1))
      refine ⟨i1, ?_⟩
      intro s
      rw [i2]
      constructor
      · rintro ⟨h1, h3⟩
        refine ⟨h1, ?_⟩
        intro c1 hc1 hl
        rcases List.mem_cons.1 hc1 with e | e
        · subst e; omega
        · exact h3 c1 e hl
      · rintro ⟨h1, h3⟩
        exact ⟨h1, fun c1 hc1 => h3 c1 (List.mem_cons_of_mem _ hc1)⟩
    · rw [if_neg hlen] at h2
      dsimp only at h2
      obtain ⟨a2, hm, e⟩ := Option.map_eq_some'.1 h2
      have e1 : a2 = acc2 := (Prod.mk.inj e).1
      have e2 : (quotient_choice initial seen c).2.2 = seen2 := (Prod.mk.inj e).2
      subst e1
      have hne : c ≠ [] := by
        intro hc; rw [hc] at hlen; simp at hlen
      obtain ⟨q1, q2, q3⟩ := quotient_choice_spec initial seen c
        (hsorted c (List.mem_cons_self _ _)) hne
        (fun hs => hseen hs c (List.mem_cons_self _ _))
      obtain ⟨_, m2, m3, _⟩ := merge_states_some acc a2 _ _ hm
      obtain ⟨i1, i2⟩ := ih a2 acc1 seen2 seen1 h hsorted2 hd.2
        (by
          intro hs c1 hc1
          rw [← e2, q3] at hs
          simp only [Bool.or_eq_true, decide_eq_true_eq] at hs
          rcases hs with hs | hs
          · exact hseen hs c1 (List.mem_cons_of_mem _ hc1)
          · intro hin
            exact hd.1 c1 hc1 hs hin)
      refine ⟨i1.trans m3, ?_⟩
      intro s
      rw [i2, m2]
      simp only [Bool.and_eq_true, Bool.not_eq_true', decide_eq_false_iff_not, q2]
      constructor
      · rintro ⟨⟨h1, h3⟩, h4⟩
        refine ⟨h1, ?_⟩
        intro c1 hc1 hl hs
        rcases List.mem_cons.1 hc1 with e | e
        · subst e
          by_contra hne2
          exact h3 ⟨hs, hne2⟩
        · exact h4 c1 e hl hs
      · rintro ⟨h1, h3⟩
        refine ⟨⟨h1, ?_⟩, fun c1 hc1 => h3 c1 (List.mem_cons_of_mem _ hc1)⟩
        rintro ⟨hs, hne2⟩
        exact hne2 (h3 c (List.mem_cons_self _ _) (by omega) hs)

/-! ## `merge_states` on an automaton without conflicting edges -/

theorem no_conflict_spec (a : Aut T) (others : List Nat) (rep : Nat)
    (h : a.no_conflict others rep = true) (p x o : Nat) (ho : o ∈ others)
    (hs : o ∈ a.succ p x) : a.edge_pri p x rep = none := by
  obtain ⟨pri, he⟩ := (mem_succ a p x o).1 hs
  have hp := (mem_states a p).2 (has_state_of_edge a p x o pri he)
  have hx := mem_outsyms_of_edge a p x o pri he
  unfold no_conflict at h
  have h1 := List.all_eq_true.1 (List.all_eq_true.1 h p hp) x hx
  simp only [Bool.or_eq_true, Bool.not_eq_true'] at h1
  rcases h1 with h1 | h1
  · have hm : o ∈ set_intersect (a.succ p x) others := (mem_set_intersect _ _ _).2 ⟨hs, ho⟩
    rw [List.isEmpty_iff] at h1
    rw [h1] at hm
    cases hm
  · rw [has_edge_eq] at h1
    cases hc : a.edge_pri p x rep with
    | none => rfl
    | some v => rw [hc] at h1; cases h1

theorem merged_succ_nil (a : Aut T) (rep st x : Nat) :
    merged_succ a [] rep st x = a.succ_edges st x := by
  unfold merged_succ set_intersect
  simp

/-- `merge_states` completes when its preconditions hold, edge symbols are in the alphabet,
state-based automata have no edge priorities and no state has conflicting edges. -/
theorem merge_states_spec (a : Aut T) (others : List Nat) (rep : Nat)
    (hrep : a.has_state rep = true) (hex : ∀ o ∈ others, a.has_state o = true)
    (hset : is_set_vec others = true) (hrepn : rep ∉ others) (hinit : a.get_init ∉ others)
    (hsym : ∀ p x q pri, a.edge_pri p x q = some pri → x < a.num_syms)
    (hmode : a.sba = true → ∀ p x q pri, a.edge_pri p x q = some pri → pri < 0)
    (hnc : ∀ p x o, o ∈ others → o ∈ a.succ p x → a.edge_pri p x rep = none) :
    ∃ b, a.merge_states others rep = some b ∧
      ∀ p x q, b.edge_pri p x q =
        if p ∈ others ∨ q ∈ others then none
        else (merged_succ a others rep p x).lookup q := by
  cases ho : others with
  | nil =>
    refine ⟨a, by unfold merge_states; simp, ?_⟩
    intro p x q
    rw [merged_succ_nil, ← edge_pri_eq]
    simp
  | cons o rest =>
    rw [← ho]
    obtain ⟨a1, h1, hF, hV⟩ := merge_loop_spec others rep a hrep
      (fun p x q pri he => ⟨hsym p x q pri he, by
        cases hs : a.sba with
        | false => exact Or.inr rfl
        | true => exact Or.inl (hmode hs p x q pri he)⟩)
      (fun p x o ho hs => hnc p x o ho hs)
    obtain ⟨b, hb⟩ := remove_states_total a1 others hset
      (fun s hs => by rw [hF.1]; exact hex s hs)
    have hc1 : sorted_contains others a.get_init = false := by
      cases hc : sorted_contains others a.get_init with
      | false => rfl
      | true => exact absurd ((sorted_contains_iff others _ hset).1 hc) hinit
    have hc2 : sorted_contains others rep = false := by
      cases hc : sorted_contains others rep with
      | false => rfl
      | true => exact absurd ((sorted_contains_iff others _ hset).1 hc) hrepn
    have hall : (others.all fun q => a.has_state q) = true := List.all_eq_true.2 hex
    have hemp : others.isEmpty = false := by rw [ho]; rfl
    refine ⟨b, ?_, ?_⟩
    · unfold merge_states
      simp only [hemp, hrep, hall, hset, hc1, hc2, Bool.not_true, Bool.false_eq_true, if_false,
        h1, Option.bind_some]
      exact hb
    · intro p x q
      rw [edge_pri_remove_states a1 b others hb, edge_pri_eq, hV]

/-! ## Sample automata -/

/-! ## Claims about the primitive operations and `remove_states` -/

/-- C1: starting from a freshly constructed automaton, after any sequence of successful
`add_state`, `add_edge`, `mod_edge` (transition-based), `remove_edge` and `set_pri`
(state-based) calls, `prio_cnt[p]` is the number of slots of the active mode that carry `p`
for every `p ≥ 0`, and `prio_cnt` has no key with count 0. -/
theorem prio_cnt_coherent_primitive (a : Aut T) (h : PrimReach a) : Coherent a :=
  coherent_of_countInv a (countInv_of_primReach a h)

theorem prio_cnt_coherent_primitive_witness :
    PrimReach (build (Aut.new false "" [] 0)
      [fun a => a.add_state 1, fun a => a.add_edge 0 0 1 2, fun a => a.mod_edge 0 0 1 3]) ∧
    Coherent (build (Aut.new false "" [] 0)
      [fun a => a.add_state 1, fun a => a.add_edge 0 0 1 2, fun a => a.mod_edge 0 0 1 3]) := by
  have h0 : PrimReach (Aut.new false "" [] 0 : Aut Unit) := PrimReach.fresh false "" [] 0
  have h1 := PrimReach.add_state _ (build (Aut.new false "" [] 0) [fun a => a.add_state 1]) 1
    h0 (by decide)
  have h2 := PrimReach.add_edge _ sample_edge 0 0 1 2 h1 (by decide)
  have h3 := PrimReach.mod_edge _ (build (Aut.new false "" [] 0)
      [fun a => a.add_state 1, fun a => a.add_edge 0 0 1 2, fun a => a.mod_edge 0 0 1 3])
    0 0 1 3 h2 (by decide) (by decide)
  exact ⟨h3, prio_cnt_coherent_primitive _ h3⟩

/-- C2 (fails on the code): on the transition-based automaton with the single edge
`0 -0-> 1` of priority 2, whose `prio_cnt` is coherent, `remove_states([1])` removes the
edge but leaves `prio_cnt[2] = 1`, while no slot carries priority 2 any more. -/
theorem remove_states_prio_cnt_stale :
    sample_edge.is_sba = false ∧
    sample_edge.prio_cnt.toList = [(2, 1)] ∧ sample_edge.slot_count 2 = 1 ∧
    (sample_edge.remove_states [1]).map
      (fun b => (b.states, b.edge_pri 0 0 1, b.prio_cnt.getD0 2, b.slot_count 2)) =
      some ([0], none, 1, 0) := by
  decide

/-- C3: for a sorted duplicate-free list `S` of existing states that leaves some state,
`remove_states(S)` succeeds; afterwards the states are the old ones outside `S`, the edges
are exactly the old edges with both endpoints outside `S` (same priorities), and the
initial state is the old one if it was not in `S` and the smallest remaining id otherwise. -/
theorem remove_states_postcondition (a : Aut T) (S : List Nat)
    (hS : is_set_vec S = true) (hex : ∀ s ∈ S, a.has_state s = true)
    (hproper : ∃ t, a.has_state t = true ∧ t ∉ S) :
    ∃ a1, a.remove_states S = some a1 ∧
      (∀ t, a1.has_state t = true ↔ (a.has_state t = true ∧ t ∉ S)) ∧
      (∀ p x q pri, a1.edge_pri p x q = some pri ↔
        (a.edge_pri p x q = some pri ∧ p ∉ S ∧ q ∉ S)) ∧
      (a.get_init ∉ S → a1.get_init = a.get_init) ∧
      (a.get_init ∈ S →
        a1.has_state a1.get_init = true ∧ ∀ t, a1.has_state t = true → a1.get_init ≤ t) := by
  obtain ⟨a1, h⟩ := remove_states_total a S hS hex
  refine ⟨a1, h, ?_, ?_, ?_, ?_⟩
  · intro t
    rw [has_state_remove_states a a1 S h]
    simp
  · intro p x q pri
    rw [edge_pri_remove_states a a1 S h]
    by_cases hp : p ∈ S
    · simp [hp]
    · by_cases hq : q ∈ S
      · simp [hq]
      · simp [hp, hq]
  · exact (init_remove_states a a1 S h).1
  · intro hi
    exact (init_remove_states a a1 S h).2 hi hproper

theorem remove_states_postcondition_witness :
    is_set_vec [0, 1] = true ∧ (∀ s ∈ [0, 1], sample_tba.has_state s = true) ∧
    (∃ t, sample_tba.has_state t = true ∧ t ∉ [0, 1]) ∧
    ∃ a1, sample_tba.remove_states [0, 1] = some a1 ∧
      (∀ t, a1.has_state t = true ↔ (sample_tba.has_state t = true ∧ t ∉ [0, 1])) ∧
      (∀ p x q pri, a1.edge_pri p x q = some pri ↔
        (sample_tba.edge_pri p x q = some pri ∧ p ∉ [0, 1] ∧ q ∉ [0, 1])) ∧
      (sample_tba.get_init ∉ [0, 1] → a1.get_init = sample_tba.get_init) ∧
      (sample_tba.get_init ∈ [0, 1] →
        a1.has_state a1.get_init = true ∧ ∀ t, a1.has_state t = true → a1.get_init ≤ t) :=
  ⟨by decide, by decide, ⟨2, by decide, by decide⟩,
    remove_states_postcondition sample_tba [0, 1] (by decide) (by decide)
      ⟨2, by decide, by decide⟩⟩

/-- C6 (fails on the code): `mod_edge` has no mode check, so on a state-based automaton
`mod_edge(0, 0, 0, 5)` succeeds and leaves an edge with priority 5, where `add_edge`
rejects a priority on an edge of a state-based automaton. -/
theorem mod_edge_breaks_mode_exclusivity :
    sample_sba.is_sba = true ∧ sample_sba.edge_pri 0 0 0 = some (-1) ∧
    (sample_sba.mod_edge 0 0 0 5).map (fun b => (b.is_sba, b.edge_pri 0 0 0)) =
      some (true, some 5) ∧
    (Aut.new true "" [] 0 : Aut Unit).add_edge 0 0 0 5 = none := by
  decide

theorem wellFormed_build (a : Aut Unit) (ops : List (Aut Unit → Option (Aut Unit)))
    (hops : ∀ f ∈ ops, ∀ c d, f c = some d → WellFormed c → WellFormed d)
    (hw : WellFormed a) : WellFormed (build a ops) := by
  unfold build
  induction ops generalizing a with
  | nil => exact hw
  | cons f t ih =>
    rw [List.foldl_cons]
    apply ih
    · intro g hg
      exact hops g (List.mem_cons_of_mem _ hg)
    · cases hf : f a with
      | none => exact hw
      | some d => exact hops f (List.mem_cons_self _ _) a d hf hw

theorem wellFormed_sample_sparse : WellFormed sample_sparse := by
  apply wellFormed_build _ _ _ (wellFormed_new false "" ["a"] 3)
  intro f hf c d hcd hw
  simp only [List.mem_cons, List.mem_singleton, List.not_mem_nil, or_false] at hf
  rcases hf with rfl | rfl | rfl
  · exact wellFormed_add_state c d _ hcd hw
  · exact wellFormed_add_edge c d _ _ _ _ hcd hw
  · exact wellFormed_add_edge c d _ _ _ _ hcd hw

/-! ## Claims about the invariants and `normalize` -/

/-- C4 as stated fails: `remove_states([0])` on a fresh automaton passes its checks (the
list is sorted and its member exists) and leaves an automaton without states, so the
initial state is not a state. -/
theorem init_lost_when_all_states_removed :
    ¬ ∀ a : Aut Unit, ApiReach (fun _ _ => True) a → a.has_state a.get_init = true := by
  intro h
  have hr : ApiReach (fun _ _ => True)
      (build (Aut.new false "" [] 0) [fun a => a.remove_states [0]]) :=
    ApiReach.remove_states (Aut.new false "" [] 0) _ [0]
      (ApiReach.fresh false "" [] 0) trivial (by decide)
  have := h _ hr
  revert this
  decide

/-- C4, amended: starting from a fresh automaton, after any sequence of successful
`add_state`, `set_init`, `add_edge`, `mod_edge`, `remove_edge`, `merge_states`, `quotient`,
`normalize`, `insert`, `make_complete` calls and `remove_states(S)` calls that leave at
least one state, the initial state is a state of the automaton. -/
theorem init_state_exists [DecidableEq T] (a : Aut T)
    (h : ApiReach (fun a S => ∃ t, a.has_state t = true ∧ t ∉ S) a) :
    a.has_state a.get_init = true :=
  initOk_of_apiReach a h

theorem init_state_exists_witness :
    ApiReach (fun a S => ∃ t, a.has_state t = true ∧ t ∉ S)
      (build (Aut.new false "" [] 0)
        [fun a => a.add_state 1, fun a => a.remove_states [0]]) ∧
    (build (Aut.new false "" [] 0)
      [fun a => a.add_state 1, fun a => a.remove_states [0]]).has_state
      (build (Aut.new false "" [] 0)
        [fun a => a.add_state 1, fun a => a.remove_states [0]]).get_init = true := by
  have h1 : ApiReach (fun (a : Aut Unit) S => ∃ t, a.has_state t = true ∧ t ∉ S)
      (build (Aut.new false "" [] 0) [fun a => a.add_state 1]) :=
    ApiReach.add_state (Aut.new false "" [] 0) _ 1 (ApiReach.fresh false "" [] 0) (by decide)
  have h2 : ApiReach (fun (a : Aut Unit) S => ∃ t, a.has_state t = true ∧ t ∉ S)
      (build (Aut.new false "" [] 0)
        [fun a => a.add_state 1, fun a => a.remove_states [0]]) :=
    ApiReach.remove_states _ _ [0] h1 ⟨1, by decide, by decide⟩ (by decide)
  exact ⟨h2, init_state_exists _ h2⟩

/-- C5: starting from a fresh automaton, after any sequence of successful `add_state`,
`set_init`, `add_edge`, `mod_edge`, `remove_edge`, `remove_states`, `merge_states`,
`quotient`, `insert`, `make_complete` and `normalize` calls, both endpoints of every
stored edge are states of the automaton. -/
theorem edge_endpoints_exist [DecidableEq T] (a : Aut T)
    (h : ApiReach (fun _ _ => True) a) (p x q : Nat) (pri : Int)
    (he : a.edge_pri p x q = some pri) : a.has_state p = true ∧ a.has_state q = true :=
  ⟨has_state_of_edge a p x q pri he, closed_of_apiReach a h p x q pri he⟩

theorem edge_endpoints_exist_witness :
    ApiReach (fun _ _ => True) sample_edge ∧ sample_edge.edge_pri 0 0 1 = some 2 ∧
    sample_edge.has_state 0 = true ∧ sample_edge.has_state 1 = true := by
  have h1 : ApiReach (fun (_ : Aut Unit) _ => True)
      (build (Aut.new false "" [] 0) [fun a => a.add_state 1]) :=
    ApiReach.add_state (Aut.new false "" [] 0) _ 1 (ApiReach.fresh false "" [] 0) (by decide)
  have h2 : ApiReach (fun (_ : Aut Unit) _ => True) sample_edge :=
    ApiReach.add_edge _ _ 0 0 1 2 h1 (by decide)
  exact ⟨h2, by decide, edge_endpoints_exist sample_edge h2 0 0 1 2 (by decide)⟩

/-- C8: on a well-formed automaton `normalize(0)` completes, and a second `normalize(0)`
on its result returns the very same automaton (states, edges, priorities, initial state,
`prio_cnt`, tags, flags) together with the identity map on its states. -/
theorem normalize_idempotent [DecidableEq T] (a : Aut T) (hwf : WellFormed a) :
    ∃ a1 m1 m2, a.normalize 0 = some (a1, m1) ∧ a1.normalize 0 = some (a1, m2) ∧
      (∀ s, a1.has_state s = true → m2.lookup s = some s) ∧
      (∀ s, a1.has_state s = false → m2.lookup s = none) := by
  obtain ⟨a1, m1, h1, h2, hn, _⟩ := normalize_spec a 0 hwf
  have hdense := dense_of_has_state a1 0 a.num_states h2.1
  have hflag : (a1.renumbering 0).2.2 = false := (renumbering_spec a1 0).2.2.2 hdense
  have hself : ({ a1 with normalized := true } : Aut T) = a1 := by
    cases a1
    simp only at hn
    subst hn
    rfl
  refine ⟨a1, m1, a1.states.foldl (fun r s => r.ins s s) SMap.empty, h1, ?_, ?_, ?_⟩
  · unfold normalize get_normalized
    rw [hflag]
    simp only [Bool.not_false, if_true, Option.map_some']
    rw [hself]
  · intro s hs
    rw [lookup_foldl_ins_self, if_pos ((mem_states a1 s).2 hs)]
  · intro s hs
    rw [lookup_foldl_ins_self, if_neg]
    · rfl
    · intro hm
      rw [(mem_states a1 s).1 hm] at hs
      cases hs

theorem normalize_idempotent_witness :
    WellFormed sample_sparse ∧
    ∃ a1 m1 m2, sample_sparse.normalize 0 = some (a1, m1) ∧
      a1.normalize 0 = some (a1, m2) ∧
      (∀ s, a1.has_state s = true → m2.lookup s = some s) ∧
      (∀ s, a1.has_state s = false → m2.lookup s = none) :=
  ⟨wellFormed_sample_sparse, normalize_idempotent sample_sparse wellFormed_sample_sparse⟩

theorem wellFormed_sample_tba : WellFormed sample_tba := by
  apply wellFormed_build _ _ _ (wellFormed_new false "" ["a"] 0)
  intro f hf c d hcd hw
  simp only [List.mem_cons, List.mem_singleton, List.not_mem_nil, or_false] at hf
  rcases hf with rfl | rfl | rfl | rfl | rfl | rfl | rfl | rfl
  · exact wellFormed_add_state c d _ hcd hw
  · exact wellFormed_add_state c d _ hcd hw
  · exact wellFormed_add_state c d _ hcd hw
  · exact wellFormed_add_edge c d _ _ _ _ hcd hw
  · exact wellFormed_add_edge c d _ _ _ _ hcd hw
  · exact wellFormed_add_edge c d _ _ _ _ hcd hw
  · exact wellFormed_add_edge c d _ _ _ _ hcd hw
  · exact wellFormed_add_edge c d _ _ _ _ hcd hw

theorem merged_succ_of_cons (a : Aut T) (others : List Nat) (rep st x front : Nat)
    (rest : List Nat) (epri : Int) (h : set_intersect (a.succ st x) others = front :: rest)
    (he : a.edge_pri st x front = some epri) :
    merged_succ a others rep st x = (a.succ_edges st x).ins rep epri := by
  unfold merged_succ
  rw [h]
  rw [edge_pri_eq] at he
  simp only [he]

theorem merged_succ_of_nil (a : Aut T) (others : List Nat) (rep st x : Nat)
    (h : set_intersect (a.succ st x) others = []) :
    merged_succ a others rep st x = a.succ_edges st x := by
  unfold merged_succ
  rw [h]

theorem set_intersect_front (a : Aut T) (others : List Nat) (st x front : Nat)
    (rest : List Nat) (h : set_intersect (a.succ st x) others = front :: rest) :
    front ∈ others ∧ (∃ pri, a.edge_pri st x front = some pri) ∧
    ∀ o ∈ others, o ∈ a.succ st x → front ≤ o := by
  have hf : front ∈ set_intersect (a.succ st x) others := by
    rw [h]; exact List.mem_cons_self _ _
  obtain ⟨hf1, hf2⟩ := (mem_set_intersect _ _ _).1 hf
  refine ⟨hf2, (mem_succ a st x front).1 hf1, ?_⟩
  intro o ho hos
  have hm : o ∈ set_intersect (a.succ st x) others := (mem_set_intersect _ _ _).2 ⟨hos, ho⟩
  have hsorted : List.Pairwise (fun a b => a < b) (set_intersect (a.succ st x) others) :=
    List.Pairwise.sublist (List.filter_sublist _) (a.succ_edges st x).keys_pairwise
  rw [h] at hm hsorted
  rcases List.mem_cons.1 hm with e | e
  · exact le_of_eq e.symm
  · exact le_of_lt ((List.pairwise_cons.1 hsorted).1 o e)

/-! ## Claims about `merge_states` and `quotient` -/

/-- C9 (defect in the code): in `sample_conflict` the preconditions of
`merge_states([2], 1)` hold and state 0 has a 0-edge into `others` and none to `rep`, so the
claim promises it a 0-edge to `rep`; but state 3 has 0-edges to both `rep` and a member of
`others`, so the `add_edge` that the call makes for state 3 hits an existing edge and the
call aborts. -/
theorem merge_states_aborts_on_conflict :
    sample_conflict.has_state 1 = true ∧ is_set_vec [2] = true ∧ 1 ∉ [2] ∧
    sample_conflict.get_init ∉ [2] ∧ (∀ o ∈ [2], sample_conflict.has_state o = true) ∧
    0 ∉ [2] ∧ 2 ∈ sample_conflict.succ 0 0 ∧ sample_conflict.edge_pri 0 0 1 = none ∧
    sample_conflict.merge_states [2] 1 = none := by
  decide

/-- The effect of `merge_states` on the inputs that the defect does not reach: if no state
has, under one symbol, both an edge to `rep` and an edge into `others` (and edge symbols are
in the alphabet and a state-based automaton has no edge priorities),
`merge_states(others, rep)` completes; the states are the old ones
outside `others`; every state `st` outside `others` with an `x`-edge into `others` gets an
`x`-edge to `rep` with the priority of its `x`-edge to the smallest such member of
`others`; every old edge between states outside `others` is kept with its priority; and
every other edge of the result is such a redirected edge into `rep`. -/
theorem merge_states_redirects (a : Aut T) (others : List Nat) (rep : Nat)
    (hrep : a.has_state rep = true) (hex : ∀ o ∈ others, a.has_state o = true)
    (hset : is_set_vec others = true) (hrepn : rep ∉ others) (hinit : a.get_init ∉ others)
    (hsym : ∀ p x q pri, a.edge_pri p x q = some pri → x < a.num_syms)
    (hmode : a.sba = true → ∀ p x q pri, a.edge_pri p x q = some pri → pri < 0)
    (hnc : ∀ p x o, o ∈ others → o ∈ a.succ p x → a.edge_pri p x rep = none) :
    ∃ b, a.merge_states others rep = some b ∧
      (∀ t, b.has_state t = true ↔ (a.has_state t = true ∧ t ∉ others)) ∧
      (∀ st x, st ∉ others → (∃ o ∈ others, o ∈ a.succ st x) →
        ∃ f pri, f ∈ others ∧ a.edge_pri st x f = some pri ∧
          (∀ o ∈ others, o ∈ a.succ st x → f ≤ o) ∧ b.edge_pri st x rep = some pri) ∧
      (∀ p x q pri, p ∉ others → q ∉ others → a.edge_pri p x q = some pri →
        b.edge_pri p x q = some pri) ∧
      (∀ p x q pri, b.edge_pri p x q = some pri →
        a.edge_pri p x q = some pri ∨
          (q = rep ∧ ∃ o ∈ others, a.edge_pri p x o = some pri)) := by
  obtain ⟨b, hb, hV⟩ := merge_states_spec a others rep hrep hex hset hrepn hinit hsym hmode hnc
  obtain ⟨_, hS, _⟩ := merge_states_some a b others rep hb
  refine ⟨b, hb, ?_, ?_, ?_, ?_⟩
  · intro t
    rw [hS]
    simp
  · rintro st x hst ⟨o, ho, hos⟩
    cases hsi : set_intersect (a.succ st x) others with
    | nil =>
      have hm : o ∈ set_intersect (a.succ st x) others := (mem_set_intersect _ _ _).2 ⟨hos, ho⟩
      rw [hsi] at hm
      cases hm
    | cons front rest =>
      obtain ⟨f1, ⟨pri, f2⟩, f3⟩ := set_intersect_front a others st x front rest hsi
      refine ⟨front, pri, f1, f2, f3, ?_⟩
      rw [hV, if_neg (by rintro (h | h); exact hst h; exact hrepn h),
        merged_succ_of_cons a others rep st x front rest pri hsi f2, SMap.lookup_ins_self]
  · intro p x q pri hp hq he
    rw [hV, if_neg (by rintro (h | h); exact hp h; exact hq h)]
    cases hsi : set_intersect (a.succ p x) others with
    | nil => rw [merged_succ_of_nil a others rep p x hsi, ← edge_pri_eq]; exact he
    | cons front rest =>
      obtain ⟨f1, ⟨epri, f2⟩, _⟩ := set_intersect_front a others p x front rest hsi
      rw [merged_succ_of_cons a others rep p x front rest epri hsi f2, SMap.lookup_ins]
      have hne : q ≠ rep := by
        intro e
        subst e
        have hfs : front ∈ a.succ p x := (mem_succ a p x front).2 ⟨epri, f2⟩
        rw [hnc p x front f1 hfs] at he
        cases he
      rw [if_neg hne, ← edge_pri_eq]
      exact he
  · intro p x q pri he
    rw [hV] at he
    split_ifs at he with h1
    cases hsi : set_intersect (a.succ p x) others with
    | nil =>
      rw [merged_succ_of_nil a others rep p x hsi, ← edge_pri_eq] at he
      exact Or.inl he
    | cons front rest =>
      obtain ⟨f1, ⟨epri, f2⟩, _⟩ := set_intersect_front a others p x front rest hsi
      rw [merged_succ_of_cons a others rep p x front rest epri hsi f2, SMap.lookup_ins] at he
      split_ifs at he with h2
      · right
        have e := Option.some.inj he
        subst e
        exact ⟨h2, front, f1, f2⟩
      · rw [← edge_pri_eq] at he
        exact Or.inl he

theorem merge_states_redirects_witness :
    sample_tba.has_state 1 = true ∧ (∀ o ∈ [2, 3], sample_tba.has_state o = true) ∧
    is_set_vec [2, 3] = true ∧ 1 ∉ [2, 3] ∧ sample_tba.get_init ∉ [2, 3] ∧
    (∀ p x q pri, sample_tba.edge_pri p x q = some pri → x < sample_tba.num_syms) ∧
    (sample_tba.sba = true → ∀ p x q pri, sample_tba.edge_pri p x q = some pri → pri < 0) ∧
    (∀ p x o, o ∈ [2, 3] → o ∈ sample_tba.succ p x → sample_tba.edge_pri p x 1 = none) ∧
    ∃ b, sample_tba.merge_states [2, 3] 1 = some b ∧
      (∀ t, b.has_state t = true ↔ (sample_tba.has_state t = true ∧ t ∉ [2, 3])) ∧
      (∀ st x, st ∉ [2, 3] → (∃ o ∈ [2, 3], o ∈ sample_tba.succ st x) →
        ∃ f pri, f ∈ [2, 3] ∧ sample_tba.edge_pri st x f = some pri ∧
          (∀ o ∈ [2, 3], o ∈ sample_tba.succ st x → f ≤ o) ∧
          b.edge_pri st x 1 = some pri) ∧
      (∀ p x q pri, p ∉ [2, 3] → q ∉ [2, 3] → sample_tba.edge_pri p x q = some pri →
        b.edge_pri p x q = some pri) ∧
      (∀ p x q pri, b.edge_pri p x q = some pri →
        sample_tba.edge_pri p x q = some pri ∨
          (q = 1 ∧ ∃ o ∈ [2, 3], sample_tba.edge_pri p x o = some pri)) :=
  ⟨by decide, by decide, by decide, by decide, by decide,
    wellFormed_sample_tba.2.2.1, wellFormed_sample_tba.2.2.2.1,
    fun p x o => no_conflict_spec sample_tba [2, 3] 1 (by decide) p x o,
    merge_states_redirects sample_tba [2, 3] 1 (by decide) (by decide) (by decide)
      (by decide) (by decide) wellFormed_sample_tba.2.2.1 wellFormed_sample_tba.2.2.2.1
      (fun p x o => no_conflict_spec sample_tba [2, 3] 1 (by decide) p x o)⟩

/-- C10: for pairwise disjoint sorted classes of existing states, when `quotient(classes)`
completes, exactly one member of each class of size at least 2 is still a state: the
initial state if the class contains it, otherwise the largest member; all members of a
class of size 1 and all states in no class are still states; `get_init()` is unchanged. -/
theorem quotient_representatives (a b : Aut T) (classes : List (List Nat))
    (hsorted : ∀ c ∈ classes, is_set_vec c = true)
    (hdisj : classes.Pairwise List.Disjoint)
    (hex : ∀ c ∈ classes, ∀ s ∈ c, a.has_state s = true)
    (h : a.quotient classes = some b) :
    (∀ c ∈ classes, 2 ≤ c.length →
      ∃ r ∈ c, (a.get_init ∈ c → r = a.get_init) ∧
        (a.get_init ∉ c → ∀ s ∈ c, s ≤ r) ∧
        ∀ s ∈ c, (b.has_state s = true ↔ s = r)) ∧
    (∀ c ∈ classes, c.length = 1 → ∀ s ∈ c, b.has_state s = true) ∧
    (∀ s, a.has_state s = true → (∀ c ∈ classes, s ∉ c) → b.has_state s = true) ∧
    b.get_init = a.get_init := by
  unfold quotient at h
  obtain ⟨⟨b1, seen1⟩, hf, e⟩ := Option.map_eq_some'.1 h
  simp only at e
  subst e
  obtain ⟨hi, hS⟩ := quotient_loop_spec a.get_init classes a b1 false seen1 hf hsorted hdisj
    (fun hs => by cases hs)
  have hsym : Symmetric (List.Disjoint : List Nat → List Nat → Prop) :=
    fun _ _ h => h.symm
  have hother : ∀ c ∈ classes, ∀ c1 ∈ classes, ∀ s, s ∈ c → s ∈ c1 → c1 = c := by
    intro c hc c1 hc1 s hs hs1
    by_contra hne
    exact List.Pairwise.forall hsym hdisj hc1 hc hne hs1 hs
  refine ⟨?_, ?_, ?_, hi⟩
  · intro c hc hlen
    have hne : c ≠ [] := by
      intro e; rw [e] at hlen; simp at hlen
    refine ⟨class_rep a.get_init c, class_rep_mem _ c hne, ?_, ?_, ?_⟩
    · intro hin
      unfold class_rep
      rw [if_pos hin]
    · intro hin s hs
      unfold class_rep
      rw [if_neg hin]
      exact le_getLast_of_sorted c ((is_set_vec_iff c).1 (hsorted c hc)) _
        (by rw [List.getLast?_eq_getLast c hne]; rfl) s hs
    · intro s hs
      rw [hS]
      constructor
      · rintro ⟨_, h2⟩
        exact h2 c hc hlen hs
      · intro e
        refine ⟨hex c hc s hs, ?_⟩
        intro c1 hc1 _ hs1
        rw [hother c hc c1 hc1 s hs hs1]
        exact e
  · intro c hc hlen s hs
    rw [hS]
    refine ⟨hex c hc s hs, ?_⟩
    intro c1 hc1 hlen1 hs1
    have := hother c hc c1 hc1 s hs hs1
    rw [this] at hlen1
    omega
  · intro s hs hno
    rw [hS]
    exact ⟨hs, fun c hc _ hsc => absurd hsc (hno c hc)⟩

theorem quotient_representatives_witness :
    (∀ c ∈ [[1, 2], [0, 3]], is_set_vec c = true) ∧
    [[1, 2], [0, 3]].Pairwise List.Disjoint ∧
    (∀ c ∈ [[1, 2], [0, 3]], ∀ s ∈ c, sample_tba.has_state s = true) ∧
    sample_tba.quotient [[1, 2], [0, 3]] =
      some (build sample_tba [fun a => a.quotient [[1, 2], [0, 3]]]) ∧
    (∀ c ∈ [[1, 2], [0, 3]], 2 ≤ c.length →
      ∃ r ∈ c, (sample_tba.get_init ∈ c → r = sample_tba.get_init) ∧
        (sample_tba.get_init ∉ c → ∀ s ∈ c, s ≤ r) ∧
        ∀ s ∈ c, ((build sample_tba
          [fun a => a.quotient [[1, 2], [0, 3]]]).has_state s = true ↔ s = r)) ∧
    (∀ c ∈ [[1, 2], [0, 3]], c.length = 1 → ∀ s ∈ c,
      (build sample_tba [fun a => a.quotient [[1, 2], [0, 3]]]).has_state s = true) ∧
    (∀ s, sample_tba.has_state s = true → (∀ c ∈ [[1, 2], [0, 3]], s ∉ c) →
      (build sample_tba [fun a => a.quotient [[1, 2], [0, 3]]]).has_state s = true) ∧
    (build sample_tba [fun a => a.quotient [[1, 2], [0, 3]]]).get_init =
      sample_tba.get_init := by
  have h1 : ∀ c ∈ [[1, 2], [0, 3]], is_set_vec c = true := by decide
  have h2 : [[1, 2], [0, 3]].Pairwise List.Disjoint := by
    simp [List.Disjoint]
  have h3 : ∀ c ∈ [[1, 2], [0, 3]], ∀ s ∈ c, sample_tba.has_state s = true := by decide
  have h4 : sample_tba.quotient [[1, 2], [0, 3]] =
      some (build sample_tba [fun a => a.quotient [[1, 2], [0, 3]]]) := by decide
  exact ⟨h1, h2, h3, h4, quotient_representatives sample_tba _ _ h1 h2 h3 h4⟩

/-! ## `add_edge` and `to_tba` -/

/-! ## The loops of `to_tba` -/

theorem to_tba_edge_fold (p x : Nat) (pri : Int) (l : List (Nat × Int)) :
    ∀ acc : Aut T, acc.has_state p = true →
      (l.foldl (to_tba_edge p x pri) acc).sba = acc.sba ∧
      (l.foldl (to_tba_edge p x pri) acc).state_pri = acc.state_pri ∧
      (∀ t, (l.foldl (to_tba_edge p x pri) acc).has_state t = acc.has_state t) ∧
      (∀ p1 x1 q1, (l.foldl (to_tba_edge p x pri) acc).edge_pri p1 x1 q1 =
        if p1 = p ∧ x1 = x ∧ q1 ∈ l.map Prod.fst then some pri else acc.edge_pri p1 x1 q1) := by
  induction l with
  | nil =>
    intro acc _
    simp
  | cons e t ih =>
    intro acc hp
    have hs : ∀ u, (to_tba_edge p x pri acc e).has_state u = acc.has_state u :=
      has_state_set acc _ p _ rfl (to_tba_edge p x pri acc e) rfl hp
    have he := edge_pri_put_edge acc (to_tba_edge p x pri acc e) p x e.1 pri rfl
    obtain ⟨i1, i2, i3, i4⟩ := ih (to_tba_edge p x pri acc e) ((hs p).trans hp)
    simp only [List.foldl_cons]
    refine ⟨i1, i2, fun u => (i3 u).trans (hs u), ?_⟩
    intro p1 x1 q1
    rw [i4, he]
    by_cases h1 : p1 = p ∧ x1 = x
    · obtain ⟨rfl, rfl⟩ := h1
      by_cases h2 : q1 = e.1
      · simp [h2]
      · by_cases h3 : q1 ∈ t.map Prod.fst
        · simp [h3]
        · have h4 : ¬ q1 ∈ (e :: t).map Prod.fst := by
            simp only [List.map_cons, List.mem_cons, not_or]
            exact ⟨h2, h3⟩
          simp [h2, h3, h4]
    · have h5 : ¬ (p1 = p ∧ x1 = x ∧ q1 ∈ t.map Prod.fst) := fun h => h1 ⟨h.1, h.2.1⟩
      have h6 : ¬ (p1 = p ∧ x1 = x ∧ q1 = e.1) := fun h => h1 ⟨h.1, h.2.1⟩
      have h7 : ¬ (p1 = p ∧ x1 = x ∧ q1 ∈ (e :: t).map Prod.fst) := fun h => h1 ⟨h.1, h.2.1⟩
      rw [if_neg h5, if_neg h6, if_neg h7]

theorem to_tba_sym_spec (p : Nat) (pri : Int) (acc : Aut T) (x : Nat)
    (hp : acc.has_state p = true) :
    (to_tba_sym p pri acc x).sba = acc.sba ∧
    (to_tba_sym p pri acc x).state_pri = acc.state_pri ∧
    (∀ t, (to_tba_sym p pri acc x).has_state t = acc.has_state t) ∧
    (∀ p1 x1 q1, (to_tba_sym p pri acc x).edge_pri p1 x1 q1 =
      if p1 = p ∧ x1 = x then (acc.edge_pri p1 x1 q1).map (fun _ => pri)
      else acc.edge_pri p1 x1 q1) := by
  obtain ⟨i1, i2, i3, i4⟩ := to_tba_edge_fold p x pri (acc.succ_edges p x).toList acc hp
  refine ⟨i1, i2, i3, ?_⟩
  intro p1 x1 q1
  unfold to_tba_sym
  rw [i4]
  by_cases h1 : p1 = p ∧ x1 = x
  · obtain ⟨rfl, rfl⟩ := h1
    cases he : acc.edge_pri p1 x1 q1 with
    | none =>
      have hn : ¬ q1 ∈ (acc.succ_edges p1 x1).toList.map Prod.fst := by
        intro hm
        obtain ⟨e, hem, heq⟩ := List.mem_map.1 hm
        have h2 := (mem_succ_edges_toList acc p1 x1 e.1 e.2).1 hem
        rw [heq, he] at h2
        exact Option.noConfusion h2
      simp [hn]
    | some v =>
      have hm : q1 ∈ (acc.succ_edges p1 x1).toList.map Prod.fst :=
        List.mem_map.2 ⟨(q1, v), (mem_succ_edges_toList acc p1 x1 q1 v).2 he, rfl⟩
      simp [hm]
  · have h5 : ¬ (p1 = p ∧ x1 = x ∧ q1 ∈ (acc.succ_edges p x).toList.map Prod.fst) :=
      fun h => h1 ⟨h.1, h.2.1⟩
    rw [if_neg h5, if_neg h1]

theorem to_tba_sym_fold (p : Nat) (pri : Int) (xs : List Nat) :
    ∀ acc : Aut T, acc.has_state p = true →
      (xs.foldl (to_tba_sym p pri) acc).sba = acc.sba ∧
      (xs.foldl (to_tba_sym p pri) acc).state_pri = acc.state_pri ∧
      (∀ t, (xs.foldl (to_tba_sym p pri) acc).has_state t = acc.has_state t) ∧
      (∀ p1 x1 q1, (xs.foldl (to_tba_sym p pri) acc).edge_pri p1 x1 q1 =
        if p1 = p ∧ x1 ∈ xs then (acc.edge_pri p1 x1 q1).map (fun _ => pri)
        else acc.edge_pri p1 x1 q1) := by
  induction xs with
  | nil =>
    intro acc _
    simp
  | cons x t ih =>
    intro acc hp
    obtain ⟨j1, j2, j3, j4⟩ := to_tba_sym_spec p pri acc x hp
    obtain ⟨i1, i2, i3, i4⟩ := ih (to_tba_sym p pri acc x) ((j3 p).trans hp)
    simp only [List.foldl_cons]
    refine ⟨i1.trans j1, i2.trans j2, fun u => (i3 u).trans (j3 u), ?_⟩
    intro p1 x1 q1
    rw [i4, j4]
    by_cases h1 : p1 = p
    · subst h1
      by_cases h2 : x1 = x
      · subst h2
        by_cases h3 : x1 ∈ t
        · cases acc.edge_pri p1 x1 q1 <;> simp [h3]
        · simp [h3]
      · by_cases h3 : x1 ∈ t
        · simp [h2, h3]
        · simp [h2, h3]
    · simp [h1]

theorem to_tba_state_step (a : Aut T) (pre : List Nat) (r : Aut T) (p : Nat)
    (hp : a.has_state p = true) (hnp : p ∉ pre) (hI : TbaInv a pre r) :
    ∃ r1, to_tba_state r p = some r1 ∧ TbaInv a (pre ++ [p]) r1 := by
  obtain ⟨i1, i2, i3, i4⟩ := hI
  have hrp : r.has_state p = true := (i2 p).trans hp
  have hl : r.state_pri.lookup p = a.state_pri.lookup p := by rw [i3, if_neg hnp]
  have hpri : (if r.has_pri p then r.get_pri p else some (-1)) =
      some ((a.state_pri.lookup p).getD (-1)) := by
    unfold has_pri get_pri is_sba
    cases hc : a.state_pri.lookup p with
    | none =>
      have : r.state_pri.contains p = false :=
        (SMap.contains_eq_false_iff _ _).2 (hl.trans hc)
      simp [this]
    | some v =>
      have : r.state_pri.contains p = true := (SMap.contains_iff _ _).2 ⟨v, hl.trans hc⟩
      simp [this, i1, hl, hc]
  obtain ⟨r1, hr1⟩ := set_pri_total r p (-1) i1 hrp
  obtain ⟨_, _, s3, s4, _, _, _, _, _, _, s11, _⟩ := set_pri_some r r1 p (-1) hr1
  have hr1p : r1.has_state p = true := (has_state_of_adj_eq r r1 s3 p).trans hrp
  obtain ⟨j1, j2, j3, j4⟩ := to_tba_sym_fold p ((a.state_pri.lookup p).getD (-1))
    (r1.state_outsyms p) r1 hr1p
  refine ⟨(r1.state_outsyms p).foldl (to_tba_sym p ((a.state_pri.lookup p).getD (-1))) r1,
    ?_, ?_⟩
  · unfold to_tba_state
    rw [hpri, Option.some_bind, hr1, Option.map_some']
  · refine ⟨j1.trans (s4.trans i1), ?_, ?_, ?_⟩
    · intro t
      rw [j3, has_state_of_adj_eq r r1 s3, i2]
    · intro s
      rw [j2, s11, if_neg (by decide), lookup_kill_key, i3]
      by_cases hs : s = p
      · subst hs
        simp
      · simp [hs]
    · intro p1 x1 q1
      rw [j4, edge_pri_of_adj_eq r r1 s3, i4]
      by_cases h1 : p1 = p
      · subst h1
        rw [if_neg hnp]
        cases he : a.edge_pri p1 x1 q1 with
        | none => simp
        | some v =>
          have hm : x1 ∈ r1.state_outsyms p1 := by
            apply mem_outsyms_of_edge r1 p1 x1 q1 v
            rw [edge_pri_of_adj_eq r r1 s3, i4, if_neg hnp, he]
          simp [hm]
      · have h2 : ¬ (p1 = p ∧ x1 ∈ r1.state_outsyms p) := fun h => h1 h.1
        rw [if_neg h2]
        by_cases h3 : p1 ∈ pre
        · simp [h3]
        · simp [h3, h1]

/-- The method `to_tba` completes on a state-based automaton; its effect on the fields. -/
theorem to_tba_spec (a : Aut T) (hs : a.is_sba = true) :
    ∃ b, a.to_tba = some b ∧ b.is_sba = false ∧ (∀ t, b.has_state t = a.has_state t) ∧
      (∀ s, b.state_pri.lookup s = if a.has_state s = true then none
        else a.state_pri.lookup s) ∧
      (∀ p x q, b.edge_pri p x q =
        (a.edge_pri p x q).map (fun _ => (a.state_pri.lookup p).getD (-1))) := by
  have hnd : a.states.Nodup := SMap.keys_nodup a.adj
  obtain ⟨r, hr, hI⟩ := foldlM_indexed to_tba_state (TbaInv a) a.states
    (fun pre x post b hl hI => by
      have hx : a.has_state x = true := (mem_states a x).1 (by rw [hl]; simp)
      have hnx : x ∉ pre := by
        rw [hl] at hnd
        have := List.nodup_append.1 hnd
        intro hm
        exact this.2.2 hm (List.mem_cons_self x post)
      exact to_tba_state_step a pre b x hx hnx hI) a
    ⟨hs, fun _ => rfl, fun s => by simp, fun p x q => by simp⟩
  obtain ⟨i1, i2, i3, i4⟩ := hI
  refine ⟨{ r with sba := false }, ?_, rfl, ?_, ?_, ?_⟩
  · unfold to_tba
    rw [hs]
    simp only [Bool.not_true, Bool.false_eq_true, if_false]
    rw [hr, Option.map_some']
  · exact i2
  · intro s
    have := i3 s
    simp only [mem_states] at this
    exact this
  · intro p x q
    have h := i4 p x q
    show r.edge_pri p x q = _
    rw [h]
    by_cases hp : p ∈ a.states
    · rw [if_pos hp]
    · rw [if_neg hp]
      cases he : a.edge_pri p x q with
      | none => rfl
      | some v =>
        exact absurd ((mem_states a p).2 (has_state_of_edge a p x q v he)) hp

/-! ## Claims about `to_tba` and `add_edge` -/

/-- C15: on a state-based automaton `to_tba` completes; afterwards the automaton is
transition-based, has the same states and the same edges `(p, x, q)`, no state has a
priority, and every edge leaving a state `p` carries the priority `p` had before the call,
or `-1` if it had none. -/
theorem to_tba_moves_priorities (a : Aut T) (hs : a.is_sba = true) :
    ∃ b, a.to_tba = some b ∧ b.is_sba = false ∧
      (∀ t, b.has_state t = a.has_state t) ∧
      (∀ p x q, (b.edge_pri p x q).isSome = (a.edge_pri p x q).isSome) ∧
      (∀ s, b.has_state s = true → b.has_pri s = false) ∧
      (∀ p x q pri, b.edge_pri p x q = some pri →
        pri = (a.state_pri.lookup p).getD (-1)) := by
  obtain ⟨b, hb, h1, h2, h3, h4⟩ := to_tba_spec a hs
  refine ⟨b, hb, h1, h2, ?_, ?_, ?_⟩
  · intro p x q
    rw [h4]
    cases a.edge_pri p x q <;> rfl
  · intro s hsb
    have hsa : a.has_state s = true := (h2 s).symm.trans hsb
    unfold has_pri
    rw [SMap.contains_eq_false_iff, h3, if_pos hsa]
  · intro p x q pri he
    rw [h4] at he
    cases hc : a.edge_pri p x q with
    | none => rw [hc] at he; exact Option.noConfusion he
    | some v =>
      rw [hc] at he
      exact (Option.some.inj he).symm

theorem to_tba_moves_priorities_witness :
    sample_sba2.is_sba = true ∧
    ∃ b, sample_sba2.to_tba = some b ∧ b.is_sba = false ∧
      (∀ t, b.has_state t = sample_sba2.has_state t) ∧
      (∀ p x q, (b.edge_pri p x q).isSome = (sample_sba2.edge_pri p x q).isSome) ∧
      (∀ s, b.has_state s = true → b.has_pri s = false) ∧
      (∀ p x q pri, b.edge_pri p x q = some pri →
        pri = (sample_sba2.state_pri.lookup p).getD (-1)) :=
  ⟨by decide, to_tba_moves_priorities sample_sba2 (by decide)⟩

/-- C16 (fails on the code): `sample_sba2` is state-based with `prio_cnt = {3: 1}` for the
priority of state 0, and state 1 has an outgoing edge but no priority. `to_tba` counts the
edge of state 0 under 3 and then executes `prio_cnt[-1]++` for the edge of state 1, so the
result has the key `-1` in `prio_cnt`; `add_edge` with priority `-1` leaves `prio_cnt`
alone. -/
theorem to_tba_counts_unassigned :
    sample_sba2.is_sba = true ∧ sample_sba2.prio_cnt.toList = [(3, 1)] ∧
    sample_sba2.state_pri.toList = [(0, 3)] ∧
    sample_sba2.to_tba.map (fun b => (b.is_sba, b.edge_pri 0 0 1, b.edge_pri 1 0 1,
      b.prio_cnt.toList)) = some (false, some 3, some (-1), [(-1, 1), (3, 1)]) ∧
    ((Aut.new false "" [] 0 : Aut Unit).add_edge 0 0 0 (-1)).map
      (fun b => b.prio_cnt.toList) = some [] := by
  decide

/-- Below 31 atomic propositions, where `num_syms()` is `2^|AP|`: for existing states `p`
and `q`, `add_edge(p, x, q, pri)` fails if the edge exists already, if `x` is not below
`2^|AP|`, or if `pri ≥ 0` on a state-based automaton; in every other case it succeeds, the
edge then exists with priority `pri`, every other edge, the states and the state priorities
are unchanged, `prio_cnt[pri]` is one more than before (other keys unchanged) when
`pri ≥ 0`, and `prio_cnt` is unchanged when `pri < 0`. -/
theorem add_edge_contract (a : Aut T) (p x q : Nat) (pri : Int)
    (hk : a.aps.length < 31)
    (hp : a.has_state p = true) (hq : a.has_state q = true) :
    ((a.has_edge p x q = true ∨ 2 ^ a.aps.length ≤ x ∨ (0 ≤ pri ∧ a.is_sba = true)) →
      a.add_edge p x q pri = none) ∧
    (¬ (a.has_edge p x q = true ∨ 2 ^ a.aps.length ≤ x ∨ (0 ≤ pri ∧ a.is_sba = true)) →
      ∃ a1, a.add_edge p x q pri = some a1 ∧
        a1.edge_pri p x q = some pri ∧
        (∀ p1 x1 q1, ¬ (p1 = p ∧ x1 = x ∧ q1 = q) →
          a1.edge_pri p1 x1 q1 = a.edge_pri p1 x1 q1) ∧
        (∀ t, a1.has_state t = a.has_state t) ∧
        a1.state_pri = a.state_pri ∧
        (0 ≤ pri → a1.prio_cnt.getD0 pri = a.prio_cnt.getD0 pri + 1 ∧
          ∀ k, k ≠ pri → a1.prio_cnt.lookup k = a.prio_cnt.lookup k) ∧
        (pri < 0 → a1.prio_cnt = a.prio_cnt)) := by
  constructor
  · intro h
    cases hr : a.add_edge p x q pri with
    | none => rfl
    | some a1 =>
      obtain ⟨_, h2, _, h4, h5, _⟩ := add_edge_some a a1 p x q pri hr
      rcases h with h | h | h
      · rw [has_edge_eq, h5] at h
        exact absurd h (by simp)
      · exact absurd h2 (by rw [num_syms_of_lt a hk]; omega)
      · rcases h4 with h4 | h4
        · omega
        · have := h.2
          unfold is_sba at this
          rw [h4] at this
          exact absurd this (by simp)
  · intro h
    have h1 : a.edge_pri p x q = none := by
      cases he : a.edge_pri p x q with
      | none => rfl
      | some v =>
        exact absurd (Or.inl (by rw [has_edge_eq, he]; rfl)) h
    have h2 : x < a.num_syms := by
      rw [num_syms_of_lt a hk]
      by_contra hc
      exact h (Or.inr (Or.inl (by omega)))
    have h3 : pri < 0 ∨ a.sba = false := by
      by_cases hpri : pri < 0
      · exact Or.inl hpri
      · right
        cases hsb : a.sba with
        | false => rfl
        | true => exact absurd (Or.inr (Or.inr ⟨by omega, hsb⟩)) h
    obtain ⟨a1, ha1⟩ := add_edge_total a p x q pri hp h2 hq h3 h1
    obtain ⟨_, _, _, _, _, heq⟩ := add_edge_some a a1 p x q pri ha1
    refine ⟨a1, ha1, ?_, ?_, has_state_add_edge a a1 p x q pri ha1, ?_, ?_, ?_⟩
    · rw [edge_pri_add_edge a a1 p x q pri ha1]
      simp
    · intro p1 x1 q1 hne
      rw [edge_pri_add_edge a a1 p x q pri ha1, if_neg hne]
    · rw [heq]
    · intro hpos
      have hpc : a1.prio_cnt = cnt_incr a.prio_cnt pri := by
        rw [heq]
        simp only
        rw [if_pos hpos]
      rw [hpc]
      constructor
      · rw [getD0_cnt_incr]
        simp
      · intro k hk
        unfold cnt_incr
        rw [SMap.lookup_ins, if_neg hk]
    · intro hneg
      rw [heq]
      simp only
      rw [if_neg (by omega)]

theorem add_edge_contract_witness :
    sample_edge.aps.length < 31 ∧
    sample_edge.has_state 1 = true ∧ sample_edge.has_state 0 = true ∧
    ((sample_edge.has_edge 1 0 0 = true ∨ 2 ^ sample_edge.aps.length ≤ 0 ∨
        ((0 : Int) ≤ 4 ∧ sample_edge.is_sba = true)) →
      sample_edge.add_edge 1 0 0 4 = none) ∧
    (¬ (sample_edge.has_edge 1 0 0 = true ∨ 2 ^ sample_edge.aps.length ≤ 0 ∨
        ((0 : Int) ≤ 4 ∧ sample_edge.is_sba = true)) →
      ∃ a1, sample_edge.add_edge 1 0 0 4 = some a1 ∧
        a1.edge_pri 1 0 0 = some 4 ∧
        (∀ p1 x1 q1, ¬ (p1 = 1 ∧ x1 = 0 ∧ q1 = 0) →
          a1.edge_pri p1 x1 q1 = sample_edge.edge_pri p1 x1 q1) ∧
        (∀ t, a1.has_state t = sample_edge.has_state t) ∧
        a1.state_pri = sample_edge.state_pri ∧
        ((0 : Int) ≤ 4 → a1.prio_cnt.getD0 4 = sample_edge.prio_cnt.getD0 4 + 1 ∧
          ∀ k, k ≠ 4 → a1.prio_cnt.lookup k = sample_edge.prio_cnt.lookup k) ∧
        ((4 : Int) < 0 → a1.prio_cnt = sample_edge.prio_cnt)) :=
  ⟨by decide, by decide, by decide,
    add_edge_contract sample_edge 1 0 0 4 (by decide) (by decide) (by decide)⟩

/-! ## `make_complete` -/

theorem succ_isEmpty_iff (a : Aut T) (p x : Nat) :
    (a.succ p x).isEmpty = true ↔ ∀ q, a.edge_pri p x q = none := by
  rw [List.isEmpty_iff]
  constructor
  · intro h q
    cases he : a.edge_pri p x q with
    | none => rfl
    | some v =>
      have := (mem_succ a p x q).2 ⟨v, he⟩
      rw [h] at this
      exact absurd this (List.not_mem_nil q)
  · intro h
    apply List.eq_nil_iff_forall_not_mem.2
    intro q hq
    obtain ⟨v, hv⟩ := (mem_succ a p x q).1 hq
    rw [h q] at hv
    exact Option.noConfusion hv

theorem adds_add_edge (r0 r c : Aut T) (S : Nat → Prop)
    (E : Nat → Nat → Nat → Int → Prop) (p x t : Nat) (pri : Int) (hA : Adds r0 r S E)
    (h : r.add_edge p x t pri = some c) :
    Adds r0 c S
      (fun p1 x1 q1 pri1 => E p1 x1 q1 pri1 ∨ (p1 = p ∧ x1 = x ∧ q1 = t ∧ pri1 = pri)) := by
  obtain ⟨a1, a2, a3, a4, a5, a6, a7⟩ := hA
  obtain ⟨_, _, _, _, hnone, e⟩ := add_edge_some r c p x t pri h
  have hs := has_state_add_edge r c p x t pri h
  have he := edge_pri_add_edge r c p x t pri h
  refine ⟨?_, ?_, ?_, ?_, ?_, ?_, ?_⟩
  · rw [← a1]; subst e; rfl
  · rw [← a2]; subst e; rfl
  · rw [← a3]; subst e; rfl
  · rw [← a4]; subst e; rfl
  · rw [← a5]; subst e; rfl
  · intro u
    rw [hs, a6]
  · intro p1 x1 q1 pri1
    rw [he]
    by_cases hm : p1 = p ∧ x1 = x ∧ q1 = t
    · rw [if_pos hm]
      obtain ⟨rfl, rfl, rfl⟩ := hm
      constructor
      · intro h
        right; right
        exact ⟨rfl, rfl, rfl, (Option.some.inj h).symm⟩
      · intro h
        have hold : ¬ (r0.edge_pri p1 x1 q1 = some pri1 ∨ E p1 x1 q1 pri1) := by
          rw [← a7, hnone]
          simp
        rcases h with h | h | h
        · exact absurd (Or.inl h) hold
        · exact absurd (Or.inr h) hold
        · rw [h.2.2.2]
    · rw [if_neg hm, a7]
      constructor
      · rintro (h | h)
        · exact Or.inl h
        · exact Or.inr (Or.inl h)
      · rintro (h | h | h)
        · exact Or.inl h
        · exact Or.inr h
        · exact absurd ⟨h.1, h.2.1, h.2.2.1⟩ hm

/-- One round of the inner loop of `make_complete` on the state `st`, after the states
`pre` and the symbols `xs` of `st` have been handled. -/
theorem complete_sym_step (a2 : Aut T) (sink : Nat) (rejpri : Int) (st i : Nat)
    (done : Nat → Nat → Prop) (r : Aut T)
    (hst : a2.has_state st = true) (hsink : a2.has_state sink = true)
    (hi : i < a2.num_syms) (hnew : ¬ done st i)
    (hA : Adds a2 r (fun _ => False)
      (SinkEdges a2 sink (if a2.sba then -1 else rejpri) done)) :
    ∃ r1, complete_sym sink rejpri st r i = some r1 ∧
      Adds a2 r1 (fun _ => False)
        (SinkEdges a2 sink (if a2.sba then -1 else rejpri)
          (fun p x => done p x ∨ (p = st ∧ x = i))) := by
  have hedge : ∀ q, r.edge_pri st i q = a2.edge_pri st i q := by
    intro q
    apply option_ext
    intro v
    rw [hA.2.2.2.2.2.2 st i q v]
    constructor
    · rintro (h | h)
      · exact h
      · exact absurd h.1 hnew
    · intro h
      exact Or.inl h
  unfold complete_sym
  by_cases hemp : (r.succ st i).isEmpty = true
  · rw [if_pos hemp]
    have hno : ∀ q, a2.edge_pri st i q = none := by
      intro q
      rw [← hedge q]
      exact (succ_isEmpty_iff r st i).1 hemp q
    have hrs : ∀ t, r.has_state t = true ↔ a2.has_state t = true := by
      intro t
      rw [hA.2.2.2.2.2.1 t]
      simp
    obtain ⟨r1, hr1⟩ := add_edge_total r st i sink (if r.sba then -1 else rejpri)
      ((hrs st).2 hst) (by rw [num_syms_congr a2 r hA.2.1]; exact hi) ((hrs sink).2 hsink)
      (by
        cases hsb : r.sba with
        | false => exact Or.inr rfl
        | true => left; simp)
      ((succ_isEmpty_iff r st i).1 hemp sink)
    refine ⟨r1, hr1, ?_⟩
    have h2 := adds_add_edge a2 r r1 _ _ st i sink _ hA hr1
    refine Adds.congr a2 r1 _ _ _ _ h2 (fun _ => Iff.rfl) ?_
    intro p x q pri
    unfold SinkEdges
    rw [hA.1]
    constructor
    · rintro (h | h)
      · exact ⟨Or.inl h.1, h.2⟩
      · obtain ⟨rfl, rfl, rfl, rfl⟩ := h
        exact ⟨Or.inr ⟨rfl, rfl⟩, hi, hno, rfl, rfl⟩
    · rintro ⟨h1 | h1, h2, h3, h4, h5⟩
      · exact Or.inl ⟨h1, h2, h3, h4, h5⟩
      · exact Or.inr ⟨h1.1, h1.2, h4, h5⟩
  · rw [if_neg hemp]
    refine ⟨r, rfl, ?_⟩
    refine Adds.congr a2 r _ _ _ _ hA (fun _ => Iff.rfl) ?_
    intro p x q pri
    unfold SinkEdges
    constructor
    · rintro ⟨h1, h2⟩
      exact ⟨Or.inl h1, h2⟩
    · rintro ⟨h1 | h1, h2, h3, h4, h5⟩
      · exact ⟨h1, h2, h3, h4, h5⟩
      · exfalso
        apply hemp
        rw [succ_isEmpty_iff]
        intro t
        rw [hedge t, ← h1.1, ← h1.2]
        exact h3 t

theorem sinkEdges_congr (a : Aut T) (sink : Nat) (epri : Int) (d1 d2 : Nat → Nat → Prop)
    (h : ∀ p x, x < a.num_syms → (d1 p x ↔ d2 p x)) (p x q : Nat) (pri : Int) :
    SinkEdges a sink epri d1 p x q pri ↔ SinkEdges a sink epri d2 p x q pri := by
  unfold SinkEdges
  constructor
  · rintro ⟨h1, h2, h3⟩
    exact ⟨(h p x h2).1 h1, h2, h3⟩
  · rintro ⟨h1, h2, h3⟩
    exact ⟨(h p x h2).2 h1, h2, h3⟩

theorem complete_state_spec (a2 : Aut T) (sink : Nat) (rejpri : Int) (st : Nat)
    (pre : List Nat) (r : Aut T)
    (hst : a2.has_state st = true) (hsink : a2.has_state sink = true) (hnew : st ∉ pre)
    (hA : Adds a2 r (fun _ => False)
      (SinkEdges a2 sink (if a2.sba then -1 else rejpri) (fun p _ => p ∈ pre))) :
    ∃ r1, complete_state sink rejpri r st = some r1 ∧
      Adds a2 r1 (fun _ => False)
        (SinkEdges a2 sink (if a2.sba then -1 else rejpri) (fun p _ => p ∈ pre ++ [st])) := by
  have hn : r.num_syms = a2.num_syms := num_syms_congr a2 r hA.2.1
  have hnd : (List.range a2.num_syms).Nodup := List.nodup_range _
  obtain ⟨r1, hr1, hI⟩ := foldlM_indexed (complete_sym sink rejpri st)
    (fun xs b => Adds a2 b (fun _ => False)
      (SinkEdges a2 sink (if a2.sba then -1 else rejpri)
        (fun p x => p ∈ pre ∨ (p = st ∧ x ∈ xs))))
    (List.range a2.num_syms)
    (fun xs i post b hl hb => by
      have hi : i < a2.num_syms := List.mem_range.1 (by rw [hl]; simp)
      have hix : i ∉ xs := by
        rw [hl] at hnd
        intro hm
        exact (List.nodup_append.1 hnd).2.2 hm (List.mem_cons_self i post)
      obtain ⟨b1, hb1, hA1⟩ := complete_sym_step a2 sink rejpri st i _ b hst hsink hi
        (by
          rintro (h | h)
          · exact hnew h
          · exact hix h.2) hb
      refine ⟨b1, hb1, Adds.congr a2 b1 _ _ _ _ hA1 (fun _ => Iff.rfl) ?_⟩
      intro p x q pri
      apply sinkEdges_congr
      intro p1 x1 _
      simp only [List.mem_append, List.mem_singleton]
      tauto) r
    (Adds.congr a2 r _ _ _ _ hA (fun _ => Iff.rfl) (fun p x q pri => by
      apply sinkEdges_congr
      intro p1 x1 _
      simp))
  refine ⟨r1, ?_, Adds.congr a2 r1 _ _ _ _ hI (fun _ => Iff.rfl) ?_⟩
  · unfold complete_state syms
    rw [hn]
    exact hr1
  · intro p x q pri
    apply sinkEdges_congr
    intro p1 x1 hx1
    simp only [List.mem_append, List.mem_singleton, List.mem_range]
    tauto

theorem complete_loop_spec (a2 : Aut T) (sink : Nat) (rejpri : Int)
    (hsink : a2.has_state sink = true) :
    ∃ b, a2.states.foldlM (complete_state sink rejpri) a2 = some b ∧
      Adds a2 b (fun _ => False)
        (SinkEdges a2 sink (if a2.sba then -1 else rejpri)
          (fun p _ => a2.has_state p = true)) := by
  have hnd : a2.states.Nodup := SMap.keys_nodup a2.adj
  obtain ⟨b, hb, hI⟩ := foldlM_indexed (complete_state sink rejpri)
    (fun pre b => Adds a2 b (fun _ => False)
      (SinkEdges a2 sink (if a2.sba then -1 else rejpri) (fun p _ => p ∈ pre)))
    a2.states
    (fun pre st post b hl hb => by
      have hst : a2.has_state st = true := (mem_states a2 st).1 (by rw [hl]; simp)
      have hnew : st ∉ pre := by
        rw [hl] at hnd
        intro hm
        exact (List.nodup_append.1 hnd).2.2 hm (List.mem_cons_self st post)
      exact complete_state_spec a2 sink rejpri st pre b hst hsink hnew hb) a2
    (Adds.congr a2 a2 _ _ _ _ (adds_refl a2) (fun _ => Iff.rfl) (fun p x q pri => by
      unfold SinkEdges
      simp))
  refine ⟨b, hb, Adds.congr a2 b _ _ _ _ hI (fun _ => Iff.rfl) ?_⟩
  intro p x q pri
  apply sinkEdges_congr
  intro p1 x1 _
  exact mem_states a2 p1

theorem good_priority_rej_pri (a : Aut T) : good_priority a.patype a.rej_pri = false := by
  unfold good_priority rej_pri
  cases a.patype <;> decide

theorem rej_pri_nonneg (a : Aut T) : 0 ≤ a.rej_pri := by
  unfold rej_pri
  split_ifs <;> decide

theorem make_complete_spec (a : Aut T) (hinc : a.is_complete = false)
    (hfresh : a.has_state a.num_states = false) :
    ∃ b, a.make_complete = some b ∧ SinkAdded a b := by
  obtain ⟨a1, ha1⟩ := add_state_total a a.num_states hfresh
  have hs1 := has_state_add_state a a1 a.num_states ha1
  have he1 := edge_pri_add_state a a1 a.num_states ha1
  obtain ⟨_, heq1⟩ := add_state_some a a1 a.num_states ha1
  have f1 : a1.sba = a.sba ∧ a1.aps = a.aps ∧ a1.patype = a.patype ∧ a1.init = a.init ∧
      a1.state_pri = a.state_pri := by
    subst heq1
    exact ⟨rfl, rfl, rfl, rfl, rfl⟩
  -- the optional `set_pri`
  have h2 : ∃ a2, (if a1.sba then a1.set_pri a.num_states a.rej_pri else some a1) = some a2 ∧
      a2.adj = a1.adj ∧ a2.sba = a1.sba ∧ a2.aps = a1.aps ∧ a2.patype = a1.patype ∧
      a2.init = a1.init ∧
      a2.state_pri = (if a1.sba then a1.state_pri.ins a.num_states a.rej_pri
        else a1.state_pri) := by
    cases hsb : a1.sba with
    | false => exact ⟨a1, by simp, rfl, hsb.symm ▸ rfl, rfl, rfl, rfl, by simp⟩
    | true =>
      obtain ⟨a2, ha2⟩ := set_pri_total a1 a.num_states a.rej_pri hsb (by rw [hs1]; simp)
      obtain ⟨_, _, s3, s4, s5, s6, s7, _, _, _, s11, _⟩ :=
        set_pri_some a1 a2 a.num_states a.rej_pri ha2
      refine ⟨a2, by simpa using ha2, s3, s4.trans hsb, s5, s7, s6, ?_⟩
      rw [s11, if_pos (rej_pri_nonneg a)]
      simp
  obtain ⟨a2, ha2, g1, g2, g3, g4, g5, g6⟩ := h2
  have hs2 : ∀ t, a2.has_state t = (decide (t = a.num_states) || a.has_state t) := by
    intro t
    rw [has_state_of_adj_eq a1 a2 g1, hs1]
  have he2 : ∀ p x q, a2.edge_pri p x q = a.edge_pri p x q := by
    intro p x q
    rw [edge_pri_of_adj_eq a1 a2 g1, he1]
  have hn2 : a2.num_syms = a.num_syms := num_syms_congr a a2 (g3.trans f1.2.1)
  have hsb2 : a2.sba = a.sba := g2.trans f1.1
  obtain ⟨b, hb, hA⟩ := complete_loop_spec a2 a.num_states a.rej_pri (by rw [hs2]; simp)
  obtain ⟨c1, c2, c3, c4, c5, c6, c7⟩ := hA
  have hsb : ∀ t, b.has_state t = true ↔ (a.has_state t = true ∨ t = a.num_states) := by
    intro t
    rw [c6, hs2]
    simp only [Bool.or_eq_true, decide_eq_true_eq, or_false]
    tauto
  have hedge : ∀ p x q pri, b.edge_pri p x q = some pri ↔
      (a.edge_pri p x q = some pri ∨
        (b.has_state p = true ∧ x < a.num_syms ∧ (∀ t, a.edge_pri p x t = none) ∧
          q = a.num_states ∧ pri = (if a.is_sba then -1 else a.rej_pri))) := by
    intro p x q pri
    rw [c7, he2]
    unfold SinkEdges is_sba
    rw [hn2, hsb2]
    have e1 : (a2.has_state p = true) ↔ (b.has_state p = true) := by
      rw [c6]
      simp
    have e2 : (∀ t, a2.edge_pri p x t = none) ↔ (∀ t, a.edge_pri p x t = none) := by
      constructor
      · intro h t
        rw [← he2]
        exact h t
      · intro h t
        rw [he2]
        exact h t
    beta_reduce
    rw [e1, e2]
  refine ⟨b, ?_, hsb, ?_, hedge, ?_, ?_, good_priority_rej_pri a, ?_, ?_⟩
  · unfold make_complete
    rw [hinc]
    have hz : decide (a.num_syms = 0) = false := by
      have hpos := num_syms_pos a
      rw [decide_eq_false_iff_not]
      omega
    rw [hz]
    simp only [Bool.or_self, Bool.false_eq_true, if_false]
    rw [ha1, Option.some_bind]
    have hr : (if pa_acc_is_even a.patype = true then (1 : Int) else 0) = a.rej_pri := rfl
    rw [hr, ha2, Option.some_bind]
    exact hb
  · unfold is_complete
    rw [List.all_eq_true]
    intro p hp
    rw [List.all_eq_true]
    intro i hi
    have hp1 : b.has_state p = true := (mem_states b p).1 hp
    have hi1 : i < a.num_syms := by
      unfold syms at hi
      rw [List.mem_range, num_syms_congr a2 b c2, hn2] at hi
      exact hi
    cases hemp : (b.succ p i).isEmpty with
    | false => rfl
    | true =>
      exfalso
      have hno := (succ_isEmpty_iff b p i).1 hemp
      have hnoa : ∀ t, a.edge_pri p i t = none := by
        intro t
        cases hc : a.edge_pri p i t with
        | none => rfl
        | some v =>
          have := (hedge p i t v).2 (Or.inl hc)
          rw [hno t] at this
          exact Option.noConfusion this
      have := (hedge p i a.num_states _).2 (Or.inr ⟨hp1, hi1, hnoa, rfl, rfl⟩)
      rw [hno a.num_states] at this
      exact Option.noConfusion this
  · intro hsba
    unfold is_sba at hsba
    have : a1.sba = true := f1.1.trans hsba
    rw [c5, g6, this, if_pos rfl, f1.2.2.2.2]
    constructor
    · simp
    · intro s hs
      rw [SMap.lookup_ins, if_neg hs]
  · intro hsba
    unfold is_sba at hsba
    have : a1.sba = false := f1.1.trans hsba
    rw [c5, g6, this]
    simp only [Bool.false_eq_true, if_false]
    exact f1.2.2.2.2
  · unfold is_sba
    rw [c1, hsb2]
  · unfold get_init
    rw [c4, g5, f1.2.2.2.1]

/-! ## Claims about `make_complete` -/

/-- C13 as stated fails: `sample_gap` has the states 0 and 2, so it is not complete and
`num_states()` is 2, the id of an existing state; `make_complete` calls `add_state(2)`, whose
check that the id is unused fails, and the call aborts. -/
theorem make_complete_aborts_on_used_id :
    sample_gap.states = [0, 2] ∧ sample_gap.is_complete = false ∧
    sample_gap.num_states = 2 ∧ sample_gap.add_state 2 = none ∧
    sample_gap.make_complete = none := by
  decide

/-- C13, amended: if the automaton is already complete, `make_complete` changes nothing. If
some (state, symbol) pair has no successor and `num_states()` is not the id of an existing
state, `make_complete` succeeds and adds exactly the state `num_states()`; afterwards the
automaton is complete, all previous edges are unchanged, every added edge targets the new
state, and the sink priority (state priority in state-based mode, priority of the added
edges in transition-based mode) is 1 for an even type and 0 for an odd type, which is
bad. -/
theorem make_complete_adds_sink (a : Aut T) :
    (a.is_complete = true → a.make_complete = some a) ∧
    (a.is_complete = false → a.has_state a.num_states = false →
      ∃ b, a.make_complete = some b ∧ SinkAdded a b) := by
  constructor
  · intro h
    unfold make_complete
    rw [h]
    rfl
  · intro h1 h2
    exact make_complete_spec a h1 h2

theorem make_complete_adds_sink_witness :
    sample_tba.is_complete = false ∧ sample_tba.has_state sample_tba.num_states = false ∧
    ∃ b, sample_tba.make_complete = some b ∧ SinkAdded sample_tba b :=
  ⟨by decide, by decide, (make_complete_adds_sink sample_tba).2 (by decide) (by decide)⟩

/-! ## `make_colored` and `is_colored` -/

theorem make_colored_edge_fold (p x : Nat) (bad : Int) (l : List (Nat × Int)) :
    ∀ acc : Aut T, acc.has_state p = true →
      (l.foldl (make_colored_edge p x bad) acc).sba = acc.sba ∧
      (l.foldl (make_colored_edge p x bad) acc).state_pri = acc.state_pri ∧
      (∀ t, (l.foldl (make_colored_edge p x bad) acc).has_state t = acc.has_state t) ∧
      (∀ p1 x1 q1, (l.foldl (make_colored_edge p x bad) acc).edge_pri p1 x1 q1 =
        if p1 = p ∧ x1 = x ∧ (q1, (-1 : Int)) ∈ l then some bad
        else acc.edge_pri p1 x1 q1) := by
  induction l with
  | nil =>
    intro acc _
    simp
  | cons e t ih =>
    intro acc hp
    simp only [List.foldl_cons]
    by_cases he2 : e.2 = -1
    · have hacc : make_colored_edge p x bad acc e =
          { acc with adj := acc.put_edge p x e.1 bad } := by
        unfold make_colored_edge
        rw [if_pos he2]
      have hs : ∀ u, (make_colored_edge p x bad acc e).has_state u = acc.has_state u := by
        rw [hacc]
        exact has_state_set acc _ p _ rfl _ rfl hp
      have he : ∀ p1 x1 q1, (make_colored_edge p x bad acc e).edge_pri p1 x1 q1 =
          if p1 = p ∧ x1 = x ∧ q1 = e.1 then some bad else acc.edge_pri p1 x1 q1 := by
        rw [hacc]
        exact edge_pri_put_edge acc _ p x e.1 bad rfl
      obtain ⟨i1, i2, i3, i4⟩ := ih (make_colored_edge p x bad acc e) ((hs p).trans hp)
      refine ⟨i1.trans (by rw [hacc]), i2.trans (by rw [hacc]),
        fun u => (i3 u).trans (hs u), ?_⟩
      intro p1 x1 q1
      rw [i4, he]
      have hmem : (q1, (-1 : Int)) ∈ e :: t ↔ (q1 = e.1 ∨ (q1, (-1 : Int)) ∈ t) := by
        rw [List.mem_cons]
        constructor
        · rintro (h | h)
          · left; rw [← h]
          · exact Or.inr h
        · rintro (h | h)
          · left
            rw [h, ← he2]
          · exact Or.inr h
      by_cases hA : p1 = p ∧ x1 = x ∧ (q1, (-1 : Int)) ∈ t
      · rw [if_pos hA, if_pos ⟨hA.1, hA.2.1, hmem.2 (Or.inr hA.2.2)⟩]
      · rw [if_neg hA]
        by_cases hB : p1 = p ∧ x1 = x ∧ q1 = e.1
        · rw [if_pos hB, if_pos ⟨hB.1, hB.2.1, hmem.2 (Or.inl hB.2.2)⟩]
        · rw [if_neg hB, if_neg (fun h => by
            rcases hmem.1 h.2.2 with h1 | h1
            · exact hB ⟨h.1, h.2.1, h1⟩
            · exact hA ⟨h.1, h.2.1, h1⟩)]
    · have hacc : make_colored_edge p x bad acc e = acc := by
        unfold make_colored_edge
        rw [if_neg he2]
      rw [hacc]
      obtain ⟨i1, i2, i3, i4⟩ := ih acc hp
      refine ⟨i1, i2, i3, ?_⟩
      intro p1 x1 q1
      rw [i4]
      have hmem : (q1, (-1 : Int)) ∈ e :: t ↔ (q1, (-1 : Int)) ∈ t := by
        rw [List.mem_cons]
        constructor
        · rintro (h | h)
          · exact absurd (by rw [← h]) he2
          · exact h
        · intro h
          exact Or.inr h
      by_cases hA : p1 = p ∧ x1 = x ∧ (q1, (-1 : Int)) ∈ t
      · rw [if_pos hA, if_pos ⟨hA.1, hA.2.1, hmem.2 hA.2.2⟩]
      · rw [if_neg hA, if_neg (fun h => hA ⟨h.1, h.2.1, hmem.1 h.2.2⟩)]

theorem make_colored_sym_spec (p : Nat) (bad : Int) (acc : Aut T) (x : Nat)
    (hp : acc.has_state p = true) :
    (make_colored_sym p bad acc x).sba = acc.sba ∧
    (make_colored_sym p bad acc x).state_pri = acc.state_pri ∧
    (∀ t, (make_colored_sym p bad acc x).has_state t = acc.has_state t) ∧
    (∀ p1 x1 q1, (make_colored_sym p bad acc x).edge_pri p1 x1 q1 =
      if p1 = p ∧ x1 = x then (acc.edge_pri p1 x1 q1).map (recolor bad)
      else acc.edge_pri p1 x1 q1) := by
  obtain ⟨i1, i2, i3, i4⟩ := make_colored_edge_fold p x bad (acc.succ_edges p x).toList acc hp
  refine ⟨i1, i2, i3, ?_⟩
  intro p1 x1 q1
  unfold make_colored_sym
  rw [i4]
  by_cases h1 : p1 = p ∧ x1 = x
  · obtain ⟨rfl, rfl⟩ := h1
    have hm := mem_succ_edges_toList acc p1 x1 q1 (-1)
    rw [if_pos (show p1 = p1 ∧ x1 = x1 from ⟨rfl, rfl⟩)]
    cases he : acc.edge_pri p1 x1 q1 with
    | none =>
      rw [he] at hm
      rw [if_neg (fun h => Option.noConfusion (hm.1 h.2.2))]
      rfl
    | some v =>
      rw [he] at hm
      by_cases hv : v = -1
      · rw [if_pos ⟨rfl, rfl, hm.2 (by rw [hv])⟩]
        simp [hv, recolor]
      · rw [if_neg (fun h => hv (Option.some.inj (hm.1 h.2.2)))]
        simp [hv, recolor]
  · have h5 : ¬ (p1 = p ∧ x1 = x ∧ (q1, (-1 : Int)) ∈ (acc.succ_edges p x).toList) :=
      fun h => h1 ⟨h.1, h.2.1⟩
    rw [if_neg h5, if_neg h1]

theorem recolor_idem (bad v : Int) : recolor bad (recolor bad v) = recolor bad v := by
  unfold recolor
  by_cases h : v = -1
  · rw [if_pos h]
    by_cases hb : bad = -1
    · rw [if_pos hb]
    · rw [if_neg hb]
  · rw [if_neg h, if_neg h]

theorem make_colored_sym_fold (p : Nat) (bad : Int) (xs : List Nat) :
    ∀ acc : Aut T, acc.has_state p = true →
      (xs.foldl (make_colored_sym p bad) acc).sba = acc.sba ∧
      (xs.foldl (make_colored_sym p bad) acc).state_pri = acc.state_pri ∧
      (∀ t, (xs.foldl (make_colored_sym p bad) acc).has_state t = acc.has_state t) ∧
      (∀ p1 x1 q1, (xs.foldl (make_colored_sym p bad) acc).edge_pri p1 x1 q1 =
        if p1 = p ∧ x1 ∈ xs then (acc.edge_pri p1 x1 q1).map (recolor bad)
        else acc.edge_pri p1 x1 q1) := by
  induction xs with
  | nil =>
    intro acc _
    simp
  | cons x t ih =>
    intro acc hp
    obtain ⟨j1, j2, j3, j4⟩ := make_colored_sym_spec p bad acc x hp
    obtain ⟨i1, i2, i3, i4⟩ := ih (make_colored_sym p bad acc x) ((j3 p).trans hp)
    simp only [List.foldl_cons]
    refine ⟨i1.trans j1, i2.trans j2, fun u => (i3 u).trans (j3 u), ?_⟩
    intro p1 x1 q1
    rw [i4, j4]
    by_cases h1 : p1 = p
    · subst h1
      by_cases h2 : x1 = x
      · subst h2
        by_cases h3 : x1 ∈ t
        · cases acc.edge_pri p1 x1 q1 with
          | none => simp [h3]
          | some v => simp [h3, recolor_idem]
        · simp [h3]
      · by_cases h3 : x1 ∈ t
        · simp [h2, h3]
        · simp [h2, h3]
    · simp [h1]

theorem le_getLast_int (c : List Int) (hc : List.Pairwise (fun a b => a < b) c)
    (last : Int) (hl : c.getLast? = some last) (s : Int) (hs : s ∈ c) : s ≤ last := by
  obtain ⟨ys, hys⟩ := List.getLast?_eq_some_iff.1 hl
  subst hys
  rcases List.mem_append.1 hs with h | h
  · have := (List.pairwise_append.1 hc).2.2 s h last (List.mem_singleton_self _)
    omega
  · rw [List.mem_singleton.1 h]

theorem good_priority_succ (t : PAType) (k : Int) (h : good_priority t k = true) :
    good_priority t (k + 1) = false := by
  unfold good_priority at h ⊢
  have h2 : k % 2 = 0 ∨ k % 2 = 1 := Int.emod_two_eq k
  cases he : pa_acc_is_even t with
  | false =>
    rw [he] at h
    have hk : ¬ k % 2 = 0 := by simpa using h
    have : (k + 1) % 2 = 0 := by omega
    simp [this]
  | true =>
    rw [he] at h
    have hk : k % 2 = 0 := by simpa using h
    have : ¬ (k + 1) % 2 = 0 := by omega
    simp [this]

theorem bad_pri_bad (a : Aut T) : good_priority a.patype a.bad_pri = false := by
  unfold bad_pri
  simp only
  split_ifs with h
  · exact good_priority_succ _ _ h
  · simpa using h

theorem bad_pri_ge (a : Aut T) (k : Int) (hk : a.prio_cnt.contains k = true) :
    k ≤ a.bad_pri := by
  have hmem : k ∈ a.prio_cnt.keys := (SMap.mem_keys _ _).2 hk
  unfold bad_pri
  cases hl : a.prio_cnt.keys.getLast? with
  | none =>
    rw [List.getLast?_eq_none_iff] at hl
    rw [hl] at hmem
    exact absurd hmem (List.not_mem_nil k)
  | some last =>
    have := le_getLast_int _ (SMap.keys_pairwise a.prio_cnt) last hl k hmem
    simp only
    split_ifs <;> omega

theorem bad_pri_nonneg (a : Aut T) (h : ∀ k, a.prio_cnt.contains k = true → (0 : Int) ≤ k) :
    0 ≤ a.bad_pri := by
  cases hl : a.prio_cnt.keys.getLast? with
  | none =>
    unfold bad_pri
    rw [hl]
    simp only
    split_ifs <;> omega
  | some last =>
    have h1 : last ∈ a.prio_cnt.keys := List.mem_of_getLast?_eq_some hl
    have h2 := h last ((SMap.mem_keys _ _).1 h1)
    have h3 := bad_pri_ge a last ((SMap.mem_keys _ _).1 h1)
    omega

theorem make_colored_edge_fold_init (p x : Nat) (bad : Int) (l : List (Nat × Int)) :
    ∀ acc : Aut T, (l.foldl (make_colored_edge p x bad) acc).init = acc.init := by
  induction l with
  | nil => intro acc; rfl
  | cons e t ih =>
    intro acc
    simp only [List.foldl_cons]
    rw [ih]
    unfold make_colored_edge
    split_ifs <;> rfl

theorem make_colored_sym_fold_init (p : Nat) (bad : Int) (xs : List Nat) :
    ∀ acc : Aut T, (xs.foldl (make_colored_sym p bad) acc).init = acc.init := by
  induction xs with
  | nil => intro acc; rfl
  | cons x t ih =>
    intro acc
    simp only [List.foldl_cons]
    rw [ih]
    exact make_colored_edge_fold_init p x bad _ acc

theorem make_colored_state_step (a : Aut T) (bad : Int) (pre : List Nat) (r : Aut T)
    (p : Nat) (hbad : 0 ≤ bad) (hp : a.has_state p = true) (hnp : p ∉ pre)
    (hI : ColInv a bad pre r) :
    ∃ r1, make_colored_state bad r p = some r1 ∧ ColInv a bad (pre ++ [p]) r1 := by
  obtain ⟨i1, i0, i2, i3, i4⟩ := hI
  have hrp : r.has_state p = true := (i2 p).trans hp
  have hl : r.state_pri.lookup p = a.state_pri.lookup p := by
    rw [i3, if_neg (fun h => hnp h.2.1)]
  cases hsb : a.sba with
  | true =>
    have hrs : r.sba = true := i1.trans hsb
    cases hc : a.state_pri.lookup p with
    | none =>
      have hnp2 : r.has_pri p = false := by
        unfold has_pri
        rw [SMap.contains_eq_false_iff, hl, hc]
      obtain ⟨r1, hr1⟩ := set_pri_total r p bad hrs hrp
      obtain ⟨_, _, s3, s4, _, s6, _, _, _, _, s11, _⟩ := set_pri_some r r1 p bad hr1
      refine ⟨r1, ?_, s4.trans i1, s6.trans i0, ?_, ?_, ?_⟩
      · unfold make_colored_state
        simp [hrs, hnp2, hr1, s4]
      · intro t
        rw [has_state_of_adj_eq r r1 s3, i2]
      · intro s
        rw [s11, if_pos hbad, SMap.lookup_ins, i3]
        by_cases hs : s = p
        · subst hs
          simp [hc, hsb]
        · simp [hs, hsb]
      · intro p1 x1 q1
        rw [edge_pri_of_adj_eq r r1 s3, i4, hsb]
        simp
    | some v =>
      have hnp2 : r.has_pri p = true := by
        unfold has_pri
        rw [SMap.contains_iff]
        exact ⟨v, hl.trans hc⟩
      refine ⟨r, ?_, i1, i0, i2, ?_, ?_⟩
      · unfold make_colored_state
        simp [hrs, hnp2]
      · intro s
        rw [i3, hsb]
        by_cases hs : s = p
        · subst hs
          simp [hc, hnp]
        · simp [hs]
      · intro p1 x1 q1
        rw [i4, hsb]
        simp
  | false =>
    have hrs : r.sba = false := i1.trans hsb
    obtain ⟨j1, j2, j3, j4⟩ := make_colored_sym_fold p bad (r.state_outsyms p) r hrp
    refine ⟨(r.state_outsyms p).foldl (make_colored_sym p bad) r, ?_, j1.trans i1, ?_,
      ?_, ?_, ?_⟩
    · unfold make_colored_state
      simp [hrs]
    · exact (make_colored_sym_fold_init p bad _ r).trans i0
    · intro t
      rw [j3, i2]
    · intro s
      rw [j2, i3, hsb]
      simp
    · intro p1 x1 q1
      rw [j4, i4, hsb]
      by_cases h1 : p1 = p
      · subst h1
        have hn : ¬ (false = false ∧ p1 ∈ pre) := fun h => hnp h.2
        rw [if_neg hn]
        cases he : a.edge_pri p1 x1 q1 with
        | none => simp
        | some v =>
          have hm : x1 ∈ r.state_outsyms p1 := by
            apply mem_outsyms_of_edge r p1 x1 q1 v
            rw [i4, hsb, if_neg hn, he]
          simp [hm]
      · have h2 : ¬ (p1 = p ∧ x1 ∈ r.state_outsyms p) := fun h => h1 h.1
        rw [if_neg h2]
        by_cases h3 : p1 ∈ pre
        · simp [h3]
        · simp [h3, h1]

theorem make_colored_spec (a : Aut T) (hmin : pa_acc_is_min a.patype = true)
    (hkeys : ∀ k, a.prio_cnt.contains k = true → (0 : Int) ≤ k) :
    ∃ b, a.make_colored = some b ∧ ColInv a a.bad_pri a.states b := by
  have hnd : a.states.Nodup := SMap.keys_nodup a.adj
  have hbad := bad_pri_nonneg a hkeys
  obtain ⟨b, hb, hI⟩ := foldlM_indexed (make_colored_state a.bad_pri) (ColInv a a.bad_pri)
    a.states
    (fun pre x post b hl hI => by
      have hx : a.has_state x = true := (mem_states a x).1 (by rw [hl]; simp)
      have hnx : x ∉ pre := by
        rw [hl] at hnd
        intro hm
        exact (List.nodup_append.1 hnd).2.2 hm (List.mem_cons_self x post)
      exact make_colored_state_step a a.bad_pri pre b x hbad hx hnx hI) a
    ⟨rfl, rfl, fun _ => rfl, fun s => by simp, fun p x q => by simp⟩
  refine ⟨b, ?_, hI⟩
  unfold make_colored
  rw [hmin]
  exact hb

theorem recolor_ne (bad v : Int) (hbad : 0 ≤ bad) : recolor bad v ≠ -1 := by
  unfold recolor
  split_ifs with h
  · omega
  · exact h

theorem is_colored_of_colInv (a b : Aut T) (bad : Int) (hbad : 0 ≤ bad)
    (hI : ColInv a bad a.states b) : b.is_colored = true := by
  obtain ⟨i1, _, i2, i3, i4⟩ := hI
  unfold is_colored
  rw [List.all_eq_true]
  intro p hp
  have hpb : b.has_state p = true := (mem_states b p).1 hp
  have hpa : p ∈ a.states := (mem_states a p).2 ((i2 p).symm.trans hpb)
  cases hsb : a.sba with
  | true =>
    have hbs : b.sba = true := i1.trans hsb
    have hpri : b.has_pri p = true := by
      unfold has_pri
      rw [SMap.contains_iff, i3]
      cases hc : a.state_pri.lookup p with
      | none => exact ⟨bad, by simp [hsb, hpa]⟩
      | some v => exact ⟨v, by simp⟩
    simp [hbs, hpri]
  | false =>
    have hbs : b.sba = false := i1.trans hsb
    rw [hbs]
    simp only [Bool.false_and, Bool.not_false, Bool.false_or, Bool.true_and]
    rw [List.all_eq_true]
    intro i _
    rw [List.all_eq_true]
    intro it hit
    have he : b.edge_pri p i it.1 = some it.2 := (mem_succ_edges_toList b p i it.1 it.2).1 hit
    rw [i4, if_pos ⟨hsb, hpa⟩] at he
    cases hc : a.edge_pri p i it.1 with
    | none =>
      rw [hc] at he
      exact Option.noConfusion he
    | some v =>
      rw [hc] at he
      have : recolor bad v = it.2 := Option.some.inj he
      have hne := recolor_ne bad v hbad
      rw [this] at hne
      simpa using hne

/-! ## Claims about `make_colored` -/

theorem counted_sample_uncolored : Counted sample_uncolored := by
  refine ⟨?_, ?_, ?_⟩
  · intro k hk
    have h1 : k ∈ sample_uncolored.prio_cnt.keys := (SMap.mem_keys _ k).2 hk
    have h2 : sample_uncolored.prio_cnt.keys = [1] := by decide
    rw [h2, List.mem_singleton] at h1
    omega
  · intro h
    exact absurd h (by decide)
  · intro _ p x q v he hv
    have hp : p ∈ sample_uncolored.states :=
      (mem_states _ p).2 (has_state_of_edge _ p x q v he)
    have hx : x ∈ sample_uncolored.state_outsyms p := mem_outsyms_of_edge _ p x q v he
    have hq : q ∈ sample_uncolored.succ p x := (mem_succ _ p x q).2 ⟨v, he⟩
    have h1 : sample_uncolored.states = [0, 1] := by decide
    rw [h1] at hp
    simp only [List.mem_cons, List.mem_singleton, List.not_mem_nil, or_false] at hp
    rcases hp with rfl | rfl
    · have h2 : sample_uncolored.state_outsyms 0 = [0] := by decide
      rw [h2, List.mem_singleton] at hx
      subst hx
      have h3 : sample_uncolored.succ 0 0 = [0, 1] := by decide
      rw [h3] at hq
      simp only [List.mem_cons, List.mem_singleton, List.not_mem_nil, or_false] at hq
      rcases hq with rfl | rfl
      · have h4 : sample_uncolored.edge_pri 0 0 0 = some 1 := by decide
        rw [h4] at he
        rw [← Option.some.inj he]
        decide
      · have h4 : sample_uncolored.edge_pri 0 0 1 = some (-1) := by decide
        rw [h4] at he
        have := Option.some.inj he
        omega
    · have h2 : sample_uncolored.state_outsyms 1 = [] := by decide
      rw [h2] at hx
      exact absurd hx (List.not_mem_nil x)

/-- C14 as stated fails: `sample_uncolored` has the min-parity type MIN_EVEN, one edge with
priority 1 and one unassigned edge. The greatest priority present, 1, is bad, so
`make_colored` assigns 1 itself to the unassigned edge: the common priority is not greater
than every priority that was present. -/
theorem make_colored_reuses_greatest_bad :
    pa_acc_is_min sample_uncolored.patype = true ∧
    sample_uncolored.prio_cnt.toList = [(1, 1)] ∧
    sample_uncolored.edge_pri 0 0 0 = some 1 ∧ sample_uncolored.edge_pri 0 0 1 = some (-1) ∧
    sample_uncolored.make_colored.map
      (fun b => (b.is_colored, b.edge_pri 0 0 0, b.edge_pri 0 0 1)) =
      some (true, some 1, some 1) := by
  decide

/-- C14, amended: on an automaton with a min-parity type whose `prio_cnt` has the priorities
of the slots among its keys and only priorities as keys, `make_colored` completes; then
`is_colored` holds, the states are the same, every slot that carried a priority keeps it,
and every unassigned slot carries the one priority `b = bad_pri`, which is bad for the
parity type and at least as large as every priority present before the call. -/
theorem make_colored_postcondition (a : Aut T) (hmin : pa_acc_is_min a.patype = true)
    (hcnt : Counted a) :
    ∃ b, a.make_colored = some b ∧ b.is_colored = true ∧
      (∀ t, b.has_state t = a.has_state t) ∧
      (a.is_sba = true → ∀ s, a.has_state s = true →
        b.state_pri.lookup s = some ((a.state_pri.lookup s).getD a.bad_pri)) ∧
      (a.is_sba = true → ∀ p x q, b.edge_pri p x q = a.edge_pri p x q) ∧
      (a.is_sba = false → ∀ p x q, b.edge_pri p x q =
        (a.edge_pri p x q).map (fun v => if v = -1 then a.bad_pri else v)) ∧
      (a.is_sba = false → b.state_pri = a.state_pri) ∧
      good_priority a.patype a.bad_pri = false ∧
      (a.is_sba = true → ∀ s v, a.state_pri.lookup s = some v → v ≤ a.bad_pri) ∧
      (a.is_sba = false → ∀ p x q v, a.edge_pri p x q = some v → v ≤ a.bad_pri) := by
  obtain ⟨hk, hs, ht⟩ := hcnt
  obtain ⟨b, hb, hI⟩ := make_colored_spec a hmin hk
  have hbad := bad_pri_nonneg a hk
  have hcol := is_colored_of_colInv a b a.bad_pri hbad hI
  obtain ⟨i1, _, i2, i3, i4⟩ := hI
  refine ⟨b, hb, hcol, i2, ?_, ?_, ?_, ?_, bad_pri_bad a, ?_, ?_⟩
  · intro hsb s hst
    unfold is_sba at hsb
    rw [i3]
    cases hc : a.state_pri.lookup s with
    | none =>
      rw [if_pos ⟨hsb, (mem_states a s).2 hst, rfl⟩]
      rfl
    | some v =>
      rw [if_neg (fun h => Option.noConfusion h.2.2)]
      rfl
  · intro hsb p x q
    unfold is_sba at hsb
    rw [i4, if_neg (fun h => by rw [hsb] at h; exact Bool.noConfusion h.1)]
  · intro hsb p x q
    unfold is_sba at hsb
    rw [i4]
    by_cases hp : p ∈ a.states
    · rw [if_pos ⟨hsb, hp⟩]
      rfl
    · rw [if_neg (fun h => hp h.2)]
      cases he : a.edge_pri p x q with
      | none => rfl
      | some v => exact absurd ((mem_states a p).2 (has_state_of_edge a p x q v he)) hp
  · intro hsb
    unfold is_sba at hsb
    apply SMap.ext
    intro s
    rw [i3, if_neg (fun h => by rw [hsb] at h; exact Bool.noConfusion h.1)]
  · intro hsb s v hv
    exact bad_pri_ge a v (hs hsb s v hv)
  · intro hsb p x q v hv
    by_cases h0 : 0 ≤ v
    · exact bad_pri_ge a v (ht hsb p x q v hv h0)
    · omega

theorem make_colored_postcondition_witness :
    pa_acc_is_min sample_uncolored.patype = true ∧ Counted sample_uncolored ∧
    ∃ b, sample_uncolored.make_colored = some b ∧ b.is_colored = true ∧
      (∀ t, b.has_state t = sample_uncolored.has_state t) ∧
      (sample_uncolored.is_sba = true → ∀ s, sample_uncolored.has_state s = true →
        b.state_pri.lookup s =
          some ((sample_uncolored.state_pri.lookup s).getD sample_uncolored.bad_pri)) ∧
      (sample_uncolored.is_sba = true →
        ∀ p x q, b.edge_pri p x q = sample_uncolored.edge_pri p x q) ∧
      (sample_uncolored.is_sba = false → ∀ p x q, b.edge_pri p x q =
        (sample_uncolored.edge_pri p x q).map
          (fun v => if v = -1 then sample_uncolored.bad_pri else v)) ∧
      (sample_uncolored.is_sba = false → b.state_pri = sample_uncolored.state_pri) ∧
      good_priority sample_uncolored.patype sample_uncolored.bad_pri = false ∧
      (sample_uncolored.is_sba = true →
        ∀ s v, sample_uncolored.state_pri.lookup s = some v → v ≤ sample_uncolored.bad_pri) ∧
      (sample_uncolored.is_sba = false →
        ∀ p x q v, sample_uncolored.edge_pri p x q = some v → v ≤ sample_uncolored.bad_pri) :=
  ⟨by decide, counted_sample_uncolored,
    make_colored_postcondition sample_uncolored (by decide) counted_sample_uncolored⟩

/-! ## The loops of `insert` -/

theorem insert_sym_spec (other : Aut T) (st sym : Nat) (r0 : Aut T)
    (hst : r0.has_state st = true)
    (hsym : sym < r0.num_syms)
    (hpri : ∀ q pri, other.edge_pri st sym q = some pri → pri < 0 ∨ r0.sba = false)
    (hfree : ∀ q1, r0.edge_pri st sym q1 = none) :
    ∃ r, insert_sym other st r0 sym = some r ∧
      Adds r0 r (fun t => ∃ pri, other.edge_pri st sym t = some pri)
        (fun p x q pri => p = st ∧ x = sym ∧ other.edge_pri st sym q = some pri) := by
  have hnd : ((other.succ_edges st sym).toList.map Prod.fst).Nodup :=
    (other.succ_edges st sym).keys_nodup
  have hmem : ∀ e : Nat × Int, e ∈ (other.succ_edges st sym).toList ↔
      other.edge_pri st sym e.1 = some e.2 :=
    fun e => mem_succ_edges_toList other st sym e.1 e.2
  obtain ⟨r, hr, hA⟩ := foldlM_indexed (insert_edge st sym)
    (fun pre (b : Aut T) =>
      Adds r0 b (fun t => ∃ e ∈ pre, t = e.1)
        (fun p x q pri => p = st ∧ x = sym ∧ ∃ e ∈ pre, q = e.1 ∧ pri = e.2))
    (other.succ_edges st sym).toList
    (by
      intro pre e post b hl hA
      obtain ⟨q, pri⟩ := e
      have hin : (q, pri) ∈ (other.succ_edges st sym).toList := by rw [hl]; simp
      have hedge := (hmem (q, pri)).1 hin
      have hqpre : ∀ e ∈ pre, e.1 ≠ q := by
        intro e he heq
        rw [hl, List.map_append, List.map_cons] at hnd
        have hd := (List.nodup_append.1 hnd).2.2
        exact hd (List.mem_map_of_mem Prod.fst he) (by rw [heq]; exact List.mem_cons_self _ _)
      have hfree2 : b.edge_pri st sym q = none := by
        cases hc : b.edge_pri st sym q with
        | none => rfl
        | some pri1 =>
          exfalso
          rcases (hA.2.2.2.2.2.2 st sym q pri1).1 hc with h | ⟨_, _, e, he, hev, _⟩
          · rw [hfree q] at h; cases h
          · exact hqpre e he hev.symm
      obtain ⟨c1, hc1⟩ := ensure_state_total b q
      obtain ⟨e1, e2, e3, e4, e5, _⟩ := ensure_state_some b c1 q hc1
      obtain ⟨c2, hc2⟩ := add_edge_total c1 st sym q pri
        (by rw [e2]; simp [(hA.2.2.2.2.2.1 st).2 (Or.inl hst)])
        (by rw [num_syms_congr b c1 e5, num_syms_congr r0 b hA.2.1]; exact hsym)
        e1
        (by rw [e4, hA.1]; exact hpri q pri hedge)
        (by rw [edge_pri_ensure_state b c1 q hc1]; exact hfree2)
      refine ⟨c2, ?_, ?_⟩
      · unfold insert_edge
        simp only
        rw [hc1, Option.some_bind, hc2]
      refine Adds.congr _ _ _ _ _ _ (adds_edge_step r0 b c1 c2 _ _ st sym q pri hA hc1 hc2) ?_ ?_
      · intro t
        simp only [List.mem_append, List.mem_singleton]
        constructor
        · rintro (⟨e, he, ht⟩ | ht)
          · exact ⟨e, Or.inl he, ht⟩
          · exact ⟨(q, pri), Or.inr rfl, ht⟩
        · rintro ⟨e, he | he, ht⟩
          · exact Or.inl ⟨e, he, ht⟩
          · right; rw [ht, he]
      · intro p x q1 pri1
        simp only [List.mem_append, List.mem_singleton]
        constructor
        · rintro (⟨hp, hx, e, he, h5, h6⟩ | ⟨hp, hx, h5, h6⟩)
          · exact ⟨hp, hx, e, Or.inl he, h5, h6⟩
          · exact ⟨hp, hx, (q, pri), Or.inr rfl, h5, h6⟩
        · rintro ⟨hp, hx, e, he | he, h5, h6⟩
          · exact Or.inl ⟨hp, hx, e, he, h5, h6⟩
          · right
            subst he
            exact ⟨hp, hx, h5, h6⟩)
    r0 (Adds.congr _ _ _ _ _ _ (adds_refl r0) (by simp) (by simp))
  refine ⟨r, hr, Adds.congr _ _ _ _ _ _ hA ?_ ?_⟩
  · intro t
    constructor
    · rintro ⟨e, he, ht⟩
      exact ⟨e.2, by rw [ht]; exact (hmem e).1 he⟩
    · rintro ⟨pri, he⟩
      exact ⟨(t, pri), (hmem (t, pri)).2 he, rfl⟩
  · intro p x q1 pri
    constructor
    · rintro ⟨hp, hx, e, he, h5, h6⟩
      refine ⟨hp, hx, ?_⟩
      rw [h5, h6]
      exact (hmem e).1 he
    · rintro ⟨hp, hx, he⟩
      exact ⟨hp, hx, (q1, pri), (hmem (q1, pri)).2 he, rfl, rfl⟩

theorem insert_syms_spec (other : Aut T) (st : Nat) (r0 : Aut T)
    (hst : r0.has_state st = true)
    (hn : other.num_syms = r0.num_syms)
    (hpri : ∀ x q pri, other.edge_pri st x q = some pri → pri < 0 ∨ r0.sba = false)
    (hfree : ∀ x q1, r0.edge_pri st x q1 = none) :
    ∃ r, other.syms.foldlM (insert_sym other st) r0 = some r ∧
      Adds r0 r
        (fun t => ∃ x pri, x < other.num_syms ∧ other.edge_pri st x t = some pri)
        (fun p x q pri => p = st ∧ x < other.num_syms ∧ other.edge_pri st x q = some pri) := by
  have hnd : (List.range other.num_syms).Nodup := List.nodup_range _
  obtain ⟨r, hr, hA⟩ := foldlM_indexed (insert_sym other st)
    (fun pre (b : Aut T) =>
      Adds r0 b
        (fun t => ∃ x pri, x ∈ pre ∧ other.edge_pri st x t = some pri)
        (fun p x q pri => p = st ∧ x ∈ pre ∧ other.edge_pri st x q = some pri))
    (List.range other.num_syms)
    (by
      intro pre sym post b hl hA
      have hsymlt : sym < other.num_syms := List.mem_range.1 (by rw [hl]; simp)
      have hsympre : sym ∉ pre := by
        intro hin
        rw [hl] at hnd
        exact (List.nodup_append.1 hnd).2.2 hin (List.mem_cons_self _ _)
      have hfree2 : ∀ q1, b.edge_pri st sym q1 = none := by
        intro q1
        cases hc : b.edge_pri st sym q1 with
        | none => rfl
        | some pri1 =>
          exfalso
          rcases (hA.2.2.2.2.2.2 st sym q1 pri1).1 hc with h | ⟨_, hin, _⟩
          · rw [hfree sym q1] at h; cases h
          · exact hsympre hin
      obtain ⟨r1, h1, hA1⟩ := insert_sym_spec other st sym b
        ((hA.2.2.2.2.2.1 st).2 (Or.inl hst))
        (by rw [num_syms_congr r0 b hA.2.1, ← hn]; exact hsymlt)
        (fun q pri he => by rw [hA.1]; exact hpri sym q pri he) hfree2
      refine ⟨r1, h1, ?_⟩
      refine Adds.congr _ _ _ _ _ _ (adds_trans r0 b r1 _ _ _ _ hA hA1) ?_ ?_
      · intro t
        simp only [List.mem_append, List.mem_singleton]
        constructor
        · rintro (⟨x, pri, hx, he⟩ | ⟨pri, he⟩)
          · exact ⟨x, pri, Or.inl hx, he⟩
          · exact ⟨sym, pri, Or.inr rfl, he⟩
        · rintro ⟨x, pri, hx | hx, he⟩
          · exact Or.inl ⟨x, pri, hx, he⟩
          · subst hx; exact Or.inr ⟨pri, he⟩
      · intro p x q1 pri
        simp only [List.mem_append, List.mem_singleton]
        constructor
        · rintro (⟨hp, hx, he⟩ | ⟨hp, hx, he⟩)
          · exact ⟨hp, Or.inl hx, he⟩
          · subst hx; exact ⟨hp, Or.inr rfl, he⟩
        · rintro ⟨hp, hx | hx, he⟩
          · exact Or.inl ⟨hp, hx, he⟩
          · subst hx; exact Or.inr ⟨hp, rfl, he⟩)
    r0 (Adds.congr _ _ _ _ _ _ (adds_refl r0) (by simp) (by simp))
  refine ⟨r, hr, Adds.congr _ _ _ _ _ _ hA ?_ ?_⟩
  · intro t
    simp only [List.mem_range]
  · intro p x q1 pri
    simp only [List.mem_range]

theorem insert_edge_frame (st sym : Nat) (acc b : Aut T) (es : Nat × Int)
    (h : insert_edge st sym acc es = some b) :
    b.tag = acc.tag ∧ b.name = acc.name ∧ (es.2 < 0 → b.prio_cnt = acc.prio_cnt) := by
  unfold insert_edge at h
  cases hc : acc.ensure_state es.1 with
  | none => rw [hc] at h; exact Option.noConfusion h
  | some c1 =>
    rw [hc, Option.some_bind] at h
    have hn1 : c1.name = acc.name := by
      unfold ensure_state at hc
      split_ifs at hc
      · obtain ⟨_, e⟩ := add_state_some acc c1 es.1 hc
        rw [e]
      · rw [← Option.some.inj hc]
    obtain ⟨_, _, _, _, _, _, _, _, e9, e10⟩ := ensure_state_some acc c1 es.1 hc
    obtain ⟨_, _, _, _, _, e⟩ := add_edge_some c1 b st sym es.1 es.2 h
    refine ⟨?_, ?_, ?_⟩
    · rw [e]
      exact e10
    · rw [e]
      exact hn1
    · intro hneg
      rw [e]
      simp only
      rw [if_neg (by omega)]
      exact e9

theorem insert_sym_frame (other : Aut T) (st : Nat) (acc b : Aut T) (sym : Nat)
    (h : insert_sym other st acc sym = some b) :
    b.tag = acc.tag ∧ b.name = acc.name ∧
    ((∀ q pri, other.edge_pri st sym q = some pri → pri < 0) →
      b.prio_cnt = acc.prio_cnt) := by
  have key := foldlM_rel (insert_edge st sym)
    (fun (c d : Aut T) => d.tag = c.tag ∧ d.name = c.name ∧
      ((∀ q pri, other.edge_pri st sym q = some pri → pri < 0) → d.prio_cnt = c.prio_cnt))
    (fun _ => ⟨rfl, rfl, fun _ => rfl⟩)
    (fun c d e h1 h2 => ⟨h2.1.trans h1.1, h2.2.1.trans h1.2.1,
      fun hn => (h2.2.2 hn).trans (h1.2.2 hn)⟩)
    (other.succ_edges st sym).toList
    (fun c es d hes hd => by
      obtain ⟨f1, f2, f3⟩ := insert_edge_frame st sym c d es hd
      refine ⟨f1, f2, fun hn => f3 (hn es.1 es.2 ?_)⟩
      exact (mem_succ_edges_toList other st sym es.1 es.2).1 hes)
  exact key acc b h

theorem insert_syms_frame (other : Aut T) (st : Nat) (acc b : Aut T)
    (h : other.syms.foldlM (insert_sym other st) acc = some b) :
    b.tag = acc.tag ∧ b.name = acc.name ∧
    ((∀ x q pri, other.edge_pri st x q = some pri → pri < 0) →
      b.prio_cnt = acc.prio_cnt) := by
  have key := foldlM_rel (insert_sym other st)
    (fun (c d : Aut T) => d.tag = c.tag ∧ d.name = c.name ∧
      ((∀ x q pri, other.edge_pri st x q = some pri → pri < 0) → d.prio_cnt = c.prio_cnt))
    (fun _ => ⟨rfl, rfl, fun _ => rfl⟩)
    (fun c d e h1 h2 => ⟨h2.1.trans h1.1, h2.2.1.trans h1.2.1,
      fun hn => (h2.2.2 hn).trans (h1.2.2 hn)⟩)
    other.syms
    (fun c x d _ hd => by
      obtain ⟨f1, f2, f3⟩ := insert_sym_frame other st c d x hd
      exact ⟨f1, f2, fun hn => f3 (hn x)⟩)
  exact key acc b h

/-- The optional `set_pri` of a round of `insert`. -/
theorem insert_pri_step (other : Aut T) (b1 : Aut T) (st : Nat)
    (hpos : ∀ s v, other.state_pri.lookup s = some v → (0 : Int) ≤ v)
    (hst : b1.has_state st = true) :
    ∃ b2, (if b1.sba && other.sba && other.has_pri st then
        (other.get_pri st).bind fun p => b1.set_pri st p else some b1) = some b2 ∧
      b2.adj = b1.adj ∧ b2.sba = b1.sba ∧ b2.aps = b1.aps ∧ b2.patype = b1.patype ∧
      b2.init = b1.init ∧ b2.name = b1.name ∧ b2.tag = b1.tag ∧
      (∀ s, b2.state_pri.lookup s =
        if s = st ∧ b1.sba = true ∧ other.sba = true ∧ other.has_pri st = true
        then other.state_pri.lookup st else b1.state_pri.lookup s) ∧
      ((b1.sba && other.sba && other.has_pri st) = false → b2 = b1) ∧
      ((b1.sba && other.sba && other.has_pri st) = true →
        ∃ p, 0 ≤ p ∧ other.state_pri.lookup st = some p ∧ b1.set_pri st p = some b2) := by
  cases hc : (b1.sba && other.sba && other.has_pri st) with
  | false =>
    refine ⟨b1, by simp, rfl, rfl, rfl, rfl, rfl, rfl, rfl, ?_, fun _ => rfl,
      fun h => Bool.noConfusion h⟩
    intro s
    rw [if_neg]
    rintro ⟨_, h1, h2, h3⟩
    rw [h1, h2, h3] at hc
    exact Bool.noConfusion hc
  | true =>
    simp only [Bool.and_eq_true] at hc
    obtain ⟨⟨h1, h2⟩, h3⟩ := hc
    obtain ⟨p, hp⟩ := (SMap.contains_iff _ _).1 h3
    have hg : other.get_pri st = some p := by
      unfold get_pri is_sba
      rw [h2, if_pos rfl, hp]
    obtain ⟨b2, hb2⟩ := set_pri_total b1 st p h1 hst
    obtain ⟨_, _, s3, s4, s5, s6, s7, s8, _, s10, s11, _⟩ := set_pri_some b1 b2 st p hb2
    have hp0 := hpos st p hp
    refine ⟨b2, ?_, s3, s4, s5, s7, s6, s10, s8, ?_, fun h => Bool.noConfusion h,
      fun _ => ⟨p, hp0, hp, hb2⟩⟩
    · rw [if_pos rfl, hg, Option.some_bind, hb2]
    · intro s
      rw [s11, if_pos hp0, SMap.lookup_ins]
      by_cases hs : s = st
      · rw [if_pos hs, if_pos ⟨hs, h1, h2, h3⟩, hp]
      · rw [if_neg hs, if_neg (fun h => hs h.1)]

end Aut

theorem posCnt_getD0_nonneg (m : SMap Int Int) (h : PosCnt m) (k : Int) : 0 ≤ m.getD0 k := by
  rw [SMap.getD0_eq]
  cases hl : m.lookup k with
  | none => simp
  | some v =>
    have := h k v hl
    simp only [Option.getD_some]
    omega

theorem posCnt_cnt_incr (m : SMap Int Int) (p : Int) (h : PosCnt m) : PosCnt (cnt_incr m p) := by
  intro k v hk
  unfold cnt_incr at hk
  rw [SMap.lookup_ins] at hk
  split_ifs at hk with h1
  · have := Option.some.inj hk
    have := posCnt_getD0_nonneg m h p
    omega
  · exact h k v hk

theorem posCnt_cnt_decr (m : SMap Int Int) (p : Int) (h : PosCnt m)
    (hc : m.contains p = true) : PosCnt (cnt_decr m p) := by
  obtain ⟨v0, hv0⟩ := (SMap.contains_iff m p).1 hc
  have hpos := h p v0 hv0
  have hg : m.getD0 p = v0 := by rw [SMap.getD0_eq, hv0]; rfl
  intro k v hk
  unfold cnt_decr at hk
  simp only at hk
  split_ifs at hk with h1
  · rw [SMap.lookup_erase] at hk
    split_ifs at hk with h2
    rw [SMap.lookup_ins, if_neg h2] at hk
    exact h k v hk
  · rw [SMap.lookup_ins] at hk
    split_ifs at hk with h2
    · subst h2
      rw [SMap.getD0_eq, SMap.lookup_ins_self] at h1
      have := Option.some.inj hk
      simp only [Option.getD_some] at h1
      omega
    · exact h k v hk

theorem posCnt_ext (m1 m2 : SMap Int Int) (h1 : PosCnt m1) (h2 : PosCnt m2)
    (h : ∀ k, m1.getD0 k = m2.getD0 k) : m1 = m2 := by
  apply SMap.ext
  intro k
  have hk := h k
  rw [SMap.getD0_eq, SMap.getD0_eq] at hk
  cases e1 : m1.lookup k with
  | none =>
    cases e2 : m2.lookup k with
    | none => rfl
    | some v2 =>
      rw [e1, e2] at hk
      have := h2 k v2 e2
      simp only [Option.getD_none, Option.getD_some] at hk
      omega
  | some v1 =>
    cases e2 : m2.lookup k with
    | none =>
      rw [e1, e2] at hk
      have := h1 k v1 e1
      simp only [Option.getD_none, Option.getD_some] at hk
      omega
    | some v2 =>
      rw [e1, e2] at hk
      simp only [Option.getD_some] at hk
      rw [hk]

namespace Aut

variable {T : Type}

/-! ## The first loop of `remove_states` and the counters -/

theorem kill_pri_noop (a : Aut T) (it : Nat) (h : a.sba = false) : a.kill_pri it = some a := by
  unfold kill_pri
  rw [h]
  rfl

theorem kill_pri_loop_noop (tokill : List Nat) (a : Aut T) (h : a.sba = false) :
    tokill.foldlM kill_pri a = some a := by
  induction tokill with
  | nil => rfl
  | cons it t ih =>
    rw [foldlM_cons_opt, kill_pri_noop a it h, Option.some_bind]
    exact ih

theorem kill_pri_step (a : Aut T) (it : Nat) (a1 : Aut T) (h : a.kill_pri it = some a1)
    (hsba : a.sba = true) (hpos : PosCnt a.prio_cnt)
    (hle : ∀ k, a.state_pri.lookup it = some k → 0 < a.prio_cnt.getD0 k) :
    a1.sba = true ∧ a1.name = a.name ∧ PosCnt a1.prio_cnt ∧
    (∀ s, a1.state_pri.lookup s = if s = it then none else a.state_pri.lookup s) ∧
    (∀ k, a1.prio_cnt.getD0 k =
      a.prio_cnt.getD0 k - (if a.state_pri.lookup it = some k then 1 else 0)) := by
  unfold kill_pri at h
  cases hl : a.state_pri.lookup it with
  | none =>
    have hp : a.has_pri it = false := by
      unfold has_pri
      rw [SMap.contains_eq_false_iff, hl]
    rw [hsba, hp] at h
    have e : a1 = a := (Option.some.inj h).symm
    subst e
    refine ⟨hsba, rfl, hpos, ?_, ?_⟩
    · intro s
      by_cases hs : s = it
      · rw [if_pos hs, hs, hl]
      · rw [if_neg hs]
    · intro k
      simp
  | some old =>
    have hp : a.has_pri it = true := by
      unfold has_pri
      rw [SMap.contains_iff]
      exact ⟨old, hl⟩
    rw [hsba, hp] at h
    simp only [Bool.and_self, if_true] at h
    obtain ⟨_, _, _, s4, _, _, _, _, _, s10, s11, s12⟩ := set_pri_some a a1 it (-1) h
    rw [if_neg (by decide)] at s11 s12
    have hc : a.prio_cnt.contains old = true := by
      apply contains_of_getD0_ne
      have := hle old (by rw [hl])
      omega
    have hrel : a.released_cnt it = cnt_decr a.prio_cnt old := by
      unfold released_cnt
      rw [hl]
      simp [hc]
    rw [hrel] at s12
    refine ⟨s4.trans hsba, s10, ?_, ?_, ?_⟩
    · rw [s12]
      exact posCnt_cnt_decr _ _ hpos hc
    · intro s
      rw [s11, lookup_kill_key]
    · intro k
      rw [s12, getD0_cnt_decr]
      by_cases hk : k = old
      · subst hk
        simp
      · have : ¬ old = k := fun e => hk e.symm
        simp [hk, this]

theorem pri_occ_cons (sp : SMap Nat Int) (it : Nat) (t : List Nat) (k : Int) :
    pri_occ sp (it :: t) k = pri_occ sp t k + (if sp.lookup it = some k then 1 else 0) := by
  unfold pri_occ
  rw [List.countP_cons]
  by_cases h : sp.lookup it = some k
  · simp [h]
  · simp [h]

theorem pri_occ_congr (sp1 sp2 : SMap Nat Int) (l : List Nat) (k : Int)
    (h : ∀ s ∈ l, sp1.lookup s = sp2.lookup s) : pri_occ sp1 l k = pri_occ sp2 l k := by
  induction l with
  | nil => rfl
  | cons it t ih =>
    rw [pri_occ_cons, pri_occ_cons, ih (fun s hs => h s (List.mem_cons_of_mem _ hs)),
      h it (List.mem_cons_self _ _)]

theorem kill_pri_loop_cnt (tokill : List Nat) (hnd : tokill.Nodup) :
    ∀ (a a1 : Aut T), tokill.foldlM kill_pri a = some a1 → a.sba = true →
      PosCnt a.prio_cnt →
      (∀ k, (pri_occ a.state_pri tokill k : Int) ≤ a.prio_cnt.getD0 k) →
      a1.name = a.name ∧ PosCnt a1.prio_cnt ∧
      (∀ s, a1.state_pri.lookup s = if s ∈ tokill then none else a.state_pri.lookup s) ∧
      (∀ k, a1.prio_cnt.getD0 k = a.prio_cnt.getD0 k - pri_occ a.state_pri tokill k) := by
  induction tokill with
  | nil =>
    intro a a1 h _ hp _
    have e : a1 = a := (Option.some.inj h).symm
    subst e
    refine ⟨rfl, hp, fun s => by simp, fun k => by simp [pri_occ]⟩
  | cons it t ih =>
    intro a a1 h hsba hp hle
    rw [foldlM_cons_opt] at h
    cases hk : a.kill_pri it with
    | none => rw [hk] at h; exact Option.noConfusion h
    | some a2 =>
      rw [hk, Option.some_bind] at h
      have hnd2 := List.nodup_cons.1 hnd
      obtain ⟨k1, k2, k3, k4, k5⟩ := kill_pri_step a it a2 hk hsba hp (fun k hl => by
        have := hle k
        rw [pri_occ_cons, if_pos hl] at this
        push_cast at this
        omega)
      have hocc : ∀ k, pri_occ a2.state_pri t k = pri_occ a.state_pri t k := by
        intro k
        apply pri_occ_congr
        intro s hs
        have hne : s ≠ it := fun e => hnd2.1 (e ▸ hs)
        rw [k4, if_neg hne]
      obtain ⟨j1, j2, j3, j4⟩ := ih hnd2.2 a2 a1 h k1 k3 (fun k => by
        have := hle k
        rw [pri_occ_cons] at this
        rw [hocc, k5]
        push_cast at this
        split_ifs at this ⊢ <;> omega)
      refine ⟨j1.trans k2, j2, ?_, ?_⟩
      · intro s
        rw [j3, k4]
        by_cases hs : s = it
        · subst hs
          simp
        · by_cases hs2 : s ∈ t
          · simp [hs2]
          · simp [hs, hs2]
      · intro k
        rw [j4, hocc, k5, pri_occ_cons]
        push_cast
        split_ifs <;> omega

theorem kill_tag_eq (t : Bimap T) (it : Nat) :
    kill_tag t it = ⟨t.pairs.filter (fun e => decide (e.2 ≠ it))⟩ := by
  unfold kill_tag
  by_cases h : t.hasi it = true
  · rw [if_pos h]
    rfl
  · rw [if_neg h]
    have hall : ∀ e ∈ t.pairs, decide (e.2 ≠ it) = true := by
      intro e he
      unfold Bimap.hasi at h
      rw [List.any_eq_true] at h
      simp only [decide_eq_true_eq, ne_eq]
      intro heq
      exact h ⟨e, he, by simpa using heq⟩
    rw [List.filter_eq_self.2 hall]

theorem kill_tag_fold (tokill : List Nat) : ∀ t : Bimap T,
    tokill.foldl kill_tag t = ⟨t.pairs.filter (fun e => decide (e.2 ∉ tokill))⟩ := by
  induction tokill with
  | nil =>
    intro t
    simp
  | cons it rest ih =>
    intro t
    rw [List.foldl_cons, ih, kill_tag_eq]
    simp only [List.filter_filter]
    congr 1
    apply List.filter_congr
    intro e _
    simp only [List.mem_cons, not_or, ne_eq, Bool.decide_and]
    rw [Bool.and_comm]

theorem copy_tag_tag [DecidableEq T] (src : Aut T) (st : Nat) (r : Aut T) :
    (copy_tag src st r st).tag = tag_copy src r.tag st ∧
    (copy_tag src st r st).name = r.name := by
  unfold copy_tag tag_copy
  cases src.tag.geti st <;> exact ⟨rfl, rfl⟩

theorem insert_state_step [DecidableEq T] (a other : Aut T) (pre : List Nat) (r : Aut T)
    (st : Nat) (haps : a.aps = other.aps)
    (hdisj : ∀ t, a.has_state t = true → other.has_state t = true → False)
    (hmode : a.sba = true → ∀ p x q pri, other.edge_pri p x q = some pri → pri < 0)
    (hpos : ∀ s v, other.state_pri.lookup s = some v → (0 : Int) ≤ v)
    (hst : other.has_state st = true) (hnew : st ∉ pre) (hI : InsInv a other pre r) :
    ∃ r1, insert_state other r st = some r1 ∧ InsInv a other (pre ++ [st]) r1 := by
  obtain ⟨i1, i2, i3, i4, i5, i6, i7, i8, i9, i10, i11⟩ := hI
  -- `if (!has_state(st)) add_state(st)`
  obtain ⟨b1, hb1⟩ := ensure_state_total r st
  obtain ⟨e1, e2, _, e4, e5, e6, e7, e8, e9, e10⟩ := ensure_state_some r b1 st hb1
  have en : b1.name = r.name := by
    unfold ensure_state at hb1
    split_ifs at hb1
    · obtain ⟨_, e⟩ := add_state_some r b1 st hb1
      rw [e]
    · rw [← Option.some.inj hb1]
  have ee1 := edge_pri_ensure_state r b1 st hb1
  -- the optional `set_pri`
  obtain ⟨b2, hb2, g1, g2, g3, g4, g5, g6, g7, g8, g9, g10⟩ :=
    insert_pri_step other b1 st hpos e1
  -- the tag
  obtain ⟨c1, c2, c3, c4, c5, c6, c7⟩ := copy_tag_frame other st b2 st
  obtain ⟨c8, c9⟩ := copy_tag_tag other st b2
  have hs3 : ∀ t, (copy_tag other st b2 st).has_state t = (decide (t = st) || r.has_state t) := by
    intro t
    rw [has_state_of_adj_eq b2 _ c1, has_state_of_adj_eq b1 b2 g1, e2]
  have he3 : ∀ p x q, (copy_tag other st b2 st).edge_pri p x q = r.edge_pri p x q := by
    intro p x q
    rw [edge_pri_of_adj_eq b2 _ c1, edge_pri_of_adj_eq b1 b2 g1, ee1]
  have hsba3 : (copy_tag other st b2 st).sba = a.sba :=
    c2.trans (g2.trans (e4.trans i1))
  have haps3 : (copy_tag other st b2 st).aps = a.aps :=
    c3.trans (g3.trans (e5.trans i2))
  have hsta : a.has_state st = false := by
    cases h : a.has_state st with
    | false => rfl
    | true => exact absurd hst (fun h2 => hdisj st h h2)
  have hfree : ∀ x q, (copy_tag other st b2 st).edge_pri st x q = none := by
    intro x q
    rw [he3]
    cases hc : r.edge_pri st x q with
    | none => rfl
    | some v =>
      exfalso
      rcases (i7 st x q v).1 hc with h | h
      · have := has_state_of_edge a st x q v h
        rw [hsta] at this
        exact Bool.noConfusion this
      · exact hnew h.1
  obtain ⟨r1, hr1, hA⟩ := insert_syms_spec other st (copy_tag other st b2 st)
    (by rw [hs3]; simp)
    (by rw [num_syms_congr a _ haps3]; exact (num_syms_congr a other haps.symm))
    (fun x q pri he => by
      rw [hsba3]
      cases hsb : a.sba with
      | false => exact Or.inr rfl
      | true => exact Or.inl (hmode hsb st x q pri he))
    hfree
  obtain ⟨f1, f2, f3⟩ := insert_syms_frame other st _ r1 hr1
  obtain ⟨a1, a2, a3, a4, a5, a6, a7⟩ := hA
  refine ⟨r1, ?_, a1.trans hsba3, a2.trans haps3, ?_, ?_, ?_, ?_, ?_, ?_, ?_, ?_, ?_⟩
  · unfold insert_state
    rw [hb1, Option.some_bind, hb2, Option.some_bind]
    exact hr1
  · exact a3.trans (c4.trans (g4.trans (e7.trans i3)))
  · exact a4.trans (c5.trans (g5.trans (e6.trans i4)))
  · exact f2.trans (c9.trans (g6.trans (en.trans i5)))
  · intro t
    rw [a6, hs3]
    simp only [Bool.or_eq_true, decide_eq_true_eq, List.mem_append, List.mem_singleton]
    rw [i6]
    constructor
    · rintro ((h | h | h | ⟨p, x, pri, hp, hx, he⟩) | ⟨x, pri, hx, he⟩)
      · exact Or.inr (Or.inl (Or.inr h))
      · exact Or.inl h
      · exact Or.inr (Or.inl (Or.inl h))
      · exact Or.inr (Or.inr ⟨p, x, pri, Or.inl hp, hx, he⟩)
      · exact Or.inr (Or.inr ⟨st, x, pri, Or.inr rfl, hx, he⟩)
    · rintro (h | (h | h) | ⟨p, x, pri, hp | hp, hx, he⟩)
      · exact Or.inl (Or.inr (Or.inl h))
      · exact Or.inl (Or.inr (Or.inr (Or.inl h)))
      · exact Or.inl (Or.inl h)
      · exact Or.inl (Or.inr (Or.inr (Or.inr ⟨p, x, pri, hp, hx, he⟩)))
      · subst hp
        exact Or.inr ⟨x, pri, hx, he⟩
  · intro p x q pri
    rw [a7, he3, i7]
    simp only [List.mem_append, List.mem_singleton]
    constructor
    · rintro ((h | ⟨hp, hx, he⟩) | ⟨hp, hx, he⟩)
      · exact Or.inl h
      · exact Or.inr ⟨Or.inl hp, hx, he⟩
      · subst hp
        exact Or.inr ⟨Or.inr rfl, hx, he⟩
    · rintro (h | ⟨hp | hp, hx, he⟩)
      · exact Or.inl (Or.inl h)
      · exact Or.inl (Or.inr ⟨hp, hx, he⟩)
      · subst hp
        exact Or.inr ⟨rfl, hx, he⟩
  · intro s
    rw [a5, c6, g8, e8, i8, e4, i1]
    by_cases hs : s = st
    · subst hs
      by_cases hc : a.sba = true ∧ other.sba = true ∧ other.has_pri s = true
      · rw [if_pos ⟨rfl, hc⟩, if_pos ⟨hc.1, hc.2.1, by simp, hc.2.2⟩]
      · rw [if_neg (fun h => hc h.2), if_neg (fun h => hnew h.2.2.1),
          if_neg (fun h => hc ⟨h.1, h.2.1, h.2.2.2⟩)]
    · rw [if_neg (fun h => hs h.1)]
      by_cases hc : a.sba = true ∧ other.sba = true ∧ s ∈ pre ∧ other.has_pri s = true
      · rw [if_pos hc, if_pos ⟨hc.1, hc.2.1, by simp [hc.2.2.1], hc.2.2.2⟩]
      · rw [if_neg hc, if_neg]
        rintro ⟨h1, h2, h3, h4⟩
        simp only [List.mem_append, List.mem_singleton] at h3
        rcases h3 with h3 | h3
        · exact hc ⟨h1, h2, h3, h4⟩
        · exact hs h3
  · rw [f1, c8, g7, e10, i9, List.foldl_append]
    rfl
  · intro hsb hneg
    have hb1s : b1.sba = false := e4.trans (i1.trans hsb)
    have hb21 : b2 = b1 := g9 (by rw [hb1s]; rfl)
    rw [f3 (fun x q pri he => hneg st x q pri he), c7, hb21, e9]
    exact i10 hsb hneg
  · intro hsb hp hpk
    obtain ⟨j1, j2⟩ := i11 hsb hp hpk
    have hb1s : b1.sba = true := e4.trans (i1.trans hsb)
    have hr1c : r1.prio_cnt = b2.prio_cnt := by
      rw [f3 (fun x q pri he => hmode hsb st x q pri he), c7]
    have hocc : ∀ k, pri_occ other.state_pri (pre ++ [st]) k =
        pri_occ other.state_pri pre k + (if other.state_pri.lookup st = some k then 1 else 0) := by
      intro k
      unfold pri_occ
      rw [List.countP_append, List.countP_cons]
      by_cases h : other.state_pri.lookup st = some k
      · simp [h]
      · simp [h]
    cases hc : (b1.sba && other.sba && other.has_pri st) with
    | false =>
      have hb21 : b2 = b1 := g9 hc
      rw [hr1c, hb21, e9]
      refine ⟨j1, ?_⟩
      intro k
      rw [j2 k, hocc]
      cases hos : other.sba with
      | false => simp
      | true =>
        rw [hb1s, hos] at hc
        have hl : other.state_pri.lookup st = none := by
          rw [← SMap.contains_eq_false_iff]
          simpa [has_pri] using hc
        simp [hl]
    | true =>
      obtain ⟨p, hp0, hlp, hset⟩ := g10 hc
      obtain ⟨_, _, _, _, _, _, _, _, _, _, _, s12⟩ := set_pri_some b1 b2 st p hset
      rw [if_pos hp0] at s12
      have hnone : b1.state_pri.lookup st = none := by
        rw [e8, i8, if_neg (fun h => hnew h.2.2.1)]
        cases hl : a.state_pri.lookup st with
        | none => rfl
        | some v =>
          have h1 : a.has_pri st = true := by
            unfold has_pri
            rw [SMap.contains_iff]
            exact ⟨v, hl⟩
          have := hpk st h1
          rw [hsta] at this
          exact Bool.noConfusion this
      have hrel : b1.released_cnt st = b1.prio_cnt := by
        unfold released_cnt
        rw [hnone]
      rw [hrel, e9] at s12
      rw [hr1c, s12]
      refine ⟨posCnt_cnt_incr _ _ j1, ?_⟩
      intro k
      simp only [Bool.and_eq_true] at hc
      rw [getD0_cnt_incr, j2 k, hocc, hc.1.2, hlp]
      simp only [if_true, Option.some.injEq]
      by_cases hk : k = p
      · subst hk
        simp
        ring
      · have : ¬ p = k := fun e => hk e.symm
        simp [hk, this]

theorem set_intersect_empty_iff (l1 l2 : List Nat) :
    set_intersect_empty l1 l2 = true ↔ ∀ t, t ∈ l1 → t ∈ l2 → False := by
  unfold set_intersect_empty
  rw [List.isEmpty_iff, List.eq_nil_iff_forall_not_mem]
  constructor
  · intro h t h1 h2
    exact h t ((mem_set_intersect l1 l2 t).2 ⟨h1, h2⟩)
  · intro h t ht
    obtain ⟨h1, h2⟩ := (mem_set_intersect l1 l2 t).1 ht
    exact h t h1 h2

/-- The method `insert` completes when the alphabets agree, the state sets are disjoint, a
state-based receiver gets no edge priority, and the state priorities of `other` are
priorities; the result is described by `InsInv` for all states of `other`. -/
theorem insert_spec [DecidableEq T] (a other : Aut T) (haps : a.aps = other.aps)
    (hdisj : set_intersect_empty a.states other.states = true)
    (hmode : a.sba = true → ∀ p x q pri, other.edge_pri p x q = some pri → pri < 0)
    (hpos : ∀ s v, other.state_pri.lookup s = some v → (0 : Int) ≤ v) :
    ∃ r, a.insert other = some r ∧ InsInv a other other.states r := by
  have hd : ∀ t, a.has_state t = true → other.has_state t = true → False := by
    intro t h1 h2
    exact (set_intersect_empty_iff _ _).1 hdisj t ((mem_states a t).2 h1)
      ((mem_states other t).2 h2)
  have hnd : other.states.Nodup := SMap.keys_nodup other.adj
  have key : ∀ a0 : Aut T, InsInv a other [] a0 →
      ∃ r, other.states.foldlM (insert_state other) a0 = some r ∧
        InsInv a other other.states r := by
    intro a0 h0
    exact foldlM_indexed (insert_state other) (InsInv a other) other.states
      (fun pre st post b hl hI => by
        have hst : other.has_state st = true := (mem_states other st).1 (by rw [hl]; simp)
        have hnew : st ∉ pre := by
          rw [hl] at hnd
          intro hm
          exact (List.nodup_append.1 hnd).2.2 hm (List.mem_cons_self st post)
        exact insert_state_step a other pre b st haps hd hmode hpos hst hnew hI) a0 h0
  have h0 : ∀ a0 : Aut T, a0.sba = a.sba → a0.aps = a.aps → a0.patype = a.patype →
      a0.init = a.init → a0.name = a.name → a0.adj = a.adj → a0.state_pri = a.state_pri →
      a0.tag = a.tag → a0.prio_cnt = a.prio_cnt → InsInv a other [] a0 := by
    intro a0 h1 h2 h3 h4 h5 h6 h7 h8 h9
    refine ⟨h1, h2, h3, h4, h5, ?_, ?_, ?_, ?_, ?_, ?_⟩
    · intro t
      rw [has_state_of_adj_eq a a0 h6]
      simp
    · intro p x q pri
      rw [edge_pri_of_adj_eq a a0 h6]
      simp
    · intro s
      rw [h7]
      simp
    · rw [h8]
      rfl
    · intro _ _
      exact h9
    · intro _ hp _
      rw [h9]
      refine ⟨hp, fun k => ?_⟩
      cases other.sba <;> simp [pri_occ]
  unfold insert
  have c1 : decide (a.aps = other.aps) = true := by simpa using haps
  rw [c1, hdisj]
  simp only [Bool.not_true, Bool.false_eq_true, if_false]
  split_ifs
  · exact key _ (h0 _ rfl rfl rfl rfl rfl rfl rfl rfl rfl)
  · exact key _ (h0 _ rfl rfl rfl rfl rfl rfl rfl rfl rfl)

/-! ## Claims about `insert` -/

theorem wellFormed_sample_other : WellFormed sample_other := by
  apply wellFormed_build _ _ _ (wellFormed_new false "" [] 5)
  intro f hf c d hcd hw
  simp only [List.mem_cons, List.mem_singleton, List.not_mem_nil, or_false] at hf
  rcases hf with rfl | rfl
  · exact wellFormed_add_state c d _ hcd hw
  · exact wellFormed_add_edge c d _ _ _ _ hcd hw

/-- C11: for a transition-based automaton `a` and an automaton `b` that satisfies the
data-model invariants, with the same atomic propositions and disjoint state-id sets,
`a.insert(b)` completes; afterwards the states are those of `a` and of `b`, the edges (with
priorities) are exactly the old edges of `a` together with the edges of `b`, and the initial
state is the one of `a`. -/
theorem insert_disjoint_union [DecidableEq T] (a b : Aut T) (hsa : a.is_sba = false)
    (haps : a.aps = b.aps) (hdisj : set_intersect_empty a.states b.states = true)
    (hwf : WellFormed b) :
    ∃ r, a.insert b = some r ∧
      (∀ t, r.has_state t = true ↔ (a.has_state t = true ∨ b.has_state t = true)) ∧
      (∀ p x q pri, r.edge_pri p x q = some pri ↔
        (a.edge_pri p x q = some pri ∨ b.edge_pri p x q = some pri)) ∧
      r.get_init = a.get_init := by
  obtain ⟨_, hcl, hsym, _, hpos⟩ := hwf
  obtain ⟨r, hr, i1, i2, i3, i4, i5, i6, i7, _⟩ := insert_spec a b haps hdisj
    (fun h => by unfold is_sba at hsa; rw [hsa] at h; exact Bool.noConfusion h) hpos
  refine ⟨r, hr, ?_, ?_, i4⟩
  · intro t
    rw [i6]
    constructor
    · rintro (h | h | ⟨p, x, pri, _, _, he⟩)
      · exact Or.inl h
      · exact Or.inr ((mem_states b t).1 h)
      · exact Or.inr (hcl p x t pri he)
    · rintro (h | h)
      · exact Or.inl h
      · exact Or.inr (Or.inl ((mem_states b t).2 h))
  · intro p x q pri
    rw [i7]
    constructor
    · rintro (h | ⟨_, _, he⟩)
      · exact Or.inl h
      · exact Or.inr he
    · rintro (h | h)
      · exact Or.inl h
      · exact Or.inr ⟨(mem_states b p).2 (has_state_of_edge b p x q pri h),
          hsym p x q pri h, h⟩

theorem insert_disjoint_union_witness :
    sample_edge.is_sba = false ∧ sample_edge.aps = sample_other.aps ∧
    set_intersect_empty sample_edge.states sample_other.states = true ∧
    WellFormed sample_other ∧
    ∃ r, sample_edge.insert sample_other = some r ∧
      (∀ t, r.has_state t = true ↔
        (sample_edge.has_state t = true ∨ sample_other.has_state t = true)) ∧
      (∀ p x q pri, r.edge_pri p x q = some pri ↔
        (sample_edge.edge_pri p x q = some pri ∨ sample_other.edge_pri p x q = some pri)) ∧
      r.get_init = sample_edge.get_init :=
  ⟨by decide, by decide, by decide, wellFormed_sample_other,
    insert_disjoint_union sample_edge sample_other (by decide) (by decide) (by decide)
      wellFormed_sample_other⟩

/-! ## `insert` followed by `remove_states` -/

theorem kill_pri_loop_state_pri (tokill : List Nat) :
    ∀ (a a1 : Aut T), tokill.foldlM kill_pri a = some a1 →
      a1.name = a.name ∧
      (∀ s, a1.state_pri.lookup s =
        if a.sba = true ∧ s ∈ tokill then none else a.state_pri.lookup s) := by
  induction tokill with
  | nil =>
    intro a a1 h
    have e : a1 = a := (Option.some.inj h).symm
    subst e
    exact ⟨rfl, fun s => by simp⟩
  | cons it t ih =>
    intro a a1 h
    rw [foldlM_cons_opt] at h
    cases hk : a.kill_pri it with
    | none => rw [hk] at h; exact Option.noConfusion h
    | some a2 =>
      rw [hk, Option.some_bind] at h
      obtain ⟨j1, j2⟩ := ih a2 a1 h
      have hstep : a2.name = a.name ∧ a2.sba = a.sba ∧
          ∀ s, a2.state_pri.lookup s =
            if a.sba = true ∧ s = it then none else a.state_pri.lookup s := by
        unfold kill_pri at hk
        by_cases hc : (a.sba && a.has_pri it) = true
        · rw [if_pos hc] at hk
          obtain ⟨hs, _, _, s4, _, _, _, _, _, s10, s11, _⟩ := set_pri_some a a2 it (-1) hk
          rw [if_neg (by decide)] at s11
          refine ⟨s10, s4, fun s => ?_⟩
          rw [s11, lookup_kill_key]
          by_cases hs2 : s = it
          · rw [if_pos hs2, if_pos ⟨hs, hs2⟩]
          · rw [if_neg hs2, if_neg (fun h => hs2 h.2)]
        · rw [if_neg hc] at hk
          have e : a2 = a := (Option.some.inj hk).symm
          subst e
          refine ⟨rfl, rfl, fun s => ?_⟩
          by_cases hs2 : a2.sba = true ∧ s = it
          · rw [if_pos hs2, hs2.2]
            have hp : a2.has_pri it = false := by
              rw [hs2.1] at hc
              simpa using hc
            unfold has_pri at hp
            exact (SMap.contains_eq_false_iff _ _).1 hp
          · rw [if_neg hs2]
      obtain ⟨k1, k2, k3⟩ := hstep
      refine ⟨j1.trans k1, fun s => ?_⟩
      rw [j2, k3, k2]
      by_cases hsb : a.sba = true
      · by_cases hs1 : s = it
        · subst hs1
          simp [hsb]
        · by_cases hs2 : s ∈ t
          · simp [hsb, hs2]
          · simp [hsb, hs1, hs2]
      · simp [hsb]

theorem remove_states_name (a a1 : Aut T) (tokill : List Nat)
    (h : a.remove_states tokill = some a1) : a1.name = a.name := by
  unfold remove_states at h
  cases h1 : is_set_vec tokill with
  | false => simp [h1] at h
  | true =>
    cases h2 : (tokill.all fun s => a.has_state s) with
    | false => simp [h1, h2] at h
    | true =>
      simp only [h1, h2, Bool.not_true, Bool.false_eq_true, if_false] at h
      cases h3 : tokill.foldlM kill_pri a with
      | none => rw [h3] at h; cases h
      | some a2 =>
        rw [h3] at h
        have e := (Option.some.inj h).symm
        subst e
        exact (kill_pri_loop_state_pri tokill a a2 h3).1

theorem tag_copy_fold [DecidableEq T] (other : Aut T) (A : List (T × Nat)) (S : List Nat)
    (hid : ∀ e ∈ A, e.2 ∉ S)
    (hlab : ∀ s l, other.tag.geti s = some l → ∀ e ∈ A, e.1 ≠ l) (pre : List Nat) :
    ∀ t : Bimap T, (∀ s ∈ pre, s ∈ S) →
      (∃ X, t.pairs = X ++ A ∧ ∀ e ∈ X, e.2 ∈ S) →
      ∃ X, (pre.foldl (tag_copy other) t).pairs = X ++ A ∧ ∀ e ∈ X, e.2 ∈ S := by
  induction pre with
  | nil =>
    intro t _ h
    exact h
  | cons st rest ih =>
    intro t hpre h
    rw [List.foldl_cons]
    apply ih _ (fun s hs => hpre s (List.mem_cons_of_mem _ hs))
    obtain ⟨X, hX, hXS⟩ := h
    have hst : st ∈ S := hpre st (List.mem_cons_self _ _)
    unfold tag_copy
    cases hg : other.tag.geti st with
    | none => exact ⟨X, hX, hXS⟩
    | some l =>
      refine ⟨(l, st) :: X.filter (fun e => decide (e.1 ≠ l) && decide (e.2 ≠ st)), ?_, ?_⟩
      · show (l, st) :: t.pairs.filter _ = _
        rw [hX, List.filter_append, List.cons_append]
        congr 2
        apply List.filter_eq_self.2
        intro e he
        have h1 := hlab st l hg e he
        have h2 : e.2 ≠ st := fun heq => hid e he (heq ▸ hst)
        simp [h1, h2]
      · intro e he
        rcases List.mem_cons.1 he with he | he
        · rw [he]
          exact hst
        · exact hXS e (List.mem_filter.1 he).1

theorem pri_occ_none (sp : SMap Nat Int) (l : List Nat) (k : Int)
    (h : ∀ s ∈ l, sp.lookup s = none) : pri_occ sp l k = 0 := by
  unfold pri_occ
  rw [List.countP_eq_zero]
  intro s hs
  rw [h s hs]
  simp

theorem wellFormed_sample_edge : WellFormed sample_edge := by
  apply wellFormed_build _ _ _ (wellFormed_new false "" [] 0)
  intro f hf c d hcd hw
  simp only [List.mem_cons, List.mem_singleton, List.not_mem_nil, or_false] at hf
  rcases hf with rfl | rfl
  · exact wellFormed_add_state c d _ hcd hw
  · exact wellFormed_add_edge c d _ _ _ _ hcd hw

/-- C12 as stated fails: `sample_sba` is state-based and `sample_other` has the same
(empty) list of atomic propositions, disjoint state ids and no tags, but an edge with
priority 3, so the `add_edge` inside `insert` hits its check that a state-based automaton
gets no edge priority and the call aborts. (On the transition-based `sample_edge` the round
trip completes and restores states and edges, but `prio_cnt` keeps the count of the removed
edge of priority 3.) -/
theorem insert_aborts_on_mode_mismatch :
    sample_sba.aps = sample_other.aps ∧
    set_intersect_empty sample_sba.states sample_other.states = true ∧
    sample_other.tag.pairs = [] ∧ sample_other.edge_pri 5 0 6 = some 3 ∧
    sample_sba.insert sample_other = none ∧
    sample_edge.prio_cnt.toList = [(2, 1)] ∧
    ((sample_edge.insert sample_other).bind
      (fun r => r.remove_states sample_other.states)).map
        (fun c => (c.states, c.edge_pri 0 0 1, c.prio_cnt.toList)) =
      some ([0, 1], some 2, [(2, 1), (3, 1)]) := by
  decide

/-- C12, amended: let `a` and `b` satisfy the data-model invariants, have the same atomic
propositions and disjoint state ids, let the state priorities and tags of `a` sit on states
of `a`, let no tag of `b` occur in `a`, and let `b` have no edge priority if `a` is
state-based. Then `a.insert(b)` followed by `remove_states` of the states of `b` completes
and yields an automaton with the states, edges, edge and state priorities, initial state,
tags, mode, atomic propositions, parity type and name of `a`; if moreover `b` has no edge
priority at all (and the counts of a state-based `a` are positive), `prio_cnt` is the one of
`a` as well. -/
theorem insert_remove_round_trip [DecidableEq T] (a b : Aut T)
    (haps : a.aps = b.aps) (hdisj : set_intersect_empty a.states b.states = true)
    (hwa : WellFormed a) (hwb : WellFormed b)
    (hpk : ∀ s, a.has_pri s = true → a.has_state s = true)
    (htk : ∀ s, a.tag.hasi s = true → a.has_state s = true)
    (hlab : ∀ s l, b.tag.geti s = some l → a.tag.has l = false)
    (hmode : a.is_sba = true → ∀ p x q pri, b.edge_pri p x q = some pri → pri < 0) :
    ∃ r c, a.insert b = some r ∧ r.remove_states b.states = some c ∧ SameButFlag a c ∧
      ((∀ p x q pri, b.edge_pri p x q = some pri → pri < 0) →
        (a.is_sba = true → PosCnt a.prio_cnt) → c.prio_cnt = a.prio_cnt) := by
  obtain ⟨hai, hac, _, _, _⟩ := hwa
  obtain ⟨_, hbc, hbsym, _, hbpos⟩ := hwb
  have hd : ∀ t, a.has_state t = true → t ∈ b.states → False := by
    intro t h1 h2
    exact (set_intersect_empty_iff _ _).1 hdisj t ((mem_states a t).2 h1) h2
  obtain ⟨r, hr, i1, i2, i3, i4, i5, i6, i7, i8, i9, i10, i11⟩ :=
    insert_spec a b haps hdisj hmode hbpos
  have hrs : ∀ t, r.has_state t = true ↔ (a.has_state t = true ∨ t ∈ b.states) := by
    intro t
    rw [i6]
    constructor
    · rintro (h | h | ⟨p, x, pri, _, _, he⟩)
      · exact Or.inl h
      · exact Or.inr h
      · exact Or.inr ((mem_states b t).2 (hbc p x t pri he))
    · rintro (h | h)
      · exact Or.inl h
      · exact Or.inr (Or.inl h)
  have hset : is_set_vec b.states = true :=
    (is_set_vec_iff _).2 (SMap.keys_pairwise b.adj)
  obtain ⟨c, hc⟩ := remove_states_total r b.states hset
    (fun s hs => (hrs s).2 (Or.inr hs))
  obtain ⟨_, _, _, _, r5, r6, r7, _, a2, ha2, r9, r10, r11⟩ :=
    remove_states_some r c b.states hc
  obtain ⟨_, k2⟩ := kill_pri_loop_state_pri b.states r a2 ha2
  have hanone : ∀ s, s ∈ b.states → a.state_pri.lookup s = none := by
    intro s hs
    cases hl : a.state_pri.lookup s with
    | none => rfl
    | some v =>
      exfalso
      apply hd s (hpk s _) hs
      unfold has_pri
      rw [SMap.contains_iff]
      exact ⟨v, hl⟩
  refine ⟨r, c, hr, hc, ⟨?_, ?_, ?_, ?_, ?_, ?_, ?_, ?_, ?_⟩, ?_⟩
  · intro t
    rw [has_state_remove_states r c b.states hc]
    rw [Bool.eq_iff_iff]
    simp only [Bool.and_eq_true, Bool.not_eq_true', decide_eq_false_iff_not]
    rw [hrs]
    constructor
    · rintro ⟨h | h, hn⟩
      · exact h
      · exact absurd h hn
    · intro h
      exact ⟨Or.inl h, fun hs => hd t h hs⟩
  · intro p x q
    rw [edge_pri_remove_states r c b.states hc]
    apply option_ext
    intro v
    by_cases hpq : p ∈ b.states ∨ q ∈ b.states
    · rw [if_pos hpq]
      constructor
      · intro h
        exact Option.noConfusion h
      · intro h
        exfalso
        rcases hpq with hp | hq
        · exact hd p (has_state_of_edge a p x q v h) hp
        · exact hd q (hac p x q v h) hq
    · rw [if_neg hpq, i7]
      constructor
      · rintro (h | h)
        · exact h
        · exact absurd (Or.inl h.1) hpq
      · intro h
        exact Or.inl h
  · rw [r9]
    apply SMap.ext
    intro s
    rw [k2, i8]
    by_cases hs : s ∈ b.states
    · rw [hanone s hs]
      by_cases hsb : r.sba = true
      · rw [if_pos ⟨hsb, hs⟩]
      · rw [if_neg (fun h => hsb h.1), if_neg (fun h => hsb (i1.trans h.1))]
    · rw [if_neg (fun h => hs h.2), if_neg (fun h => hs h.2.2.1)]
  · have hinit : r.init ∉ b.states := by
      rw [i4]
      intro h
      exact hd a.init hai h
    exact ((init_remove_states r c b.states hc).1 hinit).trans i4
  · rw [r11, i9, kill_tag_fold]
    obtain ⟨X, hX, hXS⟩ := tag_copy_fold b a.tag.pairs b.states
      (fun e he hes => by
        apply hd e.2 (htk e.2 _) hes
        unfold Bimap.hasi
        rw [List.any_eq_true]
        exact ⟨e, he, by simp⟩)
      (fun s l hg e he heq => by
        have := hlab s l hg
        unfold Bimap.has at this
        rw [List.any_eq_false] at this
        exact this e he (by simpa using heq))
      b.states a.tag (fun _ h => h) ⟨[], rfl, fun _ h => absurd h (List.not_mem_nil _)⟩
    rw [hX, List.filter_append]
    have h1 : X.filter (fun e => decide (e.2 ∉ b.states)) = [] := by
      rw [List.filter_eq_nil_iff]
      intro e he
      simp [hXS e he]
    have h2 : a.tag.pairs.filter (fun e => decide (e.2 ∉ b.states)) = a.tag.pairs := by
      apply List.filter_eq_self.2
      intro e he
      have : e.2 ∉ b.states := fun hes => by
        apply hd e.2 (htk e.2 _) hes
        unfold Bimap.hasi
        rw [List.any_eq_true]
        exact ⟨e, he, by simp⟩
      simp [this]
    rw [h1, h2]
    rfl
  · unfold is_sba
    exact r5.trans i1
  · exact r6.trans i2
  · exact r7.trans i3
  · exact (remove_states_name r c b.states hc).trans i5
  · intro hneg hposc
    rw [r10]
    cases hsb : a.sba with
    | false =>
      have hrsb : r.sba = false := i1.trans hsb
      have := kill_pri_loop_noop b.states r hrsb
      rw [this] at ha2
      rw [← Option.some.inj ha2]
      exact i10 hsb hneg
    | true =>
      have hrsb : r.sba = true := i1.trans hsb
      have hpa : PosCnt a.prio_cnt := hposc hsb
      obtain ⟨j1, j2⟩ := i11 hsb hpa hpk
      have hocc : ∀ k, pri_occ r.state_pri b.states k =
          (if b.sba then pri_occ b.state_pri b.states k else 0) := by
        intro k
        cases hbs : b.sba with
        | false =>
          simp only [Bool.false_eq_true, if_false]
          apply pri_occ_none
          intro s hs
          rw [i8, if_neg (fun h => by rw [hbs] at h; exact Bool.noConfusion h.2.1)]
          exact hanone s hs
        | true =>
          simp only [if_true]
          apply pri_occ_congr
          intro s hs
          rw [i8]
          by_cases hp : b.has_pri s = true
          · rw [if_pos ⟨hsb, hbs, hs, hp⟩]
          · rw [if_neg (fun h => hp h.2.2.2), hanone s hs]
            have : b.state_pri.contains s = false := by
              unfold has_pri at hp
              simpa using hp
            exact ((SMap.contains_eq_false_iff _ _).1 this).symm
      obtain ⟨_, l2, _, l4⟩ := kill_pri_loop_cnt b.states (SMap.keys_nodup b.adj) r a2 ha2
        hrsb j1 (fun k => by
          rw [hocc, j2 k]
          have := posCnt_getD0_nonneg a.prio_cnt hpa k
          split_ifs <;> simp <;> omega)
      apply posCnt_ext _ _ l2 hpa
      intro k
      rw [l4, hocc, j2 k]
      split_ifs <;> simp

theorem insert_remove_round_trip_witness :
    sample_edge.aps = sample_other.aps ∧
    set_intersect_empty sample_edge.states sample_other.states = true ∧
    WellFormed sample_edge ∧ WellFormed sample_other ∧
    (∀ s, sample_edge.has_pri s = true → sample_edge.has_state s = true) ∧
    (∀ s, sample_edge.tag.hasi s = true → sample_edge.has_state s = true) ∧
    (∀ s l, sample_other.tag.geti s = some l → sample_edge.tag.has l = false) ∧
    (sample_edge.is_sba = true →
      ∀ p x q pri, sample_other.edge_pri p x q = some pri → pri < 0) ∧
    ∃ r c, sample_edge.insert sample_other = some r ∧
      r.remove_states sample_other.states = some c ∧ SameButFlag sample_edge c ∧
      ((∀ p x q pri, sample_other.edge_pri p x q = some pri → pri < 0) →
        (sample_edge.is_sba = true → PosCnt sample_edge.prio_cnt) →
        c.prio_cnt = sample_edge.prio_cnt) := by
  have h1 : ∀ s, sample_edge.has_pri s = true → sample_edge.has_state s = true := by
    intro s h
    have e : sample_edge.state_pri = SMap.empty := by decide
    unfold has_pri at h
    rw [e, SMap.contains_iff] at h
    obtain ⟨v, hv⟩ := h
    simp at hv
  have h2 : ∀ s, sample_edge.tag.hasi s = true → sample_edge.has_state s = true := by
    intro s h
    have e : sample_edge.tag = ⟨[]⟩ := by decide
    rw [e] at h
    simp [Bimap.hasi] at h
  have h3 : ∀ s l, sample_other.tag.geti s = some l → sample_edge.tag.has l = false := by
    intro s l _
    have e : sample_edge.tag = ⟨[]⟩ := by decide
    rw [e]
    rfl
  have h4 : sample_edge.is_sba = true →
      ∀ p x q pri, sample_other.edge_pri p x q = some pri → pri < 0 := by
    intro h
    exact absurd h (by decide)
  exact ⟨by decide, by decide, wellFormed_sample_edge, wellFormed_sample_other, h1, h2, h3, h4,
    insert_remove_round_trip sample_edge sample_other (by decide) (by decide)
      wellFormed_sample_edge wellFormed_sample_other h1 h2 h3 h4⟩

end Aut

/-! ## The adjacency bit matrix and `powersucc`

The bitset type `nba_bitset` (`std::bitset<W>`, declared in `common/types.hh`, which is not
among the sources) is embedded as a natural number whose binary digits are the bits; the
width `W` is a parameter. -/

theorem matInv_congr (ns n : Nat) (P P1 : Nat → Nat → Nat → Prop) (mat : List (List Nat))
    (h : MatInv ns n P mat) (hP : ∀ p x q, P p x q ↔ P1 p x q) : MatInv ns n P1 mat := by
  intro x p hx hp
  obtain ⟨b, hb, hq⟩ := h x p hx hp
  exact ⟨b, hb, fun q => (hq q).trans (hP p x q)⟩

theorem mat_mark_spec (W ns n : Nat) (P : Nat → Nat → Nat → Prop) (mat : List (List Nat))
    (x p q : Nat) (hx : x < ns) (hp : p < n) (hq : q < W) (h : MatInv ns n P mat) :
    ∃ mat1, mat_mark W mat x p q = some mat1 ∧
      MatInv ns n (fun p1 x1 q1 => P p1 x1 q1 ∨ (p1 = p ∧ x1 = x ∧ q1 = q)) mat1 := by
  obtain ⟨b, hb, hbits⟩ := h x p hx hp
  unfold mat_at at hb
  cases hrow : mat[x]? with
  | none => rw [hrow] at hb; exact Option.noConfusion hb
  | some row =>
    rw [hrow, Option.some_bind] at hb
    have hxl : x < mat.length := by
      by_contra hc
      rw [List.getElem?_eq_none (by omega)] at hrow
      exact Option.noConfusion hrow
    have hpl : p < row.length := by
      by_contra hc
      rw [List.getElem?_eq_none (by omega)] at hb
      exact Option.noConfusion hb
    refine ⟨mat.set x (row.set p (b ||| 2 ^ q)), ?_, ?_⟩
    · unfold mat_mark
      rw [hrow]
      simp only
      rw [hb]
      simp only
      rw [if_pos hq]
    · intro x1 p1 hx1 hp1
      obtain ⟨b1, hb1, hbits1⟩ := h x1 p1 hx1 hp1
      unfold mat_at at hb1 ⊢
      rw [List.getElem?_set]
      by_cases hxx : x = x1
      · subst hxx
        rw [if_pos rfl, if_pos hxl, Option.some_bind, List.getElem?_set]
        rw [hrow, Option.some_bind] at hb1
        by_cases hpp : p = p1
        · subst hpp
          rw [if_pos rfl, if_pos hpl]
          rw [hb] at hb1
          have e : b1 = b := (Option.some.inj hb1).symm
          subst e
          refine ⟨b1 ||| 2 ^ q, rfl, fun q1 => ?_⟩
          rw [Nat.testBit_or, Bool.or_eq_true, hbits1, Nat.testBit_two_pow]
          simp only [decide_eq_true_eq]
          constructor
          · rintro (h1 | h1)
            · exact Or.inl h1
            · exact Or.inr ⟨trivial, trivial, h1.symm⟩
          · rintro (h1 | h1)
            · exact Or.inl h1
            · exact Or.inr h1.2.2.symm
        · rw [if_neg hpp]
          refine ⟨b1, hb1, fun q1 => ?_⟩
          rw [hbits1]
          constructor
          · intro h1
            exact Or.inl h1
          · rintro (h1 | h1)
            · exact h1
            · exact absurd h1.1.symm hpp
      · rw [if_neg hxx]
        refine ⟨b1, hb1, fun q1 => ?_⟩
        rw [hbits1]
        constructor
        · intro h1
          exact Or.inl h1
        · rintro (h1 | h1)
          · exact h1
          · exact absurd h1.2.1.symm hxx

theorem mark_fold (W ns n x p : Nat) (hp : p < n) (l : List Nat) :
    ∀ (mat : List (List Nat)) (P : Nat → Nat → Nat → Prop),
      (∀ q ∈ l, x < ns ∧ q < W) → MatInv ns n P mat →
      ∃ mat1, l.foldlM (fun m q => mat_mark W m x p q) mat = some mat1 ∧
        MatInv ns n (fun p1 x1 q1 => P p1 x1 q1 ∨ (p1 = p ∧ x1 = x ∧ q1 ∈ l)) mat1 := by
  induction l with
  | nil =>
    intro mat P _ h
    exact ⟨mat, rfl, matInv_congr ns n _ _ mat h (fun p1 x1 q1 => by simp)⟩
  | cons q t ih =>
    intro mat P hl h
    obtain ⟨hx, hq⟩ := hl q (List.mem_cons_self _ _)
    obtain ⟨mat1, h1, hI1⟩ := mat_mark_spec W ns n P mat x p q hx hp hq h
    obtain ⟨mat2, h2, hI2⟩ := ih mat1 _ (fun q1 hq1 => hl q1 (List.mem_cons_of_mem _ hq1)) hI1
    refine ⟨mat2, ?_, matInv_congr ns n _ _ mat2 hI2 (fun p1 x1 q1 => ?_)⟩
    · rw [foldlM_cons_opt, h1, Option.some_bind]
      exact h2
    · simp only [List.mem_cons]
      constructor
      · rintro ((h3 | h3) | h3)
        · exact Or.inl h3
        · exact Or.inr ⟨h3.1, h3.2.1, Or.inl h3.2.2⟩
        · exact Or.inr ⟨h3.1, h3.2.1, Or.inr h3.2.2⟩
      · rintro (h3 | ⟨h3, h4, h5 | h5⟩)
        · exact Or.inl (Or.inl h3)
        · exact Or.inl (Or.inr ⟨h3, h4, h5⟩)
        · exact Or.inr ⟨h3, h4, h5⟩

namespace Aut

variable {T : Type}

theorem adjmat_sym_fold (W ns n : Nat) (a : Aut T) (p : Nat) (hp : p < n) (xs : List Nat) :
    ∀ (mat : List (List Nat)) (P : Nat → Nat → Nat → Prop),
      (∀ x ∈ xs, ∀ q ∈ a.succ p x, x < ns ∧ q < W) → MatInv ns n P mat →
      ∃ mat1, xs.foldlM (adjmat_sym W a p) mat = some mat1 ∧
        MatInv ns n (fun p1 x1 q1 => P p1 x1 q1 ∨ (p1 = p ∧ x1 ∈ xs ∧ q1 ∈ a.succ p x1)) mat1 := by
  induction xs with
  | nil =>
    intro mat P _ h
    exact ⟨mat, rfl, matInv_congr ns n _ _ mat h (fun p1 x1 q1 => by simp)⟩
  | cons x t ih =>
    intro mat P hl h
    obtain ⟨mat1, h1, hI1⟩ := mark_fold W ns n x p hp (a.succ p x) mat P
      (hl x (List.mem_cons_self _ _)) h
    obtain ⟨mat2, h2, hI2⟩ := ih mat1 _ (fun x1 hx1 => hl x1 (List.mem_cons_of_mem _ hx1)) hI1
    refine ⟨mat2, ?_, matInv_congr ns n _ _ mat2 hI2 (fun p1 x1 q1 => ?_)⟩
    · rw [foldlM_cons_opt]
      unfold adjmat_sym
      rw [h1, Option.some_bind]
      exact h2
    · simp only [List.mem_cons]
      constructor
      · rintro ((h3 | h3) | h3)
        · exact Or.inl h3
        · exact Or.inr ⟨h3.1, Or.inl h3.2.1, by rw [h3.2.1]; exact h3.2.2⟩
        · exact Or.inr ⟨h3.1, Or.inr h3.2.1, h3.2.2⟩
      · rintro (h3 | ⟨h3, h4 | h4, h5⟩)
        · exact Or.inl (Or.inl h3)
        · exact Or.inl (Or.inr ⟨h3, h4, by rw [← h4]; exact h5⟩)
        · exact Or.inr ⟨h3, h4, h5⟩

theorem adjmat_state_fold (W ns n : Nat) (a : Aut T) (ps : List Nat) :
    ∀ (mat : List (List Nat)) (P : Nat → Nat → Nat → Prop),
      (∀ p ∈ ps, p < n ∧ ∀ x ∈ a.state_outsyms p, ∀ q ∈ a.succ p x, x < ns ∧ q < W) →
      MatInv ns n P mat →
      ∃ mat1, ps.foldlM (adjmat_state W a) mat = some mat1 ∧
        MatInv ns n (fun p1 x1 q1 => P p1 x1 q1 ∨
          (p1 ∈ ps ∧ x1 ∈ a.state_outsyms p1 ∧ q1 ∈ a.succ p1 x1)) mat1 := by
  induction ps with
  | nil =>
    intro mat P _ h
    exact ⟨mat, rfl, matInv_congr ns n _ _ mat h (fun p1 x1 q1 => by simp)⟩
  | cons p t ih =>
    intro mat P hl h
    obtain ⟨hp, hxs⟩ := hl p (List.mem_cons_self _ _)
    obtain ⟨mat1, h1, hI1⟩ := adjmat_sym_fold W ns n a p hp (a.state_outsyms p) mat P hxs h
    obtain ⟨mat2, h2, hI2⟩ := ih mat1 _ (fun p1 hp1 => hl p1 (List.mem_cons_of_mem _ hp1)) hI1
    refine ⟨mat2, ?_, matInv_congr ns n _ _ mat2 hI2 (fun p1 x1 q1 => ?_)⟩
    · rw [foldlM_cons_opt]
      unfold adjmat_state
      rw [h1, Option.some_bind]
      exact h2
    · simp only [List.mem_cons]
      constructor
      · rintro ((h3 | h3) | h3)
        · exact Or.inl h3
        · exact Or.inr ⟨Or.inl h3.1, by rw [h3.1]; exact h3.2.1, by rw [h3.1]; exact h3.2.2⟩
        · exact Or.inr ⟨Or.inr h3.1, h3.2.1, h3.2.2⟩
      · rintro (h3 | ⟨h3 | h3, h4, h5⟩)
        · exact Or.inl (Or.inl h3)
        · exact Or.inl (Or.inr ⟨h3, by rw [← h3]; exact h4, by rw [← h3]; exact h5⟩)
        · exact Or.inr ⟨h3, h4, h5⟩

theorem le_foldl_max (l : List Nat) : ∀ init : Nat,
    init ≤ l.foldl max init ∧ ∀ t ∈ l, t ≤ l.foldl max init := by
  induction l with
  | nil =>
    intro init
    exact ⟨le_refl _, fun t ht => absurd ht (List.not_mem_nil t)⟩
  | cons y t ih =>
    intro init
    obtain ⟨h1, h2⟩ := ih (max init y)
    rw [List.foldl_cons]
    refine ⟨le_trans (le_max_left _ _) h1, ?_⟩
    intro s hs
    rcases List.mem_cons.1 hs with rfl | hs
    · exact le_trans (le_max_right _ _) h1
    · exact h2 s hs

theorem foldl_max_mem (l : List Nat) : ∀ init : Nat,
    l.foldl max init = init ∨ l.foldl max init ∈ l := by
  induction l with
  | nil =>
    intro init
    exact Or.inl rfl
  | cons y t ih =>
    intro init
    rw [List.foldl_cons]
    rcases ih (max init y) with h | h
    · rw [h]
      rcases max_choice init y with hm | hm
      · exact Or.inl hm
      · right
        rw [hm]
        exact List.mem_cons_self _ _
    · exact Or.inr (List.mem_cons_of_mem _ h)

/-- The function `get_adjmat` completes on an automaton that satisfies the data-model
invariants and has all state ids below `W`; the bits of the entry `(x, p)` are the
`x`-successors of `p`. -/
theorem get_adjmat_spec (W : Nat) (a : Aut T) (hwf : WellFormed a)
    (hW : ∀ t, a.has_state t = true → t < W) :
    ∃ mat, get_adjmat W a = some mat ∧
      MatInv a.num_syms (1 + a.states.foldl max 0)
        (fun p x q => ∃ pri, a.edge_pri p x q = some pri) mat := by
  obtain ⟨hinit, hcl, hsym, _, _⟩ := hwf
  have hmax := le_foldl_max a.states 0
  have hn : 1 + a.states.foldl max 0 ≤ W := by
    rcases foldl_max_mem a.states 0 with h | h
    · rw [h]
      have := hW a.get_init hinit
      omega
    · have := hW _ ((mem_states a _).1 h)
      omega
  have h0 : MatInv a.num_syms (1 + a.states.foldl max 0) (fun _ _ _ => False)
      (List.replicate a.num_syms (List.replicate (1 + a.states.foldl max 0) 0)) := by
    intro x p hx hp
    refine ⟨0, ?_, fun q => by simp⟩
    unfold mat_at
    rw [List.getElem?_replicate, if_pos hx, Option.some_bind, List.getElem?_replicate,
      if_pos hp]
  obtain ⟨mat, hm, hI⟩ := adjmat_state_fold W a.num_syms (1 + a.states.foldl max 0) a
    a.states _ _
    (fun p hp => by
      refine ⟨?_, ?_⟩
      · have := hmax.2 p hp
        omega
      · intro x _ q hq
        obtain ⟨pri, he⟩ := (mem_succ a p x q).1 hq
        exact ⟨hsym p x q pri he, hW q (hcl p x q pri he)⟩) h0
  refine ⟨mat, ?_, matInv_congr _ _ _ _ mat hI (fun p x q => ?_)⟩
  · unfold get_adjmat
    simp only
    rw [if_neg (by simpa using hn)]
    exact hm
  · constructor
    · rintro (h | ⟨_, _, h⟩)
      · exact absurd h id
      · exact (mem_succ a p x q).1 h
    · rintro ⟨pri, he⟩
      exact Or.inr ⟨(mem_states a p).2 (has_state_of_edge a p x q pri he),
        mem_outsyms_of_edge a p x q pri he, (mem_succ a p x q).2 ⟨pri, he⟩⟩

end Aut

theorem testBit_to_bitset_fold (l : List Nat) : ∀ (b q : Nat),
    (l.foldl (fun b q => b ||| 2 ^ q) b).testBit q = true ↔ (b.testBit q = true ∨ q ∈ l) := by
  induction l with
  | nil =>
    intro b q
    simp
  | cons y t ih =>
    intro b q
    rw [List.foldl_cons, ih, Nat.testBit_or, Bool.or_eq_true, Nat.testBit_two_pow,
      List.mem_cons]
    simp only [decide_eq_true_eq]
    constructor
    · rintro ((h | h) | h)
      · exact Or.inl h
      · exact Or.inr (Or.inl h.symm)
      · exact Or.inr (Or.inr h)
    · rintro (h | h | h)
      · exact Or.inl (Or.inl h)
      · exact Or.inl (Or.inr h.symm)
      · exact Or.inr h

theorem testBit_to_bitset (l : List Nat) (q : Nat) :
    (to_bitset l).testBit q = true ↔ q ∈ l := by
  unfold to_bitset
  rw [testBit_to_bitset_fold]
  simp

theorem collect_fold (xmat : List Nat) (src : Nat) (l : List Nat) : ∀ ret0 : Nat,
    (∀ i ∈ l, src.testBit i = true → ∃ b, xmat[i]? = some b) →
    ∃ r, l.foldlM (powersucc_collect xmat src) ret0 = some r ∧
      ∀ q, r.testBit q = true ↔ (ret0.testBit q = true ∨
        ∃ i ∈ l, src.testBit i = true ∧ ∃ b, xmat[i]? = some b ∧ b.testBit q = true) := by
  induction l with
  | nil =>
    intro ret0 _
    exact ⟨ret0, rfl, fun q => by simp⟩
  | cons i t ih =>
    intro ret0 hl
    rw [foldlM_cons_opt]
    by_cases hs : src.testBit i = true
    · obtain ⟨b, hb⟩ := hl i (List.mem_cons_self _ _) hs
      obtain ⟨r, hr, hbits⟩ := ih (ret0 ||| b) (fun j hj => hl j (List.mem_cons_of_mem _ hj))
      refine ⟨r, ?_, fun q => ?_⟩
      · unfold powersucc_collect
        rw [if_pos hs, hb, Option.map_some', Option.some_bind]
        exact hr
      · rw [hbits, Nat.testBit_or, Bool.or_eq_true]
        simp only [List.mem_cons]
        constructor
        · rintro ((h | h) | ⟨j, hj, h⟩)
          · exact Or.inl h
          · exact Or.inr ⟨i, Or.inl rfl, hs, b, hb, h⟩
          · exact Or.inr ⟨j, Or.inr hj, h⟩
        · rintro (h | ⟨j, hj | hj, h1, b1, h2, h3⟩)
          · exact Or.inl (Or.inl h)
          · subst hj
            rw [hb] at h2
            rw [Option.some.inj h2]
            exact Or.inl (Or.inr h3)
          · exact Or.inr ⟨j, hj, h1, b1, h2, h3⟩
    · obtain ⟨r, hr, hbits⟩ := ih ret0 (fun j hj => hl j (List.mem_cons_of_mem _ hj))
      refine ⟨r, ?_, fun q => ?_⟩
      · unfold powersucc_collect
        rw [if_neg hs, Option.some_bind]
        exact hr
      · rw [hbits]
        simp only [List.mem_cons]
        constructor
        · rintro (h | ⟨j, hj, h⟩)
          · exact Or.inl h
          · exact Or.inr ⟨j, Or.inr hj, h⟩
        · rintro (h | ⟨j, hj | hj, h1, h2⟩)
          · exact Or.inl h
          · subst hj
            exact absurd h1 hs
          · exact Or.inr ⟨j, hj, h1, h2⟩

theorem and_ne_zero_iff (r s : Nat) :
    r &&& s ≠ 0 ↔ ∃ q, r.testBit q = true ∧ s.testBit q = true := by
  constructor
  · intro h
    obtain ⟨i, hi⟩ := Nat.ne_zero_implies_bit_true h
    rw [Nat.testBit_and, Bool.and_eq_true] at hi
    exact ⟨i, hi⟩
  · rintro ⟨q, h1, h2⟩ h0
    have : (r &&& s).testBit q = true := by
      rw [Nat.testBit_and, h1, h2]
      rfl
    rw [h0, Nat.zero_testBit] at this
    exact Bool.noConfusion this

namespace Aut

variable {T : Type}

theorem mem_set_succ (W : Nat) (a : Aut T) (S x q : Nat) :
    q ∈ set_succ W a S x ↔ ∃ p, p < W ∧ S.testBit p = true ∧ q ∈ a.succ p x := by
  unfold set_succ
  rw [List.mem_flatMap]
  constructor
  · rintro ⟨p, hp, hq⟩
    rw [List.mem_filter, List.mem_range] at hp
    exact ⟨p, hp.1, hp.2, hq⟩
  · rintro ⟨p, h1, h2, h3⟩
    exact ⟨p, by rw [List.mem_filter, List.mem_range]; exact ⟨h1, h2⟩, h3⟩

/-! ## Claim about `powersucc` -/

/-- C18: for an automaton that satisfies the data-model invariants and has all state ids
below the bitset width `W`, a bitset `S` of its states and a symbol `x`, `get_adjmat`
completes, and with an empty implication-mask map `powersucc(get_adjmat(aut), S, x, sinks)`
is the bitset of `U = { q | some p in S has an x-edge to q }` when `U` is disjoint from
`sinks`, and is `sinks` when `U` meets `sinks`. -/
theorem powersucc_is_set_successor (W : Nat) (a : Aut T) (S x sinks : Nat)
    (hwf : WellFormed a) (hW : ∀ t, a.has_state t = true → t < W)
    (hS : ∀ i, S.testBit i = true → a.has_state i = true) (hx : x < a.num_syms) :
    ∃ mat, get_adjmat W a = some mat ∧
      powersucc W mat S x sinks SMap.empty =
        some (if (set_succ W a S x).any (fun q => sinks.testBit q) then sinks
          else to_bitset (set_succ W a S x)) := by
  obtain ⟨mat, hmat, hI⟩ := get_adjmat_spec W a hwf hW
  refine ⟨mat, hmat, ?_⟩
  have hmax := le_foldl_max a.states 0
  -- the row of the symbol
  obtain ⟨b0, hb0, _⟩ := hI x 0 hx (by omega)
  unfold mat_at at hb0
  cases hrow : mat[x]? with
  | none => rw [hrow] at hb0; exact Option.noConfusion hb0
  | some xmat =>
    have hentry : ∀ i, S.testBit i = true →
        ∃ b, xmat[i]? = some b ∧ ∀ q, b.testBit q = true ↔ q ∈ a.succ i x := by
      intro i hi
      have hlt : i < 1 + a.states.foldl max 0 := by
        have := hmax.2 i ((mem_states a i).2 (hS i hi))
        omega
      obtain ⟨b, hb, hbits⟩ := hI x i hx hlt
      unfold mat_at at hb
      rw [hrow, Option.some_bind] at hb
      exact ⟨b, hb, fun q => (hbits q).trans (mem_succ a i x q).symm⟩
    obtain ⟨r, hr, hbits⟩ := collect_fold xmat S (List.range W) 0
      (fun i _ hi => by
        obtain ⟨b, hb, _⟩ := hentry i hi
        exact ⟨b, hb⟩)
    have hru : ∀ q, r.testBit q = true ↔ q ∈ set_succ W a S x := by
      intro q
      rw [hbits, mem_set_succ]
      simp only [Nat.zero_testBit, Bool.false_eq_true, false_or, List.mem_range]
      constructor
      · rintro ⟨i, hi, hsi, b, hb, hq⟩
        obtain ⟨b1, hb1, hbits1⟩ := hentry i hsi
        rw [hb] at hb1
        rw [Option.some.inj hb1] at hq
        exact ⟨i, hi, hsi, (hbits1 q).1 hq⟩
      · rintro ⟨p, hp, hsp, hq⟩
        obtain ⟨b1, hb1, hbits1⟩ := hentry p hsp
        exact ⟨p, hp, hsp, b1, hb1, (hbits1 q).2 hq⟩
    have hreq : r = to_bitset (set_succ W a S x) := by
      apply Nat.eq_of_testBit_eq
      intro q
      rw [Bool.eq_iff_iff, hru, testBit_to_bitset]
    have hcond : (r &&& sinks ≠ 0) ↔
        (set_succ W a S x).any (fun q => sinks.testBit q) = true := by
      rw [and_ne_zero_iff, List.any_eq_true]
      constructor
      · rintro ⟨q, h1, h2⟩
        exact ⟨q, (hru q).1 h1, h2⟩
      · rintro ⟨q, h1, h2⟩
        exact ⟨q, (hru q).2 h1, h2⟩
    unfold powersucc
    simp only [hrow]
    rw [hr, Option.map_some']
    have hk : (SMap.empty : SMap Nat Nat).keys.isEmpty = true := rfl
    rw [hk]
    simp only [Bool.not_true, Bool.false_eq_true, if_false]
    by_cases hc : (set_succ W a S x).any (fun q => sinks.testBit q) = true
    · rw [if_pos hc, if_pos (hcond.2 hc)]
    · rw [if_neg hc, if_neg (fun h => hc (hcond.1 h)), hreq]

theorem powersucc_is_set_successor_witness :
    WellFormed sample_tba ∧ (∀ t, sample_tba.has_state t = true → t < 8) ∧
    (∀ i, (5 : Nat).testBit i = true → sample_tba.has_state i = true) ∧
    1 < sample_tba.num_syms ∧
    ∃ mat, get_adjmat 8 sample_tba = some mat ∧
      powersucc 8 mat 5 1 0 SMap.empty =
        some (if (set_succ 8 sample_tba 5 1).any (fun q => (0 : Nat).testBit q) then 0
          else to_bitset (set_succ 8 sample_tba 5 1)) := by
  have h1 : ∀ t, sample_tba.has_state t = true → t < 8 := by
    intro t ht
    have hm := (mem_states sample_tba t).2 ht
    have e : sample_tba.states = [0, 1, 2, 3] := by decide
    rw [e] at hm
    simp only [List.mem_cons, List.mem_singleton, List.not_mem_nil, or_false] at hm
    omega
  have h2 : ∀ i, (5 : Nat).testBit i = true → sample_tba.has_state i = true := by
    intro i hi
    have hlt : i < 3 := by
      by_contra hc
      have h8 : (5 : Nat) < 2 ^ i :=
        lt_of_lt_of_le (by decide : (5 : Nat) < 2 ^ 3) (Nat.pow_le_pow_right (by decide) (by omega))
      rw [Nat.testBit_lt_two_pow h8] at hi
      exact Bool.noConfusion hi
    interval_cases i
    · decide
    · exact absurd hi (by decide)
    · decide
  exact ⟨wellFormed_sample_tba, h1, h2, by decide,
    powersucc_is_set_successor 8 sample_tba 5 1 0 wellFormed_sample_tba h1 h2 (by decide)⟩

end Aut

/-! ## Graph utilities (`graph.hh`) -/

/-- Rule for the loop of `bfs`: an invariant `I` of the work list, the visited vertices,
the captured state and the number of rounds made so far that is kept by skipping a visited
vertex and by visiting a new one, and that bounds the number of rounds while the work list
is not empty, holds at the end, and the loop ends within `bound` rounds. -/
theorem bfs_loop_rule {σ ν : Type} [DecidableEq ν]
    (visit : σ → ν → List ν → Option (σ × List ν))
    (I : List ν → List ν → σ → Nat → Prop) (bound : Nat)
    (hskip : ∀ st q V s k, I (st :: q) V s k → st ∈ V → I q V s (k + 1))
    (hvisit : ∀ st q V s k, I (st :: q) V s k → st ∉ V →
      ∃ s1 pushed, visit s st (st :: V) = some (s1, pushed) ∧
        I (q ++ pushed) (st :: V) s1 (k + 1))
    (hbound : ∀ st q V s k, I (st :: q) V s k → k < bound) :
    ∀ fuel Q V s k, I Q V s k → bound ≤ fuel + k →
      ∃ s1 V1 k1, bfs_loop visit fuel Q V s = some s1 ∧ I [] V1 s1 k1 := by
  intro fuel
  induction fuel with
  | zero =>
    intro Q V s k hI hb
    cases Q with
    | nil => exact ⟨s, V, k, by unfold bfs_loop; rfl, hI⟩
    | cons st q =>
      have := hbound st q V s k hI
      omega
  | succ f ih =>
    intro Q V s k hI hb
    cases Q with
    | nil => exact ⟨s, V, k, by unfold bfs_loop; rfl, hI⟩
    | cons st q =>
      unfold bfs_loop
      by_cases hv : st ∈ V
      · rw [if_pos hv]
        exact ih q V s (k + 1) (hskip st q V s k hI hv) (by omega)
      · rw [if_neg hv]
        obtain ⟨s1, pushed, h1, h2⟩ := hvisit st q V s k hI hv
        rw [h1]
        exact ih (q ++ pushed) (st :: V) s1 (k + 1) h2 (by omega)

/-- Rule for a completed loop of `bfs`, whatever the fuel: an invariant of the captured
state that every completed call of the visitor keeps holds at the end. -/
theorem bfs_loop_inv {σ ν : Type} [DecidableEq ν]
    (visit : σ → ν → List ν → Option (σ × List ν)) (I : σ → Prop)
    (hvisit : ∀ s st V r, I s → visit s st V = some r → I r.1) :
    ∀ fuel Q V s s1, I s → bfs_loop visit fuel Q V s = some s1 → I s1 := by
  intro fuel
  induction fuel with
  | zero =>
    intro Q V s s1 hI h
    cases Q with
    | nil =>
      unfold bfs_loop at h
      exact Option.some.inj h ▸ hI
    | cons st q =>
      unfold bfs_loop at h
      cases h
  | succ f ih =>
    intro Q V s s1 hI h
    cases Q with
    | nil =>
      unfold bfs_loop at h
      exact Option.some.inj h ▸ hI
    | cons st q =>
      unfold bfs_loop at h
      by_cases hv : st ∈ V
      · rw [if_pos hv] at h
        exact ih q V s s1 hI h
      · rw [if_neg hv] at h
        cases hr : visit s st (st :: V) with
        | none =>
          rw [hr] at h
          cases h
        | some r =>
          rw [hr] at h
          exact ih _ _ r.1 s1 (hvisit s st _ r hI hr) h

theorem mem_keys_foldl_ins (l : List (Nat × Int)) : ∀ (s : SMap Nat Unit) (k : Nat),
    k ∈ (l.foldl (fun s2 jt => s2.ins jt.1 ()) s).keys ↔ (k ∈ s.keys ∨ k ∈ l.map Prod.fst) := by
  induction l with
  | nil =>
    intro s k
    simp
  | cons e t ih =>
    intro s k
    rw [List.foldl_cons, ih, SMap.mem_keys, SMap.contains_ins, SMap.mem_keys]
    simp only [Bool.or_eq_true, decide_eq_true_eq, List.map_cons, List.mem_cons]
    tauto

theorem mem_keys_foldl_foldl (l : List (Nat × SMap Nat Int)) : ∀ (s : SMap Nat Unit) (k : Nat),
    k ∈ (l.foldl (fun (s : SMap Nat Unit) it =>
      it.2.toList.foldl (fun s2 jt => s2.ins jt.1 ()) s) s).keys ↔
      (k ∈ s.keys ∨ ∃ it ∈ l, k ∈ it.2.toList.map Prod.fst) := by
  induction l with
  | nil =>
    intro s k
    simp
  | cons e t ih =>
    intro s k
    rw [List.foldl_cons, ih, mem_keys_foldl_ins]
    simp only [List.mem_cons]
    constructor
    · rintro ((h | h) | ⟨it, hit, h⟩)
      · exact Or.inl h
      · exact Or.inr ⟨e, Or.inl rfl, h⟩
      · exact Or.inr ⟨it, Or.inr hit, h⟩
    · rintro (h | ⟨it, hit | hit, h⟩)
      · exact Or.inl (Or.inl h)
      · subst hit
        exact Or.inl (Or.inr h)
      · exact Or.inr ⟨it, hit, h⟩

namespace Aut

variable {T : Type}

theorem succ_all_spec (a : Aut T) (p : Nat) (hp : a.has_state p = true) :
    ∃ l, a.succ_all p = some l ∧ l.Nodup ∧ ∀ q, q ∈ l ↔ a.step p q := by
  refine ⟨(a.succ_set p).keys, ?_, SMap.keys_nodup _, ?_⟩
  · unfold succ_all
    rw [hp]
    rfl
  · intro q
    unfold succ_set
    rw [mem_keys_foldl_foldl]
    simp only [SMap.keys_empty, List.not_mem_nil, false_or]
    obtain ⟨sm, hsm⟩ := (has_state_iff a p).1 hp
    have hom : a.out_map p = sm := by unfold out_map; rw [hsm]; rfl
    unfold step edge_pri
    rw [hsm, hom]
    constructor
    · rintro ⟨it, hit, hq⟩
      obtain ⟨e, he, heq⟩ := List.mem_map.1 hq
      have h1 : sm.lookup it.1 = some it.2 := (SMap.mem_toList sm it.1 it.2).1 hit
      have h2 : it.2.lookup e.1 = some e.2 := (SMap.mem_toList it.2 e.1 e.2).1 he
      refine ⟨it.1, e.2, ?_⟩
      simp only [h1]
      rw [← heq]
      exact h2
    · rintro ⟨x, pri, h⟩
      cases hx : sm.lookup x with
      | none => simp [hx] at h
      | some tm =>
        simp only [hx] at h
        exact ⟨(x, tm), (SMap.mem_toList sm x tm).2 hx,
          List.mem_map.2 ⟨(q, pri), (SMap.mem_toList tm q pri).2 h, rfl⟩⟩

theorem succ_all_none (a : Aut T) (p : Nat) (hp : a.has_state p = false) :
    a.succ_all p = none := by
  unfold succ_all
  rw [hp]
  rfl

theorem length_le_num_states (a : Aut T) (l : List Nat) (hnd : l.Nodup)
    (hl : ∀ v ∈ l, a.has_state v = true) : l.length ≤ a.num_states := by
  rw [← states_length]
  apply List.Subperm.length_le
  apply List.subperm_of_subset hnd
  intro v hv
  exact (mem_states a v).2 (hl v hv)

theorem reachInv_skip (a : Aut T) (src st : Nat) (q V : List Nat) (R : SMap Nat Unit)
    (k : Nat) (h : ReachInv a src (st :: q) V R k) (hv : st ∈ V) :
    ReachInv a src q V R (k + 1) := by
  obtain ⟨h1, h2, h3, h4, h5, h6, h7⟩ := h
  refine ⟨h1, h2, h3, fun v hvq => h4 v (List.mem_cons_of_mem _ hvq), ?_, ?_, ?_⟩
  · intro u hu w hw
    rcases h5 u hu w hw with h | h
    · exact Or.inl h
    · rcases List.mem_cons.1 h with h | h
      · exact Or.inl (h ▸ hv)
      · exact Or.inr h
  · rcases h6 with h | h
    · exact Or.inl h
    · rcases List.mem_cons.1 h with h | h
      · exact Or.inl (h ▸ hv)
      · exact Or.inr h
  · simp only [List.length_cons] at h7
    omega

theorem reachInv_visit (a : Aut T) (hcl : Closed a) (src st : Nat) (q V : List Nat)
    (R : SMap Nat Unit) (k : Nat) (h : ReachInv a src (st :: q) V R k) (hv : st ∉ V) :
    ∃ R1 pushed, visit_reach a R st (st :: V) = some (R1, pushed) ∧
      ReachInv a src (q ++ pushed) (st :: V) R1 (k + 1) := by
  obtain ⟨h1, h2, h3, h4, h5, h6, h7⟩ := h
  obtain ⟨hst, hreach⟩ := h4 st (List.mem_cons_self _ _)
  obtain ⟨sucs, hsucs, hnd, hmem⟩ := succ_all_spec a st hst
  have hsstate : ∀ w ∈ sucs, a.has_state w = true := by
    intro w hw
    obtain ⟨x, pri, he⟩ := (hmem w).1 hw
    exact hcl st x w pri he
  have hlen := length_le_num_states a sucs hnd hsstate
  refine ⟨R.ins st (), sucs, ?_, ?_, ?_, ?_, ?_, ?_, ?_, ?_⟩
  · unfold visit_reach
    rw [hsucs]
    rfl
  · intro v
    rw [SMap.contains_ins, Bool.or_eq_true, decide_eq_true_eq, h1, List.mem_cons]
  · exact List.nodup_cons.2 ⟨hv, h2⟩
  · intro v hvm
    rcases List.mem_cons.1 hvm with rfl | hvm
    · exact ⟨hst, hreach⟩
    · exact h3 v hvm
  · intro v hvm
    rcases List.mem_append.1 hvm with hvm | hvm
    · exact h4 v (List.mem_cons_of_mem _ hvm)
    · exact ⟨hsstate v hvm, Relation.ReflTransGen.tail hreach ((hmem v).1 hvm)⟩
  · intro u hu w hw
    rcases List.mem_cons.1 hu with rfl | hu
    · exact Or.inr (List.mem_append_right _ ((hmem w).2 hw))
    · rcases h5 u hu w hw with h | h
      · exact Or.inl (List.mem_cons_of_mem _ h)
      · rcases List.mem_cons.1 h with h | h
        · exact Or.inl (h ▸ List.mem_cons_self _ _)
        · exact Or.inr (List.mem_append_left _ h)
  · rcases h6 with h | h
    · exact Or.inl (List.mem_cons_of_mem _ h)
    · rcases List.mem_cons.1 h with h | h
      · exact Or.inl (h ▸ List.mem_cons_self _ _)
      · exact Or.inr (List.mem_append_left _ h)
  · simp only [List.length_cons, List.length_append] at h7 ⊢
    have : (V.length + 1) * a.num_states = V.length * a.num_states + a.num_states := by ring
    omega

theorem reachInv_bound (a : Aut T) (src st : Nat) (q V : List Nat) (R : SMap Nat Unit)
    (k : Nat) (h : ReachInv a src (st :: q) V R k) :
    k < a.num_states * a.num_states + 1 := by
  obtain ⟨_, h2, h3, _, _, _, h7⟩ := h
  have hV := length_le_num_states a V h2 (fun v hv => (h3 v hv).1)
  have : V.length * a.num_states ≤ a.num_states * a.num_states :=
    Nat.mul_le_mul_right _ hV
  simp only [List.length_cons] at h7
  omega

/-- The function `reachable_states` completes within `n * n + 1` rounds for `n` states and
returns, in increasing order, the states that are reachable by zero or more edges. -/
theorem reachable_states_spec (a : Aut T) (src fuel : Nat) (hcl : Closed a)
    (hs : a.has_state src = true) (hfuel : a.num_states * a.num_states + 1 ≤ fuel) :
    ∃ l, a.reachable_states fuel src = some l ∧ is_set_vec l = true ∧
      ∀ v, v ∈ l ↔ Relation.ReflTransGen a.step src v := by
  obtain ⟨R, V, k, hR, hI⟩ := bfs_loop_rule (visit_reach a) (ReachInv a src)
    (a.num_states * a.num_states + 1)
    (fun st q V s k => reachInv_skip a src st q V s k)
    (fun st q V s k => reachInv_visit a hcl src st q V s k)
    (fun st q V s k => reachInv_bound a src st q V s k)
    fuel [src] [] SMap.empty 0
    ⟨fun v => by simp [SMap.contains_iff], List.nodup_nil,
      fun v hv => absurd hv (List.not_mem_nil v),
      fun v hv => by
        rw [List.mem_singleton.1 hv]
        exact ⟨hs, Relation.ReflTransGen.refl⟩,
      fun u hu => absurd hu (List.not_mem_nil u),
      Or.inr (List.mem_singleton_self _), by simp⟩
    (by omega)
  obtain ⟨h1, _, h3, _, h5, h6, _⟩ := hI
  refine ⟨R.keys, ?_, (is_set_vec_iff _).2 (SMap.keys_pairwise R), ?_⟩
  · unfold reachable_states bfs
    rw [hR]
    rfl
  · intro v
    rw [SMap.mem_keys, h1]
    constructor
    · intro hv
      exact (h3 v hv).2
    · intro hr
      have hsrc : src ∈ V := by
        rcases h6 with h | h
        · exact h
        · exact absurd h (List.not_mem_nil _)
      induction hr with
      | refl => exact hsrc
      | tail _ hstep ih =>
        rcases h5 _ ih _ hstep with h | h
        · exact h
        · exact absurd h (List.not_mem_nil _)

end Aut

theorem length_insRaw_fresh {K V : Type} [LinearOrder K] (k : K) (v : V) (l : List (K × V))
    (h : lookupRaw k l = none) : (insRaw k v l).length = l.length + 1 := by
  induction l with
  | nil => simp [insRaw]
  | cons hd t ih =>
    obtain ⟨k2, v2⟩ := hd
    unfold lookupRaw at h
    by_cases hk : k = k2
    · rw [if_pos hk] at h
      exact absurd h (by simp)
    · rw [if_neg hk] at h
      unfold insRaw
      split_ifs with h1
      · simp
      · simp [ih h]

namespace SMap

variable {K V W : Type} [LinearOrder K]

theorem size_ins_fresh (m : SMap K V) (k : K) (v : V) (h : m.contains k = false) :
    (m.ins k v).size = m.size + 1 := by
  unfold contains lookup at h
  unfold size ins
  exact length_insRaw_fresh k v m.toList (by simpa using h)

theorem size_eq_length_keys (m : SMap K V) : m.size = m.keys.length := by
  unfold size keys
  simp

end SMap

namespace Aut

variable {T : Type}

/-- The loop of the visitor of `find_path_from_to` over a duplicate-free successor list:
the vertices without predecessor get the visited vertex as predecessor and are pushed, in
order; nothing else changes. -/
theorem visit_path_fold (st : Nat) (sucs : List Nat) (hnd : sucs.Nodup) :
    ∀ (P : SMap Nat Nat) (acc : List Nat),
      (sucs.foldl (visit_path_step st) (P, acc)).2 =
          acc ++ sucs.filter (fun q => !P.contains q) ∧
        (∀ v, (sucs.foldl (visit_path_step st) (P, acc)).1.lookup v =
          if v ∈ sucs ∧ P.contains v = false then some st else P.lookup v) ∧
        (sucs.foldl (visit_path_step st) (P, acc)).1.size =
          P.size + (sucs.filter (fun q => !P.contains q)).length := by
  induction sucs with
  | nil =>
    intro P acc
    simp
  | cons q t ih =>
    intro P acc
    obtain ⟨hq, ht⟩ := List.nodup_cons.1 hnd
    rw [List.foldl_cons]
    by_cases hc : P.contains q = true
    · have e : visit_path_step st (P, acc) q = (P, acc) := by
        unfold visit_path_step
        simp [hc]
      rw [e]
      obtain ⟨i1, i2, i3⟩ := ih ht P acc
      refine ⟨?_, ?_, ?_⟩
      · rw [i1, List.filter_cons]
        simp [hc]
      · intro v
        rw [i2 v]
        by_cases hv : v = q
        · subst hv
          simp [hc, hq]
        · simp [hv]
      · rw [i3, List.filter_cons]
        simp [hc]
    · have hc2 : P.contains q = false := by simpa using hc
      have e : visit_path_step st (P, acc) q = (P.ins q st, acc ++ [q]) := by
        unfold visit_path_step
        simp [hc2]
      rw [e]
      obtain ⟨i1, i2, i3⟩ := ih ht (P.ins q st) (acc ++ [q])
      have hfil : t.filter (fun w => !(P.ins q st).contains w) =
          t.filter (fun w => !P.contains w) := by
        apply List.filter_congr
        intro w hw
        have hne : w ≠ q := fun e => hq (e ▸ hw)
        rw [SMap.contains_ins]
        simp [hne]
      refine ⟨?_, ?_, ?_⟩
      · rw [i1, hfil, List.filter_cons]
        simp [hc2]
      · intro v
        rw [i2 v, SMap.contains_ins, SMap.lookup_ins]
        by_cases hv : v = q
        · subst hv
          simp [hc2, hq]
        · simp [hv]
      · rw [i3, hfil, List.filter_cons, SMap.size_ins_fresh P q st hc2]
        simp [hc2]
        omega

theorem pathInv_init (a : Aut T) (src : Nat) (hs : a.has_state src = true) :
    PathInv a src (fun _ => 0) [src] [] SMap.empty 0 := by
  have hc : ∀ v, (SMap.empty : SMap Nat Nat).contains v = false := fun v => rfl
  have hl : ∀ v, (SMap.empty : SMap Nat Nat).lookup v = none := fun v => rfl
  refine ⟨?_, ?_, ?_, ?_, rfl, ?_, ?_, ?_, ?_, ?_, ?_, ?_, ?_, ?_⟩
  · intro v hv
    rw [List.mem_singleton] at hv
    subst hv
    exact ⟨Or.inl rfl, hs⟩
  · intro v hv _
    rcases hv with hv | hv
    · exact List.mem_singleton.2 hv
    · rw [hc] at hv
      exact absurd hv (by simp)
  · intro v hv
    exact absurd hv (List.not_mem_nil _)
  · intro v u h
    rw [hl] at h
    exact absurd h (by simp)
  · intro u hu
    exact absurd hu (List.not_mem_nil _)
  · exact List.pairwise_singleton _ _
  · intro v hv
    exact absurd hv (List.not_mem_nil _)
  · intro w _ w2 _ _ _
    exact Nat.le_succ 0
  · intro v _
    exact Nat.zero_le _
  · intro v hv
    rcases hv with hv | hv
    · rw [hv]
    · rw [hc] at hv
      exact absurd hv (by simp)
  · intro v hv
    rw [hc] at hv
    exact absurd hv (by simp)
  · exact Or.inr ⟨rfl, rfl⟩
  · exact le_refl _

theorem pathInv_skip (a : Aut T) (src : Nat) (lev : Nat → Nat) (st : Nat) (q V : List Nat)
    (P : SMap Nat Nat) (k : Nat) (h : PathInv a src lev (st :: q) V P k) (hv : st ∈ V) :
    PathInv a src lev q V P (k + 1) := by
  obtain ⟨h1, h2, h3, h4, h5, h6, h7, h8, h9, h10, h11, h12, h13, h14⟩ := h
  refine ⟨?_, ?_, h3, h4, h5, h6, ?_, ?_, ?_, h10, h11, h12, ?_, ?_⟩
  · intro v hvq
    exact h1 v (List.mem_cons_of_mem _ hvq)
  · intro v hD hnv
    rcases List.mem_cons.1 (h2 v hD hnv) with e | e
    · exact absurd (e ▸ hv) hnv
    · exact e
  · exact (List.pairwise_cons.1 h7).2
  · intro v hvV w hw
    exact h8 v hvV w (List.mem_cons_of_mem _ hw)
  · intro w hw w2 hw2
    exact h9 w (List.mem_cons_of_mem _ hw) w2 (List.mem_cons_of_mem _ hw2)
  · rcases h13 with e | ⟨e, _⟩
    · exact Or.inl e
    · rw [e] at hv
      exact absurd hv (List.not_mem_nil _)
  · simp only [List.length_cons] at h14
    omega

theorem size_le_num_states (a : Aut T) (P : SMap Nat Nat)
    (h : ∀ v, P.contains v = true → a.has_state v = true) : P.size ≤ a.num_states := by
  rw [SMap.size_eq_length_keys]
  exact length_le_num_states a P.keys (SMap.keys_nodup P)
    (fun v hv => h v ((SMap.mem_keys P v).1 hv))

theorem pathInv_states (a : Aut T) (hcl : Closed a) (src : Nat) (lev : Nat → Nat)
    (Q V : List Nat) (P : SMap Nat Nat) (k : Nat) (h : PathInv a src lev Q V P k) :
    P.size ≤ a.num_states := by
  apply size_le_num_states
  intro v hv
  obtain ⟨u, hu⟩ := (SMap.contains_iff P v).1 hv
  obtain ⟨x, pri, he⟩ := (h.2.2.2.1 v u hu).2.1
  exact hcl u x v pri he

theorem pathInv_bound (a : Aut T) (hcl : Closed a) (src : Nat) (lev : Nat → Nat) (st : Nat)
    (q V : List Nat) (P : SMap Nat Nat) (k : Nat) (h : PathInv a src lev (st :: q) V P k) :
    k < a.num_states + 1 := by
  have h1 := pathInv_states a hcl src lev _ V P k h
  have h2 := h.2.2.2.2.2.2.2.2.2.2.2.2.2
  simp only [List.length_cons] at h2
  omega

theorem pathInv_visit (a : Aut T) (hcl : Closed a) (src : Nat) (lev : Nat → Nat) (st : Nat)
    (q V : List Nat) (P : SMap Nat Nat) (k : Nat)
    (h : PathInv a src lev (st :: q) V P k) (hv : st ∉ V) :
    ∃ P1 pushed lev1, visit_path a P st (st :: V) = some (P1, pushed) ∧
      PathInv a src lev1 (q ++ pushed) (st :: V) P1 (k + 1) := by
  obtain ⟨h1, h2, h3, h4, h5, h6, h7, h8, h9, h10, h11, h12, h13, h14⟩ := h
  obtain ⟨hDst, hst⟩ := h1 st (List.mem_cons_self _ _)
  obtain ⟨sucs, hsucs, hnd, hmem⟩ := succ_all_spec a st hst
  obtain ⟨f1, f2, f3⟩ := visit_path_fold st sucs hnd P []
  rw [List.nil_append] at f1
  have hc1 : ∀ v, (sucs.foldl (visit_path_step st) (P, [])).1.contains v = true ↔
      (P.contains v = true ∨ v ∈ sucs) := by
    intro v
    rw [SMap.contains_iff, f2 v]
    by_cases hc : P.contains v = true
    · have e : ¬ (v ∈ sucs ∧ P.contains v = false) := by simp [hc]
      rw [if_neg e, ← SMap.contains_iff]
      exact ⟨fun h => Or.inl h, fun _ => hc⟩
    · have hc2 : P.contains v = false := by simpa using hc
      by_cases hs : v ∈ sucs
      · rw [if_pos ⟨hs, hc2⟩]
        exact ⟨fun _ => Or.inr hs, fun _ => ⟨st, rfl⟩⟩
      · have e : ¬ (v ∈ sucs ∧ P.contains v = false) := fun e => hs e.1
        rw [if_neg e, ← SMap.contains_iff]
        exact ⟨fun h => Or.inl h, fun h => h.elim id (fun h => absurd h hs)⟩
  have hnew : ∀ v, v ∈ sucs.filter (fun q => !P.contains q) ↔
      (v ∈ sucs ∧ P.contains v = false) := by
    intro v
    rw [List.mem_filter]
    simp
  have hlev_old : ∀ v, (v = src ∨ P.contains v = true) →
      (if v ∈ sucs ∧ P.contains v = false ∧ v ≠ src then lev st + 1 else lev v) = lev v := by
    intro v hD
    rw [if_neg]
    rintro ⟨_, e1, e2⟩
    rcases hD with e | e
    · exact e2 e
    · rw [e] at e1
      exact absurd e1 (by simp)
  have hlev_new : ∀ v, v ∈ sucs → P.contains v = false → v ≠ src →
      (if v ∈ sucs ∧ P.contains v = false ∧ v ≠ src then lev st + 1 else lev v) =
        lev st + 1 := fun v e1 e2 e3 => if_pos ⟨e1, e2, e3⟩
  have hsrcV : src ∈ st :: V := by
    rcases h13 with e | ⟨_, e⟩
    · exact List.mem_cons_of_mem _ e
    · rw [(List.cons.inj e).1]
      exact List.mem_cons_self _ _
  have hA : ∀ w ∈ q, w ∉ V → lev st ≤ lev w := fun w hw hwV =>
    (List.pairwise_cons.1 h7).1 w hw hv hwV
  have hB : ∀ w ∈ q, w ∉ V → lev w ≤ lev st + 1 := fun w hw hwV =>
    h9 st (List.mem_cons_self _ _) w (List.mem_cons_of_mem _ hw) hv hwV
  have hC : ∀ v ∈ V, lev v ≤ lev st := fun v hvV =>
    h8 v hvV st (List.mem_cons_self _ _) hv
  have hDV : ∀ v ∈ st :: V, (v = src ∨ P.contains v = true) := by
    intro v hvm
    rcases List.mem_cons.1 hvm with e | e
    · exact e ▸ hDst
    · exact h3 v e
  have hrange : ∀ w ∈ q ++ sucs.filter (fun q => !P.contains q), w ∉ st :: V →
      lev st ≤ (if w ∈ sucs ∧ P.contains w = false ∧ w ≠ src then lev st + 1 else lev w) ∧
      (if w ∈ sucs ∧ P.contains w = false ∧ w ≠ src then lev st + 1 else lev w) ≤
        lev st + 1 := by
    intro w hw hwV
    have hwV2 : w ∉ V := fun e => hwV (List.mem_cons_of_mem _ e)
    rcases List.mem_append.1 hw with e | e
    · rw [hlev_old w (h1 w (List.mem_cons_of_mem _ e)).1]
      exact ⟨hA w e hwV2, hB w e hwV2⟩
    · obtain ⟨e1, e2⟩ := (hnew w).1 e
      have e3 : w ≠ src := fun e => hwV (e ▸ hsrcV)
      rw [hlev_new w e1 e2 e3]
      exact ⟨Nat.le_succ _, le_refl _⟩
  refine ⟨(sucs.foldl (visit_path_step st) (P, [])).1,
    (sucs.foldl (visit_path_step st) (P, [])).2,
    fun w => if w ∈ sucs ∧ P.contains w = false ∧ w ≠ src then lev st + 1 else lev w, ?_, ?_⟩
  · unfold visit_path
    rw [hsucs]
    rfl
  rw [f1]
  refine ⟨?_, ?_, ?_, ?_, ?_, ?_, ?_, ?_, ?_, ?_, ?_, ?_, ?_, ?_⟩
  · intro v hvm
    rcases List.mem_append.1 hvm with e | e
    · obtain ⟨e1, e2⟩ := h1 v (List.mem_cons_of_mem _ e)
      refine ⟨?_, e2⟩
      rcases e1 with e1 | e1
      · exact Or.inl e1
      · exact Or.inr ((hc1 v).2 (Or.inl e1))
    · obtain ⟨e1, _⟩ := (hnew v).1 e
      refine ⟨Or.inr ((hc1 v).2 (Or.inr e1)), ?_⟩
      obtain ⟨x, pri, he⟩ := (hmem v).1 e1
      exact hcl st x v pri he
  · intro v hD hvV
    have hvV2 : v ∉ V := fun e => hvV (List.mem_cons_of_mem _ e)
    have hvst : v ≠ st := fun e => hvV (e ▸ List.mem_cons_self _ _)
    by_cases hc : P.contains v = true
    · rcases List.mem_cons.1 (h2 v (Or.inr hc) hvV2) with e | e
      · exact absurd e hvst
      · exact List.mem_append_left _ e
    · have hc2 : P.contains v = false := by simpa using hc
      rcases hD with e | e
      · rcases List.mem_cons.1 (h2 v (Or.inl e) hvV2) with e | e
        · exact absurd e hvst
        · exact List.mem_append_left _ e
      · rcases (hc1 v).1 e with e | e
        · exact absurd e hc
        · exact List.mem_append_right _ ((hnew v).2 ⟨e, hc2⟩)
  · intro v hvm
    rcases hDV v hvm with e | e
    · exact Or.inl e
    · exact Or.inr ((hc1 v).2 (Or.inl e))
  · intro v u hl
    rw [f2 v] at hl
    by_cases hc : v ∈ sucs ∧ P.contains v = false
    · rw [if_pos hc] at hl
      have e : st = u := Option.some.inj hl
      subst e
      refine ⟨List.mem_cons_self _ _, (hmem v).1 hc.1, ?_⟩
      intro hne
      show (if v ∈ sucs ∧ P.contains v = false ∧ v ≠ src then lev st + 1 else lev v) =
        (if st ∈ sucs ∧ P.contains st = false ∧ st ≠ src then lev st + 1 else lev st) + 1
      rw [hlev_new v hc.1 hc.2 hne, hlev_old st hDst]
    · rw [if_neg hc] at hl
      obtain ⟨e1, e2, e3⟩ := h4 v u hl
      refine ⟨List.mem_cons_of_mem _ e1, e2, ?_⟩
      intro hne
      show (if v ∈ sucs ∧ P.contains v = false ∧ v ≠ src then lev st + 1 else lev v) =
        (if u ∈ sucs ∧ P.contains u = false ∧ u ≠ src then lev st + 1 else lev u) + 1
      rw [hlev_old v (Or.inr ((SMap.contains_iff P v).2 ⟨u, hl⟩)), hlev_old u (h3 u e1)]
      exact e3 hne
  · show (if src ∈ sucs ∧ P.contains src = false ∧ src ≠ src then lev st + 1 else lev src) = 0
    rw [hlev_old src (Or.inl rfl)]
    exact h5
  · intro u hu w hw
    show _ ∧ (if w ∈ sucs ∧ P.contains w = false ∧ w ≠ src then lev st + 1 else lev w) ≤
        (if u ∈ sucs ∧ P.contains u = false ∧ u ≠ src then lev st + 1 else lev u) + 1
    rw [hlev_old u (hDV u hu)]
    rcases List.mem_cons.1 hu with e | e
    · subst e
      have hws : w ∈ sucs := (hmem w).2 hw
      refine ⟨(hc1 w).2 (Or.inr hws), ?_⟩
      by_cases hD : w = src ∨ P.contains w = true
      · rw [hlev_old w hD]
        by_cases hwV : w ∈ V
        · exact le_trans (hC w hwV) (Nat.le_succ _)
        · rcases List.mem_cons.1 (h2 w hD hwV) with e | e
          · rw [e]
            exact Nat.le_succ _
          · exact hB w e hwV
      · have e2 : P.contains w = false := by
          cases hcw : P.contains w
          · rfl
          · exact absurd (Or.inr hcw) hD
        rw [hlev_new w hws e2 (fun e => hD (Or.inl e))]
    · obtain ⟨e1, e2⟩ := h6 u e w hw
      refine ⟨(hc1 w).2 (Or.inl e1), ?_⟩
      rw [hlev_old w (Or.inr e1)]
      exact e2
  · rw [List.pairwise_append]
    refine ⟨?_, ?_, ?_⟩
    · refine List.Pairwise.imp_of_mem ?_ (List.pairwise_cons.1 h7).2
      intro w w2 hw hw2 hR n1 n2
      have r1 := hrange w (List.mem_append_left _ hw) n1
      have r2 := hrange w2 (List.mem_append_left _ hw2) n2
      beta_reduce
      rw [hlev_old w (h1 w (List.mem_cons_of_mem _ hw)).1,
        hlev_old w2 (h1 w2 (List.mem_cons_of_mem _ hw2)).1]
      exact hR (fun e => n1 (List.mem_cons_of_mem _ e)) (fun e => n2 (List.mem_cons_of_mem _ e))
    · refine List.Pairwise.imp_of_mem ?_ (List.pairwise_of_forall (fun _ _ => trivial))
      intro w w2 hw hw2 _ n1 n2
      obtain ⟨e1, e2⟩ := (hnew w).1 hw
      obtain ⟨e3, e4⟩ := (hnew w2).1 hw2
      beta_reduce
      rw [hlev_new w e1 e2 (fun e => n1 (e ▸ hsrcV)),
        hlev_new w2 e3 e4 (fun e => n2 (e ▸ hsrcV))]
    · intro w hw w2 hw2 n1 n2
      have r1 := hrange w (List.mem_append_left _ hw) n1
      obtain ⟨e3, e4⟩ := (hnew w2).1 hw2
      beta_reduce
      rw [hlev_new w2 e3 e4 (fun e => n2 (e ▸ hsrcV))]
      exact r1.2
  · intro v hvm w hw hwV
    show (if v ∈ sucs ∧ P.contains v = false ∧ v ≠ src then lev st + 1 else lev v) ≤ _
    rw [hlev_old v (hDV v hvm)]
    have e : lev v ≤ lev st := by
      rcases List.mem_cons.1 hvm with e | e
      · rw [e]
      · exact hC v e
    exact le_trans e (hrange w hw hwV).1
  · intro w hw w2 hw2 n1 n2
    have r1 := hrange w hw n1
    have r2 := hrange w2 hw2 n2
    show (if w2 ∈ sucs ∧ P.contains w2 = false ∧ w2 ≠ src then lev st + 1 else lev w2) ≤
      (if w ∈ sucs ∧ P.contains w = false ∧ w ≠ src then lev st + 1 else lev w) + 1
    omega
  · intro v hD
    show (if v ∈ sucs ∧ P.contains v = false ∧ v ≠ src then lev st + 1 else lev v) ≤ _
    rw [f3]
    by_cases hD0 : v = src ∨ P.contains v = true
    · rw [hlev_old v hD0]
      exact le_trans (h10 v hD0) (Nat.le_add_right _ _)
    · have e2 : P.contains v = false := by
        cases hcw : P.contains v
        · rfl
        · exact absurd (Or.inr hcw) hD0
      have e3 : v ≠ src := fun e => hD0 (Or.inl e)
      have e1 : v ∈ sucs := by
        rcases hD with e | e
        · exact absurd e e3
        · rcases (hc1 v).1 e with e | e
          · rw [e2] at e
            exact absurd e (by simp)
          · exact e
      rw [hlev_new v e1 e2 e3]
      have := List.length_pos_of_mem ((hnew v).2 ⟨e1, e2⟩)
      have := h10 st hDst
      omega
  · intro v hD
    by_cases hD0 : v = src ∨ P.contains v = true
    · exact h11 v hD0
    · rcases hD with e | e
      · exact absurd (Or.inl e) hD0
      · rcases (hc1 v).1 e with e | e
        · exact absurd (Or.inr e) hD0
        · exact Relation.ReflTransGen.tail (h11 st hDst) ((hmem v).1 e)
  · intro v hc
    rcases (hc1 v).1 hc with e | e
    · exact h12 v e
    · exact Relation.TransGen.tail' (h11 st hDst) ((hmem v).1 e)
  · exact Or.inl hsrcV
  · rw [f3]
    simp only [List.length_cons, List.length_append] at h14 ⊢
    omega

theorem pathFinal_of_inv (a : Aut T) (hcl : Closed a) (src : Nat) (lev : Nat → Nat)
    (V : List Nat) (P : SMap Nat Nat) (k : Nat) (h : PathInv a src lev [] V P k) :
    PathFinal a src lev P := by
  have hsz := pathInv_states a hcl src lev [] V P k h
  obtain ⟨h1, h2, h3, h4, h5, h6, h7, h8, h9, h10, h11, h12, h13, h14⟩ := h
  have hDV : ∀ v, (v = src ∨ P.contains v = true) → v ∈ V := by
    intro v hD
    by_contra hn
    exact absurd (h2 v hD hn) (List.not_mem_nil _)
  have hcl2 : ∀ u, (u = src ∨ P.contains u = true) → ∀ w, a.step u w →
      P.contains w = true ∧ lev w ≤ lev u + 1 := fun u hD w hw => h6 u (hDV u hD) w hw
  refine ⟨?_, ?_, h5, hcl2, ?_⟩
  · intro v
    constructor
    · exact h12 v
    · intro ht
      induction ht with
      | single hw => exact (hcl2 src (Or.inl rfl) _ hw).1
      | tail _ hw ih => exact (hcl2 _ (Or.inr ih) _ hw).1
  · intro v u hl
    obtain ⟨e1, e2, e3⟩ := h4 v u hl
    exact ⟨h3 u e1, e2, e3⟩
  · intro v hD
    exact le_trans (h10 v hD) hsz

/-- The breadth-first search of `find_path_from_to` ends within `num_states + 1` rounds and
establishes `PathFinal`. -/
theorem bfs_visit_path_spec (a : Aut T) (hcl : Closed a) (src fuel : Nat)
    (hs : a.has_state src = true) (hfuel : a.num_states + 1 ≤ fuel) :
    ∃ P lev, bfs fuel src (visit_path a) SMap.empty = some P ∧ PathFinal a src lev P := by
  have hrule := bfs_loop_rule (visit_path a)
    (fun Q V P k => ∃ lev, PathInv a src lev Q V P k) (a.num_states + 1)
    (by
      rintro st q V P k ⟨lev, h⟩ hv
      exact ⟨lev, pathInv_skip a src lev st q V P k h hv⟩)
    (by
      rintro st q V P k ⟨lev, h⟩ hv
      obtain ⟨P1, pushed, lev1, e1, e2⟩ := pathInv_visit a hcl src lev st q V P k h hv
      exact ⟨P1, pushed, e1, lev1, e2⟩)
    (by
      rintro st q V P k ⟨lev, h⟩
      exact pathInv_bound a hcl src lev st q V P k h)
  obtain ⟨P, V1, k1, e1, lev, e2⟩ := hrule fuel [src] [] SMap.empty 0
    ⟨fun _ => 0, pathInv_init a src hs⟩ (by omega)
  exact ⟨P, lev, e1, pathFinal_of_inv a hcl src lev V1 P k1 e2⟩

/-- The loop that follows the predecessors back to the source ends after `lev b` rounds,
where `b` is the last vertex of the sequence it starts from. -/
theorem path_back_spec (a : Aut T) (src : Nat) (lev : Nat → Nat) (P : SMap Nat Nat)
    (hF : PathFinal a src lev P) :
    ∀ (fuel : Nat) (res : List Nat) (b : Nat), res.getLast? = some b →
      (b = src ∨ P.contains b = true) → lev b ≤ fuel →
      ∃ ext, path_back P src fuel res = some (res ++ ext) ∧
        (b :: ext).getLast? = some src ∧
        List.Chain (fun x y => a.step y x) b ext ∧ ext.length = lev b := by
  obtain ⟨F1, F2, F3, F4, F5⟩ := hF
  intro fuel
  induction fuel with
  | zero =>
    intro res b hb hD hl
    by_cases hbs : b = src
    · refine ⟨[], ?_, ?_, List.Chain.nil, ?_⟩
      · unfold path_back
        rw [hb]
        simp [hbs]
      · simp [hbs]
      · rw [hbs, F3]
        rfl
    · have hc : P.contains b = true := hD.resolve_left hbs
      obtain ⟨p, hp⟩ := (SMap.contains_iff P b).1 hc
      have := (F2 b p hp).2.2 hbs
      omega
  | succ f ih =>
    intro res b hb hD hl
    by_cases hbs : b = src
    · refine ⟨[], ?_, ?_, List.Chain.nil, ?_⟩
      · unfold path_back
        rw [hb]
        simp [hbs]
      · simp [hbs]
      · rw [hbs, F3]
        rfl
    · have hc : P.contains b = true := hD.resolve_left hbs
      obtain ⟨p, hp⟩ := (SMap.contains_iff P b).1 hc
      obtain ⟨e1, e2, e3⟩ := F2 b p hp
      have e4 := e3 hbs
      obtain ⟨ext, i1, i2, i3, i4⟩ := ih (res ++ [p]) p (by simp) e1 (by omega)
      refine ⟨p :: ext, ?_, ?_, List.Chain.cons e2 i3, ?_⟩
      · unfold path_back
        rw [hb]
        simp only [if_neg hbs, hp, Option.some_bind]
        rw [i1, List.append_assoc]
        rfl
      · rw [List.getLast?_cons_cons]
        exact i2
      · rw [List.length_cons, i4, e4]

/-- Every sequence of vertices along edges that starts at a discovered vertex reaches a
discovered vertex, whose level is at most the level of the start plus the number of edges. -/
theorem lev_le_of_chain (a : Aut T) (src : Nat) (lev : Nat → Nat) (P : SMap Nat Nat)
    (hF : PathFinal a src lev P) :
    ∀ (l : List Nat) (v w : Nat), (v = src ∨ P.contains v = true) →
      List.Chain a.step v l → (v :: l).getLast? = some w → lev w ≤ lev v + l.length := by
  obtain ⟨F1, F2, F3, F4, F5⟩ := hF
  intro l
  induction l with
  | nil =>
    intro v w _ _ hw
    simp only [List.getLast?_singleton, Option.some.injEq] at hw
    rw [hw]
    exact Nat.le_add_right _ _
  | cons x t ih =>
    intro v w hD hc hw
    rw [List.chain_cons] at hc
    rw [List.getLast?_cons_cons] at hw
    obtain ⟨e1, e2⟩ := F4 v hD x hc.1
    have := ih x w (Or.inr e1) hc.2 hw
    rw [List.length_cons]
    omega

/-- The result of `find_path_from_to` in terms of the predecessor map `P` of its search:
empty when the target is no key of `P`; otherwise a sequence along edges from the source to
the target, of `lev dst + 1` vertices when the target is not the source. -/
theorem find_path_spec (a : Aut T) (hcl : Closed a) (src dst fuel : Nat)
    (hs : a.has_state src = true) (hfuel : a.num_states + 1 ≤ fuel) :
    ∃ P lev res, PathFinal a src lev P ∧ find_path_from_to fuel a src dst = some res ∧
      (P.contains dst = false → res = []) ∧
      (P.contains dst = true → res ≠ [] ∧ res.head? = some src ∧ res.getLast? = some dst ∧
        List.Chain' a.step res ∧ (dst ≠ src → res.length = lev dst + 1)) := by
  obtain ⟨P, lev, e1, hF⟩ := bfs_visit_path_spec a hcl src fuel hs hfuel
  by_cases hc : P.contains dst = true
  · obtain ⟨p, hp⟩ := (SMap.contains_iff P dst).1 hc
    obtain ⟨hDp, hstep, hlev⟩ := hF.2.1 dst p hp
    have hlp : lev p ≤ fuel := le_trans (hF.2.2.2.2 p hDp) (by omega)
    obtain ⟨ext, i1, i2, i3, i4⟩ := path_back_spec a src lev P hF fuel [dst, p] p (by simp)
      hDp hlp
    refine ⟨P, lev, (dst :: p :: ext).reverse, hF, ?_, ?_, ?_⟩
    · unfold find_path_from_to
      rw [e1, Option.some_bind]
      simp only [hc, Bool.not_true, Bool.false_eq_true, if_false, hp, Option.some_bind]
      rw [i1]
      rfl
    · intro hn
      rw [hc] at hn
      exact absurd hn (by simp)
    · intro _
      refine ⟨by simp, ?_, ?_, ?_, ?_⟩
      · rw [List.head?_reverse, List.getLast?_cons_cons]
        exact i2
      · rw [List.getLast?_reverse]
        rfl
      · rw [List.chain'_reverse]
        exact List.Chain.cons hstep i3
      · intro hne
        rw [List.length_reverse, List.length_cons, List.length_cons, i4, hlev hne]
  · have hc2 : P.contains dst = false := by simpa using hc
    refine ⟨P, lev, [], hF, ?_, fun _ => rfl, ?_⟩
    · unfold find_path_from_to
      rw [e1, Option.some_bind]
      simp [hc2]
    · intro hn
      exact absurd hn hc

/-! ## Claims about `find_path_from_to` and `reachable_states` -/

/-- C19: for an automaton whose edges lead to states, a state `s` and a target `t ≠ s`,
`find_path_from_to` returns (with `num_states + 1` rounds of fuel for each loop), and when
the returned sequence is not empty its first element is `s`, its last element is `t`, each
element has the next one among its successors under some symbol, and no sequence of vertices
from `s` to `t` along edges is shorter. -/
theorem find_path_shortest (a : Aut T) (s t fuel : Nat) (hcl : Closed a)
    (hs : a.has_state s = true) (hne : s ≠ t) (hfuel : a.num_states + 1 ≤ fuel) :
    ∃ res, find_path_from_to fuel a s t = some res ∧
      (res ≠ [] → res.head? = some s ∧ res.getLast? = some t ∧ List.Chain' a.step res ∧
        ∀ path : List Nat, path.head? = some s → path.getLast? = some t →
          List.Chain' a.step path → res.length ≤ path.length) := by
  obtain ⟨P, lev, res, hF, e1, e2, e3⟩ := find_path_spec a hcl s t fuel hs hfuel
  refine ⟨res, e1, ?_⟩
  intro hres
  have hc : P.contains t = true := by
    cases hct : P.contains t
    · exact absurd (e2 hct) hres
    · rfl
  obtain ⟨_, i1, i2, i3, i4⟩ := e3 hc
  refine ⟨i1, i2, i3, ?_⟩
  intro path hh hl hch
  cases path with
  | nil => simp at hh
  | cons x l =>
    simp only [List.head?_cons, Option.some.injEq] at hh
    subst hh
    have := lev_le_of_chain a x lev P hF l x t (Or.inl rfl) hch hl
    rw [hF.2.2.1] at this
    rw [i4 (fun e => hne e.symm), List.length_cons]
    omega

/-- Witness of C19 on the sample automaton: the path from state 2 to state 1. -/
theorem find_path_shortest_witness :
    find_path_from_to 5 sample_tba 2 1 = some [2, 3, 0, 1] ∧
    ∃ res, find_path_from_to 5 sample_tba 2 1 = some res ∧
      (res ≠ [] → res.head? = some 2 ∧ res.getLast? = some 1 ∧
        List.Chain' sample_tba.step res ∧
        ∀ path : List Nat, path.head? = some 2 → path.getLast? = some 1 →
          List.Chain' sample_tba.step path → res.length ≤ path.length) :=
  ⟨by decide, find_path_shortest sample_tba 2 1 5 wellFormed_sample_tba.2.1 (by decide)
    (by decide) (by decide)⟩

/-- C20, as stated, fails for `s = t`: state 1 of the sample automaton has no outgoing edge,
so `find_path_from_to` from 1 to 1 is empty although 1 is a member of `reachable_states`
from 1. -/
theorem find_path_empty_for_reachable_source :
    find_path_from_to 17 sample_tba 1 1 = some [] ∧
    reachable_states 17 sample_tba 1 = some [1] ∧
    1 ∈ [1] := by
  decide

/-- C20, amended: for an automaton whose edges lead to states and a state `s`, both
functions return (with `num_states * num_states + 1` rounds of fuel), `find_path_from_to`
is empty exactly when `t` is not reachable from `s` by one or more edges, and for `t ≠ s`
exactly when `t` is no member of `reachable_states`. -/
theorem find_path_empty_iff_unreachable (a : Aut T) (s t fuel : Nat) (hcl : Closed a)
    (hs : a.has_state s = true) (hfuel : a.num_states * a.num_states + 1 ≤ fuel) :
    ∃ res l, find_path_from_to fuel a s t = some res ∧
      reachable_states fuel a s = some l ∧
      (res = [] ↔ ¬ Relation.TransGen a.step s t) ∧
      (s ≠ t → (res = [] ↔ t ∉ l)) := by
  have hn : a.num_states + 1 ≤ fuel := by
    have := Nat.le_mul_self a.num_states
    omega
  obtain ⟨P, lev, res, hF, e1, e2, e3⟩ := find_path_spec a hcl s t fuel hs hn
  obtain ⟨l, r1, _, r3⟩ := reachable_states_spec a s fuel hcl hs hfuel
  have key : res = [] ↔ ¬ Relation.TransGen a.step s t := by
    rw [← hF.1 t]
    constructor
    · intro hres hc
      exact (e3 hc).1 hres
    · intro hc
      exact e2 (by simpa using hc)
  refine ⟨res, l, e1, r1, key, ?_⟩
  intro hne
  rw [key, r3 t, Relation.reflTransGen_iff_eq_or_transGen]
  constructor
  · rintro h (e | e)
    · exact hne e.symm
    · exact h e
  · intro h e
    exact h (Or.inr e)

/-- Witness of C20 (amended) on the sample automaton, from state 2 to state 1. -/
theorem find_path_empty_iff_unreachable_witness :
    ∃ res l, find_path_from_to 17 sample_tba 2 1 = some res ∧
      reachable_states 17 sample_tba 2 = some l ∧
      (res = [] ↔ ¬ Relation.TransGen sample_tba.step 2 1) ∧
      ((2 : Nat) ≠ 1 → (res = [] ↔ 1 ∉ l)) :=
  find_path_empty_iff_unreachable sample_tba 2 1 17 wellFormed_sample_tba.2.1 (by decide)
    (by decide)

theorem coherent_sample_uncolored : Coherent sample_uncolored := by
  have h0 : PrimReach (Aut.new false "" [] 0 : Aut Unit) := PrimReach.fresh false "" [] 0
  have h1 := PrimReach.add_edge _
    (build (Aut.new false "" [] 0) [fun a => a.add_edge 0 0 0 1]) 0 0 0 1 h0 (by decide)
  have h2 := PrimReach.add_state _
    (build (Aut.new false "" [] 0) [fun a => a.add_edge 0 0 0 1, fun a => a.add_state 1]) 1
    h1 (by decide)
  have h3 := PrimReach.add_edge _ sample_uncolored 0 0 1 (-1) h2 (by decide)
  exact coherent_of_countInv _ (countInv_of_primReach _ h3)

/-! ## Claims about `merge_states` and `make_colored` on conflicting and unassigned edges -/

/-- C29 (fails on the code): in `sample_tie` every check at the head of
`merge_states([2], 1)` passes, and state 0 has a 0-edge to `rep = 1` and a 0-edge to the
member 2 of `others`. For the pair (0, 0) the loop calls `add_edge(0, 0, 1, 5)` although the
edge `0 -0-> 1` exists, which violates the check `!has_edge(p, x, q)` of `add_edge`, and
the call aborts. -/
theorem merge_states_breaks_add_edge_guard :
    sample_tie.has_state 1 = true ∧ ([2].all fun q => sample_tie.has_state q) = true ∧
    is_set_vec [2] = true ∧ sorted_contains [2] sample_tie.get_init = false ∧
    sorted_contains [2] 1 = false ∧
    sample_tie.has_edge 0 0 1 = true ∧ set_intersect (sample_tie.succ 0 0) [2] = [2] ∧
    (sample_tie.succ_edges 0 0).lookup 2 = some 5 ∧
    sample_tie.add_edge 0 0 1 5 = none ∧
    sample_tie.merge_states [2] 1 = none := by
  decide

/-- C30 (fails on the code): `sample_uncolored` is transition-based with a min-parity type
and a coherent `prio_cnt` (`Coherent`: one edge of priority 1, counted once; one unassigned edge).
`make_colored` writes the priority 1 on the unassigned edge without counting it:
afterwards two edges carry priority 1 while `prio_cnt[1]` is still 1. -/
theorem make_colored_prio_cnt_stale :
    Coherent sample_uncolored ∧
    sample_uncolored.is_sba = false ∧ pa_acc_is_min sample_uncolored.patype = true ∧
    sample_uncolored.prio_cnt.toList = [(1, 1)] ∧ sample_uncolored.slot_count 1 = 1 ∧
    sample_uncolored.make_colored.map
      (fun b => (b.edge_pri 0 0 0, b.edge_pri 0 0 1, b.prio_cnt.toList, b.slot_count 1)) =
      some (some 1, some 1, [(1, 1)], 2) :=
  ⟨coherent_sample_uncolored, by decide⟩

theorem find_sorted_min (P : Nat → Bool) (l : List Nat) (hs : l.Pairwise (fun x y => x < y))
    (x : Nat) (h : l.find? P = some x) : ∀ y ∈ l, y < x → P y = false := by
  induction l with
  | nil => simp at h
  | cons hd t ih =>
    obtain ⟨h1, h2⟩ := List.pairwise_cons.1 hs
    intro y hy hlt
    rw [List.find?_cons] at h
    cases hP : P hd with
    | true =>
      rw [hP] at h
      have e : hd = x := Option.some.inj h
      subst e
      rcases List.mem_cons.1 hy with e | e
      · exact absurd hlt (e ▸ lt_irrefl _)
      · exact absurd (h1 y e) (not_lt.2 (le_of_lt hlt))
    | false =>
      rw [hP] at h
      rcases List.mem_cons.1 hy with e | e
      · rw [e]
        exact hP
      · exact ih h2 h y e hlt

theorem first_sym_of_step (a : Aut T) (p q : Nat) (h : a.step p q) :
    ∃ x, a.first_sym p q = some x ∧ q ∈ a.succ p x ∧ ∀ y, y < x → q ∉ a.succ p y := by
  obtain ⟨x0, pri, he⟩ := h
  have hp := has_state_of_edge a p x0 q pri he
  have hx0 := mem_outsyms_of_edge a p x0 q pri he
  have hq0 : q ∈ a.succ p x0 := (mem_succ a p x0 q).2 ⟨pri, he⟩
  unfold first_sym
  simp only [hp, Bool.not_true, Bool.false_eq_true, if_false]
  cases hf : (a.state_outsyms p).find? (fun x => decide (q ∈ a.succ p x)) with
  | none =>
    have := List.find?_eq_none.1 hf x0 hx0
    simp [hq0] at this
  | some x =>
    refine ⟨x, rfl, ?_, ?_⟩
    · have := List.find?_some hf
      simpa using this
    · intro y hy
      by_cases hmem : y ∈ a.state_outsyms p
      · have := find_sorted_min _ _ (SMap.keys_pairwise (a.out_map p)) x hf y hmem hy
        simpa using this
      · unfold succ
        rw [succ_edges_of_not_outsym a p y hmem]
        simp

theorem first_sym_of_not_step (a : Aut T) (p q : Nat) (h : ¬ a.step p q) :
    a.first_sym p q = none := by
  unfold first_sym
  by_cases hp : a.has_state p = true
  · simp only [hp, Bool.not_true, Bool.false_eq_true, if_false]
    rw [List.find?_eq_none]
    intro x _ hx
    have hq : q ∈ a.succ p x := by simpa using hx
    obtain ⟨pri, he⟩ := (mem_succ a p x q).1 hq
    exact h ⟨x, pri, he⟩
  · simp [hp]

/-- The loop of `get_word_from_path` on a path along edges: it appends one symbol per pair,
the smallest one that leads from the one state to the next. -/
theorem word_loop_of_chain (a : Aut T) : ∀ (p w : List Nat),
    (∀ i, i + 1 < p.length → a.step (p.getD i 0) (p.getD (i + 1) 0)) →
    ∃ v, a.word_loop p w = some (w ++ v) ∧ v.length = p.length - 1 ∧
      ∀ i, i < v.length →
        p.getD (i + 1) 0 ∈ a.succ (p.getD i 0) (v.getD i 0) ∧
        ∀ y, y < v.getD i 0 → p.getD (i + 1) 0 ∉ a.succ (p.getD i 0) y := by
  intro p
  induction p with
  | nil =>
    intro w _
    exact ⟨[], by simp [word_loop], rfl, fun i hi => absurd hi (Nat.not_lt_zero i)⟩
  | cons s t ih =>
    intro w h
    cases t with
    | nil => exact ⟨[], by simp [word_loop], rfl, fun i hi => absurd hi (Nat.not_lt_zero i)⟩
    | cons q rest =>
      obtain ⟨x, hx, hx1, hx2⟩ := first_sym_of_step a s q (h 0 (by simp))
      obtain ⟨v, hv, hv1, hv2⟩ := ih (w ++ [x]) (by
        intro i hi
        have := h (i + 1) (by simpa using hi)
        simpa using this)
      refine ⟨x :: v, ?_, ?_, ?_⟩
      · unfold word_loop
        rw [hx]
        simp only
        rw [hv, List.append_assoc]
        rfl
      · simp only [List.length_cons] at hv1 ⊢
        omega
      · intro i hi
        cases i with
        | zero => exact ⟨hx1, hx2⟩
        | succ j =>
          have := hv2 j (by simpa using hi)
          simpa using this

/-- The loop of `get_word_from_path` fails on a path with a pair that no edge connects. -/
theorem word_loop_of_gap (a : Aut T) : ∀ (p w : List Nat),
    (∃ i, i + 1 < p.length ∧ ¬ a.step (p.getD i 0) (p.getD (i + 1) 0)) →
    a.word_loop p w = none := by
  intro p
  induction p with
  | nil =>
    rintro w ⟨i, hi, _⟩
    simp at hi
  | cons s t ih =>
    rintro w ⟨i, hi, hn⟩
    cases t with
    | nil => simp at hi
    | cons q rest =>
      unfold word_loop
      cases hf : a.first_sym s q with
      | none => rfl
      | some x =>
        simp only
        cases i with
        | zero =>
          rw [first_sym_of_not_step a s q (by simpa using hn)] at hf
          cases hf
        | succ j =>
          exact ih (w ++ [x]) ⟨j, by simpa using hi, by simpa using hn⟩

/-! ## Claim about `get_word_from_path` -/

/-- C21: on a state sequence `p` of length at least 2, if every consecutive pair is
connected by some edge, `get_word_from_path` returns a word `w` of length `|p| - 1` in which
`w[i]` is the smallest symbol `x` with `p[i+1]` among the `x`-successors of `p[i]`; and if
some consecutive pair is connected by no edge, the call fails. -/
theorem get_word_from_path_realizes (a : Aut T) (p : List Nat) (hlen : 2 ≤ p.length) :
    ((∀ i, i + 1 < p.length → a.step (p.getD i 0) (p.getD (i + 1) 0)) →
      ∃ w, a.get_word_from_path p = some w ∧ w.length = p.length - 1 ∧
        ∀ i, i < w.length →
          p.getD (i + 1) 0 ∈ a.succ (p.getD i 0) (w.getD i 0) ∧
          ∀ y, y < w.getD i 0 → p.getD (i + 1) 0 ∉ a.succ (p.getD i 0) y) ∧
    ((∃ i, i + 1 < p.length ∧ ¬ a.step (p.getD i 0) (p.getD (i + 1) 0)) →
      a.get_word_from_path p = none) := by
  have hif : ¬ p.length < 2 := by omega
  constructor
  · intro h
    obtain ⟨v, hv, hv1, hv2⟩ := word_loop_of_chain a p [] h
    refine ⟨v, ?_, hv1, hv2⟩
    unfold get_word_from_path
    rw [if_neg hif, hv]
    rfl
  · intro h
    unfold get_word_from_path
    rw [if_neg hif]
    exact word_loop_of_gap a p [] h

/-- Witness of C21 on the sample automaton: the path 2, 3, 0, 1 is realized by the word
1, 1, 1, and the sequence 1, 2 (state 1 has no edge) makes the call fail. -/
theorem get_word_from_path_realizes_witness :
    sample_tba.get_word_from_path [2, 3, 0, 1] = some [1, 1, 1] ∧
    sample_tba.get_word_from_path [0, 3] = some [0] ∧
    sample_tba.get_word_from_path [1, 2] = none ∧
    (((∀ i, i + 1 < [2, 3, 0, 1].length →
        sample_tba.step ([2, 3, 0, 1].getD i 0) ([2, 3, 0, 1].getD (i + 1) 0)) →
      ∃ w, sample_tba.get_word_from_path [2, 3, 0, 1] = some w ∧
        w.length = [2, 3, 0, 1].length - 1 ∧
        ∀ i, i < w.length →
          [2, 3, 0, 1].getD (i + 1) 0 ∈ sample_tba.succ ([2, 3, 0, 1].getD i 0) (w.getD i 0) ∧
          ∀ y, y < w.getD i 0 →
            [2, 3, 0, 1].getD (i + 1) 0 ∉ sample_tba.succ ([2, 3, 0, 1].getD i 0) y) ∧
    ((∃ i, i + 1 < [2, 3, 0, 1].length ∧
        ¬ sample_tba.step ([2, 3, 0, 1].getD i 0) ([2, 3, 0, 1].getD (i + 1) 0)) →
      sample_tba.get_word_from_path [2, 3, 0, 1] = none)) :=
  ⟨by decide, by decide, by decide, get_word_from_path_realizes sample_tba [2, 3, 0, 1] (by decide)⟩

end Aut

/-! ## Partition refinement (`common/part_refinement.hh`) -/

namespace PartitionRefiner

variable {T : Type}

theorem slice_append (P M S : List T) (l r : Nat) (hl : P.length = l)
    (hr : l + M.length = r) : slice l r (P ++ M ++ S) = M := by
  unfold slice
  rw [List.append_assoc, List.drop_left' hl]
  exact List.take_left' (by omega)

theorem length_slice (l r : Nat) (E : List T) (hlr : l ≤ r) (hr : r ≤ E.length) :
    (slice l r E).length = r - l := by
  unfold slice
  rw [List.length_take, List.length_drop]
  omega

theorem slice_set_slice (l r : Nat) (seg E : List T) (hlr : l ≤ r) (hr : r ≤ E.length)
    (hseg : seg.length = r - l) : slice l r (set_slice l r seg E) = seg := by
  unfold set_slice
  exact slice_append _ _ _ l r (by rw [List.length_take]; omega) (by omega)

theorem slice_set_slice_left (l r : Nat) (A B E : List T) (hlr : l ≤ r)
    (hr : r ≤ E.length) : slice l (l + A.length) (set_slice l r (A ++ B) E) = A := by
  unfold set_slice
  rw [← List.append_assoc, List.append_assoc]
  exact slice_append _ _ _ l _ (by rw [List.length_take]; omega) rfl

theorem slice_set_slice_right (l r : Nat) (A B E : List T) (hlr : l ≤ r)
    (hr : r ≤ E.length) (hAB : A.length + B.length = r - l) :
    slice (l + A.length) r (set_slice l r (A ++ B) E) = B := by
  unfold set_slice
  rw [← List.append_assoc]
  exact slice_append _ _ _ _ r (by rw [List.length_append, List.length_take]; omega)
    (by omega)

theorem length_set_slice (l r : Nat) (seg E : List T) (hlr : l ≤ r) (hr : r ≤ E.length)
    (hseg : seg.length = r - l) : (set_slice l r seg E).length = E.length := by
  unfold set_slice
  rw [List.length_append, List.length_append, List.length_take, List.length_drop]
  omega

theorem sort_filter [LinearOrder T] (p : T → Bool) (seg : List T) :
    (seg.filter p).insertionSort (fun x y => x ≤ y) =
      (seg.insertionSort (fun x y => x ≤ y)).filter p := by
  apply List.eq_of_perm_of_sorted (r := fun x y => x ≤ y)
  · exact (List.perm_insertionSort _ _).trans ((List.perm_insertionSort _ seg).filter p).symm
  · exact List.sorted_insertionSort _ _
  · exact (List.sorted_insertionSort _ _).filter p

theorem sort_partition [LinearOrder T] (p : T → Bool) (seg : List T) :
    (seg.filter p ++ seg.filter fun e => !p e).insertionSort (fun x y => x ≤ y) =
      seg.insertionSort (fun x y => x ≤ y) := by
  apply List.eq_of_perm_of_sorted (r := fun x y => x ≤ y)
  · exact (List.perm_insertionSort _ _).trans
      ((List.filter_append_perm p seg).trans (List.perm_insertionSort _ seg).symm)
  · exact List.sorted_insertionSort _ _
  · exact List.sorted_insertionSort _ _

theorem length_filter_add (p : T → Bool) (seg : List T) :
    (seg.filter p).length + (seg.filter fun e => !p e).length = seg.length := by
  rw [← List.length_append]
  exact (List.filter_append_perm p seg).length_eq

theorem find_split_node_new (set newtok mid : Nat) : ∀ (sets : List (Nat × Nat × Nat))
    (e : Nat × Nat × Nat), sets.find? (fun e => decide (e.1 = set)) = some e →
    (∀ e ∈ sets, e.1 ≠ newtok) →
    (split_node set newtok mid sets).find? (fun e => decide (e.1 = newtok)) =
      some (newtok, e.2.1, mid) := by
  intro sets
  induction sets with
  | nil =>
    intro e h
    simp at h
  | cons hd t ih =>
    intro e h hfresh
    unfold split_node
    rw [List.find?_cons] at h
    by_cases hc : hd.1 = set
    · simp only [hc, decide_True] at h
      have e1 : hd = e := Option.some.inj h
      subst e1
      rw [if_pos hc]
      simp
    · simp only [hc, decide_False] at h
      rw [if_neg hc, List.find?_cons]
      have : hd.1 ≠ newtok := hfresh hd (List.mem_cons_self _ _)
      simp only [this, decide_False]
      exact ih e h (fun e he => hfresh e (List.mem_cons_of_mem _ he))

theorem find_split_node_old (set newtok mid : Nat) (hne : newtok ≠ set) :
    ∀ (sets : List (Nat × Nat × Nat)) (e : Nat × Nat × Nat),
    sets.find? (fun e => decide (e.1 = set)) = some e →
    (split_node set newtok mid sets).find? (fun e => decide (e.1 = set)) =
      some (set, mid, e.2.2) := by
  intro sets
  induction sets with
  | nil =>
    intro e h
    simp at h
  | cons hd t ih =>
    intro e h
    unfold split_node
    rw [List.find?_cons] at h
    by_cases hc : hd.1 = set
    · simp only [hc, decide_True] at h
      have e1 : hd = e := Option.some.inj h
      subst e1
      rw [if_pos hc]
      simp [hne, hc]
    · simp only [hc, decide_False] at h
      rw [if_neg hc, List.find?_cons]
      simp only [hc, decide_False]
      exact ih e h

theorem length_split_node (set newtok mid : Nat) : ∀ (sets : List (Nat × Nat × Nat)),
    set ∈ sets.map Prod.fst → (split_node set newtok mid sets).length = sets.length + 1 := by
  intro sets
  induction sets with
  | nil =>
    intro h
    simp at h
  | cons hd t ih =>
    intro h
    unfold split_node
    by_cases hc : hd.1 = set
    · rw [if_pos hc]
      simp
    · rw [if_neg hc]
      simp only [List.map_cons, List.mem_cons] at h
      rcases h with h | h
      · exact absurd h.symm hc
      · simp [ih h]

theorem mem_split_node (set newtok mid : Nat) : ∀ (sets : List (Nat × Nat × Nat))
    (e0 e : Nat × Nat × Nat), sets.find? (fun e => decide (e.1 = set)) = some e0 →
    e ∈ split_node set newtok mid sets →
    e ∈ sets ∨ e = (newtok, e0.2.1, mid) ∨ e = (set, mid, e0.2.2) := by
  intro sets
  induction sets with
  | nil =>
    intro e0 e h
    simp at h
  | cons hd t ih =>
    intro e0 e hf h
    unfold split_node at h
    rw [List.find?_cons] at hf
    by_cases hc : hd.1 = set
    · simp only [hc, decide_True] at hf
      have e1 : hd = e0 := Option.some.inj hf
      subst e1
      rw [if_pos hc] at h
      simp only [List.mem_cons] at h
      rcases h with h | h | h
      · exact Or.inr (Or.inl h)
      · exact Or.inr (Or.inr (by rw [h, hc]))
      · exact Or.inl (List.mem_cons_of_mem _ h)
    · simp only [hc, decide_False] at hf
      rw [if_neg hc] at h
      rcases List.mem_cons.1 h with h | h
      · exact Or.inl (h ▸ List.mem_cons_self _ _)
      · rcases ih e0 e hf h with h | h
        · exact Or.inl (List.mem_cons_of_mem _ h)
        · exact Or.inr h

theorem find_of_token (R : PartitionRefiner T) (c : Nat) (hc : c ∈ R.tokens) :
    ∃ l r, R.sets.find? (fun e => decide (e.1 = c)) = some (c, l, r) ∧ (c, l, r) ∈ R.sets := by
  cases hf : R.sets.find? (fun e => decide (e.1 = c)) with
  | none =>
    unfold tokens at hc
    obtain ⟨e, he, hec⟩ := List.mem_map.1 hc
    have := List.find?_eq_none.1 hf e he
    simp [hec] at this
  | some e =>
    have h1 := List.find?_some hf
    have h2 := List.mem_of_find?_eq_some hf
    obtain ⟨c1, l, r⟩ := e
    have h3 : c1 = c := by simpa using h1
    subst h3
    exact ⟨l, r, rfl, h2⟩

/-- A call of `separate` on a consistent refiner leaves a consistent refiner. -/
theorem ok_separate (R R1 : PartitionRefiner T) (c : Nat) (pred : T → Bool)
    (res : Option Nat) (hok : R.Ok) (h : R.separate c pred = some (R1, res)) : R1.Ok := by
  unfold separate bounds_of at h
  cases hf : R.sets.find? (fun e => decide (e.1 = c)) with
  | none =>
    rw [hf] at h
    cases h
  | some e0 =>
    rw [hf] at h
    have hc0 : e0.1 = c := by simpa using List.find?_some hf
    have he0 := hok e0 (List.mem_of_find?_eq_some hf)
    have hfl := length_filter_add pred (slice e0.2.1 e0.2.2 R.elements)
    have hsl := length_slice e0.2.1 e0.2.2 R.elements he0.2.1 he0.2.2
    have hlen := length_set_slice e0.2.1 e0.2.2
      ((slice e0.2.1 e0.2.2 R.elements).filter pred ++
        (slice e0.2.1 e0.2.2 R.elements).filter fun e => !pred e) R.elements
      he0.2.1 he0.2.2 (by rw [List.length_append]; omega)
    simp only [Option.map_some', Option.some.injEq] at h
    unfold split_set at h
    split_ifs at h with hm
    · have e1 := (Prod.mk.inj h).1
      subst e1
      intro e he
      have := hok e he
      exact ⟨this.1, this.2.1, by rw [hlen]; exact this.2.2⟩
    · have e1 := (Prod.mk.inj h).1
      subst e1
      intro e he
      simp only [List.length_append, List.length_singleton]
      rw [hlen]
      rcases mem_split_node _ _ _ _ e0 e hf he with he | he | he
      · have := hok e he
        exact ⟨by omega, this.2.1, this.2.2⟩
      · rw [he]
        simp only
        omega
      · rw [he]
        simp only
        omega

/-- The constructor makes a consistent refiner. -/
theorem ok_init_fold [LinearOrder T] (ss : List (List T)) :
    ∀ (acc : PartitionRefiner T × Nat), acc.1.Ok →
      acc.2 + (ss.map List.length).sum ≤ acc.1.elements.length →
      (∀ e ∈ acc.1.sets, e.2.2 ≤ acc.2) →
      (ss.foldl init_step acc).1.Ok := by
  induction ss with
  | nil =>
    intro acc h _ _
    exact h
  | cons s t ih =>
    intro acc hok hlen hb
    rw [List.foldl_cons]
    simp only [List.map_cons, List.sum_cons] at hlen
    have hl : (init_step acc s).1.elements.length = acc.1.elements.length := by
      unfold init_step
      simp only
      apply length_set_slice _ _ _ _ (by omega) (by omega)
      rw [List.length_insertionSort, length_slice _ _ _ (by omega) (by omega)]
    apply ih
    · intro e he
      rw [hl]
      unfold init_step at he ⊢
      simp only [List.mem_append, List.mem_singleton, List.length_append,
        List.length_singleton] at he ⊢
      rcases he with he | he
      · have := hok e he
        exact ⟨by omega, this.2.1, this.2.2⟩
      · rw [he]
        simp only
        omega
    · rw [hl]
      unfold init_step
      simp only
      omega
    · intro e he
      unfold init_step at he ⊢
      simp only [List.mem_append, List.mem_singleton] at he ⊢
      rcases he with he | he
      · have := hb e he
        omega
      · rw [he]

theorem ok_ofSets [LinearOrder T] (startsets : List (List T)) : (ofSets startsets).Ok := by
  unfold ofSets
  apply ok_init_fold
  · intro e he
    cases he
  · simp only [List.length_flatten, Nat.zero_add]
    exact le_refl _
  · intro e he
    cases he

/-! ## Claim about `PartitionRefiner::separate` -/

/-- C22: on a consistent refiner and a token `c` of one of its sets, `separate(c, pred)`
returns. If some but not all elements of `c` satisfy `pred`, it returns the token of a newly
created set whose elements are exactly the elements of `c` that satisfy `pred`, `c` keeps
exactly the elements that do not, and `num_sets()` grows by one. Otherwise it returns
nothing, `num_sets()` is unchanged and `c` has the same elements as before. -/
theorem separate_splits [LinearOrder T] (R : PartitionRefiner T) (c : Nat) (pred : T → Bool)
    (hok : R.Ok) (hc : c ∈ R.tokens) :
    ∃ R1 res els, R.separate c pred = some (R1, res) ∧ R.get_elements_of c = some els ∧
      (((∃ e ∈ els, pred e = true) ∧ (∃ e ∈ els, pred e = false)) →
        ∃ n, res = some n ∧ n ∉ R.tokens ∧ n ∈ R1.tokens ∧
          R1.get_elements_of n = some (els.filter pred) ∧
          R1.get_elements_of c = some (els.filter fun e => !pred e) ∧
          R1.num_sets = R.num_sets + 1) ∧
      (¬ ((∃ e ∈ els, pred e = true) ∧ (∃ e ∈ els, pred e = false)) →
        res = none ∧ R1.num_sets = R.num_sets ∧ R1.get_elements_of c = some els) := by
  obtain ⟨l, r, hf, hmem⟩ := find_of_token R c hc
  obtain ⟨hid, hlr, hr⟩ := hok (c, l, r) hmem
  simp only at hid hlr hr
  have hfl := length_filter_add pred (slice l r R.elements)
  have hsl := length_slice l r R.elements hlr hr
  have hA : (∃ e ∈ (slice l r R.elements).insertionSort (fun x y => x ≤ y), pred e = true) ↔
      0 < ((slice l r R.elements).filter pred).length := by
    rw [List.length_pos_iff_exists_mem]
    simp only [List.mem_insertionSort, List.mem_filter]
  have hB : (∃ e ∈ (slice l r R.elements).insertionSort (fun x y => x ≤ y), pred e = false) ↔
      0 < ((slice l r R.elements).filter fun e => !pred e).length := by
    rw [List.length_pos_iff_exists_mem]
    simp only [List.mem_insertionSort, List.mem_filter, Bool.not_eq_true']
  have hels : R.get_elements_of c =
      some ((slice l r R.elements).insertionSort (fun x y => x ≤ y)) := by
    unfold get_elements_of bounds_of
    rw [hf]
    rfl
  have hsep : R.separate c pred = some (split_set
      { R with elements := set_slice l r ((slice l r R.elements).filter pred ++
          (slice l r R.elements).filter fun e => !pred e) R.elements }
      c (l, r) (l + ((slice l r R.elements).filter pred).length)) := by
    unfold separate bounds_of
    rw [hf]
    rfl
  by_cases hm : l + ((slice l r R.elements).filter pred).length = l ∨
      l + ((slice l r R.elements).filter pred).length = r
  · refine ⟨{ R with elements := set_slice l r ((slice l r R.elements).filter pred ++
        (slice l r R.elements).filter fun e => !pred e) R.elements }, none,
      (slice l r R.elements).insertionSort (fun x y => x ≤ y), ?_, hels, ?_, ?_⟩
    · rw [hsep]
      unfold split_set
      rw [if_pos hm]
    · rintro ⟨h1, h2⟩
      rw [hA] at h1
      rw [hB] at h2
      omega
    · intro _
      refine ⟨rfl, rfl, ?_⟩
      unfold get_elements_of bounds_of
      simp only [hf, Option.map_some']
      rw [slice_set_slice l r _ _ hlr hr (by rw [List.length_append]; omega), sort_partition]
  · have hfresh : ∀ e ∈ R.sets, e.1 ≠ R.sym_sets.length := by
      intro e he
      exact Nat.ne_of_lt (hok e he).1
    have hn1 := find_split_node_new c R.sym_sets.length
      (l + ((slice l r R.elements).filter pred).length) R.sets (c, l, r) hf hfresh
    have hn2 := find_split_node_old c R.sym_sets.length
      (l + ((slice l r R.elements).filter pred).length) (fun e => Nat.ne_of_lt hid e.symm)
      R.sets (c, l, r) hf
    refine ⟨
      { elements := set_slice l r ((slice l r R.elements).filter pred ++
          (slice l r R.elements).filter (fun e => !pred e)) R.elements
        sets := split_node c R.sym_sets.length
          (l + ((slice l r R.elements).filter pred).length) R.sets
        sym_sets := R.sym_sets ++ [R.sym_sets.length] }, some R.sym_sets.length,
      (slice l r R.elements).insertionSort (fun x y => x ≤ y), ?_, hels, ?_, ?_⟩
    · rw [hsep]
      unfold split_set
      rw [if_neg hm]
    · intro _
      refine ⟨R.sym_sets.length, rfl, ?_, ?_, ?_, ?_, ?_⟩
      · intro hin
        unfold tokens at hin
        obtain ⟨e, he, hec⟩ := List.mem_map.1 hin
        exact hfresh e he hec
      · unfold tokens
        simp only
        exact List.mem_map.2 ⟨_, List.mem_of_find?_eq_some hn1, rfl⟩
      · unfold get_elements_of bounds_of
        simp only [hn1, Option.map_some']
        rw [slice_set_slice_left l r _ _ _ hlr hr, sort_filter]
      · unfold get_elements_of bounds_of
        simp only [hn2, Option.map_some']
        rw [slice_set_slice_right l r _ _ _ hlr hr (by omega), sort_filter]
      · unfold num_sets
        simp only
        exact length_split_node _ _ _ _ hc
    · intro hn
      exfalso
      apply hn
      rw [hA, hB]
      constructor
      · by_contra h0
        exact hm (Or.inl (by omega))
      · by_contra h0
        exact hm (Or.inr (by omega))

/-- Witness of C22 on the refiner over {5, 2, 8} and {4}: separating the even elements of
the first set gives the new set {2, 8} and leaves {5}. -/
theorem separate_splits_witness :
    (sample_refiner.separate 0 (fun x => x % 2 == 0)).map
      (fun r => (r.2, r.1.get_elements_of 2, r.1.get_elements_of 0, r.1.num_sets)) =
      some (some 2, some [2, 8], some [5], 3) ∧
    ∃ R1 res els, sample_refiner.separate 0 (fun x => x % 2 == 0) = some (R1, res) ∧
      sample_refiner.get_elements_of 0 = some els ∧
      (((∃ e ∈ els, (fun x => x % 2 == 0) e = true) ∧
          (∃ e ∈ els, (fun x => x % 2 == 0) e = false)) →
        ∃ n, res = some n ∧ n ∉ sample_refiner.tokens ∧ n ∈ R1.tokens ∧
          R1.get_elements_of n = some (els.filter (fun x => x % 2 == 0)) ∧
          R1.get_elements_of 0 = some (els.filter fun e => !(fun x => x % 2 == 0) e) ∧
          R1.num_sets = sample_refiner.num_sets + 1) ∧
      (¬ ((∃ e ∈ els, (fun x => x % 2 == 0) e = true) ∧
          (∃ e ∈ els, (fun x => x % 2 == 0) e = false)) →
        res = none ∧ R1.num_sets = sample_refiner.num_sets ∧
          R1.get_elements_of 0 = some els) :=
  ⟨by decide, separate_splits sample_refiner 0 (fun x => x % 2 == 0) (ok_ofSets _) (by decide)⟩

end PartitionRefiner

/-! ## The trie-based bidirectional map (`triebimap.hh`) -/

namespace TrieNode

/-! ### Unfolding of the recursive functions on a non-empty path -/

theorem ensure_cons (n : TrieNode) (k : Nat) (rest : List Nat) :
    n.ensure (k :: rest) =
      match n.child k with
      | none => mk n.key n.value (insRaw k (ensure (fresh k) rest) n.suc)
      | some c => mk n.key n.value (replaceRaw k (ensure c rest) n.suc) := by
  rw [ensure]

theorem set_value_cons (n : TrieNode) (v : Option Nat) (k : Nat) (rest : List Nat) :
    n.set_value v (k :: rest) =
      match n.child k with
      | none => n
      | some c => mk n.key n.value (replaceRaw k (set_value c v rest) n.suc) := by
  rw [set_value]

theorem keys_up_cons (root : TrieNode) (k : Nat) (up : List Nat) :
    root.keys_up (k :: up) =
      match root.node_at (k :: up).reverse with
      | none => none
      | some n => (root.keys_up up).map fun ret => n.key :: ret := by
  rw [keys_up]

end TrieNode

theorem lookupRaw_replaceRaw {K V : Type} [LinearOrder K] (k k' : K) (v : V)
    (l : List (K × V)) :
    lookupRaw k' (replaceRaw k v l) =
      if k' = k then (lookupRaw k l).map (fun _ => v) else lookupRaw k' l := by
  induction l with
  | nil => simp [replaceRaw, lookupRaw]
  | cons hd t ih =>
    obtain ⟨k2, v2⟩ := hd
    unfold replaceRaw
    by_cases h2 : k = k2
    · rw [if_pos h2]
      subst h2
      by_cases h : k' = k
      · simp [lookupRaw, h]
      · simp only [lookupRaw, if_neg h]
    · rw [if_neg h2]
      by_cases h : k' = k
      · subst h
        simp only [lookupRaw, if_neg h2, ih, if_true]
      · simp only [lookupRaw, ih, if_neg h]

theorem replaceRaw_self {K V : Type} [LinearOrder K] (k : K) (v : V) (l : List (K × V))
    (h : lookupRaw k l = some v) : replaceRaw k v l = l := by
  induction l with
  | nil => rfl
  | cons hd t ih =>
    obtain ⟨k2, v2⟩ := hd
    unfold replaceRaw
    unfold lookupRaw at h
    by_cases h2 : k = k2
    · rw [if_pos h2] at h
      rw [if_pos h2, h2, Option.some.inj h]
    · rw [if_neg h2] at h
      rw [if_neg h2, ih h]

namespace TrieNode

theorem node_eta (n : TrieNode) : mk n.key n.value n.suc = n := by
  cases n
  rfl

theorem node_at_nil (n : TrieNode) : n.node_at [] = some n := rfl

theorem node_at_cons (n : TrieNode) (k : Nat) (rest : List Nat) :
    n.node_at (k :: rest) = (n.child k).bind fun c => c.node_at rest := by
  conv_lhs => unfold node_at
  cases n.child k <;> rfl

theorem node_at_append (n : TrieNode) (p q : List Nat) :
    n.node_at (p ++ q) = (n.node_at p).bind fun c => c.node_at q := by
  induction p generalizing n with
  | nil => rfl
  | cons k rest ih =>
    rw [List.cons_append, node_at_cons, node_at_cons]
    cases n.child k with
    | none => rfl
    | some c => exact ih c

theorem keyOk_iff (n : TrieNode) :
    n.KeyOk ↔ ∀ k c, n.child k = some c → c.key = k ∧ c.KeyOk := by
  constructor
  · intro h k c hc
    constructor
    · apply h [] k c
      rw [List.nil_append, node_at_cons, hc]
      rfl
    · intro p k2 c2 h2
      apply h (k :: p) k2 c2
      rw [List.cons_append, node_at_cons, hc]
      exact h2
  · intro h p k c hc
    cases p with
    | nil =>
      rw [List.nil_append, node_at_cons] at hc
      cases hk : n.child k with
      | none => rw [hk] at hc; cases hc
      | some c1 =>
        rw [hk] at hc
        have e : c1 = c := Option.some.inj hc
        exact e ▸ (h k c1 hk).1
    | cons k1 rest =>
      rw [List.cons_append, node_at_cons] at hc
      cases hk : n.child k1 with
      | none => rw [hk] at hc; cases hc
      | some c1 =>
        rw [hk] at hc
        exact (h k1 c1 hk).2 rest k c hc

theorem keyOk_fresh (k : Nat) : (fresh k).KeyOk := by
  rw [keyOk_iff]
  intro k2 c h
  cases h

theorem node_at_fresh (k : Nat) (q : List Nat) :
    (fresh k).node_at q = if q = [] then some (fresh k) else none := by
  cases q with
  | nil => rfl
  | cons k2 rest => rfl

/-! ### `traverse(ks, true)` -/

theorem key_ensure (n : TrieNode) (p : List Nat) : (n.ensure p).key = n.key := by
  cases p with
  | nil => rfl
  | cons k rest =>
    rw [ensure_cons]
    cases n.child k <;> rfl

theorem value_ensure (n : TrieNode) (p : List Nat) : (n.ensure p).value = n.value := by
  cases p with
  | nil => rfl
  | cons k rest =>
    rw [ensure_cons]
    cases n.child k <;> rfl

theorem child_ensure (n : TrieNode) (k k2 : Nat) (rest : List Nat) :
    (n.ensure (k :: rest)).child k2 =
      if k2 = k then some (((n.child k).getD (fresh k)).ensure rest) else n.child k2 := by
  rw [ensure_cons]
  cases hk : n.child k with
  | none =>
    show lookupRaw k2 (insRaw k _ n.suc) = _
    rw [lookupRaw_insRaw]
    rfl
  | some c =>
    show lookupRaw k2 (replaceRaw k _ n.suc) = _
    rw [lookupRaw_replaceRaw]
    have : lookupRaw k n.suc = some c := hk
    rw [this]
    rfl

theorem val_at_ensure (p : List Nat) : ∀ (n : TrieNode) (q : List Nat),
    (n.ensure p).val_at q = n.val_at q := by
  induction p with
  | nil =>
    intro n q
    rfl
  | cons k rest ih =>
    intro n q
    cases q with
    | nil =>
      unfold val_at
      rw [node_at_nil, node_at_nil]
      exact value_ensure n (k :: rest)
    | cons k2 q2 =>
      unfold val_at
      rw [node_at_cons, node_at_cons, child_ensure]
      by_cases hk : k2 = k
      · rw [if_pos hk, hk]
        have := ih ((n.child k).getD (fresh k)) q2
        unfold val_at at this
        rw [Option.some_bind, this]
        cases hc : n.child k with
        | none =>
          rw [Option.getD_none, node_at_fresh]
          cases q2 <;> rfl
        | some c => rfl
      · rw [if_neg hk]

theorem node_at_ensure_self (p : List Nat) : ∀ (n : TrieNode),
    ∃ c, (n.ensure p).node_at p = some c := by
  induction p with
  | nil =>
    intro n
    exact ⟨n, rfl⟩
  | cons k rest ih =>
    intro n
    rw [node_at_cons, child_ensure, if_pos rfl, Option.some_bind]
    exact ih _

theorem keyOk_ensure (p : List Nat) : ∀ (n : TrieNode), n.KeyOk → (n.ensure p).KeyOk := by
  induction p with
  | nil =>
    intro n h
    exact h
  | cons k rest ih =>
    intro n h
    rw [keyOk_iff] at h ⊢
    intro k2 c hc
    rw [child_ensure] at hc
    by_cases hk : k2 = k
    · rw [if_pos hk] at hc
      have e := Option.some.inj hc
      subst e
      rw [key_ensure, hk]
      cases hn : n.child k with
      | none =>
        rw [Option.getD_none]
        exact ⟨rfl, ih _ (keyOk_fresh k)⟩
      | some c0 =>
        rw [Option.getD_some]
        exact ⟨(h k c0 hn).1, ih _ (h k c0 hn).2⟩
    · rw [if_neg hk] at hc
      exact h k2 c hc

theorem ensure_of_exists (p : List Nat) : ∀ (n c : TrieNode), n.node_at p = some c →
    n.ensure p = n := by
  induction p with
  | nil =>
    intro n c _
    rfl
  | cons k rest ih =>
    intro n c h
    rw [node_at_cons] at h
    rw [ensure_cons]
    cases hk : n.child k with
    | none =>
      rw [hk] at h
      cases h
    | some c0 =>
      rw [hk] at h
      simp only
      rw [ih c0 c h, replaceRaw_self k c0 n.suc hk]
      exact node_eta n

/-! ### The assignment `curr->value = v` -/

theorem key_set_value (n : TrieNode) (v : Option Nat) (p : List Nat) :
    (n.set_value v p).key = n.key := by
  cases p with
  | nil => rfl
  | cons k rest =>
    rw [set_value_cons]
    cases n.child k <;> rfl

theorem child_set_value (n : TrieNode) (v : Option Nat) (k k2 : Nat) (rest : List Nat) :
    (n.set_value v (k :: rest)).child k2 =
      if k2 = k then (n.child k).map fun c => c.set_value v rest else n.child k2 := by
  rw [set_value_cons]
  cases hk : n.child k with
  | none =>
    simp only
    by_cases h : k2 = k
    · rw [if_pos h, h, hk]
      rfl
    · rw [if_neg h]
  | some c =>
    show lookupRaw k2 (replaceRaw k _ n.suc) = _
    rw [lookupRaw_replaceRaw]
    have : lookupRaw k n.suc = some c := hk
    rw [this]
    rfl

theorem val_at_set_value (v : Option Nat) (p : List Nat) : ∀ (n c : TrieNode),
    n.node_at p = some c → ∀ q, (n.set_value v p).val_at q = if q = p then v else n.val_at q := by
  induction p with
  | nil =>
    intro n c _ q
    cases q with
    | nil => rfl
    | cons k2 q2 => rfl
  | cons k rest ih =>
    intro n c h q
    rw [node_at_cons] at h
    cases hk : n.child k with
    | none =>
      rw [hk] at h
      cases h
    | some c0 =>
      rw [hk] at h
      cases q with
      | nil =>
        rw [if_neg (by simp)]
        unfold val_at
        rw [node_at_nil, node_at_nil, set_value_cons, hk]
        rfl
      | cons k2 q2 =>
        unfold val_at
        rw [node_at_cons, node_at_cons, child_set_value]
        by_cases hk2 : k2 = k
        · rw [if_pos hk2, hk2, hk, Option.map_some', Option.some_bind, Option.some_bind]
          have := ih c0 c h q2
          unfold val_at at this
          rw [this]
          by_cases hq : q2 = rest
          · rw [if_pos hq, if_pos (by rw [hq])]
          · rw [if_neg hq, if_neg (by simpa using hq)]
        · rw [if_neg hk2, if_neg (by simp [hk2])]

theorem keyOk_set_value (v : Option Nat) (p : List Nat) : ∀ (n : TrieNode),
    n.KeyOk → (n.set_value v p).KeyOk := by
  induction p with
  | nil =>
    intro n h
    rw [keyOk_iff] at h ⊢
    exact h
  | cons k rest ih =>
    intro n h
    rw [keyOk_iff] at h ⊢
    intro k2 c hc
    rw [child_set_value] at hc
    by_cases hk : k2 = k
    · rw [if_pos hk] at hc
      cases hn : n.child k with
      | none =>
        rw [hn] at hc
        cases hc
      | some c0 =>
        rw [hn, Option.map_some'] at hc
        have e := Option.some.inj hc
        subst e
        rw [key_set_value, hk]
        exact ⟨(h k c0 hn).1, ih _ (h k c0 hn).2⟩
    · rw [if_neg hk] at hc
      exact h k2 c hc

/-! ### The loop of `get(V val)` -/

theorem keys_up_spec (root : TrieNode) (hk : root.KeyOk) : ∀ (ks : List Nat) (c : TrieNode),
    root.node_at ks.reverse = some c → root.keys_up ks = some ks := by
  intro ks
  induction ks with
  | nil =>
    intro c _
    rfl
  | cons k up ih =>
    intro c h
    rw [keys_up_cons, h]
    simp only
    have hkey : c.key = k := by
      apply hk up.reverse k c
      rw [← List.reverse_cons]
      exact h
    rw [List.reverse_cons, node_at_append] at h
    cases hup : root.node_at up.reverse with
    | none =>
      rw [hup] at h
      cases h
    | some c1 =>
      rw [ih c1 hup, hkey]
      rfl

end TrieNode

namespace TrieBimap

theorem bimap_eta (m : TrieBimap) : (⟨m.root, m.revmap⟩ : TrieBimap) = m := by
  cases m
  rfl

theorem path_injective (ks1 ks2 : List Nat) (h : path ks1 = path ks2) : ks1 = ks2 :=
  List.reverse_injective h

theorem inv_empty : empty.Inv := by
  refine ⟨?_, ?_, ?_⟩
  · rw [TrieNode.keyOk_iff]
    intro k c h
    cases h
  · intro p v h
    cases p with
    | nil => cases h
    | cons k rest => cases h
  · intro v p h
    cases h

/-- In a consistent map the two directions are injective and inverse to each other. -/
theorem inv_injective (m : TrieBimap) (h : m.Inv) :
    (∀ ks1 ks2 v, m.get ks1 = some v → m.get ks2 = some v → ks1 = ks2) ∧
    (∀ ks v, m.get ks = some v → m.geti v = some ks) ∧
    (∀ ks v, m.geti v = some ks → m.get ks = some v) := by
  obtain ⟨h1, h2, h3⟩ := h
  refine ⟨?_, ?_, ?_⟩
  · intro ks1 ks2 v e1 e2
    have a1 := h2 _ v e1
    have a2 := h2 _ v e2
    rw [a1] at a2
    exact path_injective ks1 ks2 (Option.some.inj a2)
  · intro ks v e
    unfold geti
    rw [h2 _ v e, Option.some_bind]
    unfold get TrieNode.val_at at e
    cases hn : m.root.node_at (path ks) with
    | none =>
      rw [hn] at e
      cases e
    | some c =>
      unfold path
      rw [List.reverse_reverse]
      exact TrieNode.keys_up_spec m.root h1 ks c hn
  · intro ks v e
    unfold geti at e
    cases hl : m.revmap.lookup v with
    | none =>
      rw [hl] at e
      cases e
    | some p =>
      rw [hl, Option.some_bind] at e
      have hv := h3 v p hl
      unfold TrieNode.val_at at hv
      cases hn : m.root.node_at p with
      | none =>
        rw [hn] at hv
        cases hv
      | some c =>
        have := TrieNode.keys_up_spec m.root h1 p.reverse c (by rw [List.reverse_reverse]; exact hn)
        rw [this] at e
        have e2 : p.reverse = ks := Option.some.inj e
        unfold get path
        rw [← e2, List.reverse_reverse]
        exact h3 v p hl

/-- What `put(ks, val)` does on a consistent map for a value that is not bound: it
completes, binds `ks` to `val` in both directions and leaves a consistent map. -/
theorem put_spec (m : TrieBimap) (ks : List Nat) (val : Nat) (hinv : m.Inv)
    (hv : m.hasv val = false) :
    ∃ m1, m.put ks val = some m1 ∧ m1.get ks = some val ∧ m1.geti val = some ks ∧
      m1.Inv ∧ (∀ ks2, ks2 ≠ ks → m1.get ks2 = m.get ks2) := by
  obtain ⟨h1, h2, h3⟩ := hinv
  obtain ⟨c, hc⟩ := TrieNode.node_at_ensure_self (path ks) m.root
  have hval := TrieNode.val_at_ensure (path ks) m.root
  have hset := TrieNode.val_at_set_value (some val) (path ks) _ c hc
  have hkey : ((m.root.ensure (path ks)).set_value (some val) (path ks)).KeyOk :=
    TrieNode.keyOk_set_value _ _ _ (TrieNode.keyOk_ensure _ _ h1)
  have hvl : m.revmap.lookup val = none := by
    unfold hasv at hv
    exact (SMap.contains_eq_false_iff _ _).1 hv
  have key : ∀ (rm : SMap Nat (List Nat)),
      (∀ u, u ≠ val → m.root.val_at (path ks) ≠ some u → rm.lookup u = m.revmap.lookup u) →
      (∀ u, m.root.val_at (path ks) = some u → rm.lookup u = none) →
      (⟨(m.root.ensure (path ks)).set_value (some val) (path ks),
        rm.ins val (path ks)⟩ : TrieBimap).Inv := by
    intro rm hrm hold
    refine ⟨hkey, ?_, ?_⟩
    · intro p v hp
      simp only at hp ⊢
      rw [hset, hval] at hp
      rw [SMap.lookup_ins]
      by_cases hpp : p = path ks
      · rw [if_pos hpp] at hp
        rw [← Option.some.inj hp, if_pos rfl, hpp]
      · rw [if_neg hpp] at hp
        have a := h2 p v hp
        have hne : v ≠ val := by
          intro e
          rw [e, hvl] at a
          cases a
        rw [if_neg hne, hrm v hne, a]
        intro e
        have := h2 _ v e
        rw [a] at this
        exact hpp (Option.some.inj this)
    · intro v p hl
      simp only at hl ⊢
      rw [SMap.lookup_ins] at hl
      rw [hset, hval]
      by_cases hvv : v = val
      · rw [if_pos hvv] at hl
        rw [← Option.some.inj hl, if_pos rfl, hvv]
      · rw [if_neg hvv] at hl
        have hne : m.root.val_at (path ks) ≠ some v := by
          intro e
          rw [hold v e] at hl
          cases hl
        rw [hrm v hvv hne] at hl
        have a := h3 v p hl
        have hpp : p ≠ path ks := by
          intro e
          rw [e] at a
          exact hne a
        rw [if_neg hpp]
        exact a
  have fin : ∀ m1 : TrieBimap, m1.root = (m.root.ensure (path ks)).set_value (some val) (path ks) →
      m1.Inv → m1.get ks = some val ∧ m1.geti val = some ks ∧ m1.Inv ∧
        (∀ ks2, ks2 ≠ ks → m1.get ks2 = m.get ks2) := by
    intro m1 hr hi
    have hg : m1.get ks = some val := by
      unfold get
      rw [hr, hset, if_pos rfl]
    refine ⟨hg, (inv_injective m1 hi).2.1 ks val hg, hi, ?_⟩
    intro ks2 hne
    unfold get
    rw [hr, hset, if_neg (fun e => hne (path_injective _ _ e)), hval]
  unfold put
  simp only
  cases ho : (m.root.ensure (path ks)).val_at (path ks) with
  | none =>
    simp only
    refine ⟨_, rfl, fin _ rfl (key m.revmap (fun _ _ _ => rfl) ?_)⟩
    intro u hu
    rw [hval] at ho
    rw [ho] at hu
    cases hu
  | some old =>
    rw [hval] at ho
    have hlo := h2 _ old ho
    have hco : m.revmap.contains old = true := (SMap.contains_iff _ _).2 ⟨_, hlo⟩
    simp only [hco, if_true]
    refine ⟨_, rfl, fin _ rfl (key (m.revmap.erase old) ?_ ?_)⟩
    · intro u _ hu
      rw [SMap.lookup_erase, if_neg]
      intro e
      exact hu (e ▸ ho)
    · intro u hu
      rw [ho] at hu
      rw [← Option.some.inj hu, SMap.lookup_erase, if_pos rfl]

theorem inv_sample_trie : sample_trie.Inv := by
  obtain ⟨m1, h1, _, _, h2, _⟩ := put_spec empty [7, 8, 9] 3 inv_empty (by decide)
  unfold sample_trie
  rw [h1]
  exact h2

/-- A call of `put_or_get` with a value that is not bound keeps a consistent map
consistent. -/
theorem inv_put_or_get (m : TrieBimap) (ks : List Nat) (val : Nat) (hinv : m.Inv)
    (hv : m.hasv val = false) : (m.put_or_get ks val).1.Inv := by
  obtain ⟨m1, h1, _, _, h2, _⟩ := put_spec m ks val hinv hv
  have hval := TrieNode.val_at_ensure (path ks) m.root
  unfold put_or_get
  unfold put at h1
  simp only at h1 ⊢
  cases ho : (m.root.ensure (path ks)).val_at (path ks) with
  | none =>
    rw [ho] at h1
    simp only at h1 ⊢
    rw [Option.some.inj h1]
    exact h2
  | some old =>
    simp only
    rw [hval] at ho
    unfold TrieNode.val_at at ho
    cases hn : m.root.node_at (path ks) with
    | none =>
      rw [hn] at ho
      cases ho
    | some c =>
      rw [TrieNode.ensure_of_exists _ _ c hn]
      exact hinv

/-! ## Claims about `trie_bimap` -/

/-- C23: if `ks` is bound to `u`, `put_or_get(ks, v)` returns `u` and leaves the map as it
is (so every lookup and the size are unchanged); otherwise it returns `v`, and afterwards
`has(ks)` holds, `get(ks)` is `v` and `has(v)` holds. -/
theorem put_or_get_interns (m : TrieBimap) (ks : List Nat) (v : Nat) :
    (∀ u, m.get ks = some u → m.put_or_get ks v = (m, u)) ∧
    (m.has ks = false →
      (m.put_or_get ks v).2 = v ∧ (m.put_or_get ks v).1.has ks = true ∧
      (m.put_or_get ks v).1.get ks = some v ∧ (m.put_or_get ks v).1.hasv v = true) := by
  have hval := TrieNode.val_at_ensure (path ks) m.root
  obtain ⟨c, hc⟩ := TrieNode.node_at_ensure_self (path ks) m.root
  have hset := TrieNode.val_at_set_value (some v) (path ks) _ c hc
  constructor
  · intro u hu
    unfold get at hu
    unfold put_or_get
    simp only
    rw [hval, hu]
    simp only
    unfold TrieNode.val_at at hu
    cases hn : m.root.node_at (path ks) with
    | none =>
      rw [hn] at hu
      cases hu
    | some c1 =>
      rw [TrieNode.ensure_of_exists _ _ c1 hn, bimap_eta]
  · intro hh
    unfold has at hh
    have hnone : m.root.val_at (path ks) = none := by
      cases hx : m.root.val_at (path ks) with
      | none => rfl
      | some u =>
        rw [hx] at hh
        cases hh
    unfold put_or_get
    simp only
    rw [hval, hnone]
    simp only
    refine ⟨trivial, ?_, ?_, ?_⟩
    · unfold has
      simp only
      rw [hset, if_pos rfl]
      rfl
    · unfold get
      simp only
      rw [hset, if_pos rfl]
    · unfold hasv
      simp only
      rw [SMap.contains_ins]
      simp

/-- Witness of C23 on the map that binds [7, 8, 9] to 3: the bound label returns 3 and
changes nothing, the label [8, 9] gets the new value 5. -/
theorem put_or_get_interns_witness :
    sample_trie.get [7, 8, 9] = some 3 ∧ (sample_trie.put_or_get [7, 8, 9] 5).2 = 3 ∧
    sample_trie.has [8, 9] = false ∧ (sample_trie.put_or_get [8, 9] 5).2 = 5 ∧
    ((∀ u, sample_trie.get [7, 8, 9] = some u →
        sample_trie.put_or_get [7, 8, 9] 5 = (sample_trie, u)) ∧
      (sample_trie.has [7, 8, 9] = false →
        (sample_trie.put_or_get [7, 8, 9] 5).2 = 5 ∧
        (sample_trie.put_or_get [7, 8, 9] 5).1.has [7, 8, 9] = true ∧
        (sample_trie.put_or_get [7, 8, 9] 5).1.get [7, 8, 9] = some 5 ∧
        (sample_trie.put_or_get [7, 8, 9] 5).1.hasv 5 = true)) :=
  ⟨by decide, by decide, by decide, by decide, put_or_get_interns sample_trie [7, 8, 9] 5⟩

/-- C24 (fails on the code): starting from the empty map, `put([1], 0)` and then
`put([2], 0)` both complete; afterwards the distinct labels [1] and [2] are both bound to
the id 0, and the inverse lookup of `get([1]) = 0` returns [2], not [1]. `put` removes the
stale entry of `revmap` when a label is bound again, but does not clear the value of the
node that held the id before. A following `put([1], 5)` then erases the entry of the id 0
although [2] is still bound to it, after which `put([2], 7)` erases the end iterator. -/
theorem put_rebinds_id_without_unbinding :
    ((empty.put [1] 0).bind fun m => m.put [2] 0).map
      (fun m => (m.get [1], m.get [2], m.geti 0)) = some (some 0, some 0, some [2]) ∧
    ((empty.put [1] 0).bind fun m => m.put [2] 0).map
      (fun m => (m.has [1], m.has [2], m.size)) = some (true, true, 1) ∧
    (((empty.put [1] 0).bind fun m => m.put [2] 0).bind fun m => m.put [1] 5).map
      (fun m => (m.get [2], m.hasv 0)) = some (some 0, false) ∧
    ((((empty.put [1] 0).bind fun m => m.put [2] 0).bind fun m => m.put [1] 5).bind
      fun m => m.put [2] 7).isSome = false := by
  decide

/-- C25: on a consistent map, for every label `ks` (of any length) and every id `v` that is
not bound, `put(ks, v)` completes; afterwards `get(ks)` returns `v` and the inverse lookup
`get(v)` returns exactly `ks`, the keys in their original order. -/
theorem put_get_round_trip (m : TrieBimap) (ks : List Nat) (v : Nat) (hinv : m.Inv)
    (hv : m.hasv v = false) :
    ∃ m1, m.put ks v = some m1 ∧ m1.get ks = some v ∧ m1.geti v = some ks := by
  obtain ⟨m1, h1, h2, h3, _⟩ := put_spec m ks v hinv hv
  exact ⟨m1, h1, h2, h3⟩

/-- Witness of C25 on the map that binds [7, 8, 9] to 3, for the empty label and the
id 4. -/
theorem put_get_round_trip_witness :
    (sample_trie.put [] 4).map (fun m => (m.get [], m.geti 4, m.geti 3)) =
      some (some 4, some [], some [7, 8, 9]) ∧
    ∃ m1, sample_trie.put [] 4 = some m1 ∧ m1.get [] = some 4 ∧ m1.geti 4 = some [] :=
  ⟨by decide, put_get_round_trip sample_trie [] 4 inv_sample_trie (by decide)⟩

end TrieBimap

theorem eq_of_sorted_of_mem_iff (l1 l2 : List Nat) (h1 : l1.Pairwise (fun a b => a < b))
    (h2 : l2.Pairwise (fun a b => a < b)) (h : ∀ x, x ∈ l1 ↔ x ∈ l2) : l1 = l2 := by
  have n1 : l1.Nodup := h1.imp (fun hab => Nat.ne_of_lt hab)
  have n2 : l2.Nodup := h2.imp (fun hab => Nat.ne_of_lt hab)
  exact List.eq_of_perm_of_sorted (r := fun a b => a < b)
    ((List.perm_ext_iff_of_nodup n1 n2).2 h) h1 h2

namespace Bimap

variable {T : Type}

theorem mem_of_get [DecidableEq T] (b : Bimap T) (k : T) (s : Nat) (h : b.get k = some s) :
    (k, s) ∈ b.pairs := by
  unfold get at h
  cases hf : b.pairs.find? (fun e => decide (e.1 = k)) with
  | none =>
    rw [hf] at h
    cases h
  | some e =>
    rw [hf] at h
    have h1 := List.find?_some hf
    have h2 := List.mem_of_find?_eq_some hf
    obtain ⟨e1, e2⟩ := e
    have h3 : e1 = k := by simpa using h1
    have h4 : e2 = s := Option.some.inj h
    rw [← h3, ← h4]
    exact h2

theorem get_none [DecidableEq T] (b : Bimap T) (k : T) (h : b.get k = none) :
    ∀ e ∈ b.pairs, e.1 ≠ k := by
  unfold get at h
  cases hf : b.pairs.find? (fun e => decide (e.1 = k)) with
  | none =>
    intro e he hek
    have := List.find?_eq_none.1 hf e he
    simp [hek] at this
  | some e =>
    rw [hf] at h
    cases h

theorem mem_of_geti (b : Bimap T) (k : T) (s : Nat) (h : b.geti s = some k) :
    (k, s) ∈ b.pairs := by
  unfold geti at h
  cases hf : b.pairs.find? (fun e => decide (e.2 = s)) with
  | none =>
    rw [hf] at h
    cases h
  | some e =>
    rw [hf] at h
    have h1 := List.find?_some hf
    have h2 := List.mem_of_find?_eq_some hf
    obtain ⟨e1, e2⟩ := e
    have h3 : e2 = s := by simpa using h1
    have h4 : e1 = k := Option.some.inj h
    rw [← h3, ← h4]
    exact h2

theorem geti_of_mem (b : Bimap T) (hnd : (b.pairs.map Prod.snd).Nodup) (k : T) (s : Nat)
    (h : (k, s) ∈ b.pairs) : b.geti s = some k := by
  unfold geti
  cases hf : b.pairs.find? (fun e => decide (e.2 = s)) with
  | none =>
    have := List.find?_eq_none.1 hf (k, s) h
    simp at this
  | some e =>
    have h1 := List.find?_some hf
    have h2 := List.mem_of_find?_eq_some hf
    have h3 : e.2 = s := by simpa using h1
    have := List.inj_on_of_nodup_map hnd h2 h h3
    rw [this]
    rfl

theorem hasi_iff (b : Bimap T) (s : Nat) : b.hasi s = true ↔ ∃ k, (k, s) ∈ b.pairs := by
  unfold hasi
  rw [List.any_eq_true]
  constructor
  · rintro ⟨e, he, h⟩
    have : e.2 = s := by simpa using h
    exact ⟨e.1, this ▸ he⟩
  · rintro ⟨k, h⟩
    exact ⟨(k, s), h, by simp⟩

theorem put_of_new [DecidableEq T] (b : Bimap T) (k : T) (v : Nat)
    (hk : ∀ e ∈ b.pairs, e.1 ≠ k) (hv : ∀ e ∈ b.pairs, e.2 ≠ v) :
    (b.put k v).pairs = (k, v) :: b.pairs := by
  unfold put
  simp only
  rw [List.filter_eq_self.2]
  intro e he
  simp [hk e he, hv e he]

theorem bij_cons (b : Bimap T) (k : T) (v : Nat) (hb : b.Bij)
    (hk : ∀ e ∈ b.pairs, e.1 ≠ k) (hv : ∀ e ∈ b.pairs, e.2 ≠ v) :
    (⟨(k, v) :: b.pairs⟩ : Bimap T).Bij := by
  obtain ⟨h1, h2⟩ := hb
  constructor
  · simp only [List.map_cons, List.nodup_cons]
    refine ⟨?_, h1⟩
    intro hm
    obtain ⟨e, he, hek⟩ := List.mem_map.1 hm
    exact hk e he hek
  · simp only [List.map_cons, List.nodup_cons]
    refine ⟨?_, h2⟩
    intro hm
    obtain ⟨e, he, hek⟩ := List.mem_map.1 hm
    exact hv e he hek

end Bimap

namespace Aut

variable {T : Type}

theorem states_add_state_dense (a a1 : Aut T) (h : a.add_state a.num_states = some a1)
    (hd : a.states = List.range a.num_states) :
    a1.states = List.range (a.num_states + 1) ∧ a1.num_states = a.num_states + 1 := by
  have hs : a1.states = List.range (a.num_states + 1) := by
    apply eq_of_sorted_of_mem_iff
    · exact SMap.keys_pairwise a1.adj
    · exact List.pairwise_lt_range _
    · intro x
      rw [mem_states, has_state_add_state a a1 _ h, List.mem_range, Bool.or_eq_true,
        decide_eq_true_eq, ← mem_states, hd, List.mem_range]
      omega
  refine ⟨hs, ?_⟩
  have : a1.num_states = a1.states.length := SMap.size_eq_length_keys a1.adj
  rw [this, hs, List.length_range]

theorem not_has_state_num_states (a : Aut T) (hd : a.states = List.range a.num_states) :
    a.has_state a.num_states = false := by
  cases h : a.has_state a.num_states with
  | false => rfl
  | true =>
    rw [← mem_states, hd, List.mem_range] at h
    exact absurd h (lt_irrefl _)

end Aut

theorem detInv_weaken {R L : Type} (ops : LevelOps R L) (dc : DetConf R) (l0 : L)
    (E E2 : Nat → Nat → Prop) (s : DetRun L) (vis : List Nat)
    (bm : Option (SMap Nat Nat)) (hE : ∀ p x, p ∈ s.vis2nd → E p x → E2 p x)
    (hv : ∀ p, p ∈ s.vis2nd → p ∈ vis) (h : DetInv ops dc l0 E s) :
    DetInv ops dc l0 E2 ⟨s.pa, vis, bm⟩ := by
  obtain ⟨h1, h2, h3, h4, h5, h6, h7, h8, h9, h10⟩ := h
  refine ⟨h1, h2, h3, h4, h5, h6, h7, h8, ?_, h10⟩
  intro p x q pri he
  obtain ⟨a1, a2, a3⟩ := h9 p x q pri he
  exact ⟨hv p a1, hE p x a1 a2, a3⟩

/-- The interning step keeps the invariant: the level gets the id it is bound to, or the
id `num_states()`, which is added as a state. -/
theorem detInv_intern {R L : Type} [DecidableEq L] (ops : LevelOps R L) (dc : DetConf R) (l0 : L)
    (E : Nat → Nat → Prop) (s : DetRun L) (lvl : L) (sucset : Nat)
    (sr : DetRun L × Nat) (hI : DetInv ops dc l0 E s)
    (h : det_intern lvl sucset s = some sr) :
    DetInv ops dc l0 E sr.1 ∧ (lvl, sr.2) ∈ sr.1.pa.tag.pairs ∧
    (∀ e ∈ s.pa.tag.pairs, e ∈ sr.1.pa.tag.pairs) ∧ sr.1.vis2nd = s.vis2nd ∧
    ((s.pa.tag.get lvl = some sr.2 ∧ sr.1.pa.states = s.pa.states) ∨
      (s.pa.tag.get lvl = none ∧ sr.2 = s.pa.num_states ∧
        sr.1.pa.states = s.pa.states ++ [s.pa.num_states])) := by
  obtain ⟨h1, h2, h3, h4, h5, h6, h7, h8, h9, h10⟩ := hI
  unfold det_intern Bimap.put_or_get at h
  cases hg : s.pa.tag.get lvl with
  | some u =>
    have hmem := Bimap.mem_of_get _ _ _ hg
    have hst : s.pa.has_state u = true := h6 lvl u hmem
    simp only [hg] at h
    have hst2 : (({ s.pa with tag := s.pa.tag } : Aut L)).has_state u = true := hst
    rw [hst2] at h
    simp only [Bool.not_true, Bool.false_eq_true, if_false, Option.some.injEq] at h
    subst h
    exact ⟨⟨h1, h2, h3, h4, h5, h6, h7, h8, h9, h10⟩, hmem, fun e he => he, rfl,
      Or.inl ⟨rfl, rfl⟩⟩
  | none =>
    have hk := Bimap.get_none _ _ hg
    have hfr := Aut.not_has_state_num_states s.pa h1
    have hv : ∀ e ∈ s.pa.tag.pairs, e.2 ≠ s.pa.num_states := by
      intro e he hen
      have := h6 e.1 e.2 he
      rw [hen, hfr] at this
      cases this
    have hput := Bimap.put_of_new s.pa.tag lvl s.pa.num_states hk hv
    simp only [hg] at h
    have hst2 : (({ s.pa with tag := s.pa.tag.put lvl s.pa.num_states } : Aut L)).has_state
        s.pa.num_states = false := hfr
    rw [hst2] at h
    simp only [Bool.not_false, if_true] at h
    cases hadd : ({ s.pa with tag := s.pa.tag.put lvl s.pa.num_states } : Aut L).add_state
        s.pa.num_states with
    | none =>
      rw [hadd] at h
      cases h
    | some pa2 =>
      rw [hadd] at h
      simp only [Option.map_some', Option.some.injEq] at h
      subst h
      have hd1 : ({ s.pa with tag := s.pa.tag.put lvl s.pa.num_states } : Aut L).states =
          List.range s.pa.num_states := h1
      obtain ⟨hs, hn⟩ := Aut.states_add_state_dense _ pa2 hadd hd1
      have hhs := Aut.has_state_add_state _ pa2 _ hadd
      have hep := Aut.edge_pri_add_state _ pa2 _ hadd
      have hse := Aut.succ_edges_add_state _ pa2 _ hadd
      obtain ⟨_, heq⟩ := Aut.add_state_some _ pa2 _ hadd
      have htag : pa2.tag.pairs = (lvl, s.pa.num_states) :: s.pa.tag.pairs := by
        rw [heq]
        exact hput
      have hsba : pa2.sba = false := by
        rw [heq]
        exact h2
      have hinit : pa2.init = 0 := by
        rw [heq]
        exact h3
      have hn2 : pa2.num_states = s.pa.num_states + 1 := hn
      have hhs2 : ∀ t, pa2.has_state t = (decide (t = s.pa.num_states) || s.pa.has_state t) :=
        hhs
      refine ⟨⟨?_, hsba, hinit, ?_, ?_, ?_, ?_, ?_, ?_, ?_⟩, ?_, ?_, rfl, Or.inr ⟨rfl, rfl, ?_⟩⟩
      · show pa2.states = List.range pa2.num_states
        rw [hn2]
        exact hs
      · show pa2.has_state 0 = true
        rw [hhs2, h4]
        simp
      · show pa2.tag.Bij
        have := Bimap.bij_cons s.pa.tag lvl s.pa.num_states h5 hk hv
        unfold Bimap.Bij at this ⊢
        rw [htag]
        exact this
      · intro k v hkv
        show pa2.has_state v = true
        have hkv2 : (k, v) ∈ pa2.tag.pairs := hkv
        rw [htag] at hkv2
        rw [hhs2]
        rcases List.mem_cons.1 hkv2 with e | e
        · simp [(Prod.mk.inj e).2]
        · simp [h6 k v e]
      · intro v hv2
        show ∃ k, (k, v) ∈ pa2.tag.pairs
        have hv3 : pa2.has_state v = true := hv2
        rw [hhs2, Bool.or_eq_true, decide_eq_true_eq] at hv3
        rw [htag]
        rcases hv3 with e | e
        · exact ⟨lvl, by rw [e]; exact List.mem_cons_self _ _⟩
        · obtain ⟨k, hk2⟩ := h7 v e
          exact ⟨k, List.mem_cons_of_mem _ hk2⟩
      · show (l0, 0) ∈ pa2.tag.pairs
        rw [htag]
        exact List.mem_cons_of_mem _ h8
      · intro p x q pri he
        have he2 : pa2.edge_pri p x q = some pri := he
        rw [hep] at he2
        obtain ⟨a1, a2, lp, lq, a3, a4, a5, a6⟩ := h9 p x q pri he2
        refine ⟨a1, a2, lp, lq, ?_, ?_, a5, a6⟩
        · show (lp, p) ∈ pa2.tag.pairs
          rw [htag]
          exact List.mem_cons_of_mem _ a3
        · show (lq, q) ∈ pa2.tag.pairs
          rw [htag]
          exact List.mem_cons_of_mem _ a4
      · intro p x q q2 hq hq2
        have e : pa2.succ p x = s.pa.succ p x := by
          unfold Aut.succ
          rw [hse]
          rfl
        have hq3 : q ∈ pa2.succ p x := hq
        have hq4 : q2 ∈ pa2.succ p x := hq2
        rw [e] at hq3 hq4
        exact h10 p x q q2 hq3 hq4
      · show (lvl, s.pa.num_states) ∈ pa2.tag.pairs
        rw [htag]
        exact List.mem_cons_self _ _
      · intro e he
        show e ∈ pa2.tag.pairs
        rw [htag]
        exact List.mem_cons_of_mem _ he
      · show pa2.states = s.pa.states ++ [s.pa.num_states]
        have hs2 : pa2.states = List.range (s.pa.num_states + 1) := hs
        rw [hs2, h1, List.range_succ]

/-- An invariant indexed by the elements already processed that every completed round
extends holds for the whole list after a completed loop. -/
theorem foldlM_indexed_inv {α β : Type} (f : β → α → Option β) (I : List α → β → Prop)
    (l : List α)
    (hstep : ∀ pre x post b b1, l = pre ++ x :: post → I pre b → f b x = some b1 →
      I (pre ++ [x]) b1) :
    ∀ b b1, I [] b → List.foldlM f b l = some b1 → I l b1 := by
  have key : ∀ post pre, l = pre ++ post → ∀ b b1, I pre b →
      List.foldlM f b post = some b1 → I l b1 := by
    intro post
    induction post with
    | nil =>
      intro pre hl b b1 hb h
      rw [List.append_nil] at hl
      subst hl
      rw [foldlM_nil_opt] at h
      exact Option.some.inj h ▸ hb
    | cons x t ih =>
      intro pre hl b b1 hb h
      rw [foldlM_cons_opt] at h
      cases hx : f b x with
      | none =>
        rw [hx] at h
        cases h
      | some b2 =>
        rw [hx] at h
        exact ih (pre ++ [x]) (by rw [hl]; simp) b2 b1 (hstep pre x t b b2 hl hb hx) h
  intro b b1 hb h
  exact key l [] rfl b b1 hb h

/-- Adding the edge for the symbol `i` of the state `st` that is being expanded keeps the
invariant: `st` had no edge under `i`. -/
theorem detInv_add_edge {R L : Type} (ops : LevelOps R L) (dc : DetConf R) (l0 : L) (st : Nat) (cur : L)
    (pre : List Nat) (i q : Nat) (lq : L) (pri : Int) (s : DetRun L) (pa3 : Aut L)
    (hI : DetInv ops dc l0 (fun p x => p = st → x ∈ pre) s)
    (hcur : (cur, st) ∈ s.pa.tag.pairs) (hq : (lq, q) ∈ s.pa.tag.pairs)
    (hvis : st ∈ s.vis2nd) (hi : i ∉ pre) (hsucc : ops.succ cur dc i = (lq, pri))
    (hps : ops.powerset lq ≠ 0) (h : s.pa.add_edge st i q pri = some pa3) :
    DetInv ops dc l0 (fun p x => p = st → x ∈ pre ++ [i]) { s with pa := pa3 } := by
  obtain ⟨h1, h2, h3, h4, h5, h6, h7, h8, h9, h10⟩ := hI
  have hst := Aut.states_add_edge _ pa3 _ _ _ _ h
  have hhs := Aut.has_state_add_edge _ pa3 _ _ _ _ h
  have hep := Aut.edge_pri_add_edge _ pa3 _ _ _ _ h
  obtain ⟨_, _, _, _, hnone, heq⟩ := Aut.add_edge_some _ pa3 _ _ _ _ h
  have htag : pa3.tag = s.pa.tag := by rw [heq]
  have hsba : pa3.sba = s.pa.sba := by rw [heq]
  have hinit : pa3.init = s.pa.init := by rw [heq]
  have hn : pa3.num_states = s.pa.num_states := by
    have e1 : pa3.num_states = pa3.states.length := SMap.size_eq_length_keys pa3.adj
    have e2 : s.pa.num_states = s.pa.states.length := SMap.size_eq_length_keys s.pa.adj
    rw [e1, e2, hst]
  refine ⟨?_, ?_, ?_, ?_, ?_, ?_, ?_, ?_, ?_, ?_⟩
  · show pa3.states = List.range pa3.num_states
    rw [hst, hn]
    exact h1
  · show pa3.sba = false
    rw [hsba]
    exact h2
  · show pa3.init = 0
    rw [hinit]
    exact h3
  · show pa3.has_state 0 = true
    rw [hhs]
    exact h4
  · show pa3.tag.Bij
    rw [htag]
    exact h5
  · intro k v hkv
    show pa3.has_state v = true
    rw [hhs]
    exact h6 k v (htag ▸ hkv)
  · intro v hv
    show ∃ k, (k, v) ∈ pa3.tag.pairs
    rw [htag]
    exact h7 v ((hhs v) ▸ hv)
  · show (l0, 0) ∈ pa3.tag.pairs
    rw [htag]
    exact h8
  · intro p x q1 pri1 he
    have he2 : pa3.edge_pri p x q1 = some pri1 := he
    show p ∈ s.vis2nd ∧ (p = st → x ∈ pre ++ [i]) ∧
      ∃ lp lq, (lp, p) ∈ pa3.tag.pairs ∧ (lq, q1) ∈ pa3.tag.pairs ∧
        ops.succ lp dc x = (lq, pri1) ∧ ops.powerset lq ≠ 0
    rw [htag]
    rw [hep] at he2
    by_cases hc : p = st ∧ x = i ∧ q1 = q
    · rw [if_pos hc] at he2
      obtain ⟨c1, c2, c3⟩ := hc
      subst c1 c2 c3
      have e : pri = pri1 := Option.some.inj he2
      subst e
      exact ⟨hvis, fun _ => List.mem_append_right _ (List.mem_singleton_self _),
        cur, lq, hcur, hq, hsucc, hps⟩
    · rw [if_neg hc] at he2
      obtain ⟨a1, a2, a3⟩ := h9 p x q1 pri1 he2
      exact ⟨a1, fun e => List.mem_append_left _ (a2 e), a3⟩
  · intro p x q1 q2 hq1 hq2
    have hq1b : q1 ∈ pa3.succ p x := hq1
    have hq2b : q2 ∈ pa3.succ p x := hq2
    rw [Aut.mem_succ] at hq1b hq2b
    obtain ⟨pri1, e1⟩ := hq1b
    obtain ⟨pri2, e2⟩ := hq2b
    rw [hep] at e1 e2
    by_cases hpx : p = st ∧ x = i
    · have k1 : q1 = q := by
        by_contra hne
        rw [if_neg (fun c => hne c.2.2)] at e1
        exact hi (hpx.2 ▸ (h9 p x q1 pri1 e1).2.1 hpx.1)
      have k2 : q2 = q := by
        by_contra hne
        rw [if_neg (fun c => hne c.2.2)] at e2
        exact hi (hpx.2 ▸ (h9 p x q2 pri2 e2).2.1 hpx.1)
      rw [k1, k2]
    · rw [if_neg (fun c => hpx ⟨c.1, c.2.1⟩)] at e1 e2
      exact h10 p x q1 q2 ((Aut.mem_succ _ _ _ _).2 ⟨pri1, e1⟩)
        ((Aut.mem_succ _ _ _ _).2 ⟨pri2, e2⟩)

/-- One round of the loop over the symbols in the visitor of `determinize` keeps the
invariant, and the states afterwards are the states before, possibly followed by the one
new state with the id `num_states()`. -/
theorem det_sym_step {R L : Type} [DecidableEq L] (ops : LevelOps R L) (W : Nat) (dc : DetConf R)
    (pred : Nat → Option Bool) (l0 : L) (stp : Nat × Nat) (cur : L) (pre : List Nat)
    (i : Nat) (acc acc1 : DetRun L × List (Nat × Nat))
    (hI : DetInv ops dc l0 (fun p x => p = stp.2 → x ∈ pre) acc.1)
    (hcur : (cur, stp.2) ∈ acc.1.pa.tag.pairs) (hvis : stp.2 ∈ acc.1.vis2nd) (hi : i ∉ pre)
    (h : det_sym ops W dc pred stp cur acc i = some acc1) :
    DetInv ops dc l0 (fun p x => p = stp.2 → x ∈ pre ++ [i]) acc1.1 ∧
    (cur, stp.2) ∈ acc1.1.pa.tag.pairs ∧ acc1.1.vis2nd = acc.1.vis2nd ∧
    (acc1.1.pa.states = acc.1.pa.states ∨
      (acc.1.pa.tag.get (ops.succ cur dc i).1 = none ∧
        acc1.1.pa.states = acc.1.pa.states ++ [acc.1.pa.num_states])) := by
  have hkeep : DetInv ops dc l0 (fun p x => p = stp.2 → x ∈ pre ++ [i]) acc.1 :=
    detInv_weaken ops dc l0 _ _ acc.1 acc.1.vis2nd acc.1.backmap
      (fun p x _ hE e => List.mem_append_left _ (hE e)) (fun p hp => hp) hI
  unfold det_sym at h
  by_cases hp : ops.powerset (ops.succ cur dc i).1 = 0
  · rw [if_pos hp] at h
    have e := Option.some.inj h
    subst e
    exact ⟨hkeep, hcur, rfl, Or.inl rfl⟩
  · rw [if_neg hp] at h
    cases hps : powersucc W dc.aut_mat stp.1 i dc.aut_asinks dc.impl_mask with
    | none =>
      rw [hps] at h
      cases h
    | some sucset =>
      rw [hps] at h
      simp only at h
      cases hpr : pred sucset with
      | none =>
        rw [hpr] at h
        cases h
      | some b =>
        rw [hpr] at h
        cases b with
        | false =>
          simp only at h
          have e := Option.some.inj h
          subst e
          exact ⟨hkeep, hcur, rfl, Or.inl rfl⟩
        | true =>
          simp only at h
          unfold det_edge at h
          cases hin : det_intern (ops.succ cur dc i).1 sucset acc.1 with
          | none =>
            rw [hin] at h
            cases h
          | some sr =>
            rw [hin, Option.some_bind] at h
            cases hadd : sr.1.pa.add_edge stp.2 i sr.2 (ops.succ cur dc i).2 with
            | none =>
              rw [hadd] at h
              cases h
            | some pa3 =>
              rw [hadd] at h
              simp only [Option.map_some', Option.some.injEq] at h
              subst h
              obtain ⟨b1, b2, b3, b4, b5⟩ :=
                detInv_intern ops dc l0 _ acc.1 _ sucset sr hI hin
              have hst := Aut.states_add_edge _ pa3 _ _ _ _ hadd
              obtain ⟨_, _, _, _, _, heq⟩ := Aut.add_edge_some _ pa3 _ _ _ _ hadd
              have htag : pa3.tag = sr.1.pa.tag := by rw [heq]
              refine ⟨detInv_add_edge ops dc l0 stp.2 cur pre i sr.2 _ _ sr.1 pa3 b1
                (b3 _ hcur) b2 (b4 ▸ hvis) hi rfl hp hadd, ?_, b4, ?_⟩
              · show (cur, stp.2) ∈ pa3.tag.pairs
                rw [htag]
                exact b3 _ hcur
              · show pa3.states = acc.1.pa.states ∨ _ ∧ pa3.states = _
                rw [hst]
                rcases b5 with ⟨_, c⟩ | ⟨c1, _, c2⟩
                · exact Or.inl c
                · exact Or.inr ⟨c1, c2⟩

/-- A completed call of the visitor of `determinize` keeps the invariant. -/
theorem det_visit_step {R L : Type} [DecidableEq L] (ops : LevelOps R L) (W : Nat) (dc : DetConf R)
    (pred : Nat → Option Bool) (l0 : L) (s : DetRun L) (stp : Nat × Nat)
    (V : List (Nat × Nat)) (r : DetRun L × List (Nat × Nat))
    (hI : DetInv ops dc l0 (fun _ _ => True) s)
    (h : det_visit ops W dc pred s stp V = some r) :
    DetInv ops dc l0 (fun _ _ => True) r.1 := by
  unfold det_visit at h
  cases hg : s.pa.tag.geti stp.2 with
  | none =>
    rw [hg] at h
    cases h
  | some cur =>
    rw [hg] at h
    simp only at h
    have hcur := Bimap.mem_of_geti _ _ _ hg
    by_cases hv : stp.2 ∈ s.vis2nd
    · rw [if_pos hv] at h
      have e := Option.some.inj h
      subst e
      exact hI
    · rw [if_neg hv] at h
      have h0 : DetInv ops dc l0 (fun p x => p = stp.2 → x ∈ ([] : List Nat))
          { s with vis2nd := stp.2 :: s.vis2nd } :=
        detInv_weaken ops dc l0 _ _ s (stp.2 :: s.vis2nd) s.backmap
          (fun p x hp _ e => absurd (e ▸ hp) hv) (fun p hp => List.mem_cons_of_mem _ hp) hI
      have hnd : s.pa.syms.Nodup := List.nodup_range _
      have key := foldlM_indexed_inv (det_sym ops W dc pred stp cur)
        (fun pre acc => DetInv ops dc l0 (fun p x => p = stp.2 → x ∈ pre) acc.1 ∧
          (cur, stp.2) ∈ acc.1.pa.tag.pairs ∧ stp.2 ∈ acc.1.vis2nd) s.pa.syms
        (by
          intro pre x post b b1 hl hb hf
          have hx : x ∉ pre := by
            rw [hl] at hnd
            intro hm
            have := (List.nodup_append.1 hnd).2.2 hm (List.mem_cons_self _ _)
            exact this
          obtain ⟨c1, c2, c3, _⟩ := det_sym_step ops W dc pred l0 stp cur pre x b b1
            hb.1 hb.2.1 hb.2.2 hx hf
          exact ⟨c1, c2, c3 ▸ hb.2.2⟩)
        _ r ⟨h0, hcur, List.mem_cons_self _ _⟩ h
      exact detInv_weaken ops dc l0 _ _ r.1 r.1.vis2nd r.1.backmap
        (fun _ _ _ _ => trivial) (fun p hp => hp) key.1

/-- The run of `determinize` starts in a state that satisfies the invariant. -/
theorem detInv_start {R L : Type} [DecidableEq L] {T : Type} (ops : LevelOps R L) (nba : Aut T)
    (dc : DetConf R) (startset : Nat) (backmap : Option (SMap Nat Nat)) :
    DetInv ops dc (ops.level dc startset) (fun _ _ => True)
      (det_start ops nba dc startset backmap) := by
  refine ⟨rfl, rfl, rfl, rfl, ?_, ?_, ?_, ?_, ?_, ?_⟩
  · constructor
    · show ([(ops.level dc startset, 0)].map Prod.fst).Nodup
      simp
    · show ([(ops.level dc startset, 0)].map Prod.snd).Nodup
      simp
  · intro k v hkv
    have hkv2 : (k, v) ∈ [(ops.level dc startset, 0)] := hkv
    rw [List.mem_singleton] at hkv2
    rw [(Prod.mk.inj hkv2).2]
    rfl
  · intro v hv
    have hv2 : v ∈ [0] := by
      have := (Aut.mem_states (det_start ops nba dc startset backmap).pa v).2 hv
      exact this
    rw [List.mem_singleton] at hv2
    rw [hv2]
    exact ⟨ops.level dc startset, List.mem_singleton_self _⟩
  · exact List.mem_singleton_self _
  · intro p x q pri he
    have : (det_start ops nba dc startset backmap).pa.edge_pri p x q = none := by
      unfold Aut.edge_pri
      show (match (SMap.empty.ins 0 SMap.empty :
        SMap Nat (SMap Nat (SMap Nat Int))).lookup p with
        | none => none
        | some sm => match sm.lookup x with
          | none => none
          | some tm => tm.lookup q) = none
      rw [SMap.lookup_ins]
      by_cases hp : p = 0
      · rw [if_pos hp]
        rfl
      · rw [if_neg hp]
        rfl
    rw [this] at he
    cases he
  · intro p x q q2 hq _
    rw [Aut.mem_succ] at hq
    obtain ⟨pri, he⟩ := hq
    have : (det_start ops nba dc startset backmap).pa.edge_pri p x q = none := by
      unfold Aut.edge_pri
      show (match (SMap.empty.ins 0 SMap.empty :
        SMap Nat (SMap Nat (SMap Nat Int))).lookup p with
        | none => none
        | some sm => match sm.lookup x with
          | none => none
          | some tm => tm.lookup q) = none
      rw [SMap.lookup_ins]
      by_cases hp : p = 0
      · rw [if_pos hp]
        rfl
      · rw [if_neg hp]
        rfl
    rw [this] at he
    cases he

/-- A completed run of `determinize` ends in a state that satisfies the invariant. -/
theorem determinize_inv {R L : Type} [DecidableEq L] {T : Type} (fuel : Nat) (ops : LevelOps R L)
    (W : Nat) (nba : Aut T) (dc : DetConf R) (startset : Nat) (pred : Nat → Option Bool)
    (backmap : Option (SMap Nat Nat)) (pa : Aut L) (bm : Option (SMap Nat Nat))
    (h : determinize fuel ops W nba dc startset pred backmap = some (pa, bm)) :
    ∃ vis, DetInv ops dc (ops.level dc startset) (fun _ _ => True) ⟨pa, vis, bm⟩ := by
  unfold determinize at h
  by_cases hb : nba.is_buchi = true
  · simp only [hb, Bool.not_true, Bool.false_eq_true, if_false] at h
    unfold bfs at h
    cases hr : bfs_loop (det_visit ops W dc pred) fuel [(startset, (0 : Nat))] []
        (det_start ops nba dc startset backmap) with
    | none =>
      rw [hr] at h
      cases h
    | some s1 =>
      rw [hr] at h
      simp only [Option.map_some', Option.some.injEq, Prod.mk.injEq] at h
      have := bfs_loop_inv (det_visit ops W dc pred)
        (DetInv ops dc (ops.level dc startset) (fun _ _ => True))
        (fun s st V r hI hv => det_visit_step ops W dc pred _ s st V r hI hv)
        fuel _ _ _ s1 (detInv_start ops nba dc startset backmap) hr
      refine ⟨s1.vis2nd, ?_⟩
      rw [← h.1, ← h.2]
      exact this
  · simp [hb] at h

theorem length_le_one_of_all_eq (l : List Nat) (hnd : l.Nodup)
    (h : ∀ a b, a ∈ l → b ∈ l → a = b) : l.length ≤ 1 := by
  cases l with
  | nil => exact Nat.zero_le _
  | cons a t =>
    cases t with
    | nil => exact le_refl _
    | cons b t2 =>
      have e := h a b (List.mem_cons_self _ _) (List.mem_cons_of_mem _ (List.mem_cons_self _ _))
      rw [e] at hnd
      exact absurd (List.mem_cons_self _ _) (List.nodup_cons.1 hnd).1

/-- The interning step, under the two facts about the run it relies on (dense state ids, and
only states are bound in the tag map), leaves the states as they are when the level is
bound, and otherwise appends one state, with the id `num_states()`. -/
theorem det_intern_states {L : Type} [DecidableEq L] (s : DetRun L) (lvl : L) (sucset : Nat)
    (sr : DetRun L × Nat) (hd : s.pa.states = List.range s.pa.num_states)
    (ht : ∀ k v, (k, v) ∈ s.pa.tag.pairs → s.pa.has_state v = true)
    (h : det_intern lvl sucset s = some sr) :
    ((∃ u, s.pa.tag.get lvl = some u) ∧ sr.1.pa.states = s.pa.states) ∨
    (s.pa.tag.get lvl = none ∧ sr.2 = s.pa.num_states ∧
      sr.1.pa.states = s.pa.states ++ [s.pa.num_states]) := by
  unfold det_intern Bimap.put_or_get at h
  cases hg : s.pa.tag.get lvl with
  | some u =>
    have hst : s.pa.has_state u = true := ht lvl u (Bimap.mem_of_get _ _ _ hg)
    simp only [hg] at h
    have hst2 : (({ s.pa with tag := s.pa.tag } : Aut L)).has_state u = true := hst
    rw [hst2] at h
    simp only [Bool.not_true, Bool.false_eq_true, if_false, Option.some.injEq] at h
    subst h
    exact Or.inl ⟨⟨u, rfl⟩, rfl⟩
  | none =>
    have hfr := Aut.not_has_state_num_states s.pa hd
    simp only [hg] at h
    have hst2 : (({ s.pa with tag := s.pa.tag.put lvl s.pa.num_states } : Aut L)).has_state
        s.pa.num_states = false := hfr
    rw [hst2] at h
    simp only [Bool.not_false, if_true] at h
    cases hadd : ({ s.pa with tag := s.pa.tag.put lvl s.pa.num_states } : Aut L).add_state
        s.pa.num_states with
    | none =>
      rw [hadd] at h
      cases h
    | some pa2 =>
      rw [hadd] at h
      simp only [Option.map_some', Option.some.injEq] at h
      subst h
      have hd1 : ({ s.pa with tag := s.pa.tag.put lvl s.pa.num_states } : Aut L).states =
          List.range s.pa.num_states := hd
      obtain ⟨hs, _⟩ := Aut.states_add_state_dense _ pa2 hadd hd1
      have hs2 : pa2.states = List.range (s.pa.num_states + 1) := hs
      refine Or.inr ⟨rfl, rfl, ?_⟩
      show pa2.states = s.pa.states ++ [s.pa.num_states]
      rw [hs2, hd, List.range_succ]

/-- One round of the loop over the symbols, under the same two facts: the states stay as
they are, or one state is appended, with the id `num_states()`, for a level that was not
bound. -/
theorem det_sym_states {R L : Type} [DecidableEq L] (ops : LevelOps R L) (W : Nat) (dc : DetConf R)
    (pred : Nat → Option Bool) (stp : Nat × Nat) (cur : L) (i : Nat)
    (acc acc1 : DetRun L × List (Nat × Nat))
    (hd : acc.1.pa.states = List.range acc.1.pa.num_states)
    (ht : ∀ k v, (k, v) ∈ acc.1.pa.tag.pairs → acc.1.pa.has_state v = true)
    (h : det_sym ops W dc pred stp cur acc i = some acc1) :
    acc1.1.pa.states = acc.1.pa.states ∨
    (acc.1.pa.tag.get (ops.succ cur dc i).1 = none ∧
      acc1.1.pa.states = acc.1.pa.states ++ [acc.1.pa.num_states]) := by
  unfold det_sym at h
  by_cases hp : ops.powerset (ops.succ cur dc i).1 = 0
  · rw [if_pos hp] at h
    exact Or.inl (Option.some.inj h ▸ rfl)
  · rw [if_neg hp] at h
    cases hps : powersucc W dc.aut_mat stp.1 i dc.aut_asinks dc.impl_mask with
    | none =>
      rw [hps] at h
      cases h
    | some sucset =>
      rw [hps] at h
      simp only at h
      cases hpr : pred sucset with
      | none =>
        rw [hpr] at h
        cases h
      | some b =>
        rw [hpr] at h
        cases b with
        | false =>
          simp only at h
          exact Or.inl (Option.some.inj h ▸ rfl)
        | true =>
          simp only at h
          unfold det_edge at h
          cases hin : det_intern (ops.succ cur dc i).1 sucset acc.1 with
          | none =>
            rw [hin] at h
            cases h
          | some sr =>
            rw [hin, Option.some_bind] at h
            cases hadd : sr.1.pa.add_edge stp.2 i sr.2 (ops.succ cur dc i).2 with
            | none =>
              rw [hadd] at h
              cases h
            | some pa3 =>
              rw [hadd] at h
              simp only [Option.map_some', Option.some.injEq] at h
              subst h
              have hst := Aut.states_add_edge _ pa3 _ _ _ _ hadd
              show pa3.states = acc.1.pa.states ∨ _ ∧ pa3.states = _
              rw [hst]
              rcases det_intern_states acc.1 _ sucset sr hd ht hin with ⟨_, c⟩ | ⟨c1, _, c2⟩
              · exact Or.inl c
              · exact Or.inr ⟨c1, c2⟩

theorem det_intern_total {L : Type} [DecidableEq L] (s : DetRun L) (lvl : L) (sucset : Nat)
    (hd : s.pa.states = List.range s.pa.num_states)
    (ht : ∀ k v, (k, v) ∈ s.pa.tag.pairs → s.pa.has_state v = true) :
    ∃ sr, det_intern lvl sucset s = some sr ∧ sr.1.pa.aps = s.pa.aps := by
  unfold det_intern Bimap.put_or_get
  cases hg : s.pa.tag.get lvl with
  | some u =>
    have hst : s.pa.has_state u = true := ht lvl u (Bimap.mem_of_get _ _ _ hg)
    have hst2 : (({ s.pa with tag := s.pa.tag } : Aut L)).has_state u = true := hst
    simp only
    rw [hst2]
    exact ⟨_, rfl, rfl⟩
  | none =>
    have hfr := Aut.not_has_state_num_states s.pa hd
    have hst2 : (({ s.pa with tag := s.pa.tag.put lvl s.pa.num_states } : Aut L)).has_state
        s.pa.num_states = false := hfr
    simp only
    rw [hst2]
    obtain ⟨pa2, hadd⟩ := Aut.add_state_total
      ({ s.pa with tag := s.pa.tag.put lvl s.pa.num_states } : Aut L) s.pa.num_states hst2
    obtain ⟨_, heq⟩ := Aut.add_state_some _ pa2 _ hadd
    simp only [Bool.not_false, if_true]
    rw [hadd]
    refine ⟨_, rfl, ?_⟩
    show pa2.aps = s.pa.aps
    rw [heq]

/-- While a state is being expanded, the interning step and the `add_edge` call for a symbol
of the alphabet that has not been processed complete: the state has no edge under that
symbol, so `add_edge` does not hit an existing edge. -/
theorem det_edge_completes {R L : Type} [DecidableEq L] (ops : LevelOps R L) (dc : DetConf R) (l0 : L)
    (stp : Nat × Nat) (cur : L) (pre : List Nat) (i : Nat) (lvl : L) (pri : Int)
    (sucset : Nat) (acc : DetRun L × List (Nat × Nat))
    (hI : DetInv ops dc l0 (fun p x => p = stp.2 → x ∈ pre) acc.1)
    (hcur : (cur, stp.2) ∈ acc.1.pa.tag.pairs) (hi : i ∉ pre)
    (hx : i < acc.1.pa.num_syms) :
    ∃ r, det_edge stp i lvl pri sucset acc = some r := by
  obtain ⟨sr, hin, haps⟩ := det_intern_total acc.1 lvl sucset hI.1 hI.2.2.2.2.2.1
  obtain ⟨b1, b2, b3, _, _⟩ := detInv_intern ops dc l0 _ acc.1 lvl sucset sr hI hin
  obtain ⟨_, c2, _, _, _, c6, _, _, c9, _⟩ := b1
  have hnone : sr.1.pa.edge_pri stp.2 i sr.2 = none := by
    cases he : sr.1.pa.edge_pri stp.2 i sr.2 with
    | none => rfl
    | some v => exact absurd ((c9 _ _ _ _ he).2.1 rfl) hi
  have hx2 : i < sr.1.pa.num_syms := by
    unfold Aut.num_syms at hx ⊢
    rw [haps]
    exact hx
  obtain ⟨pa3, hadd⟩ := Aut.add_edge_total sr.1.pa stp.2 i sr.2 pri
    (c6 _ _ (b3 _ hcur)) hx2 (c6 _ _ b2) (Or.inr c2) hnone
  unfold det_edge
  rw [hin, Option.some_bind, hadd]
  exact ⟨_, rfl⟩

/-! ## Claims about `determinize` -/

/-- C26: when `determinize` returns the automaton `pa`, every state of `pa` has at most one
successor under every symbol (`is_deterministic()` holds), and whenever `s` has an `x`-edge
to `t` with priority `p`, the pair of the tag of `t` and `p` is the result of the
level-successor oracle on the tag of `s` and `x`, and the tag of `t` has a non-empty
powerset. Moreover no `add_edge` call of the run hits an existing edge: in every state of
the run (`DetInv`, see `detInv_start`, `det_sym_step`, `det_visit_step`), for the state
that is being expanded and a symbol not processed yet, the interning step and `add_edge`
complete. -/
theorem determinize_follows_oracle {R L : Type} [DecidableEq L] {T : Type} (fuel : Nat)
    (ops : LevelOps R L) (W : Nat) (nba : Aut T) (dc : DetConf R) (startset : Nat)
    (pred : Nat → Option Bool) (backmap : Option (SMap Nat Nat)) (pa : Aut L)
    (bm : Option (SMap Nat Nat))
    (h : determinize fuel ops W nba dc startset pred backmap = some (pa, bm)) :
    pa.is_deterministic = true ∧ (∀ s x, (pa.succ s x).length ≤ 1) ∧
    (∀ s x t p, pa.edge_pri s x t = some p →
      ∃ ls lt, pa.tag.geti s = some ls ∧ pa.tag.geti t = some lt ∧
        ops.succ ls dc x = (lt, p) ∧ ops.powerset lt ≠ 0) ∧
    (∀ (acc : DetRun L × List (Nat × Nat)) (stp : Nat × Nat) (cur : L) (pre : List Nat)
      (i : Nat) (sucset : Nat),
      DetInv ops dc (ops.level dc startset) (fun p x => p = stp.2 → x ∈ pre) acc.1 →
      (cur, stp.2) ∈ acc.1.pa.tag.pairs → i ∉ pre → i < acc.1.pa.num_syms →
      ∃ r, det_edge stp i (ops.succ cur dc i).1 (ops.succ cur dc i).2 sucset acc = some r) := by
  obtain ⟨vis, h1, h2, h3, h4, h5, h6, h7, h8, h9, h10⟩ :=
    determinize_inv fuel ops W nba dc startset pred backmap pa bm h
  have hlen : ∀ s x, (pa.succ s x).length ≤ 1 := fun s x =>
    length_le_one_of_all_eq _ (SMap.keys_nodup _) (fun a b ha hb => h10 s x a b ha hb)
  refine ⟨?_, hlen, ?_, ?_⟩
  · unfold Aut.is_deterministic
    rw [List.all_eq_true]
    intro p _
    rw [List.all_eq_true]
    intro i _
    have := hlen p i
    simp only [gt_iff_lt, Bool.not_eq_true', decide_eq_false_iff_not, not_lt]
    exact this
  · intro s x t p he
    obtain ⟨_, _, ls, lt, a1, a2, a3, a4⟩ := h9 s x t p he
    exact ⟨ls, lt, Bimap.geti_of_mem _ h5.2 _ _ a1, Bimap.geti_of_mem _ h5.2 _ _ a2, a3, a4⟩
  · intro acc stp cur pre i sucset hI hcur hi hx
    exact det_edge_completes ops dc _ stp cur pre i _ _ sucset acc hI hcur hi hx

/-- Witness of C26: the run on `sample_sba2` returns the automaton with the states 0 and 1,
tagged with the powersets {0} and {1}, and the edges `0 -0-> 1` and `1 -0-> 1`. -/
theorem determinize_follows_oracle_witness :
    sample_det.map (fun r => (r.1.states, r.1.tag.pairs, r.1.edge_pri 0 0 1,
      r.1.edge_pri 1 0 1)) = some ([0, 1], [(2, 1), (1, 0)], some 1, some 1) ∧
    ∃ pa bm, sample_det = some (pa, bm) ∧
      pa.is_deterministic = true ∧ (∀ s x, (pa.succ s x).length ≤ 1) ∧
      (∀ s x t p, pa.edge_pri s x t = some p →
        ∃ ls lt, pa.tag.geti s = some ls ∧ pa.tag.geti t = some lt ∧
          (subset_ops 2).succ ls sample_dc x = (lt, p) ∧ (subset_ops 2).powerset lt ≠ 0) := by
  refine ⟨by decide, ?_⟩
  cases h : sample_det with
  | none => exact absurd h (by decide)
  | some r =>
    have key := determinize_follows_oracle 5 (subset_ops 2) 2 Aut.sample_sba2 sample_dc 1
      (fun _ => some true) none r.1 r.2 h
    exact ⟨r.1, r.2, rfl, key.1, key.2.1, key.2.2.1⟩

/-- C27: when `determinize` returns the automaton `pa`, its state ids are exactly
`0 .. n-1`, the initial state is 0 and is tagged with the level of the start set, every
state carries a tag, and two distinct states never carry equal levels. During the run, one
round of the loop over the symbols either leaves the states as they are or, for a level
that is not bound yet, appends exactly one state, whose id is the number of states at that
moment (stated for every state of the run with dense ids in which only states are bound in
the tag map, which `DetInv` guarantees). -/
theorem determinize_dense_ids {R L : Type} [DecidableEq L] {T : Type} (fuel : Nat) (ops : LevelOps R L)
    (W : Nat) (nba : Aut T) (dc : DetConf R) (startset : Nat) (pred : Nat → Option Bool)
    (backmap : Option (SMap Nat Nat)) (pa : Aut L) (bm : Option (SMap Nat Nat))
    (h : determinize fuel ops W nba dc startset pred backmap = some (pa, bm)) :
    (pa.states = List.range pa.num_states ∧ pa.get_init = 0 ∧ pa.has_state 0 = true ∧
      pa.tag.geti 0 = some (ops.level dc startset) ∧
      (∀ s, pa.has_state s = true → ∃ l, pa.tag.geti s = some l) ∧
      (∀ s s2 l, pa.tag.geti s = some l → pa.tag.geti s2 = some l → s = s2)) ∧
    (∀ (acc acc1 : DetRun L × List (Nat × Nat)) (stp : Nat × Nat) (cur : L) (i : Nat),
      acc.1.pa.states = List.range acc.1.pa.num_states →
      (∀ k v, (k, v) ∈ acc.1.pa.tag.pairs → acc.1.pa.has_state v = true) →
      det_sym ops W dc pred stp cur acc i = some acc1 →
      acc1.1.pa.states = acc.1.pa.states ∨
      (acc.1.pa.tag.get (ops.succ cur dc i).1 = none ∧
        acc1.1.pa.states = acc.1.pa.states ++ [acc.1.pa.num_states])) := by
  obtain ⟨vis, h1, h2, h3, h4, h5, h6, h7, h8, h9, h10⟩ :=
    determinize_inv fuel ops W nba dc startset pred backmap pa bm h
  refine ⟨⟨h1, h3, h4, Bimap.geti_of_mem _ h5.2 _ _ h8, ?_, ?_⟩, ?_⟩
  · intro s hs
    obtain ⟨k, hk⟩ := h7 s hs
    exact ⟨k, Bimap.geti_of_mem _ h5.2 _ _ hk⟩
  · intro s s2 l e1 e2
    have m1 := Bimap.mem_of_geti _ _ _ e1
    have m2 := Bimap.mem_of_geti _ _ _ e2
    have := List.inj_on_of_nodup_map h5.1 m1 m2 rfl
    exact (Prod.mk.inj this).2
  · intro acc acc1 stp cur i hd ht hs
    exact det_sym_states ops W dc pred stp cur i acc acc1 hd ht hs

/-- Witness of C27 on the run on `sample_sba2`: the states are 0 and 1, state 0 is tagged
with the start set {0}. -/
theorem determinize_dense_ids_witness :
    sample_det.map (fun r => (r.1.states, r.1.num_states, r.1.tag.geti 0, r.1.tag.geti 1)) =
      some ([0, 1], 2, some 1, some 2) ∧
    ∃ pa bm, sample_det = some (pa, bm) ∧
      pa.states = List.range pa.num_states ∧ pa.get_init = 0 ∧ pa.has_state 0 = true ∧
      pa.tag.geti 0 = some ((subset_ops 2).level sample_dc 1) ∧
      (∀ s, pa.has_state s = true → ∃ l, pa.tag.geti s = some l) ∧
      (∀ s s2 l, pa.tag.geti s = some l → pa.tag.geti s2 = some l → s = s2) := by
  refine ⟨by decide, ?_⟩
  cases h : sample_det with
  | none => exact absurd h (by decide)
  | some r =>
    have key := determinize_dense_ids 5 (subset_ops 2) 2 Aut.sample_sba2 sample_dc 1
      (fun _ => some true) none r.1 r.2 h
    exact ⟨r.1, r.2, rfl, key.1⟩

/-- A completed loop has completed the round of each of its elements. -/
theorem foldlM_split {α β : Type} (f : β → α → Option β) (pre : List α) (x : α)
    (post : List α) : ∀ b r, List.foldlM f b (pre ++ x :: post) = some r →
    ∃ b1 b2, List.foldlM f b pre = some b1 ∧ f b1 x = some b2 := by
  induction pre with
  | nil =>
    intro b r h
    rw [List.nil_append, foldlM_cons_opt] at h
    cases hx : f b x with
    | none =>
      rw [hx] at h
      cases h
    | some b2 => exact ⟨b, b2, rfl, hx⟩
  | cons y t ih =>
    intro b r h
    rw [List.cons_append, foldlM_cons_opt] at h
    cases hy : f b y with
    | none =>
      rw [hy] at h
      cases h
    | some b0 =>
      rw [hy] at h
      obtain ⟨b1, b2, h1, h2⟩ := ih b0 r h
      exact ⟨b1, b2, by rw [foldlM_cons_opt, hy]; exact h1, h2⟩

namespace Aut

variable {T : Type}

theorem merge_sym_edges (others : List Nat) (rep st : Nat) (a b : Aut T) (sym : Nat)
    (h : merge_sym others rep st a sym = some b) :
    ∀ p x q pri, a.edge_pri p x q = some pri → b.edge_pri p x q = some pri := by
  unfold merge_sym at h
  split at h
  · cases h
    exact fun _ _ _ _ he => he
  · rename_i front rest hfr
    cases hl : (a.succ_edges st sym).lookup front with
    | none =>
      rw [hl] at h
      cases h
    | some epri =>
      rw [hl] at h
      intro p x q pri he
      obtain ⟨_, _, _, _, hnone, _⟩ := add_edge_some a b _ _ _ _ h
      rw [edge_pri_add_edge a b _ _ _ _ h]
      by_cases hc : p = st ∧ x = sym ∧ q = rep
      · rw [hc.1, hc.2.1, hc.2.2, hnone] at he
        cases he
      · rw [if_neg hc]
        exact he

theorem merge_state_edges (others : List Nat) (rep : Nat) (a b : Aut T) (st : Nat)
    (h : merge_state others rep a st = some b) :
    ∀ p x q pri, a.edge_pri p x q = some pri → b.edge_pri p x q = some pri := by
  unfold merge_state at h
  exact foldlM_rel (merge_sym others rep st)
    (fun c c1 => ∀ p x q pri, c.edge_pri p x q = some pri → c1.edge_pri p x q = some pri)
    (fun _ _ _ _ _ he => he) (fun _ _ _ h1 h2 p x q pri he => h2 p x q pri (h1 p x q pri he)) _
    (fun c i c1 _ hc => merge_sym_edges others rep st c c1 i hc) a b h

/-- The call `merge_states(others, rep)` aborts whenever some state has, under one symbol,
an edge to `rep` and an edge to a member of `others`: when the loop reaches that state and
symbol, `add_edge` is called for an edge that exists. -/
theorem merge_states_aborts_of_conflict (a : Aut T) (others : List Nat) (rep st x o : Nat)
    (ho : o ∈ others) (hs : o ∈ a.succ st x) (hr : a.has_edge st x rep = true) :
    a.merge_states others rep = none := by
  obtain ⟨pri, he⟩ := (mem_succ a st x o).1 hs
  have hst := has_state_of_edge a st x o pri he
  rw [has_edge_eq] at hr
  obtain ⟨v, hv⟩ := Option.isSome_iff_exists.1 hr
  cases hres : a.merge_states others rep with
  | none => rfl
  | some b =>
    exfalso
    unfold merge_states at hres
    have hne : others.isEmpty = false := by
      cases others with
      | nil => cases ho
      | cons _ _ => rfl
    rw [hne] at hres
    simp only [Bool.false_eq_true, if_false] at hres
    split_ifs at hres
    cases hloop : a.states.foldlM (merge_state others rep) a with
    | none =>
      rw [hloop] at hres
      cases hres
    | some a1 =>
      obtain ⟨pre, post, hsplit⟩ := List.append_of_mem ((mem_states a st).2 hst)
      rw [hsplit] at hloop
      obtain ⟨b1, b2, hb1, hb2⟩ := foldlM_split _ pre st post a a1 hloop
      have e1 : ∀ p x q pri, a.edge_pri p x q = some pri → b1.edge_pri p x q = some pri :=
        foldlM_rel (merge_state others rep)
          (fun c c1 => ∀ p x q pri, c.edge_pri p x q = some pri →
            c1.edge_pri p x q = some pri)
          (fun _ _ _ _ _ he => he)
          (fun _ _ _ h1 h2 p x q pri he => h2 p x q pri (h1 p x q pri he)) _
          (fun c i c1 _ hc => merge_state_edges others rep c c1 i hc) a b1 hb1
      unfold merge_state at hb2
      obtain ⟨pre2, post2, hsplit2⟩ :=
        List.append_of_mem (mem_outsyms_of_edge b1 st x o pri (e1 _ _ _ _ he))
      rw [hsplit2] at hb2
      obtain ⟨c1, c2, hc1, hc2⟩ := foldlM_split _ pre2 x post2 b1 b2 hb2
      have e2 : ∀ p x q pri, b1.edge_pri p x q = some pri → c1.edge_pri p x q = some pri :=
        foldlM_rel (merge_sym others rep st)
          (fun c c1 => ∀ p x q pri, c.edge_pri p x q = some pri →
            c1.edge_pri p x q = some pri)
          (fun _ _ _ _ _ he => he)
          (fun _ _ _ h1 h2 p x q pri he => h2 p x q pri (h1 p x q pri he)) _
          (fun c i c1 _ hc => merge_sym_edges others rep st c c1 i hc) b1 c1 hc1
      have ho2 : o ∈ set_intersect (c1.succ st x) others :=
        (mem_set_intersect _ _ _).2
          ⟨(mem_succ c1 st x o).2 ⟨pri, e2 _ _ _ _ (e1 _ _ _ _ he)⟩, ho⟩
      unfold merge_sym at hc2
      cases hsi : set_intersect (c1.succ st x) others with
      | nil =>
        rw [hsi] at ho2
        cases ho2
      | cons front rest =>
        rw [hsi] at hc2
        simp only at hc2
        cases hl : (c1.succ_edges st x).lookup front with
        | none =>
          rw [hl] at hc2
          cases hc2
        | some epri =>
          rw [hl, Option.some_bind] at hc2
          obtain ⟨_, _, _, _, hnone, _⟩ := add_edge_some c1 c2 _ _ _ _ hc2
          rw [e2 _ _ _ _ (e1 _ _ _ _ hv)] at hnone
          cases hnone

end Aut

theorem applied_masks_subset (m : SMap Nat Nat) (l : List Nat) :
    ∀ ret i, i ∈ applied_masks m l ret → i ∈ l := by
  induction l with
  | nil =>
    intro ret i h
    simp [applied_masks] at h
  | cons a t ih =>
    intro ret i h
    rw [applied_masks] at h
    split at h
    · rcases List.mem_cons.1 h with h | h
      · exact h ▸ List.mem_cons_self _ _
      · exact List.mem_cons_of_mem _ (ih _ i h)
    · exact List.mem_cons_of_mem _ (ih _ i h)

theorem mask_fold (m : SMap Nat Nat) (l : List Nat) :
    ∀ ret q, (l.foldl (powersucc_mask m) ret).testBit q = true ↔
      (ret.testBit q = true ∧
        ∀ i ∈ applied_masks m l ret, ((m.lookup i).getD 0).testBit q = true) := by
  induction l with
  | nil =>
    intro ret q
    simp [applied_masks]
  | cons a t ih =>
    intro ret q
    rw [List.foldl_cons, ih, applied_masks]
    unfold powersucc_mask
    by_cases hc : (ret.testBit a && m.contains a) = true
    · rw [if_pos hc, if_pos hc, Nat.testBit_and, Bool.and_eq_true]
      simp only [List.mem_cons, forall_eq_or_imp]
      tauto
    · rw [if_neg hc, if_neg hc]

theorem applied_masks_iff (m : SMap Nat Nat) (l : List Nat) (hl : l.Pairwise (· < ·)) :
    ∀ ret i, i ∈ applied_masks m l ret ↔
      (i ∈ l ∧ m.contains i = true ∧ ret.testBit i = true ∧
        ∀ j ∈ applied_masks m l ret, j < i → ((m.lookup j).getD 0).testBit i = true) := by
  induction l with
  | nil =>
    intro ret i
    simp [applied_masks]
  | cons a t ih =>
    intro ret i
    have hat : ∀ j ∈ t, a < j := (List.pairwise_cons.1 hl).1
    have iht := ih (List.pairwise_cons.1 hl).2
    rw [applied_masks]
    by_cases hc : (ret.testBit a && m.contains a) = true
    · rw [if_pos hc]
      rw [Bool.and_eq_true] at hc
      simp only [List.mem_cons, forall_eq_or_imp]
      rw [iht, Nat.testBit_and, Bool.and_eq_true]
      constructor
      · rintro (h | ⟨h1, h2, ⟨h3, h4⟩, h5⟩)
        · subst h
          refine ⟨Or.inl rfl, hc.2, hc.1, fun h => absurd h (lt_irrefl _), fun j hj hji => ?_⟩
          have := hat j (applied_masks_subset m t _ j hj)
          omega
        · exact ⟨Or.inr h1, h2, h3, fun _ => h4, h5⟩
      · rintro ⟨h1 | h1, h2, h3, h4, h5⟩
        · exact Or.inl h1
        · exact Or.inr ⟨h1, h2, ⟨h3, h4 (hat i h1)⟩, h5⟩
    · rw [if_neg hc, iht]
      simp only [List.mem_cons]
      constructor
      · rintro ⟨h1, h2, h3, h4⟩
        exact ⟨Or.inr h1, h2, h3, h4⟩
      · rintro ⟨h1 | h1, h2, h3, h4⟩
        · subst h1
          rw [h3, h2] at hc
          exact absurd rfl hc
        · exact ⟨h1, h2, h3, h4⟩

/-- The loop of `powersucc` over the masks, for any map: when row `x` of the matrix exists
with an entry for every member of `S` below the width, and the union `U` of the
`x`-successor sets of the members of `S` is disjoint from the sinks, `powersucc` returns `U`
intersected with the masks of a set `A` of members: `i` is in `A` exactly when `i` is in `U`, has an entry in the map, and lies in the
mask of every smaller member of `A` (the masks are applied in increasing order of `i`, each
only if `i` is still in the running result). -/
theorem powersucc_applies_masks_in_order (W : Nat) (mat : List (List Nat)) (xmat : List Nat)
    (S x sinks U : Nat) (impl_mask : SMap Nat Nat)
    (hrow : mat[x]? = some xmat)
    (hent : ∀ i, i < W → S.testBit i = true → ∃ b, xmat[i]? = some b)
    (hU : ∀ q, U.testBit q = true ↔
      ∃ i, i < W ∧ S.testBit i = true ∧ ∃ b, xmat[i]? = some b ∧ b.testBit q = true)
    (hdis : U &&& sinks = 0) :
    ∃ (R : Nat) (A : List Nat),
      powersucc W mat S x sinks impl_mask = some R ∧
      (∀ q, R.testBit q = true ↔
        (U.testBit q = true ∧ ∀ i ∈ A, ((impl_mask.lookup i).getD 0).testBit q = true)) ∧
      (∀ i, i ∈ A ↔
        (i < W ∧ impl_mask.contains i = true ∧ U.testBit i = true ∧
          ∀ j ∈ A, j < i → ((impl_mask.lookup j).getD 0).testBit i = true)) := by
  obtain ⟨r, hr, hbits⟩ := collect_fold xmat S (List.range W) 0
    (fun i hi hs => hent i (List.mem_range.1 hi) hs)
  have hrU : r = U := by
    apply Nat.eq_of_testBit_eq
    intro q
    rw [Bool.eq_iff_iff, hbits, hU]
    simp only [Nat.zero_testBit, Bool.false_eq_true, false_or, List.mem_range]
  subst hrU
  have hsorted : (List.range W).Pairwise (· < ·) := List.pairwise_lt_range W
  unfold powersucc
  simp only [hrow]
  rw [hr, Option.map_some']
  rw [if_neg (fun h => h hdis)]
  by_cases hk : impl_mask.keys.isEmpty = true
  · refine ⟨r, [], ?_, fun q => by simp, fun i => ?_⟩
    · rw [hk]
      rfl
    · simp only [List.not_mem_nil, false_iff]
      rintro ⟨_, hc, _⟩
      have he : impl_mask.toList = [] := by
        cases hl : impl_mask.toList with
        | nil => rfl
        | cons e t =>
          unfold SMap.keys at hk
          rw [hl] at hk
          exact Bool.noConfusion hk
      unfold SMap.contains SMap.lookup at hc
      rw [he] at hc
      exact Bool.noConfusion hc
  · refine ⟨_, applied_masks impl_mask (List.range W) r, ?_, mask_fold impl_mask _ r, fun i => ?_⟩
    · rw [Bool.not_eq_true] at hk
      rw [hk]
      rfl
    · rw [applied_masks_iff impl_mask _ hsorted r i, List.mem_range]

/-- C31: for every adjacency matrix with a row for `x` (with an entry for every member of
`S`), source set `S`, sink set and implication-mask map, such that the union `U` of the
`x`-successor sets of the members of `S` is a bitset of width `W` disjoint from the sinks,
`powersucc` returns `U` intersected with `implication_masks[i]` for every `i` in `U` that has
an entry in the map. An implication-mask map is a map of strict subsumptions, which is
transitive: if the mask of `j` removes `i` and the mask of `i` removes `q`, the mask of `j`
removes `q`. -/
theorem powersucc_applies_implication_masks (W : Nat) (mat : List (List Nat))
    (xmat : List Nat) (S x sinks U : Nat) (impl_mask : SMap Nat Nat)
    (hrow : mat[x]? = some xmat)
    (hent : ∀ i, i < W → S.testBit i = true → ∃ b, xmat[i]? = some b)
    (hU : ∀ q, U.testBit q = true ↔
      ∃ i, i < W ∧ S.testBit i = true ∧ ∃ b, xmat[i]? = some b ∧ b.testBit q = true)
    (hW : ∀ q, U.testBit q = true → q < W)
    (hdis : U &&& sinks = 0)
    (htr : ∀ i j q, impl_mask.contains i = true → impl_mask.contains j = true →
      ((impl_mask.lookup j).getD 0).testBit i = false →
      ((impl_mask.lookup i).getD 0).testBit q = false →
      ((impl_mask.lookup j).getD 0).testBit q = false) :
    ∃ R : Nat,
      powersucc W mat S x sinks impl_mask = some R ∧
      ∀ q, R.testBit q = true ↔
        (U.testBit q = true ∧
          ∀ i, U.testBit i = true → impl_mask.contains i = true →
            ((impl_mask.lookup i).getD 0).testBit q = true) := by
  obtain ⟨R, A, hR, hbits, hA⟩ :=
    powersucc_applies_masks_in_order W mat xmat S x sinks U impl_mask hrow hent hU hdis
  refine ⟨R, hR, fun q => ?_⟩
  rw [hbits]
  constructor
  · rintro ⟨hq, hall⟩
    refine ⟨hq, fun i hi hc => ?_⟩
    by_contra hm
    rw [Bool.not_eq_true] at hm
    by_cases hiA : i ∈ A
    · rw [hall i hiA] at hm
      exact Bool.noConfusion hm
    · have hnot : ¬ ∀ j ∈ A, j < i → ((impl_mask.lookup j).getD 0).testBit i = true :=
        fun hall2 => hiA ((hA i).2 ⟨hW i hi, hc, hi, hall2⟩)
      push_neg at hnot
      obtain ⟨j, hjA, _, hji⟩ := hnot
      have hji : ((impl_mask.lookup j).getD 0).testBit i = false := by
        cases hb : ((impl_mask.lookup j).getD 0).testBit i with
        | false => rfl
        | true => exact absurd hb hji
      have hjc := ((hA j).1 hjA).2.1
      have := htr i j q hc hjc hji hm
      rw [hall j hjA] at this
      exact Bool.noConfusion this
  · rintro ⟨hq, hall⟩
    refine ⟨hq, fun i hiA => ?_⟩
    obtain ⟨_, hc, hi, _⟩ := (hA i).1 hiA
    exact hall i hi hc

/-- Witness of C31 on the sample masks: from `U = {0,1,2}` the result is `{0}`, the
intersection of `U` with the masks `{0}` of member 0 and `{0,1}` of member 1. -/
theorem powersucc_applies_implication_masks_witness :
    powersucc 3 [[7, 0, 0]] 1 0 0 sample_masks = some 1 ∧
    ∃ R : Nat,
      powersucc 3 [[7, 0, 0]] 1 0 0 sample_masks = some R ∧
      ∀ q, R.testBit q = true ↔
        ((7 : Nat).testBit q = true ∧
          ∀ i, (7 : Nat).testBit i = true → sample_masks.contains i = true →
            ((sample_masks.lookup i).getD 0).testBit q = true) :=
  ⟨by decide, powersucc_applies_implication_masks 3 [[7, 0, 0]] [7, 0, 0] 1 0 0 7 sample_masks
    rfl
    (fun i hi _ => by
      have : i = 0 ∨ i = 1 ∨ i = 2 := by omega
      rcases this with h | h | h
      · exact ⟨7, by rw [h]; rfl⟩
      · exact ⟨0, by rw [h]; rfl⟩
      · exact ⟨0, by rw [h]; rfl⟩)
    (fun q => by
      constructor
      · intro hq
        exact ⟨0, by decide, by decide, 7, rfl, hq⟩
      · rintro ⟨i, hi, hs, b, hb, hq⟩
        have : i = 0 ∨ i = 1 ∨ i = 2 := by omega
        rcases this with h | h | h
        · subst h
          cases hb
          exact hq
        · subst h
          exact absurd hs (by decide)
        · subst h
          exact absurd hs (by decide))
    (fun q hq => by
      by_contra hge
      have h8 : (7 : Nat) < 2 ^ q :=
        lt_of_lt_of_le (by decide : (7 : Nat) < 2 ^ 3)
          (Nat.pow_le_pow_right (by decide) (by omega))
      rw [Nat.testBit_lt_two_pow h8] at hq
      exact Bool.noConfusion hq)
    (by decide)
    (fun i j q hi hj hji hiq => by
      have hkeys : ∀ k, sample_masks.contains k = true → k = 0 ∨ k = 1 := by
        intro k hk
        have hm := (SMap.mem_keys sample_masks k).2 hk
        have e : sample_masks.keys = [0, 1] := by decide
        rw [e] at hm
        simpa using hm
      have hq0 : q ≠ 0 := by
        intro h0
        subst h0
        rcases hkeys i hi with h | h
        · subst h
          exact absurd hiq (by decide)
        · subst h
          exact absurd hiq (by decide)
      rcases hkeys j hj with h | h
      · subst h
        have e : (sample_masks.lookup 0).getD 0 = 2 ^ 0 := by decide
        rw [e, Nat.testBit_two_pow]
        simpa using fun h => hq0 h.symm
      · subst h
        rcases hkeys i hi with h | h
        · subst h
          exact absurd hji (by decide)
        · subst h
          exact absurd hji (by decide))⟩

namespace Aut

variable {T : Type}

/-- C32 (defect in the code): on a freshly constructed automaton (one state, id 0, flag
`normalized` set) the call `normalize(5)` completes and leaves the single state 5 with the
flag `normalized` set, although the state ids are not `0 .. n-1`. The flag is then trusted
by `insert`: for the two-state automata renumbered by `normalize(5)` and `normalize(2)`,
inserting the second into the first keeps the flag set on the state set `{2, 3, 5, 6}`. -/
theorem normalize_offset_sets_normalized :
    (∃ a1 m, (Aut.new false "" [] 0 : Aut Unit).normalize 5 = some (a1, m) ∧
      a1.normalized = true ∧ a1.states = [5] ∧ a1.num_states = 1) ∧
    (∃ a0 b0 a1 b1 ma mb r,
      (Aut.new false "" [] 0 : Aut Unit).add_state 1 = some a0 ∧
      (Aut.new false "" [] 0 : Aut Unit).add_state 1 = some b0 ∧
      a0.normalize 5 = some (a1, ma) ∧ b0.normalize 2 = some (b1, mb) ∧
      a1.insert b1 = some r ∧ r.normalized = true ∧ r.states = [2, 3, 5, 6]) := by
  refine ⟨⟨_, _, rfl, rfl, rfl, rfl⟩, ⟨_, _, _, _, _, _, _, rfl, rfl, rfl, rfl, rfl, rfl, rfl⟩⟩

theorem out_map_set (a b : Aut T) (p : Nat) (sm : SMap Nat (SMap Nat Int))
    (h : b.adj = a.adj.ins p sm) (p1 : Nat) :
    b.out_map p1 = if p1 = p then sm else a.out_map p1 := by
  unfold out_map
  rw [h, SMap.lookup_ins]
  by_cases hp : p1 = p
  · rw [if_pos hp, if_pos hp]
    rfl
  · rw [if_neg hp, if_neg hp]

theorem out_map_of_not_state (a : Aut T) (p : Nat) (h : a.has_state p = false) :
    a.out_map p = SMap.empty := by
  unfold out_map
  rw [(has_state_eq_false a p).1 h]
  rfl

theorem outsym_of_not_state (a : Aut T) (p x : Nat) (h : a.has_state p = false) :
    a.state_has_outsym p x = false := by
  unfold state_has_outsym
  rw [out_map_of_not_state a p h]
  rfl

theorem outsym_of_succ (a : Aut T) (p x : Nat) (h : a.succ p x ≠ []) :
    a.state_has_outsym p x = true := by
  by_contra hc
  apply h
  have hx : x ∉ a.state_outsyms p := by
    unfold state_outsyms
    rw [SMap.mem_keys]
    exact hc
  unfold succ
  rw [succ_edges_of_not_outsym a p x hx]
  rfl

theorem outsym_add_state (a b : Aut T) (s : Nat) (h : a.add_state s = some b) (p x : Nat) :
    b.state_has_outsym p x = a.state_has_outsym p x := by
  obtain ⟨hs, e⟩ := add_state_some a b s h
  have hadj : b.adj = a.adj.ins s SMap.empty := by
    subst e
    rfl
  unfold state_has_outsym
  rw [out_map_set a b s _ hadj p]
  by_cases hp : p = s
  · rw [if_pos hp, hp, out_map_of_not_state a s hs]
  · rw [if_neg hp]

theorem outsym_add_edge (a b : Aut T) (p x q : Nat) (pri : Int)
    (h : a.add_edge p x q pri = some b) (p1 x1 : Nat) :
    b.state_has_outsym p1 x1 = (decide (p1 = p ∧ x1 = x) || a.state_has_outsym p1 x1) := by
  obtain ⟨_, _, _, _, _, e⟩ := add_edge_some a b p x q pri h
  have hadj : b.adj = a.adj.ins p ((a.out_map p).ins x ((a.succ_edges p x).ins q pri)) := by
    subst e
    rfl
  unfold state_has_outsym
  rw [out_map_set a b p _ hadj p1]
  by_cases hp : p1 = p
  · subst hp
    rw [if_pos rfl, SMap.contains_ins]
    simp
  · rw [if_neg hp]
    simp [hp]

theorem outsym_remove_edge (a b : Aut T) (p x q : Nat)
    (h : a.remove_edge p x q = some b) (p1 x1 : Nat) :
    b.state_has_outsym p1 x1 = a.state_has_outsym p1 x1 := by
  obtain ⟨epri, hold, e⟩ := remove_edge_some a b p x q h
  have hadj : b.adj = a.adj.ins p ((a.out_map p).ins x ((a.succ_edges p x).erase q)) := by
    subst e
    rfl
  have hpx : a.state_has_outsym p x = true := by
    apply outsym_of_succ
    intro hnil
    have hm : q ∈ a.succ p x := (mem_succ a p x q).2 ⟨epri, hold⟩
    rw [hnil] at hm
    exact absurd hm (List.not_mem_nil _)
  unfold state_has_outsym at hpx ⊢
  rw [out_map_set a b p _ hadj p1]
  by_cases hp : p1 = p
  · subst hp
    rw [if_pos rfl, SMap.contains_ins]
    by_cases hx : x1 = x
    · subst hx
      rw [hpx]
      simp
    · simp [hx]
  · rw [if_neg hp]

theorem outsym_remove_states (a b : Aut T) (tokill : List Nat)
    (h : a.remove_states tokill = some b) (p x : Nat) :
    b.state_has_outsym p x = (!decide (p ∈ tokill) && a.state_has_outsym p x) := by
  by_cases hp : p ∈ tokill
  · have hb : b.has_state p = false := by
      rw [has_state_remove_states a b tokill h p]
      simp [hp]
    rw [outsym_of_not_state b p x hb]
    simp [hp]
  · have hk := state_outsyms_remove_states a b tokill h p hp
    have e : b.state_has_outsym p x = a.state_has_outsym p x := by
      rw [Bool.eq_iff_iff]
      unfold state_has_outsym
      rw [← SMap.mem_keys, ← SMap.mem_keys]
      unfold state_outsyms at hk
      rw [hk]
    rw [e]
    simp [hp]

/-- What the history values of `OutReach` say about the automaton. -/
theorem outReach_inv (rm : Bool) (E : List (Nat × Nat)) (a : Aut T) (h : OutReach rm E a) :
    (∀ p x, a.state_has_outsym p x = true ↔ (p, x) ∈ E) ∧
    (rm = false → ∀ p x, a.state_has_outsym p x = true → a.succ p x ≠ []) := by
  induction h with
  | fresh statebased title ap initial =>
    have h0 : ∀ p x, (Aut.new statebased title ap initial : Aut T).state_has_outsym p x
        = false := by
      intro p x
      unfold state_has_outsym out_map Aut.new
      simp only [SMap.lookup_ins]
      by_cases hp : p = initial
      · rw [if_pos hp]
        rfl
      · rw [if_neg hp]
        rfl
    refine ⟨fun p x => ?_, fun _ p x hx => ?_⟩
    · rw [h0]
      simp
    · rw [h0] at hx
      exact Bool.noConfusion hx
  | add_state rm E a b s _ hs ih =>
    refine ⟨fun p x => ?_, fun hrm p x hx => ?_⟩
    · rw [outsym_add_state a b s hs, ih.1]
    · rw [outsym_add_state a b s hs] at hx
      unfold succ
      rw [succ_edges_add_state a b s hs]
      exact ih.2 hrm p x hx
  | add_edge rm E a b p x q pri _ he ih =>
    refine ⟨fun p1 x1 => ?_, fun hrm p1 x1 hx => ?_⟩
    · rw [outsym_add_edge a b p x q pri he, Bool.or_eq_true, ih.1, List.mem_cons,
        decide_eq_true_eq, Prod.mk.injEq]
    · unfold succ
      rw [succ_edges_add_edge a b p x q pri he]
      by_cases hc : p1 = p ∧ x1 = x
      · rw [if_pos hc]
        intro hnil
        have hm : q ∈ ((a.succ_edges p x).ins q pri).keys := by
          rw [SMap.mem_keys, SMap.contains_ins]
          simp
        rw [hnil] at hm
        exact absurd hm (List.not_mem_nil _)
      · rw [if_neg hc]
        rw [outsym_add_edge a b p x q pri he, Bool.or_eq_true, decide_eq_true_eq] at hx
        rcases hx with hx | hx
        · exact absurd hx hc
        · exact ih.2 hrm p1 x1 hx
  | remove_edge rm E a b p x q _ he ih =>
    refine ⟨fun p1 x1 => ?_, fun hrm => Bool.noConfusion hrm⟩
    rw [outsym_remove_edge a b p x q he, ih.1]
  | remove_states rm E a b tokill _ hr ih =>
    refine ⟨fun p x => ?_, fun hrm => Bool.noConfusion hrm⟩
    rw [outsym_remove_states a b tokill hr, Bool.and_eq_true, ih.1, List.mem_filter]
    simp only [Bool.not_eq_true', decide_eq_false_iff_not, Bool.not_eq_true',
      decide_eq_false_iff_not]
    tauto

/-- C34 (fails on the code): after `add_state(1)`, `add_edge(0, 0, 1, 2)` and
`remove_edge(0, 0, 1)` on a fresh automaton, each of which succeeds, state 0 exists,
`state_has_outsym(0, 0)` is true and `succ(0, 0)` is empty. -/
theorem outsym_stays_after_remove_edge :
    ∃ a1 a2 a3 : Aut Unit,
      (Aut.new false "" [] 0 : Aut Unit).add_state 1 = some a1 ∧
      a1.add_edge 0 0 1 2 = some a2 ∧ a2.remove_edge 0 0 1 = some a3 ∧
      a3.has_state 0 = true ∧ a3.state_has_outsym 0 0 = true ∧ a3.succ 0 0 = [] :=
  ⟨_, _, _, rfl, rfl, rfl, rfl, rfl, rfl⟩

/-- C34, amended: for an automaton built from a fresh one by `add_state`, `add_edge`,
`remove_edge` and `remove_states` calls that satisfy their preconditions, and every existing
state `p` and symbol `x`: `state_has_outsym(p, x)` is true iff an edge from `p` on `x` has
been added since `p` was added (removals of targets keep the entry of the symbol); it is
true whenever `succ(p, x)` is non-empty; and if no removal has taken place it is true iff
`succ(p, x)` is non-empty. -/
theorem outsym_tracks_added_edges (rm : Bool) (E : List (Nat × Nat)) (a : Aut T)
    (h : OutReach rm E a) (p x : Nat) (_hp : a.has_state p = true) :
    (a.state_has_outsym p x = true ↔ (p, x) ∈ E) ∧
    (a.succ p x ≠ [] → a.state_has_outsym p x = true) ∧
    (rm = false → (a.state_has_outsym p x = true ↔ a.succ p x ≠ [])) := by
  obtain ⟨h1, h2⟩ := outReach_inv rm E a h
  exact ⟨h1 p x, outsym_of_succ a p x, fun hrm => ⟨h2 hrm p x, outsym_of_succ a p x⟩⟩

theorem outReach_sample_removed : OutReach true [(0, 0)] sample_removed :=
  OutReach.remove_edge false [(0, 0)] (build (Aut.new false "" [] 0)
      [fun a => a.add_state 1, fun a => a.add_edge 0 0 1 2]) _ 0 0 1
    (OutReach.add_edge false [] (build (Aut.new false "" [] 0) [fun a => a.add_state 1]) _
      0 0 1 2
      (OutReach.add_state false [] _ _ 1 (OutReach.fresh false "" [] 0) rfl) rfl) rfl

/-- The amended C34 on the sample in which the only edge was removed: the entry of symbol 0
at state 0 is still there. -/
theorem outsym_tracks_added_edges_witness :
    OutReach true [(0, 0)] sample_removed ∧ sample_removed.has_state 0 = true ∧
    (sample_removed.state_has_outsym 0 0 = true ↔ ((0, 0) : Nat × Nat) ∈ [(0, 0)]) ∧
    (sample_removed.succ 0 0 ≠ [] → sample_removed.state_has_outsym 0 0 = true) ∧
    ((true : Bool) = false →
      (sample_removed.state_has_outsym 0 0 = true ↔ sample_removed.succ 0 0 ≠ [])) :=
  ⟨outReach_sample_removed, rfl,
    outsym_tracks_added_edges true [(0, 0)] sample_removed outReach_sample_removed 0 0 rfl⟩

end Aut

namespace PartitionRefiner

variable {T : Type}

theorem block_len_nil : block_len ([] : List (Nat × List T)) = 0 := rfl

theorem block_len_cons (b : Nat × List T) (t : List (Nat × List T)) :
    block_len (b :: t) = b.2.length + block_len t := by
  unfold block_len
  rw [List.map_cons, List.flatten_cons, List.length_append]

theorem block_len_append (B1 B2 : List (Nat × List T)) :
    block_len (B1 ++ B2) = block_len B1 + block_len B2 := by
  unfold block_len
  rw [List.map_append, List.flatten_append, List.length_append]

theorem layout_append (B1 B2 : List (Nat × List T)) : ∀ l : Nat,
    layout l (B1 ++ B2) = layout l B1 ++ layout (l + block_len B1) B2 := by
  induction B1 with
  | nil =>
    intro l
    rw [block_len_nil]
    rfl
  | cons b t ih =>
    intro l
    rw [List.cons_append, layout, ih, layout, block_len_cons, List.cons_append, Nat.add_assoc]

theorem length_layout (B : List (Nat × List T)) : ∀ l : Nat, (layout l B).length = B.length := by
  induction B with
  | nil =>
    intro l
    rfl
  | cons b t ih =>
    intro l
    rw [layout, List.length_cons, ih, List.length_cons]

theorem find_layout (c : Nat) (S : List T) (B2 : List (Nat × List T)) :
    ∀ (B1 : List (Nat × List T)) (l : Nat), c ∉ B1.map Prod.fst →
    (layout l (B1 ++ (c, S) :: B2)).find? (fun e => decide (e.1 = c)) =
      some (c, l + block_len B1, l + block_len B1 + S.length) := by
  intro B1
  induction B1 with
  | nil =>
    intro l _
    rw [List.nil_append, layout, block_len_nil, List.find?_cons_of_pos]
    · rfl
    · simp
  | cons b t ih =>
    intro l hc
    rw [List.map_cons, List.mem_cons, not_or] at hc
    rw [List.cons_append, layout, List.find?_cons_of_neg, ih _ hc.2, block_len_cons,
      Nat.add_assoc]
    simp only [decide_eq_true_eq]
    exact fun h => hc.1 h.symm

theorem split_node_layout (c n : Nat) (S P Q : List T) (B2 : List (Nat × List T))
    (hlen : P.length + Q.length = S.length) :
    ∀ (B1 : List (Nat × List T)) (l : Nat), c ∉ B1.map Prod.fst →
    split_node c n (l + block_len B1 + P.length) (layout l (B1 ++ (c, S) :: B2)) =
      layout l (B1 ++ (n, P) :: (c, Q) :: B2) := by
  intro B1
  induction B1 with
  | nil =>
    intro l _
    rw [List.nil_append, List.nil_append, layout, layout, layout, block_len_nil, split_node,
      if_pos rfl]
    have e : l + P.length + Q.length = l + S.length := by omega
    simp only [Nat.add_zero, e]
  | cons b t ih =>
    intro l hc
    rw [List.map_cons, List.mem_cons, not_or] at hc
    rw [List.cons_append, List.cons_append, layout, layout, split_node,
      if_neg (fun h => hc.1 h.symm), block_len_cons, ← Nat.add_assoc, ih _ hc.2]

theorem layout_congr (c : Nat) (S S1 : List T) (B1 B2 : List (Nat × List T)) (l : Nat)
    (hlen : S1.length = S.length) :
    layout l (B1 ++ (c, S1) :: B2) = layout l (B1 ++ (c, S) :: B2) := by
  rw [layout_append, layout_append, layout, layout, hlen]

theorem set_slice_append (P M S seg : List T) (l r : Nat) (hl : P.length = l)
    (hr : l + M.length = r) : set_slice l r seg (P ++ M ++ S) = P ++ seg ++ S := by
  unfold set_slice
  have h1 : (P ++ M ++ S).take l = P := by
    rw [List.append_assoc]
    exact List.take_left' hl
  have h2 : (P ++ M ++ S).drop r = S := by
    apply List.drop_left'
    rw [List.length_append]
    omega
  rw [h1, h2]

theorem slices_layout (F2 : List T) : ∀ (B : List (Nat × List T)) (F : List T),
    (layout F.length B).map (fun e => slice e.2.1 e.2.2 (F ++ (B.map Prod.snd).flatten ++ F2)) =
      B.map Prod.snd := by
  intro B
  induction B with
  | nil =>
    intro F
    rfl
  | cons b t ih =>
    intro F
    rw [layout, List.map_cons, List.map_cons, List.flatten_cons]
    have e : F ++ (b.2 ++ (t.map Prod.snd).flatten) ++ F2 =
        (F ++ b.2) ++ (t.map Prod.snd).flatten ++ F2 := by
      simp only [List.append_assoc]
    have e2 : F ++ (b.2 ++ (t.map Prod.snd).flatten) ++ F2 =
        F ++ b.2 ++ ((t.map Prod.snd).flatten ++ F2) := by
      simp only [List.append_assoc]
    congr 1
    · show slice F.length (F.length + b.2.length) _ = b.2
      rw [e2]
      exact slice_append _ _ _ _ _ rfl rfl
    · rw [e]
      have := ih (F ++ b.2)
      rw [List.length_append] at this
      exact this

theorem flatten_blocks (B1 B2 : List (Nat × List T)) (b : Nat × List T) :
    ((B1 ++ b :: B2).map Prod.snd).flatten =
      (B1.map Prod.snd).flatten ++ b.2 ++ (B2.map Prod.snd).flatten := by
  rw [List.map_append, List.map_cons, List.flatten_append, List.flatten_cons,
    List.append_assoc]

theorem flatten_blocks_two (B1 B2 : List (Nat × List T)) (b1 b2 : Nat × List T) :
    ((B1 ++ b1 :: b2 :: B2).map Prod.snd).flatten =
      (B1.map Prod.snd).flatten ++ (b1.2 ++ b2.2) ++ (B2.map Prod.snd).flatten := by
  rw [List.map_append, List.map_cons, List.map_cons, List.flatten_append, List.flatten_cons,
    List.flatten_cons]
  simp only [List.append_assoc]

theorem not_mem_of_nodup_blocks (B1 B2 : List (Nat × List T)) (b : Nat × List T)
    (h : ((B1 ++ b :: B2).map Prod.fst).Nodup) :
    b.1 ∉ B1.map Prod.fst ∧ b.1 ∉ B2.map Prod.fst := by
  rw [List.map_append, List.map_cons, List.nodup_middle, List.nodup_cons,
    List.mem_append, not_or] at h
  exact h.1

theorem bounds_of_rep (R : PartitionRefiner T) (B1 B2 : List (Nat × List T)) (c : Nat)
    (S : List T) (h : Rep R (B1 ++ (c, S) :: B2)) :
    R.bounds_of c = some (block_len B1, block_len B1 + S.length) ∧
    slice (block_len B1) (block_len B1 + S.length) R.elements = S := by
  obtain ⟨hel, hsets, _, _, _, hnd⟩ := h
  have hc1 := (not_mem_of_nodup_blocks B1 B2 (c, S) hnd).1
  constructor
  · unfold bounds_of
    rw [hsets, find_layout c S B2 B1 0 hc1]
    simp
  · rw [hel, flatten_blocks]
    exact slice_append _ _ _ _ _ rfl rfl

theorem get_elements_of_rep [LinearOrder T] (R : PartitionRefiner T)
    (B1 B2 : List (Nat × List T)) (c : Nat) (S : List T) (h : Rep R (B1 ++ (c, S) :: B2)) :
    R.get_elements_of c = some (S.insertionSort (fun x y => x ≤ y)) := by
  obtain ⟨h1, h2⟩ := bounds_of_rep R B1 B2 c S h
  unfold get_elements_of
  rw [h1, Option.map_some', h2]

theorem get_refined_sets_rep [LinearOrder T] (R : PartitionRefiner T)
    (B : List (Nat × List T)) (h : Rep R B) :
    R.get_refined_sets = (B.map Prod.snd).map fun S => S.insertionSort (fun x y => x ≤ y) := by
  obtain ⟨hel, hsets, _⟩ := h
  have := slices_layout ([] : List T) B []
  rw [List.nil_append, List.append_nil, List.length_nil] at this
  unfold get_refined_sets
  rw [← this, hsets, hel, List.map_map]
  rfl

theorem separate_rep (R : PartitionRefiner T) (B1 B2 : List (Nat × List T)) (c : Nat)
    (S : List T) (pred : T → Bool) (h : Rep R (B1 ++ (c, S) :: B2)) :
    ∃ R1 res, R.separate c pred = some (R1, res) ∧
      (Rep R1 (B1 ++ (c, S.filter pred ++ S.filter fun e => !pred e) :: B2) ∨
       Rep R1 (B1 ++ (R.sym_sets.length, S.filter pred) ::
         (c, S.filter fun e => !pred e) :: B2)) := by
  obtain ⟨hb, hseg⟩ := bounds_of_rep R B1 B2 c S h
  obtain ⟨hel, hsets, hlen, hmem, hlt, hnd⟩ := h
  have hc1 := (not_mem_of_nodup_blocks B1 B2 (c, S) hnd).1
  have hPQ := length_filter_add pred S
  have hE : set_slice (block_len B1) (block_len B1 + S.length)
      (S.filter pred ++ S.filter fun e => !pred e) R.elements =
      (B1.map Prod.snd).flatten ++ (S.filter pred ++ S.filter fun e => !pred e) ++
        (B2.map Prod.snd).flatten := by
    rw [hel, flatten_blocks]
    exact set_slice_append _ _ _ _ _ _ rfl rfl
  unfold separate
  rw [hb, Option.map_some']
  simp only [hseg, hE]
  unfold split_set
  by_cases hmid : block_len B1 + (S.filter pred).length = block_len B1 ∨
      block_len B1 + (S.filter pred).length = block_len B1 + S.length
  · rw [if_pos hmid]
    refine ⟨_, _, rfl, Or.inl ⟨?_, ?_, ?_, ?_, ?_, ?_⟩⟩
    · show _ = ((B1 ++ (c, S.filter pred ++ S.filter fun e => !pred e) :: B2).map
        Prod.snd).flatten
      rw [flatten_blocks]
    · show R.sets = _
      rw [hsets]
      exact (layout_congr c S _ B1 B2 0 (by rw [List.length_append]; exact hPQ)).symm
    · show R.sym_sets.length = _
      rw [hlen]
      simp
    · intro t
      show t ∈ R.sym_sets ↔ _
      rw [hmem]
      simp
    · intro t ht
      show t < R.sym_sets.length
      apply hlt
      simpa using ht
    · simpa using hnd
  · rw [if_neg hmid]
    refine ⟨_, _, rfl, Or.inr ⟨?_, ?_, ?_, ?_, ?_, ?_⟩⟩
    · show _ = ((B1 ++ (R.sym_sets.length, S.filter pred) ::
        (c, S.filter fun e => !pred e) :: B2).map Prod.snd).flatten
      rw [flatten_blocks_two]
    · show split_node c R.sym_sets.length _ R.sets = _
      rw [hsets]
      have := split_node_layout c R.sym_sets.length S (S.filter pred)
        (S.filter fun e => !pred e) B2 hPQ B1 0 hc1
      rw [Nat.zero_add] at this
      exact this
    · show (R.sym_sets ++ [R.sym_sets.length]).length = _
      rw [List.length_append, hlen]
      simp only [List.length_append, List.length_cons, List.length_nil]
      omega
    · intro t
      show t ∈ R.sym_sets ++ [R.sym_sets.length] ↔ _
      rw [List.mem_append, hmem]
      simp only [List.map_append, List.map_cons, List.mem_append, List.mem_cons,
        List.mem_singleton, List.not_mem_nil, or_false]
      tauto
    · intro t ht
      show t < (R.sym_sets ++ [R.sym_sets.length]).length
      rw [List.length_append, List.length_singleton]
      simp only [List.map_append, List.map_cons, List.mem_append, List.mem_cons] at ht
      have h1 : ∀ u, u ∈ (B1 ++ (c, S) :: B2).map Prod.fst → u < R.sym_sets.length + 1 :=
        fun u hu => Nat.lt_succ_of_lt (hlt u hu)
      simp only [List.map_append, List.map_cons, List.mem_append, List.mem_cons] at h1
      rcases ht with ht | ht | ht | ht
      · exact h1 t (Or.inl ht)
      · omega
      · exact h1 t (Or.inr (Or.inl ht))
      · exact h1 t (Or.inr (Or.inr ht))
    · have hfresh : R.sym_sets.length ∉ (B1 ++ (c, S) :: B2).map Prod.fst :=
        fun hm => absurd (hlt _ hm) (lt_irrefl _)
      rw [List.map_append, List.map_cons, List.nodup_middle, List.nodup_cons]
      rw [List.map_append, List.map_cons] at hfresh
      refine ⟨?_, ?_⟩
      · intro hm
        apply hfresh
        simp only [List.map_cons, List.mem_append, List.mem_cons] at hm ⊢
        tauto
      · rw [List.map_append, List.map_cons] at hnd
        rw [List.map_cons]
        exact hnd

theorem map_fst_layout (B : List (Nat × List T)) : ∀ l : Nat,
    (layout l B).map Prod.fst = B.map Prod.fst := by
  induction B with
  | nil =>
    intro l
    rfl
  | cons b t ih =>
    intro l
    rw [layout, List.map_cons, List.map_cons, ih]

theorem init_fold_rep [LinearOrder T] : ∀ (rest : List (List T))
    (acc : PartitionRefiner T × Nat) (B : List (Nat × List T)),
    acc.1.elements = (B.map Prod.snd).flatten ++ rest.flatten →
    acc.1.sets = layout 0 B → acc.2 = block_len B →
    acc.1.sym_sets = List.range B.length → B.map Prod.fst = List.range B.length →
    ∃ B1, Rep (rest.foldl init_step acc).1 B1 ∧
      B1.map Prod.snd =
        B.map Prod.snd ++ rest.map fun s => s.insertionSort (fun x y => x ≤ y) := by
  intro rest
  induction rest with
  | nil =>
    intro acc B hel hsets _ hsym hfst
    refine ⟨B, ⟨?_, hsets, ?_, ?_, ?_, ?_⟩, ?_⟩
    · rw [List.foldl_nil, hel, List.flatten_nil, List.append_nil]
    · rw [List.foldl_nil, hsym, List.length_range]
    · intro t
      rw [List.foldl_nil, hsym, hfst]
    · intro t ht
      rw [List.foldl_nil, hsym, List.length_range]
      rw [hfst] at ht
      exact List.mem_range.1 ht
    · rw [hfst]
      exact List.nodup_range _
    · rw [List.map_nil, List.append_nil]
  | cons s t ih =>
    intro acc B hel hsets hl hsym hfst
    rw [List.foldl_cons]
    have hslen : (s.insertionSort (fun x y => x ≤ y)).length = s.length :=
      List.length_insertionSort _ s
    have hE : acc.1.elements = (B.map Prod.snd).flatten ++ s ++ t.flatten := by
      rw [hel, List.flatten_cons, List.append_assoc]
    have hseg : slice acc.2 (acc.2 + s.length) acc.1.elements = s := by
      rw [hE, hl]
      exact slice_append _ _ _ _ _ rfl rfl
    obtain ⟨B1, hrep, hsnd⟩ := ih (init_step acc s)
      (B ++ [(B.length, s.insertionSort (fun x y => x ≤ y))])
      (by
        show set_slice acc.2 (acc.2 + s.length) _ acc.1.elements = _
        rw [hseg, hE, hl]
        have e := set_slice_append (B.map Prod.snd).flatten s t.flatten
          (s.insertionSort (fun x y => x ≤ y)) (block_len B) (block_len B + s.length) rfl rfl
        rw [e, List.map_append, List.flatten_append]
        simp)
      (by
        show acc.1.sets ++ [(acc.1.sym_sets.length, acc.2, acc.2 + s.length)] = _
        rw [layout_append, hsets, hsym, List.length_range, hl, layout, layout, hslen,
          Nat.zero_add])
      (by
        show acc.2 + s.length = _
        rw [block_len_append, block_len_cons, block_len_nil, hl, hslen, Nat.add_zero])
      (by
        show acc.1.sym_sets ++ [acc.1.sym_sets.length] = _
        rw [hsym, List.length_range, List.length_append, List.length_singleton,
          List.range_succ])
      (by
        rw [List.map_append, hfst, List.length_append, List.length_singleton,
          List.range_succ]
        rfl)
    refine ⟨B1, hrep, ?_⟩
    rw [hsnd, List.map_append, List.map_cons, List.append_assoc]
    rfl

theorem ofSets_rep [LinearOrder T] (startsets : List (List T)) :
    ∃ B, Rep (ofSets startsets) B ∧
      B.map Prod.snd = startsets.map fun s => s.insertionSort (fun x y => x ≤ y) := by
  obtain ⟨B, h1, h2⟩ := init_fold_rep startsets
    ({ elements := startsets.flatten, sets := [], sym_sets := [] }, 0) [] rfl rfl rfl rfl rfl
  exact ⟨B, h1, h2⟩

theorem partitions_split (startsets : List (List T)) (B1 B2 : List (Nat × List T))
    (c n : Nat) (S P Q : List T) (hS : ∀ x, (x ∈ P ∨ x ∈ Q) ↔ x ∈ S) (hd : P.Disjoint Q)
    (h : Partitions startsets (B1 ++ (c, S) :: B2)) :
    Partitions startsets (B1 ++ (c, P ++ Q) :: B2) ∧
    Partitions startsets (B1 ++ (n, P) :: (c, Q) :: B2) := by
  obtain ⟨hp, hu⟩ := h
  rw [List.map_append, List.map_cons, List.pairwise_append, List.pairwise_cons] at hp
  obtain ⟨hp1, ⟨hp2, hp3⟩, hp4⟩ := hp
  have hPS : ∀ x, x ∈ P → x ∈ S := fun x hx => (hS x).1 (Or.inl hx)
  have hQS : ∀ x, x ∈ Q → x ∈ S := fun x hx => (hS x).1 (Or.inr hx)
  have hPQ : ∀ x, x ∈ P ++ Q ↔ x ∈ S := fun x => by rw [List.mem_append, hS]
  refine ⟨⟨?_, fun x => ?_⟩, ⟨?_, fun x => ?_⟩⟩
  · rw [List.map_append, List.map_cons, List.pairwise_append, List.pairwise_cons]
    refine ⟨hp1, ⟨fun X hX y hy hyX => hp2 X hX ((hPQ y).1 hy) hyX, hp3⟩, ?_⟩
    intro X hX Y hY
    rcases List.mem_cons.1 hY with hY | hY
    · subst hY
      exact fun y hy hy2 => hp4 X hX S (List.mem_cons_self _ _) hy ((hPQ y).1 hy2)
    · exact hp4 X hX Y (List.mem_cons_of_mem _ hY)
  · rw [← hu x]
    simp only [List.map_append, List.map_cons, List.mem_append, List.mem_cons]
    constructor
    · rintro ⟨X, hX | hX | hX, hx⟩
      · exact ⟨X, Or.inl hX, hx⟩
      · subst hX
        exact ⟨S, Or.inr (Or.inl rfl), (hPQ x).1 hx⟩
      · exact ⟨X, Or.inr (Or.inr hX), hx⟩
    · rintro ⟨X, hX | hX | hX, hx⟩
      · exact ⟨X, Or.inl hX, hx⟩
      · subst hX
        exact ⟨P ++ Q, Or.inr (Or.inl rfl), (hPQ x).2 hx⟩
      · exact ⟨X, Or.inr (Or.inr hX), hx⟩
  · rw [List.map_append, List.map_cons, List.map_cons, List.pairwise_append,
      List.pairwise_cons, List.pairwise_cons]
    refine ⟨hp1, ⟨?_, fun X hX y hy hyX => hp2 X hX (hQS y hy) hyX, hp3⟩, ?_⟩
    · intro X hX
      rcases List.mem_cons.1 hX with hX | hX
      · subst hX
        exact hd
      · exact fun y hy hyX => hp2 X hX (hPS y hy) hyX
    · intro X hX Y hY
      rcases List.mem_cons.1 hY with hY | hY
      · subst hY
        exact fun y hy hy2 => hp4 X hX S (List.mem_cons_self _ _) hy (hPS y hy2)
      · rcases List.mem_cons.1 hY with hY | hY
        · subst hY
          exact fun y hy hy2 => hp4 X hX S (List.mem_cons_self _ _) hy (hQS y hy2)
        · exact hp4 X hX Y (List.mem_cons_of_mem _ hY)
  · rw [← hu x]
    simp only [List.map_append, List.map_cons, List.mem_append, List.mem_cons]
    constructor
    · rintro ⟨X, hX | hX | hX | hX, hx⟩
      · exact ⟨X, Or.inl hX, hx⟩
      · subst hX
        exact ⟨S, Or.inr (Or.inl rfl), hPS x hx⟩
      · subst hX
        exact ⟨S, Or.inr (Or.inl rfl), hQS x hx⟩
      · exact ⟨X, Or.inr (Or.inr hX), hx⟩
    · rintro ⟨X, hX | hX | hX, hx⟩
      · exact ⟨X, Or.inl hX, hx⟩
      · subst hX
        rcases (hS x).2 hx with h | h
        · exact ⟨P, Or.inr (Or.inl rfl), h⟩
        · exact ⟨Q, Or.inr (Or.inr (Or.inl rfl)), h⟩
      · exact ⟨X, Or.inr (Or.inr (Or.inr hX)), hx⟩

theorem filter_cover (pred : T → Bool) (S : List T) (x : T) :
    (x ∈ S.filter pred ∨ x ∈ S.filter fun e => !pred e) ↔ x ∈ S := by
  rw [List.mem_filter, List.mem_filter]
  cases pred x <;> simp

theorem filter_disjoint (pred : T → Bool) (S : List T) :
    (S.filter pred).Disjoint (S.filter fun e => !pred e) := by
  intro x h1 h2
  rw [List.mem_filter] at h1 h2
  have := h2.2
  rw [h1.2] at this
  exact Bool.noConfusion this

theorem separate_none_of_not_token (R : PartitionRefiner T) (B : List (Nat × List T))
    (c : Nat) (pred : T → Bool) (h : Rep R B) (hc : c ∉ B.map Prod.fst) :
    R.separate c pred = none := by
  have hf : R.sets.find? (fun e => decide (e.1 = c)) = none := by
    rw [List.find?_eq_none]
    intro e he
    simp only [decide_eq_true_eq]
    intro hec
    apply hc
    rw [← map_fst_layout B 0, ← h.2.1, ← hec]
    exact List.mem_map_of_mem _ he
  unfold separate bounds_of
  rw [hf]
  rfl

/-- Every refiner reached from the constructor stores a list of blocks that partitions the
elements of the start sets. -/
theorem refined_rep [LinearOrder T] (startsets : List (List T)) (R : PartitionRefiner T)
    (hdis : startsets.Pairwise List.Disjoint) (h : Refined startsets R) :
    ∃ B, Rep R B ∧ Partitions startsets B := by
  induction h with
  | init =>
    obtain ⟨B, hrep, hsnd⟩ := ofSets_rep startsets
    refine ⟨B, hrep, ?_, fun x => ?_⟩
    · rw [hsnd, List.pairwise_map]
      refine hdis.imp ?_
      intro a b hab x hx hy
      exact hab ((List.perm_insertionSort _ a).mem_iff.1 hx)
        ((List.perm_insertionSort _ b).mem_iff.1 hy)
    · rw [hsnd]
      constructor
      · rintro ⟨S, hS, hx⟩
        obtain ⟨s, hs, rfl⟩ := List.mem_map.1 hS
        exact ⟨s, hs, (List.perm_insertionSort _ s).mem_iff.1 hx⟩
      · rintro ⟨s, hs, hx⟩
        exact ⟨_, List.mem_map_of_mem _ hs, (List.perm_insertionSort _ s).mem_iff.2 hx⟩
  | separate R R1 c pred res _ hsep ih =>
    obtain ⟨B, hrep, hpart⟩ := ih
    by_cases hc : c ∈ B.map Prod.fst
    · obtain ⟨b, hb, hbc⟩ := List.mem_map.1 hc
      obtain ⟨B1, B2, hB⟩ := List.append_of_mem hb
      obtain ⟨c1, S⟩ := b
      have hc1 : c1 = c := hbc
      subst hc1
      subst hB
      obtain ⟨R2, res2, hsep2, hcase⟩ := separate_rep R B1 B2 c1 S pred hrep
      rw [hsep] at hsep2
      have e : R1 = R2 := congrArg Prod.fst (Option.some.inj hsep2)
      subst e
      have hsplit := partitions_split startsets B1 B2 c1 R.sym_sets.length S
        (S.filter pred) (S.filter fun e => !pred e) (filter_cover pred S)
        (filter_disjoint pred S) hpart
      rcases hcase with h1 | h1
      · exact ⟨_, h1, hsplit.1⟩
      · exact ⟨_, h1, hsplit.2⟩
    · rw [separate_none_of_not_token R B c pred hrep hc] at hsep
      exact Option.noConfusion hsep

theorem get_elements_of_mem [LinearOrder T] (R : PartitionRefiner T)
    (B : List (Nat × List T)) (d : Nat) (S : List T) (h : Rep R B) (hd : (d, S) ∈ B) :
    R.get_elements_of d = some (S.insertionSort (fun x y => x ≤ y)) := by
  obtain ⟨B1, B2, hB⟩ := List.append_of_mem hd
  subst hB
  exact get_elements_of_rep R B1 B2 d S h

theorem mem_sort_iff [LinearOrder T] (S : List T) (x : T) :
    x ∈ S.insertionSort (fun x y => x ≤ y) ↔ x ∈ S :=
  (List.perm_insertionSort _ S).mem_iff

/-- C33: for a refiner built from pairwise disjoint start sets by the constructor and any
sequence of `separate` calls, the sets returned by `get_refined_sets` are pairwise disjoint,
their union is the union of the start sets, `get_set_ids` has exactly `num_sets()` entries,
and every call `separate(c, pred)` on a token `c` completes and leaves `get_elements_of(d)`
unchanged for every token `d` other than `c` that existed before the call. -/
theorem separate_preserves_partition [LinearOrder T] (startsets : List (List T))
    (R : PartitionRefiner T) (hdis : startsets.Pairwise List.Disjoint)
    (h : Refined startsets R) :
    R.get_refined_sets.Pairwise List.Disjoint ∧
    (∀ x, (∃ S ∈ R.get_refined_sets, x ∈ S) ↔ ∃ s ∈ startsets, x ∈ s) ∧
    R.get_set_ids.length = R.num_sets ∧
    ∀ (c : Nat) (pred : T → Bool), c ∈ R.get_set_ids →
      ∃ R1 res, R.separate c pred = some (R1, res) ∧
        ∀ d, d ∈ R.get_set_ids → d ≠ c →
          ∃ els, R.get_elements_of d = some els ∧ R1.get_elements_of d = some els := by
  obtain ⟨B, hrep, hpd, hun⟩ := refined_rep startsets R hdis h
  have hsets := get_refined_sets_rep R B hrep
  refine ⟨?_, fun x => ?_, ?_, ?_⟩
  · rw [hsets, List.pairwise_map]
    refine hpd.imp ?_
    intro a b hab x hx hy
    exact hab ((mem_sort_iff a x).1 hx) ((mem_sort_iff b x).1 hy)
  · rw [hsets, ← hun x]
    constructor
    · rintro ⟨S, hS, hx⟩
      obtain ⟨S0, hS0, rfl⟩ := List.mem_map.1 hS
      exact ⟨S0, hS0, (mem_sort_iff S0 x).1 hx⟩
    · rintro ⟨S, hS, hx⟩
      exact ⟨_, List.mem_map_of_mem _ hS, (mem_sort_iff S x).2 hx⟩
  · unfold get_set_ids num_sets
    rw [hrep.2.2.1, hrep.2.1, length_layout]
  · intro c pred hc
    have hcB : c ∈ B.map Prod.fst := (hrep.2.2.2.1 c).1 hc
    obtain ⟨b, hb, hbc⟩ := List.mem_map.1 hcB
    obtain ⟨B1, B2, hB⟩ := List.append_of_mem hb
    obtain ⟨c1, S⟩ := b
    have hc1 : c1 = c := hbc
    subst hc1
    subst hB
    obtain ⟨R1, res, hsep, hcase⟩ := separate_rep R B1 B2 c1 S pred hrep
    refine ⟨R1, res, hsep, fun d hd hne => ?_⟩
    have hdB : d ∈ (B1 ++ (c1, S) :: B2).map Prod.fst := (hrep.2.2.2.1 d).1 hd
    obtain ⟨bd, hbd, hbdd⟩ := List.mem_map.1 hdB
    obtain ⟨d1, Sd⟩ := bd
    have hd1 : d1 = d := hbdd
    subst hd1
    refine ⟨_, get_elements_of_mem R _ d1 Sd hrep hbd, ?_⟩
    have hmem : (d1, Sd) ∈ B1 ∨ (d1, Sd) ∈ B2 := by
      rcases List.mem_append.1 hbd with h1 | h1
      · exact Or.inl h1
      · rcases List.mem_cons.1 h1 with h2 | h2
        · exact absurd (congrArg Prod.fst h2) hne
        · exact Or.inr h2
    rcases hcase with h1 | h1
    · apply get_elements_of_mem R1 _ d1 Sd h1
      rcases hmem with h2 | h2
      · exact List.mem_append_left _ h2
      · exact List.mem_append_right _ (List.mem_cons_of_mem _ h2)
    · apply get_elements_of_mem R1 _ d1 Sd h1
      rcases hmem with h2 | h2
      · exact List.mem_append_left _ h2
      · exact List.mem_append_right _ (List.mem_cons_of_mem _ (List.mem_cons_of_mem _ h2))

/-- Witness of C33 on the refiner over {5, 2, 8} and {4} after the even elements of the first
set have been separated: its sets are {2, 8}, {5} and {4}. -/
theorem separate_preserves_partition_witness :
    ([[5, 2, 8], [4]] : List (List Nat)).Pairwise List.Disjoint ∧
    Refined [[5, 2, 8], [4]] sample_split ∧
    sample_split.get_refined_sets = [[2, 8], [5], [4]] ∧
    sample_split.get_set_ids = [0, 1, 2] ∧
    (sample_split.get_refined_sets.Pairwise List.Disjoint ∧
    (∀ x, (∃ S ∈ sample_split.get_refined_sets, x ∈ S) ↔
      ∃ s ∈ ([[5, 2, 8], [4]] : List (List Nat)), x ∈ s) ∧
    sample_split.get_set_ids.length = sample_split.num_sets ∧
    ∀ (c : Nat) (pred : Nat → Bool), c ∈ sample_split.get_set_ids →
      ∃ R1 res, sample_split.separate c pred = some (R1, res) ∧
        ∀ d, d ∈ sample_split.get_set_ids → d ≠ c →
          ∃ els, sample_split.get_elements_of d = some els ∧
            R1.get_elements_of d = some els) :=
  have hd : ([[5, 2, 8], [4]] : List (List Nat)).Pairwise List.Disjoint := by
    simp [List.Disjoint]
  have hr : Refined [[5, 2, 8], [4]] sample_split :=
    Refined.separate sample_refiner sample_split 0 (fun x => x % 2 == 0) (some 2)
      Refined.init rfl
  ⟨hd, hr, by decide, by decide,
    separate_preserves_partition [[5, 2, 8], [4]] sample_split hd hr⟩

end PartitionRefiner

end Nbautils
